import Mathlib

/-! xvc: CTU rate-distortion search, transform selection and the decoder thread pool.

A shallow embedding of `src/xvc_enc_lib/cu_encoder.cc`,
`src/xvc_enc_lib/transform_encoder.cc`, `src/xvc_dec_lib/thread_decoder.cc` and
`src/xvc_common_lib/checksum.h`.

Conventions.
* Unsigned 64-bit values (`Cost`, `Distortion`) are natural numbers; every
  addition the source performs on them is written with an explicit `% 2 ^ 64`.
  `Bits` is unsigned 32-bit and its subtraction is written modulo `2 ^ 32`.
* Collaborators whose code is outside these files (the searches, the
  quantiser, the sample metric, the syntax writers, `Decode`, `Postprocess`)
  are functions handed to the model; every theorem quantifies over them.
* The product `bits * qp.GetLambda() + 0.5` is floating point; the model takes
  the value of `static_cast<Cost>(bits * qp.GetLambda() + 0.5)` from the
  function `Qp.lambda_bits`.
* The fields `evaluated`, `splits`, `exit`, `calls`, `trace`, `normal_trace`,
  `txskip_trace`, `stored`, `submitted`, `callbacks`, `decode_returned` and
  `postprocess_returned` are ghost records of what the code did, used to state
  the properties; they never influence control flow.
* An `assert` of the source that fails makes the function return `none`.
-/

namespace xvc

/-! ## Scalar types and constants (`common.h`) -/

/-- The type `Cost` of `common.h`: `typedef uint64_t Cost`. -/
abbrev Cost := Nat

/-- The type `Distortion` of `common.h`: `typedef uint64_t Distortion`. -/
abbrev Distortion := Nat

/-- The type `Bits` of `common.h`: `typedef uint32_t Bits`. -/
abbrev Bits := Nat

/-- The value `std::numeric_limits<Cost>::max()`. -/
def CostMax : Cost := 2 ^ 64 - 1

/-- The value `std::numeric_limits<Distortion>::max()`. -/
def DistortionMax : Distortion := 2 ^ 64 - 1

/-- Addition of two unsigned 64-bit values, as `dist + static_cast<Cost>(..)`. -/
def addU64 (a b : Nat) : Nat := (a + b) % 2 ^ 64

/-- Subtraction of two `Bits` values (unsigned 32-bit, wrapping). -/
def subBits (a b : Bits) : Bits := (((a : Int) - (b : Int)) % 2 ^ 32).toNat

/-- The enum `YuvComponent` of `common.h`. -/
inductive YuvComponent
  | kY
  | kU
  | kV
  deriving DecidableEq, Repr

/-- The constant `constants::kMinBinarySplitSize`. -/
def kMinBinarySplitSize : Int := 4

/-- The constant `constants::kTransformSelectMinSigCoeffs`. -/
def kTransformSelectMinSigCoeffs : Int := 3

/-- The constant `constants::kMaxTransformSelectIdx`. -/
def kMaxTransformSelectIdx : Int := 4

/-- The constant `constants::kNumInterMergeCandidates`. -/
def kNumInterMergeCandidates : Nat := 5

/-- The split types named in `cu_encoder.cc`. `kNone` is the unsplit (`Full`) candidate. -/
inductive SplitType
  | kNone
  | kHorizontal
  | kVertical
  | kQuad
  deriving DecidableEq, Repr

/-- The split restrictions named in `cu_encoder.cc`. -/
inductive SplitRestriction
  | kNone
  | kNoHorizontal
  | kNoVertical
  deriving DecidableEq, Repr

/-- The struct `CuEncoder::RdoCost`. -/
structure RdoCost where
  cost : Cost
  dist : Distortion
  deriving DecidableEq, Repr

/-- The constructor `explicit RdoCost(Cost c) : cost(c), dist(0)`. -/
def RdoCost.ofCost (c : Cost) : RdoCost := { cost := c, dist := 0 }

/-- The comparison `RdoCost::operator<`, on the cost alone. -/
def RdoCost.lt (a b : RdoCost) : Bool := decide (a.cost < b.cost)

/-- The part of `Qp` the search reads: `lambda_bits b` is the value of
`static_cast<Cost>(b * qp.GetLambda() + 0.5)`. -/
structure Qp where
  lambda_bits : Bits → Cost

/-- The observable state of an `RdoSyntaxWriter`: the bit counter and the
(abstract) entropy-coder state that is copied along with it. -/
structure RdoSyntaxWriter where
  num_written_bits : Bits
  coder_state : Nat
  deriving DecidableEq, Repr

/-- The flags of `Restrictions` read by the three source files. -/
structure Restrictions where
  disable_ext_transform_size_64 : Bool
  disable_inter_merge_mode : Bool
  disable_inter_merge_candidates : Bool
  disable_inter_skip_mode : Bool
  disable_ext2_inter_affine_merge : Bool
  disable_ext2_inter_affine : Bool
  disable_ext2_inter_local_illumination_comp : Bool
  disable_ext2_inter_adaptive_fullpel_mv : Bool
  disable_ext_transform_select : Bool
  disable_transform_skip : Bool
  disable_transform_cbf : Bool
  disable_ext_implicit_last_ctu : Bool
  deriving DecidableEq, Repr

/-- The fields of `EncoderSettings` read by the two encoder files. -/
structure EncoderSettings where
  adaptive_qp : Bool
  aqp_strength : Int
  fast_cu_split_based_on_full_cu : Bool
  fast_quad_split_based_on_binary_split : Int
  skip_mode_decision_for_identical_cu : Bool
  fast_mode_selection_for_cached_cu : Bool
  fast_merge_eval : Bool
  always_evaluate_intra_in_inter : Bool
  rdo_quant : Bool
  fast_inter_transform_dist : Bool
  bias_transform_select_cost : Bool
  fast_inter_root_cbf_zero_bits : Bool
  deriving DecidableEq, Repr

/-! ## `CuEncoder::CompressCu` (`cu_encoder.cc`, lines 123-273) -/

/-- The fields of the `CodingUnit` that `CompressCu` reads on entry. -/
structure CuGeometry where
  binary_depth : Int
  depth : Int
  is_binary_split_valid : Bool
  is_fully_within_picture : Bool
  width : Int
  height : Int
  deriving DecidableEq, Repr

/-- The queries on `pic_data_` made by `CompressCu` and its two predicates,
for the CU tree of the current CU. -/
structure PictureData where
  max_depth : Int
  max_binary_split_depth : Int
  is_intra_pic : Bool
  is_highest_layer : Bool
  deriving DecidableEq, Repr

/-- What a call `CompressNoSplit(best_cu, rdo_depth, split_restiction, &w)`
leaves behind: the returned distortion, the writer `w` after the call and the
skip flag of the CU that `*best_cu` then points to. -/
structure NoSplitOutcome where
  dist : Distortion
  writer : RdoSyntaxWriter
  skip_flag : Bool

/-- What lines 280-301 of `CompressSplitCu` leave behind (the split of the CU,
the recursive `CompressCu` calls on the non-null sub CUs and `WriteSplit`): the
local `dist`, the writer `*rdo_writer`, and for every slot of `cu->GetSubCu()`
either `none` (null pointer) or the child's `GetSplit()`. -/
structure SubCusOutcome where
  dist : Distortion
  writer : RdoSyntaxWriter
  sub_cu : List (Option SplitType)

/-- What a call `CompressSplitCu(*temp_cu, .., split_type, .., &w)` leaves
behind: the returned `RdoCost`, the writer `w` after the call, and the slots of
`(*temp_cu)->GetSubCu()`. -/
structure SplitOutcome where
  cost : RdoCost
  writer : RdoSyntaxWriter
  sub_cu : List (Option SplitType)

/-- Everything `CompressCu` reads besides its arguments. `GetCuAt_binary_depth`
gives, for the configuration currently held by `*best_cu`, the binary depths of
the CUs found by `pic_data_.GetCuAt` at the top-left and bottom-right sample of
the CU (the two lookups of `CanSkipQuadSplitForCu`). -/
structure CompressCuEnv where
  cu : CuGeometry
  pic_data : PictureData
  restrictions : Restrictions
  encoder_settings : EncoderSettings
  CompressNoSplit : RdoSyntaxWriter → NoSplitOutcome
  CompressSubCus : SplitType → RdoSyntaxWriter → SubCusOutcome
  GetCuAt_binary_depth : Option SplitType → Int × Int

/-- The method `CuEncoder::CompressSplitCu` (lines 275-305): the cost of the
split is `dist + static_cast<Cost>(bits * qp.GetLambda() + 0.5)` with `bits`
the bits written since `start_bits`. -/
def CompressSplitCu (env : CompressCuEnv) (qp : Qp) (split_type : SplitType)
    (rdo_writer : RdoSyntaxWriter) : SplitOutcome :=
  let start_bits := rdo_writer.num_written_bits
  let o := env.CompressSubCus split_type rdo_writer
  let bits := subBits o.writer.num_written_bits start_bits
  let cost := addU64 o.dist (qp.lambda_bits bits)
  { cost := { cost := cost, dist := o.dist }, writer := o.writer, sub_cu := o.sub_cu }

/-- The method `CuEncoder::CanSkipAnySplitForCu`. -/
def CanSkipAnySplitForCu (pic_data : PictureData) (skip_flag : Bool)
    (binary_depth : Int) : Bool :=
  let binary_depth_threshold : Int := if pic_data.is_highest_layer then 2 else 3
  skip_flag && decide (binary_depth ≥ binary_depth_threshold)

/-- The method `CuEncoder::CanSkipQuadSplitForCu`; the two binary depths are
those of `cu_top_left` and `cu_bottom_right`. -/
def CanSkipQuadSplitForCu (encoder_settings : EncoderSettings)
    (pic_data : PictureData) (top_left_binary_depth bottom_right_binary_depth : Int)
    (binary_depth_greater_than_one : Bool) : Bool :=
  if encoder_settings.fast_quad_split_based_on_binary_split == 1 &&
      binary_depth_greater_than_one then
    false
  else
    let best_is_no_split := top_left_binary_depth == 0
    let best_is_single_bt_split :=
      top_left_binary_depth == 1 && bottom_right_binary_depth == 1
    if pic_data.max_binary_split_depth == 1 then
      best_is_no_split && !pic_data.is_intra_pic
    else if pic_data.max_binary_split_depth == 2 then
      best_is_no_split && !pic_data.is_intra_pic
    else if pic_data.max_binary_split_depth == 3 then
      best_is_no_split || (best_is_single_bt_split && !pic_data.is_intra_pic)
    else if pic_data.max_binary_split_depth == 4 then
      best_is_no_split || best_is_single_bt_split
    else
      false

/-- The local `kMaxTrSize` of `CompressCu`. -/
def kMaxTrSize (restrictions : Restrictions) : Int :=
  if !restrictions.disable_ext_transform_size_64 then 64 else 32

/-- The local `do_quad_split` of `CompressCu`. -/
def do_quad_split (env : CompressCuEnv) : Bool :=
  env.cu.binary_depth == 0 && decide (env.cu.depth < env.pic_data.max_depth)

/-- The local `can_binary_split` of `CompressCu`. -/
def can_binary_split (env : CompressCuEnv) : Bool :=
  env.cu.is_binary_split_valid && env.cu.is_fully_within_picture &&
  decide (env.cu.width ≤ kMaxTrSize env.restrictions) &&
  decide (env.cu.height ≤ kMaxTrSize env.restrictions)

/-- The local `do_hor_split` of `CompressCu`. -/
def do_hor_split (env : CompressCuEnv) (split_restiction : SplitRestriction) : Bool :=
  can_binary_split env && (split_restiction != SplitRestriction.kNoHorizontal) &&
  decide (env.cu.height > kMinBinarySplitSize)

/-- The local `do_ver_split` of `CompressCu`. -/
def do_ver_split (env : CompressCuEnv) (split_restiction : SplitRestriction) : Bool :=
  can_binary_split env && (split_restiction != SplitRestriction.kNoVertical) &&
  decide (env.cu.width > kMinBinarySplitSize)

/-- The local `do_full` of `CompressCu`. -/
def do_full (env : CompressCuEnv) : Bool :=
  env.cu.is_fully_within_picture &&
  decide (env.cu.width ≤ kMaxTrSize env.restrictions) &&
  decide (env.cu.height ≤ kMaxTrSize env.restrictions)

/-- The local `do_split_any` of `CompressCu`. -/
def do_split_any (env : CompressCuEnv) (split_restiction : SplitRestriction) : Bool :=
  do_quad_split env || do_hor_split env split_restiction ||
  do_ver_split env split_restiction

/-- The `return` statement through which `CompressCu` leaves: line 151
(`no_split`), line 180 (`full_skip`), line 202 (`horizontal`), line 233
(`vertical`), line 250 (`quad_skip`), line 263 (`quad`), line 272 (`last`). -/
inductive ExitPoint
  | no_split
  | full_skip
  | horizontal
  | vertical
  | quad_skip
  | quad
  | last
  deriving DecidableEq, Repr

/-- Ghost record of one split evaluation of `CompressCu`. The fields name
configurations as in `CompressCuVars`: `incumbent_*` is what the CU `*best_cu`
points to, the footprint of the CU in `rec_pic_` and the marks of `pic_data_`
held when the evaluation started; `saved_*` is what `*best_state` held then;
`split_rec` is what the footprint holds right after `CompressSplitCu`;
`final_*` is what the three hold at the end of the `if`/`else` that follows.
`split_cost` and `best_cost` are the two sides of the test `split_cost.cost <
best_cost.cost`, `won` is its value. -/
structure SplitRecord where
  split_type : SplitType
  split_cost : Cost
  best_cost : Cost
  won : Bool
  incumbent_cu : Option SplitType
  incumbent_rec : Option SplitType
  incumbent_marked : Option SplitType
  saved_cu : Option SplitType
  saved_rec : Option SplitType
  split_rec : Option SplitType
  final_cu : Option SplitType
  final_rec : Option SplitType
  final_marked : Option SplitType
  deriving DecidableEq, Repr

/-- The local variables of `CompressCu` after line 157, with the state they
act on. The `Option SplitType` fields name the configuration a CU object, a
snapshot or a region holds: `some t` for the candidate of split type `t`
evaluated in this call, `none` for content that no evaluation of this call
produced (two such contents need not be equal). `best_cu` and `temp_cu` are
the CUs `*best_cu` and `*temp_cu` point to; `best_state` and `best_state_rec`
are the CU payload and the reconstructed samples held by `*best_state`
(`SaveStateTo(best_state, rec_pic_)` copies both, `LoadStateFrom(*best_state,
&rec_pic_)` writes both back); `rec_pic` is the footprint of the CU in
`rec_pic_`; `marked` is the configuration whose CUs `pic_data_` marks as used
in the footprint. `evaluated` is the ghost list of the candidates evaluated so
far with the `RdoCost` each was given, `splits` the ghost list of the split
evaluations. -/
structure CompressCuVars where
  best_cost : RdoCost
  best_writer : RdoSyntaxWriter
  best_cu : Option SplitType
  temp_cu : Option SplitType
  best_state : Option SplitType
  best_state_rec : Option SplitType
  rec_pic : Option SplitType
  marked : Option SplitType
  best_binary_depth_greater_than_one : Bool
  hor_cost : Cost
  evaluated : List (SplitType × RdoCost)
  splits : List SplitRecord

/-- What `CompressCu` leaves behind: the returned distortion, `*writer`, the
configuration held by the CU `*best_cu` points to, by the footprint of the CU
in `rec_pic_` and by the marks of `pic_data_`, the ghost lists, and the
`return` statement taken. -/
structure CompressCuResult where
  dist : Distortion
  writer : RdoSyntaxWriter
  best_cu : Option SplitType
  rec_pic : Option SplitType
  marked : Option SplitType
  evaluated : List (SplitType × RdoCost)
  splits : List SplitRecord
  exit : ExitPoint

/-- The loop `for (auto &sub_cu : (*temp_cu)->GetSubCu()) flag |= sub_cu &&
sub_cu->GetSplit() != SplitType::kNone`, started from `flag`. -/
def subCuSplitLoop (flag : Bool) (sub_cu : List (Option SplitType)) : Bool :=
  sub_cu.foldl
    (fun acc s =>
      acc || (match s with
              | none => false
              | some t => t != SplitType.kNone))
    flag

/-- The statements `*writer = best_writer; return best_cost.dist;` at the
`return` statement `e`. -/
def returnBest (e : ExitPoint) (v : CompressCuVars) : CompressCuResult :=
  { dist := v.best_cost.dist, writer := v.best_writer, best_cu := v.best_cu,
    rec_pic := v.rec_pic, marked := v.marked, evaluated := v.evaluated,
    splits := v.splits, exit := e }

/-- The statements `*writer = splitcu_writer; return split_cost.dist;` at the
`return` statement `e`. -/
def returnSplit (e : ExitPoint) (o : SplitOutcome) (v : CompressCuVars) :
    CompressCuResult :=
  { dist := o.cost.dist, writer := o.writer, best_cu := v.best_cu,
    rec_pic := v.rec_pic, marked := v.marked, evaluated := v.evaluated,
    splits := v.splits, exit := e }

/-- Lines 153-157: the locals before the first evaluation. -/
def initVars (writer : RdoSyntaxWriter) : CompressCuVars :=
  { best_cost := RdoCost.ofCost CostMax, best_writer := writer, best_cu := none,
    temp_cu := none, best_state := none, best_state_rec := none, rec_pic := none,
    marked := none, best_binary_depth_greater_than_one := false, hor_cost := 0,
    evaluated := [], splits := [] }

/-- Lines 165-174: the evaluation without CU split, under `if (do_full)`.
`CompressNoSplit` reconstructs the unsplit CU and marks it with
`MarkUsedInPic` (line 394); `SaveStateTo` (line 173) then copies the CU and
its footprint into `*best_state`. -/
def evalFull (env : CompressCuEnv) (writer : RdoSyntaxWriter) (qp : Qp)
    (v : CompressCuVars) : CompressCuVars :=
  let start_bits := writer.num_written_bits
  let o := env.CompressNoSplit v.best_writer
  let full_bits := subBits o.writer.num_written_bits start_bits
  let best_cost : RdoCost :=
    { cost := addU64 o.dist (qp.lambda_bits full_bits), dist := o.dist }
  { v with
    best_cost := best_cost, best_writer := o.writer,
    best_cu := some SplitType.kNone, rec_pic := some SplitType.kNone,
    marked := some SplitType.kNone,
    best_state := some SplitType.kNone, best_state_rec := some SplitType.kNone,
    evaluated := v.evaluated ++ [(SplitType.kNone, best_cost)] }

/-- The effect of `CompressSplitCu(*temp_cu, .., t, ..)` on the state: the CU
`*temp_cu` points to holds the split `t`, whose sub CUs were reconstructed
into the footprint and marked (`ClearMarkCuInPic` at line 284, then
`MarkUsedInPic` in the `CompressNoSplit` of the leaves). -/
def afterSplitCu (t : SplitType) (v : CompressCuVars) : CompressCuVars :=
  { v with temp_cu := some t, rec_pic := some t, marked := some t }

/-- The statements `std::swap(*best_cu, *temp_cu); cu = *best_cu;`. -/
def swapBest (v : CompressCuVars) : CompressCuVars :=
  { v with best_cu := v.temp_cu, temp_cu := v.best_cu }

/-- The statement `cu->SaveStateTo(best_state, rec_pic_);` with `cu ==
*best_cu`. -/
def saveState (v : CompressCuVars) : CompressCuVars :=
  { v with best_state := v.best_cu, best_state_rec := v.rec_pic }

/-- The statements `cu->LoadStateFrom(*best_state, &rec_pic_);
pic_data_.MarkUsedInPic(cu);` with `cu == *best_cu`. -/
def restoreBest (v : CompressCuVars) : CompressCuVars :=
  { v with best_cu := v.best_state, rec_pic := v.best_state_rec, marked := v.best_state }

/-- The ghost record of a split evaluation: `v` are the locals when it
started, `v1` those right after `CompressSplitCu` returned `c`, `v2` those at
the end of the `if`/`else` that follows. -/
def splitRecord (t : SplitType) (c : RdoCost) (won : Bool) (v v1 v2 : CompressCuVars) :
    SplitRecord :=
  { split_type := t, split_cost := c.cost, best_cost := v.best_cost.cost,
    won := won, incumbent_cu := v.best_cu,
    incumbent_rec := v.rec_pic, incumbent_marked := v.marked,
    saved_cu := v.best_state, saved_rec := v.best_state_rec,
    split_rec := v1.rec_pic, final_cu := v2.best_cu, final_rec := v2.rec_pic,
    final_marked := v2.marked }

/-- Appends the ghost record `splitRecord t c won v v1 v2` to the list carried
by `v2`. -/
def logSplit (t : SplitType) (c : RdoCost) (won : Bool) (v v1 v2 : CompressCuVars) :
    CompressCuVars :=
  { v2 with splits := v2.splits ++ [splitRecord t c won v v1 v2] }

/-- Lines 186-212: the horizontal split, under `if (do_hor_split)`.
`Sum.inl` is a `return`, `Sum.inr` falls through to the next statement. -/
def evalHorizontal (env : CompressCuEnv) (writer : RdoSyntaxWriter) (qp : Qp)
    (more_splits : Bool) (v : CompressCuVars) : CompressCuResult ⊕ CompressCuVars :=
  let o := CompressSplitCu env qp SplitType.kHorizontal writer
  let split_cost := o.cost
  let v1 : CompressCuVars :=
    { afterSplitCu SplitType.kHorizontal v with
      hor_cost := split_cost.cost,
      best_binary_depth_greater_than_one :=
        subCuSplitLoop v.best_binary_depth_greater_than_one o.sub_cu,
      evaluated := v.evaluated ++ [(SplitType.kHorizontal, split_cost)] }
  if split_cost.cost < v1.best_cost.cost then
    let v2 := swapBest v1
    if !more_splits then
      Sum.inl (returnSplit ExitPoint.horizontal o
        (logSplit SplitType.kHorizontal split_cost true v v1 v2))
    else
      let v3 : CompressCuVars :=
        saveState { v2 with best_cost := split_cost, best_writer := o.writer }
      Sum.inr (logSplit SplitType.kHorizontal split_cost true v v1 v3)
  else
    Sum.inr (logSplit SplitType.kHorizontal split_cost false v v1 (restoreBest v1))

/-- Lines 215-243: the vertical split, under `if (do_ver_split)`. -/
def evalVertical (env : CompressCuEnv) (writer : RdoSyntaxWriter) (qp : Qp)
    (more_splits : Bool) (v : CompressCuVars) : CompressCuResult ⊕ CompressCuVars :=
  let o := CompressSplitCu env qp SplitType.kVertical writer
  let split_cost := o.cost
  let v1 : CompressCuVars :=
    { afterSplitCu SplitType.kVertical v with
      best_binary_depth_greater_than_one :=
        if split_cost.cost < v.hor_cost then subCuSplitLoop false o.sub_cu
        else v.best_binary_depth_greater_than_one,
      evaluated := v.evaluated ++ [(SplitType.kVertical, split_cost)] }
  if split_cost.cost < v1.best_cost.cost then
    let v2 := swapBest v1
    if !more_splits then
      Sum.inl (returnSplit ExitPoint.vertical o
        (logSplit SplitType.kVertical split_cost true v v1 v2))
    else
      let v3 : CompressCuVars :=
        saveState { v2 with best_cost := split_cost, best_writer := o.writer }
      Sum.inr (logSplit SplitType.kVertical split_cost true v v1 v3)
  else
    Sum.inr (logSplit SplitType.kVertical split_cost false v v1 (restoreBest v1))

/-- Lines 254-272: the quad split, under `if (do_quad_split)`, followed by the
final `*writer = best_writer; return best_cost.dist;`. -/
def evalQuad (env : CompressCuEnv) (writer : RdoSyntaxWriter) (qp : Qp)
    (v : CompressCuVars) : CompressCuResult :=
  let o := CompressSplitCu env qp SplitType.kQuad writer
  let split_cost := o.cost
  let v1 : CompressCuVars :=
    { afterSplitCu SplitType.kQuad v with
      evaluated := v.evaluated ++ [(SplitType.kQuad, split_cost)] }
  if split_cost.cost < v1.best_cost.cost then
    returnSplit ExitPoint.quad o (logSplit SplitType.kQuad split_cost true v v1 (swapBest v1))
  else
    returnBest ExitPoint.last (logSplit SplitType.kQuad split_cost false v v1 (restoreBest v1))

/-- The condition of the `if` at lines 177-178, the skip of every split after
the evaluation without split. -/
def canSkipAnySplit (env : CompressCuEnv) (writer : RdoSyntaxWriter) : Bool :=
  env.encoder_settings.fast_cu_split_based_on_full_cu && do_full env &&
    CanSkipAnySplitForCu env.pic_data (env.CompressNoSplit writer).skip_flag
      env.cu.binary_depth

/-- The condition of the `if` at lines 246-248, the skip of the quad split,
in the locals `v` with which line 246 is reached. -/
def canSkipQuadSplit (env : CompressCuEnv) (split_restiction : SplitRestriction)
    (v : CompressCuVars) : Bool :=
  decide (env.encoder_settings.fast_quad_split_based_on_binary_split ≠ 0) &&
    do_quad_split env && do_hor_split env split_restiction &&
    do_ver_split env split_restiction &&
    CanSkipQuadSplitForCu env.encoder_settings env.pic_data
      (env.GetCuAt_binary_depth v.best_cu).1
      (env.GetCuAt_binary_depth v.best_cu).2
      v.best_binary_depth_greater_than_one

/-- Lines 164-243 of `CompressCu`: the evaluation without split and the two
binary splits. `Sum.inl` is a `return` taken in these lines, `Sum.inr` gives
the locals with which line 246 is reached. -/
def compressCuBinary (env : CompressCuEnv) (split_restiction : SplitRestriction)
    (writer : RdoSyntaxWriter) (qp : Qp) : CompressCuResult ⊕ CompressCuVars :=
  let dq := do_quad_split env
  let dh := do_hor_split env split_restiction
  let dv := do_ver_split env split_restiction
  let v0 := initVars writer
  let v1 := if do_full env then evalFull env writer qp v0 else v0
  if canSkipAnySplit env writer then
    Sum.inl (returnBest ExitPoint.full_skip v1)
  else
    match (if dh then evalHorizontal env writer qp (dq || dv) v1 else Sum.inr v1) with
    | Sum.inl r => Sum.inl r
    | Sum.inr v2 => if dv then evalVertical env writer qp dq v2 else Sum.inr v2

/-- Lines 245-272 of `CompressCu`, from the locals `v` with which line 246 is
reached. -/
def compressCuQuad (env : CompressCuEnv) (split_restiction : SplitRestriction)
    (writer : RdoSyntaxWriter) (qp : Qp) (v : CompressCuVars) : CompressCuResult :=
  if canSkipQuadSplit env split_restiction v then
    returnBest ExitPoint.quad_skip v
  else if do_quad_split env then evalQuad env writer qp v
  else returnBest ExitPoint.last v

/-- Lines 164-273 of `CompressCu`: the search once `do_split_any` holds. -/
def compressCuSearch (env : CompressCuEnv) (split_restiction : SplitRestriction)
    (writer : RdoSyntaxWriter) (qp : Qp) : CompressCuResult :=
  match compressCuBinary env split_restiction writer qp with
  | Sum.inl r => r
  | Sum.inr v => compressCuQuad env split_restiction writer qp v

/-- The method `CuEncoder::CompressCu`. `none` is the failed
`assert(do_full || do_split_any)`. When no split is eligible the result is that
of `CompressNoSplit` on the live writer, which reconstructs the unsplit CU and
marks it. -/
def CompressCu (env : CompressCuEnv) (split_restiction : SplitRestriction)
    (writer : RdoSyntaxWriter) (qp : Qp) : Option CompressCuResult :=
  if !(do_full env || do_split_any env split_restiction) then
    none
  else if !do_split_any env split_restiction then
    let o := env.CompressNoSplit writer
    some { dist := o.dist, writer := o.writer, best_cu := some SplitType.kNone,
           rec_pic := some SplitType.kNone, marked := some SplitType.kNone,
           evaluated := [], splits := [], exit := ExitPoint.no_split }
  else
    some (compressCuSearch env split_restiction writer qp)

/-! ### The sub CUs of `CompressSplitCu` (`cu_encoder.cc`, lines 286-301) -/

/-- What the recursive call `CompressCu(&sub_cu, rdo_depth + 1,
sub_split_restriction, rdo_writer, qp)` of line 293, followed by line 296,
leaves behind: the returned distortion, `*rdo_writer`, the sub CU's
`GetSplit()` and the value of `sub_cu->DeriveSiblingSplitRestriction(split_type)`. -/
structure SubCuOutcome where
  dist : Distortion
  writer : RdoSyntaxWriter
  split : SplitType
  sibling_restriction : SplitRestriction
  deriving DecidableEq, Repr

/-- Everything lines 286-301 of `CompressSplitCu` read: the constant
`EncoderSettings::kEncoderStrictRdoBitCounting`, the call
`cu_writer_.WriteSplit(*cu, split_restriction, rdo_writer)` for the CU split by
`split_type`, for every slot of `cu->GetSubCu()` after `cu->Split(split_type)`
whether the pointer is non-null, and the recursive call on the sub CU in a
slot. -/
structure SplitCuEnv where
  kEncoderStrictRdoBitCounting : Bool
  WriteSplit : SplitType → SplitRestriction → RdoSyntaxWriter → RdoSyntaxWriter
  sub_cu : SplitType → List Bool
  CompressCu : SplitType → Nat → SplitRestriction → RdoSyntaxWriter → SubCuOutcome

/-- Ghost record of one recursive call of line 293: the slot of the sub CU,
the restriction and the writer state passed to it. -/
structure SubCuCall where
  slot : Nat
  sub_split_restriction : SplitRestriction
  rdo_writer : RdoSyntaxWriter
  deriving DecidableEq, Repr

/-- The locals of `CompressSplitCu` during the loop of lines 291-298, with
`sub_cu` the slots passed so far (`none` for a null pointer, else the sub
CU's `GetSplit()`) and the ghost list `calls` of the recursive calls made. -/
structure SubCuVars where
  dist : Distortion
  rdo_writer : RdoSyntaxWriter
  sub_split_restriction : SplitRestriction
  sub_cu : List (Option SplitType)
  calls : List SubCuCall
  deriving DecidableEq, Repr

/-- The body of the loop of lines 291-298 for the slot `slot.1`, whose pointer
is non-null when `slot.2` is true. -/
def subCuBody (CompressCu : Nat → SplitRestriction → RdoSyntaxWriter → SubCuOutcome)
    (v : SubCuVars) (slot : Nat × Bool) : SubCuVars :=
  if slot.2 then
    let o := CompressCu slot.1 v.sub_split_restriction v.rdo_writer
    { dist := addU64 v.dist o.dist, rdo_writer := o.writer,
      sub_split_restriction := o.sibling_restriction,
      sub_cu := v.sub_cu ++ [some o.split],
      calls := v.calls ++
        [{ slot := slot.1, sub_split_restriction := v.sub_split_restriction,
           rdo_writer := v.rdo_writer }] }
  else
    { v with sub_cu := v.sub_cu ++ [none] }

/-- Lines 285-290 of `CompressSplitCu`: the locals before the loop. -/
def subCuInit (env : SplitCuEnv) (split_restriction : SplitRestriction)
    (split_type : SplitType) (rdo_writer : RdoSyntaxWriter) : SubCuVars :=
  { dist := 0,
    rdo_writer :=
      if env.kEncoderStrictRdoBitCounting then
        env.WriteSplit split_type split_restriction rdo_writer
      else rdo_writer,
    sub_split_restriction := SplitRestriction.kNone,
    sub_cu := [], calls := [] }

/-- Lines 285-298 of `CompressSplitCu`: the locals after the loop over
`cu->GetSubCu()`. -/
def subCuLoop (env : SplitCuEnv) (split_restriction : SplitRestriction)
    (split_type : SplitType) (rdo_writer : RdoSyntaxWriter) : SubCuVars :=
  (env.sub_cu split_type).enum.foldl (subCuBody (env.CompressCu split_type))
    (subCuInit env split_restriction split_type rdo_writer)

/-- Lines 285-301 of `CompressSplitCu`: the loop followed by `WriteSplit` when
the bit counting is not strict. -/
def compressSubCus (env : SplitCuEnv) (split_restriction : SplitRestriction)
    (split_type : SplitType) (rdo_writer : RdoSyntaxWriter) : SubCusOutcome :=
  let v := subCuLoop env split_restriction split_type rdo_writer
  { dist := v.dist,
    writer :=
      if !env.kEncoderStrictRdoBitCounting then
        env.WriteSplit split_type split_restriction v.rdo_writer
      else v.rdo_writer,
    sub_cu := v.sub_cu }

/-- The method `CuEncoder::CompressSplitCu` with the loop over the sub CUs
written out: `CompressSplitCu` in which lines 285-301 are `compressSubCus`. -/
def CompressSplitCu_sub_cus (cu : CompressCuEnv) (env : SplitCuEnv) (qp : Qp)
    (split_type : SplitType) (split_restriction : SplitRestriction)
    (rdo_writer : RdoSyntaxWriter) : SplitOutcome :=
  CompressSplitCu { cu with CompressSubCus := compressSubCus env split_restriction } qp
    split_type rdo_writer

/-! ### `CompressCu` over the CU tree -/

/-- The method `CuEncoder::CompressCu` in a build with `NDEBUG`, in which the
`assert` of line 148 is compiled out: a call in which neither the unsplit
candidate nor a split is eligible returns through line 151. -/
def CompressCu_ndebug (env : CompressCuEnv) (split_restiction : SplitRestriction)
    (writer : RdoSyntaxWriter) (qp : Qp) : CompressCuResult :=
  if !do_split_any env split_restiction then
    let o := env.CompressNoSplit writer
    { dist := o.dist, writer := o.writer, best_cu := some SplitType.kNone,
      rec_pic := some SplitType.kNone, marked := some SplitType.kNone,
      evaluated := [], splits := [], exit := ExitPoint.no_split }
  else
    compressCuSearch env split_restiction writer qp

/-- What the search reads of one CU of the tree besides its sub CUs: the data
of `CompressCuEnv` (the field `CompressSubCus` is not read, the sub CUs are
compressed by the recursion), the number of slots of `GetSubCu()`,
`GetSplit()` on entry, the call
`cu_writer_.WriteSplit(*cu, split_restriction, rdo_writer)` for the CU split by
the given type, and `DeriveSiblingSplitRestriction(parent_split)` on the CU as
the call of `CompressCu` with the given result left it. -/
structure CuNode where
  env : CompressCuEnv
  sub_cu_slots : Nat
  GetSplit : SplitType
  WriteSplit : SplitType → SplitRestriction → RdoSyntaxWriter → RdoSyntaxWriter
  DeriveSiblingSplitRestriction : SplitType → CompressCuResult → SplitRestriction

/-- A CU with the CUs below it: `GetSubCu t i` is the pointer in slot `i` of
`GetSubCu()` after `Split(t)`, `null` a null pointer. -/
inductive CuTree where
  | null : CuTree
  | cu (node : CuNode) (GetSubCu : SplitType → Nat → CuTree) : CuTree

/-- The test `if (sub_cu)` of line 292. -/
def CuTree.isNonNull : CuTree → Bool
  | CuTree.null => false
  | CuTree.cu _ _ => true

/-- What lines 293-296 read back from the sub CU `sub_cu` after the recursive
call returned `r`: the distortion, the writer, `GetSplit()` (the split of the
configuration the call committed, the split on entry when it committed none)
and `DeriveSiblingSplitRestriction(split_type)`. -/
def subCuOutcome (split_type : SplitType) (sub_cu : CuTree) (r : CompressCuResult) :
    SubCuOutcome :=
  match sub_cu with
  | CuTree.null =>
    { dist := r.dist, writer := r.writer, split := SplitType.kNone,
      sibling_restriction := SplitRestriction.kNone }
  | CuTree.cu node _ =>
    { dist := r.dist, writer := r.writer,
      split := (match r.best_cu with
                | some t => t
                | none => node.GetSplit),
      sibling_restriction := node.DeriveSiblingSplitRestriction split_type r }

/-- The data of `CompressSplitCu` for a CU of the tree: the slots of
`GetSubCu()`, with `sub_call t i r w` the result of the recursive
`CompressCu` call on the sub CU in slot `i`. -/
def treeSplitCuEnv (strict : Bool) (node : CuNode) (GetSubCu : SplitType → Nat → CuTree)
    (sub_call : SplitType → Nat → SplitRestriction → RdoSyntaxWriter → CompressCuResult) :
    SplitCuEnv :=
  { kEncoderStrictRdoBitCounting := strict,
    WriteSplit := node.WriteSplit,
    sub_cu := fun t => (List.range node.sub_cu_slots).map (fun i => (GetSubCu t i).isNonNull),
    CompressCu := fun t i r w => subCuOutcome t (GetSubCu t i) (sub_call t i r w) }

/-- The data of `CompressCu` for a CU of the tree called with
`split_restiction`: lines 285-301 of `CompressSplitCu` are the loop over the
sub CUs. -/
def treeEnv (strict : Bool) (node : CuNode) (GetSubCu : SplitType → Nat → CuTree)
    (sub_call : SplitType → Nat → SplitRestriction → RdoSyntaxWriter → CompressCuResult)
    (split_restiction : SplitRestriction) : CompressCuEnv :=
  { node.env with
    CompressSubCus :=
      compressSubCus (treeSplitCuEnv strict node GetSubCu sub_call) split_restiction }

/-- The method `CuEncoder::CompressCu` with its recursion through
`CompressSplitCu`, on the CU tree below a CU; `strict` is the constant
`EncoderSettings::kEncoderStrictRdoBitCounting`. The code never calls it on a
null pointer; the value given there is not used. -/
def CompressCuTree (strict : Bool) (qp : Qp) :
    CuTree → SplitRestriction → RdoSyntaxWriter → CompressCuResult
  | CuTree.null, _, writer =>
    { dist := 0, writer := writer, best_cu := none, rec_pic := none, marked := none,
      evaluated := [], splits := [], exit := ExitPoint.no_split }
  | CuTree.cu node GetSubCu, split_restiction, writer =>
    CompressCu_ndebug
      (treeEnv strict node GetSubCu
        (fun t i r w => CompressCuTree strict qp (GetSubCu t i) r w) split_restiction)
      split_restiction writer qp

/-! ## `CuEncoder::CompressInterPic` (`cu_encoder.cc`, lines 431-515) -/

/-- The values of `CuEncoder::RdMode` named in the `switch` of `CompressInter`. -/
inductive RdMode
  | kInterMe
  | kInterFullpel
  | kInterLic
  | kInterLicFullpel
  deriving DecidableEq, Repr

/-- The entries of the mode menu of `CompressInterPic`: the call that evaluates
the mode on the scratch CU. -/
inductive MenuMode
  | AffineMerge
  | Merge
  | Inter (rd_mode : RdMode)
  | Intra
  deriving DecidableEq, Repr

/-- The menu of `CompressInterPic` in the order of the source text. -/
def menuOrder : List MenuMode :=
  [MenuMode.AffineMerge, MenuMode.Merge, MenuMode.Inter RdMode.kInterMe,
   MenuMode.Inter RdMode.kInterLic, MenuMode.Inter RdMode.kInterFullpel,
   MenuMode.Inter RdMode.kInterLicFullpel, MenuMode.Intra]

/-- The struct `CuCache::Result` as `CompressNoSplit` and `CompressInterPic`
read it; `cu` is `some d` when the lookup returned the donor CU `d`. -/
structure CuCacheResult where
  cu : Option Nat
  cacheable : Bool
  any_intra : Bool
  any_skip : Bool
  any_inter : Bool
  deriving DecidableEq, Repr

/-- The two CU objects `CompressInterPic` works on, named by the pointer that
referred to them on entry. -/
inductive CuObject
  | entry_best
  | entry_temp
  deriving DecidableEq, Repr

/-- What the search reads back from a CU object: the menu entry whose
decisions it holds (`none`: content from before the call) and `GetHasAnyCbf()`. -/
structure CuPayload where
  decisions : Option MenuMode
  has_any_cbf : Bool
  deriving DecidableEq, Repr

/-- What evaluating one mode on the scratch CU leaves behind: the returned
`RdoCost` and the scratch CU's `GetHasAnyCbf()`. -/
structure ModeOutcome where
  cost : RdoCost
  has_any_cbf : Bool
  deriving DecidableEq, Repr

/-- Everything `CompressInterPic` reads. The four functions stand for the calls
`CompressAffineMerge(cu, qp, writer, best_cu_cost)`, `CompressMerge(cu, qp,
writer, best_cu_cost, fast_merge_skip)`, `CompressInter(cu, qp, writer, rd_mode,
best_cu_cost)` and `CompressIntra(cu, qp, writer)`. -/
structure InterPicEnv where
  restrictions : Restrictions
  encoder_settings : EncoderSettings
  cache_result : CuCacheResult
  can_affine_merge : Bool
  use_local_illumination_compensation : Bool
  entry_best_payload : CuPayload
  entry_temp_payload : CuPayload
  CompressAffineMerge : Cost → ModeOutcome
  CompressMerge : Cost → Bool → ModeOutcome
  CompressInter : RdMode → Cost → ModeOutcome
  CompressIntra : ModeOutcome

/-- The locals of `CompressInterPic`: `best_cu` and `cu` say which object each
pointer refers to, `payload` what each object holds, `best_state` what the
snapshot `*best_state` holds (`none` before the first `SaveStateTo`); `trace`
is the ghost list of evaluated modes with the `RdoCost` returned for each. -/
structure InterPicVars where
  best_cost : RdoCost
  best_cu : CuObject
  cu : CuObject
  payload : CuObject → CuPayload
  best_state : Option CuPayload
  trace : List (MenuMode × RdoCost)

/-- Overwrite what one CU object holds. -/
def setPayload (payload : CuObject → CuPayload) (obj : CuObject) (p : CuPayload) :
    CuObject → CuPayload :=
  fun x => if x = obj then p else payload x

/-- One menu entry: the mode `m` has been evaluated on `*cu` with outcome `o`,
followed by the lambda `save_if_best_cost(cost)`. -/
def save_if_best_cost (m : MenuMode) (o : ModeOutcome) (v : InterPicVars) : InterPicVars :=
  let p : CuPayload := { decisions := some m, has_any_cbf := o.has_any_cbf }
  let v1 : InterPicVars :=
    { v with payload := setPayload v.payload v.cu p, trace := v.trace ++ [(m, o.cost)] }
  if RdoCost.lt o.cost v1.best_cost then
    { v1 with best_cost := o.cost, best_state := some (v1.payload v1.cu),
              best_cu := v1.cu, cu := v1.best_cu }
  else
    v1

/-- The local `fast_skip_inter` of `CompressInterPic`. -/
def fast_skip_inter (env : InterPicEnv) : Bool :=
  env.encoder_settings.fast_mode_selection_for_cached_cu &&
  (env.cache_result.any_intra || env.cache_result.any_skip) &&
  !env.restrictions.disable_inter_merge_mode

/-- The local `fast_skip_intra` of `CompressInterPic`. -/
def fast_skip_intra (env : InterPicEnv) : Bool :=
  env.encoder_settings.fast_mode_selection_for_cached_cu && env.cache_result.any_inter

/-- Lines 436-452: the locals before the first menu entry. -/
def interPicInit (env : InterPicEnv) : InterPicVars :=
  { best_cost := RdoCost.ofCost CostMax, best_cu := CuObject.entry_best,
    cu := CuObject.entry_temp,
    payload := fun x =>
      match x with
      | CuObject.entry_best => env.entry_best_payload
      | CuObject.entry_temp => env.entry_temp_payload,
    best_state := none, trace := [] }

/-- Lines 461-467: affine merge. -/
def menuAffineMerge (env : InterPicEnv) (v : InterPicVars) : InterPicVars :=
  if env.can_affine_merge && !env.restrictions.disable_ext2_inter_affine_merge &&
      !env.restrictions.disable_inter_merge_mode &&
      !env.restrictions.disable_ext2_inter_affine then
    save_if_best_cost MenuMode.AffineMerge (env.CompressAffineMerge v.best_cost.cost) v
  else v

/-- Lines 469-475: merge. -/
def menuMerge (env : InterPicEnv) (v : InterPicVars) : InterPicVars :=
  if !env.restrictions.disable_inter_merge_mode then
    let fast_merge_skip := env.encoder_settings.fast_merge_eval && env.cache_result.any_skip
    save_if_best_cost MenuMode.Merge (env.CompressMerge v.best_cost.cost fast_merge_skip) v
  else v

/-- Lines 477-481: regular inter motion estimation. -/
def menuInterMe (env : InterPicEnv) (v : InterPicVars) : InterPicVars :=
  if !fast_skip_inter env then
    save_if_best_cost (MenuMode.Inter RdMode.kInterMe)
      (env.CompressInter RdMode.kInterMe v.best_cost.cost) v
  else v

/-- Lines 483-488: inter with local illumination compensation. -/
def menuInterLic (env : InterPicEnv) (v : InterPicVars) : InterPicVars :=
  if !fast_skip_inter env && env.use_local_illumination_compensation &&
      !env.restrictions.disable_ext2_inter_local_illumination_comp then
    save_if_best_cost (MenuMode.Inter RdMode.kInterLic)
      (env.CompressInter RdMode.kInterLic v.best_cost.cost) v
  else v

/-- Lines 490-494: inter with full-pel motion vectors. -/
def menuInterFullpel (env : InterPicEnv) (v : InterPicVars) : InterPicVars :=
  if !env.restrictions.disable_ext2_inter_adaptive_fullpel_mv then
    save_if_best_cost (MenuMode.Inter RdMode.kInterFullpel)
      (env.CompressInter RdMode.kInterFullpel v.best_cost.cost) v
  else v

/-- Lines 496-502: inter with local illumination compensation and full-pel. -/
def menuInterLicFullpel (env : InterPicEnv) (v : InterPicVars) : InterPicVars :=
  if env.use_local_illumination_compensation &&
      !env.restrictions.disable_ext2_inter_local_illumination_comp &&
      !env.restrictions.disable_ext2_inter_adaptive_fullpel_mv then
    save_if_best_cost (MenuMode.Inter RdMode.kInterLicFullpel)
      (env.CompressInter RdMode.kInterLicFullpel v.best_cost.cost) v
  else v

/-- Lines 504-508: intra. -/
def menuIntra (env : InterPicEnv) (v : InterPicVars) : InterPicVars :=
  if (!fast_skip_intra env && (v.payload v.best_cu).has_any_cbf) ||
      env.encoder_settings.always_evaluate_intra_in_inter then
    save_if_best_cost MenuMode.Intra env.CompressIntra v
  else v

/-- Lines 436-508 of `CompressInterPic`: the whole menu. -/
def interPicSearch (env : InterPicEnv) : InterPicVars :=
  menuIntra env (menuInterLicFullpel env (menuInterFullpel env (menuInterLic env
    (menuInterMe env (menuMerge env (menuAffineMerge env (interPicInit env)))))))

/-- Lines 436-502 of `CompressInterPic`: the menu up to the `if` of the Intra
entry at line 504. -/
def interPicBeforeIntra (env : InterPicEnv) : InterPicVars :=
  menuInterLicFullpel env (menuInterFullpel env (menuInterLic env
    (menuInterMe env (menuMerge env (menuAffineMerge env (interPicInit env))))))

/-- What `CompressInterPic` leaves behind: the returned `RdoCost`, the objects
`*best_cu_ref` and `*temp_cu_ref` point to, what the objects hold, and the
ghost list of the evaluated modes. -/
structure InterPicResult where
  cost : RdoCost
  best_cu_ref : CuObject
  temp_cu_ref : CuObject
  payload : CuObject → CuPayload
  trace : List (MenuMode × RdoCost)

/-- The call `best_cu->LoadStateFrom(*best_state, &rec_pic_)`. -/
def loadBestState (v : InterPicVars) : CuObject → CuPayload :=
  match v.best_state with
  | some p => setPayload v.payload v.best_cu p
  | none => v.payload

/-- The method `CuEncoder::CompressInterPic`. `none` is the failed
`assert(best_cost.cost < std::numeric_limits<Cost>::max())`. -/
def CompressInterPic (env : InterPicEnv) : Option InterPicResult :=
  let v := interPicSearch env
  if v.best_cost.cost < CostMax then
    some { cost := v.best_cost, best_cu_ref := v.best_cu, temp_cu_ref := v.cu,
           payload := loadBestState v, trace := v.trace }
  else
    none

/-! ## The inter leaf candidates (`cu_encoder.cc`, lines 542-686) -/

/-- What a search call into `inter_search_` leaves behind: the returned
distortion, the `GetHasAnyCbf()` of the CU, and the number of bits the
components of the CU take when written (what the `rdo_writer` of
`GetCuCostWithoutSplit` counts for the CU as the call left it). -/
structure InterSearchOutcome where
  dist : Distortion
  has_any_cbf : Bool
  bits : Bits
  deriving DecidableEq, Repr

/-- Everything the three inter leaf evaluations read. The functions stand for
`inter_search_.CompressInter` under the search flags of an `RdMode` with the
given `best_cu_cost`, for `inter_search_.SearchMergeCandidates` (the entries of
`cand_lookup` it fills, as many as the count it returns), for
`inter_search_.CompressMergeCand` with `merge_idx`, `force_skip` and
`best_cu_cost`, and for `inter_search_.CompressAffineMerge` with `force_skip`
and `best_cu_cost`. -/
structure InterLeafEnv where
  restrictions : Restrictions
  encoder_settings : EncoderSettings
  qp : Qp
  inter_search_CompressInter : RdMode → Cost → InterSearchOutcome
  inter_search_SearchMergeCandidates : List Nat
  inter_search_CompressMergeCand : Nat → Bool → Cost → InterSearchOutcome
  inter_search_CompressAffineMerge : Bool → Cost → InterSearchOutcome

/-- The method `CuEncoder::GetCuCostWithoutSplit`: `Cost cost = ssd +
static_cast<Cost>(bits * qp.GetLambda() + 0.5)` in unsigned 64-bit arithmetic,
`bits` being the bits written for the components of the CU. -/
def GetCuCostWithoutSplit (qp : Qp) (bits : Bits) (ssd : Distortion) : RdoCost :=
  { cost := addU64 ssd (qp.lambda_bits bits), dist := ssd }

/-- The method `CuEncoder::CompressInter` (lines 570-576): the returned
`RdoCost` and the `GetHasAnyCbf()` of the CU. -/
def CompressInter (env : InterLeafEnv) (rd_mode : RdMode) (best_cu_cost : Cost) :
    ModeOutcome :=
  let o := env.inter_search_CompressInter rd_mode best_cu_cost
  if o.dist = DistortionMax then
    { cost := { cost := CostMax, dist := o.dist }, has_any_cbf := o.has_any_cbf }
  else
    { cost := GetCuCostWithoutSplit env.qp o.bits o.dist, has_any_cbf := o.has_any_cbf }

/-- Ghost record of one evaluation of a merge candidate in `CompressMerge`. -/
structure MergeEval where
  merge_idx : Nat
  force_skip : Bool
  dist : Distortion
  cost : RdoCost
  has_any_cbf : Bool
  deriving DecidableEq, Repr

/-- The locals of `CompressMerge` during its loops: `skip_evaluated` lists the
indices whose entry of the array is true, `best_has_any_cbf` is the
`GetHasAnyCbf()` of the state saved in `best_transform_state`, `trace` is the
ghost list of the evaluations. -/
structure MergeVars where
  skip_evaluated : List Nat
  best_cu_cost : Cost
  best_cost : RdoCost
  best_merge_idx : Int
  best_has_any_cbf : Bool
  trace : List MergeEval

/-- The inner loop of `CompressMerge` (lines 611-634) over the entries of
`cand_lookup` still to visit. -/
def mergeCandLoop (env : InterLeafEnv) (force_skip : Bool) :
    List Nat → MergeVars → MergeVars
  | [], v => v
  | merge_idx :: rest, v =>
    if v.skip_evaluated.contains merge_idx then
      mergeCandLoop env force_skip rest v
    else
      let o := env.inter_search_CompressMergeCand merge_idx force_skip v.best_cu_cost
      let cost := GetCuCostWithoutSplit env.qp o.bits o.dist
      let v1 : MergeVars :=
        { v with
          skip_evaluated :=
            if !o.has_any_cbf then merge_idx :: v.skip_evaluated else v.skip_evaluated,
          trace := v.trace ++
            [{ merge_idx := merge_idx, force_skip := force_skip, dist := o.dist,
               cost := cost, has_any_cbf := o.has_any_cbf }] }
      if cost.cost < v1.best_cost.cost then
        let v2 : MergeVars :=
          { v1 with
            best_cu_cost := min cost.cost v1.best_cu_cost, best_cost := cost,
            best_merge_idx := (merge_idx : Int), best_has_any_cbf := o.has_any_cbf }
        if !o.has_any_cbf && !force_skip then v2
        else mergeCandLoop env force_skip rest v2
      else
        mergeCandLoop env force_skip rest v1

/-- What `CompressMerge` leaves behind: the returned `RdoCost`, the merge index
set on the CU, its `GetHasAnyCbf()` and skip flag, and the ghost list of the
evaluations. -/
structure MergeResult where
  cost : RdoCost
  merge_idx : Int
  has_any_cbf : Bool
  skip_flag : Bool
  trace : List MergeEval
  deriving DecidableEq, Repr

/-- Lines 585-603 of `CompressMerge`: the entries `cand_lookup[0 ..
num_merge_cand - 1]`. -/
def mergeCandLookup (env : InterLeafEnv) (fast_merge_skip : Bool) : List Nat :=
  let num_merge_cand : Nat :=
    if env.restrictions.disable_inter_merge_candidates then 1 else kNumInterMergeCandidates
  if env.encoder_settings.fast_merge_eval && !fast_merge_skip &&
      decide (num_merge_cand > 1) then
    env.inter_search_SearchMergeCandidates
  else List.range num_merge_cand

/-- Lines 605-608 of `CompressMerge`: the locals before the loops. -/
def mergeInit (best_cu_cost : Cost) : MergeVars :=
  { skip_evaluated := [], best_cu_cost := best_cu_cost,
    best_cost := RdoCost.ofCost CostMax, best_merge_idx := -1,
    best_has_any_cbf := false, trace := [] }

/-- The values of `force_skip` in the outer loop of `CompressMerge` (lines
608-610). -/
def mergePasses (fast_merge_skip : Bool) : List Bool :=
  if fast_merge_skip then [true] else [false, true]

/-- Lines 583-635 of `CompressMerge`: the locals after the two loops. -/
def mergeSearch (env : InterLeafEnv) (best_cu_cost : Cost) (fast_merge_skip : Bool) :
    MergeVars :=
  (mergePasses fast_merge_skip).foldl
    (fun acc force_skip =>
      mergeCandLoop env force_skip (mergeCandLookup env fast_merge_skip) acc)
    (mergeInit best_cu_cost)

/-- The method `CuEncoder::CompressMerge`. `none` is the access
`merge_list[best_merge_idx]` of line 637 with `best_merge_idx == -1`, reached
when no evaluation had a cost below `Cost::MAX`. -/
def CompressMerge (env : InterLeafEnv) (best_cu_cost : Cost) (fast_merge_skip : Bool) :
    Option MergeResult :=
  let v := mergeSearch env best_cu_cost fast_merge_skip
  if v.best_merge_idx < 0 then none
  else
    some { cost := v.best_cost, merge_idx := v.best_merge_idx,
           has_any_cbf := v.best_has_any_cbf,
           skip_flag := !v.best_has_any_cbf && !env.restrictions.disable_inter_skip_mode,
           trace := v.trace }

/-- The method `CuEncoder::CompressAffineMerge`: the returned `RdoCost` and the
`GetHasAnyCbf()` of the CU. -/
def CompressAffineMerge (env : InterLeafEnv) (best_cu_cost : Cost) : ModeOutcome :=
  let o := env.inter_search_CompressAffineMerge false best_cu_cost
  let best_cost := GetCuCostWithoutSplit env.qp o.bits o.dist
  if o.has_any_cbf then
    let o_skip := env.inter_search_CompressAffineMerge true best_cu_cost
    let cost := GetCuCostWithoutSplit env.qp o_skip.bits o_skip.dist
    if RdoCost.lt cost best_cost then
      { cost := cost, has_any_cbf := o_skip.has_any_cbf }
    else
      { cost := best_cost, has_any_cbf := o.has_any_cbf }
  else
    { cost := best_cost, has_any_cbf := o.has_any_cbf }

/-! ## `CuEncoder::CalcDeltaQpFromVariance` and `CuEncoder::EncodeCtu`
(`cu_encoder.cc`, lines 84-121 and 308-363) -/

/-- Subtraction of two `uint64_t` values. -/
def subU64 (a b : Nat) : Nat := (a % 2 ^ 64 + 2 ^ 64 - b % 2 ^ 64) % 2 ^ 64

/-- Multiplication of two `uint64_t` values. -/
def mulU64 (a b : Nat) : Nat := (a * b) % 2 ^ 64

/-- Modelled from the spec: `utils.h` is not under `src/`; `util::Clip3(value,
min, max)` limits `value` to the range from `min` to `max`. -/
def Clip3 (value min_value max_value : Int) : Int :=
  if value < min_value then min_value
  else if value > max_value then max_value
  else value

/-- The lambda `calc_variance` of `CalcDeltaQpFromVariance`; `src k l` is the
sample the pointer refers to in row `k` and column `l` of the block. The `int`
product `(*src) * (*src)` is taken as the product of the sample values, which
it is as long as it fits an `int`. -/
def calc_variance (src : Nat → Nat → Nat) (block_size : Nat) : Nat :=
  let samples : List Nat :=
    (List.range block_size).flatMap
      (fun k => (List.range block_size).map (fun l => src k l))
  let sum := samples.foldl (fun a x => addU64 a x) 0
  let squares := samples.foldl (fun a x => addU64 a (x * x)) 0
  let num := samples.foldl (fun a _ => addU64 a 1) 0
  mulU64 256 (subU64 squares (mulU64 sum sum / num)) / num

/-- Everything `CalcDeltaQpFromVariance` reads: the position and the luma
height of the CU, the luma size of the picture, the bit depth and the luma
samples of `orig_pic_` by column and row. `dqp strength variance bd` is the
value of `static_cast<int>(dqp)` for the `double` computed at line 360 from
`aqp_strength`, `variance` and the bit depth. -/
structure AqpEnv where
  encoder_settings : EncoderSettings
  x : Int
  y : Int
  cu_height : Nat
  picture_width : Int
  picture_height : Int
  bitdepth : Int
  orig : Int → Int → Nat
  dqp : Int → Nat → Int → Int

/-- The locals of the inner loop of `CalcDeltaQpFromVariance` (lines 345-353):
the column of the sample `orig` points to, and the variances stored in `v` so
far, each with the ghost pair `(i, j)` of the sub-block it was computed for. -/
structure AqpRowVars where
  orig_column : Int
  stored : List ((Nat × Nat) × Nat)

/-- The body of the inner loop (lines 346-352) for the sub-block `j` of the
row `i` of sub-blocks. -/
def aqpInnerBody (env : AqpEnv) (i : Nat) (v : AqpRowVars) (j : Nat) : AqpRowVars :=
  if env.x + (j : Int) * 16 ≥ env.picture_width then v
  else
    let variance :=
      calc_variance
        (fun k l => env.orig (v.orig_column + (l : Int)) (env.y + (i : Int) * 16 + (k : Int)))
        16
    { orig_column := v.orig_column + 16, stored := v.stored ++ [((i, j), variance)] }

/-- The body of the outer loop (lines 340-354) for the row `i` of sub-blocks;
`w` is the local `w`. -/
def aqpOuterBody (env : AqpEnv) (w : Nat) (stored : List ((Nat × Nat) × Nat)) (i : Nat) :
    List ((Nat × Nat) × Nat) :=
  if env.y + (i : Int) * 16 ≥ env.picture_height then stored
  else
    ((List.range w).foldl (aqpInnerBody env i) { orig_column := env.x, stored := stored }).stored

/-- Lines 335-354: the variances stored in `v[0 .. blocks - 1]`, in the order
in which they are stored, each with the sub-block it was computed for. Both
`h` and `w` are `cu->GetHeight(luma) / kVarBlocksize`. -/
def aqpStored (env : AqpEnv) : List ((Nat × Nat) × Nat) :=
  let h := env.cu_height / 16
  let w := env.cu_height / 16
  (List.range h).foldl (aqpOuterBody env w) []

/-- The method `CuEncoder::CalcDeltaQpFromVariance`. `none` is the access
`v[blocks / kMeanDiv]` to an empty vector `v` (a CU lower than 16 samples). -/
def CalcDeltaQpFromVariance (env : AqpEnv) : Option Int :=
  let h := env.cu_height / 16
  let w := env.cu_height / 16
  let stored := (aqpStored env).map Prod.snd
  let blocks := stored.length
  let v := stored ++ List.replicate (h * w - blocks) (2 ^ 64 - 1)
  let sorted := v.insertionSort (fun a b => a ≤ b)
  match sorted[blocks / 2]? with
  | none => none
  | some m =>
    let variance := addU64 1 m
    some (Clip3 (env.dqp env.encoder_settings.aqp_strength variance env.bitdepth) (-3) 7)

/-- What lines 91-101 of `EncodeCtu` read besides the settings and the CTU:
the raw luma QP of the picture and whether there is a secondary CU tree. -/
structure EncodeCtuEnv where
  aqp : AqpEnv
  pic_qp_raw : Int
  has_secondary_cu_tree : Bool

/-- The QPs set by `EncodeCtu`: `ctu_qp` is the argument of `ctu->SetQp` at
line 96, with which `CompressCu` is then called; `ctu2_qp` is the argument of
`ctu2->SetQp` at line 101 when there is a secondary CU tree. -/
structure EncodeCtuQp where
  ctu_qp : Int
  ctu2_qp : Option Int
  deriving DecidableEq, Repr

/-- Lines 91-101 of `CuEncoder::EncodeCtu`: the QP given to the CTU of the
primary and of the secondary tree. -/
def EncodeCtu_qp (env : EncodeCtuEnv) : Option EncodeCtuQp :=
  let delta : Option Int :=
    if env.aqp.encoder_settings.adaptive_qp then CalcDeltaQpFromVariance env.aqp else some 0
  match delta with
  | none => none
  | some d =>
    let ctu_qp := env.pic_qp_raw + d
    some { ctu_qp := ctu_qp,
           ctu2_qp := if env.has_secondary_cu_tree then some ctu_qp else none }

/-! ## `TransformEncoder` (`transform_encoder.cc`) -/

/-- The prediction modes named in `cu_encoder.cc`. -/
inductive PredictionMode
  | kIntra
  | kInter
  deriving DecidableEq, Repr

/-- Modelled from the spec: `coding_unit.h` is not under `src/`. The fields of
a `CodingUnit` that the transform engine reads and writes (data model of the
spec: prediction mode, per-component CBF, transform-select index, per-component
transform-skip flag); `can_transform_skip` is the value of
`CanTransformSkip(comp)`. -/
structure TransformCu where
  pred_mode : PredictionMode
  transform_select_idx : Int
  cbf : YuvComponent → Bool
  transform_skip : YuvComponent → Bool
  can_transform_skip : YuvComponent → Bool

/-- Modelled from the spec: `utils.h` is not under `src/`; `util::IsLuma`. -/
def IsLuma (comp : YuvComponent) : Bool := comp == YuvComponent.kY

/-- Modelled from the spec: `CodingUnit::IsIntra`. -/
def TransformCu.IsIntra (cu : TransformCu) : Bool := cu.pred_mode == PredictionMode.kIntra

/-- Modelled from the spec: `CodingUnit::IsInter`. -/
def TransformCu.IsInter (cu : TransformCu) : Bool := cu.pred_mode == PredictionMode.kInter

/-- Modelled from the spec: `CodingUnit::GetTransformSelectIdx`. -/
def TransformCu.GetTransformSelectIdx (cu : TransformCu) : Int := cu.transform_select_idx

/-- Modelled from the spec: `CodingUnit::HasTransformSelectIdx`, an index is
set when it is one of `0 .. kMaxTransformSelectIdx - 1` and unset when `-1`. -/
def TransformCu.HasTransformSelectIdx (cu : TransformCu) : Bool :=
  decide (cu.transform_select_idx ≥ 0)

/-- Modelled from the spec: `CodingUnit::SetTransformFromSelectIdx`, which
records the transform-select index of a luma block (chroma uses only `-1`). -/
def TransformCu.SetTransformFromSelectIdx (cu : TransformCu) (comp : YuvComponent)
    (tx_select_idx : Int) : TransformCu :=
  if IsLuma comp then { cu with transform_select_idx := tx_select_idx } else cu

/-- Modelled from the spec: `CodingUnit::GetCbf`. -/
def TransformCu.GetCbf (cu : TransformCu) (comp : YuvComponent) : Bool := cu.cbf comp

/-- Modelled from the spec: `CodingUnit::SetCbf`. -/
def TransformCu.SetCbf (cu : TransformCu) (comp : YuvComponent) (cbf : Bool) : TransformCu :=
  { cu with cbf := fun c => if c = comp then cbf else cu.cbf c }

/-- Modelled from the spec: `CodingUnit::SetTransformSkip`. -/
def TransformCu.SetTransformSkip (cu : TransformCu) (comp : YuvComponent)
    (transform_skip : Bool) : TransformCu :=
  { cu with transform_skip := fun c => if c = comp then transform_skip else cu.transform_skip c }

/-- The collaborators of the transform engine. Each function is keyed by the
CU as it is on entry to a call of `TransformAndReconstruct`, the component and
the `skip_transform` argument of that call: `QuantRdo` and `QuantFast` give the
number of non-zero coefficients the quantiser returns in it, `CompareSample`
the value of `metric.CompareSample` on the reconstruction it produces,
`GetResidualDist` the value of `GetResidualDist` right after it, and the two
`bits` functions what the fresh `RdoSyntaxWriter` of `get_transform_cost`
counts after `WriteComponent` and `WriteResidualDataRdoCbf`. -/
structure TransformEnv where
  restrictions : Restrictions
  encoder_settings : EncoderSettings
  qp : Qp
  QuantRdo : TransformCu → YuvComponent → Bool → Int
  QuantFast : TransformCu → YuvComponent → Bool → Int
  CompareSample : TransformCu → YuvComponent → Bool → Distortion
  GetResidualDist : TransformCu → YuvComponent → Bool → Distortion
  WriteComponent_bits : TransformCu → YuvComponent → Bool → Bits
  WriteResidualDataRdoCbf_bits : TransformCu → YuvComponent → Bool → Bits

/-- The local `non_zero` of `TransformAndReconstruct` (lines 148-159). -/
def quantNonZero (env : TransformEnv) (cu : TransformCu) (comp : YuvComponent)
    (skip_transform : Bool) : Int :=
  if env.encoder_settings.rdo_quant then env.QuantRdo cu comp skip_transform
  else env.QuantFast cu comp skip_transform

/-- The method `TransformEncoder::TransformAndReconstruct`: the returned
distortion and the CU after the call. -/
def TransformAndReconstruct (env : TransformEnv) (cu : TransformCu) (comp : YuvComponent)
    (skip_transform : Bool) : Distortion × TransformCu :=
  let non_zero := quantNonZero env cu comp skip_transform
  if IsLuma comp && decide (cu.GetTransformSelectIdx > 0) && cu.IsIntra &&
      decide (non_zero < kTransformSelectMinSigCoeffs) then
    (DistortionMax, cu)
  else if IsLuma comp && cu.HasTransformSelectIdx && (cu.IsInter && non_zero == 0) then
    (DistortionMax, cu)
  else if skip_transform && non_zero == 0 then
    (DistortionMax, cu)
  else
    let cbf0 := non_zero != 0
    let cbf := if !cbf0 && env.restrictions.disable_transform_cbf then true else cbf0
    let cu1 := (cu.SetCbf comp cbf).SetTransformSkip comp skip_transform
    (env.CompareSample cu comp skip_transform, cu1)

/-- The lambda `get_transform_cost` of `CompressAndEvalTransform`, called
after `TransformAndReconstruct` ran on `cu_in` and left `cu_out`. -/
def get_transform_cost (env : TransformEnv) (comp : YuvComponent) (cu_in cu_out : TransformCu)
    (skip_transform : Bool) (dist : Distortion) : Cost :=
  if dist = DistortionMax then
    CostMax
  else
    let dist1 :=
      if env.encoder_settings.fast_inter_transform_dist && cu_out.IsInter &&
          cu_out.GetCbf comp then
        env.GetResidualDist cu_in comp skip_transform
      else dist
    let bits :=
      if cu_out.IsIntra && IsLuma comp then env.WriteComponent_bits cu_in comp skip_transform
      else env.WriteResidualDataRdoCbf_bits cu_in comp skip_transform
    addU64 dist1 (env.qp.lambda_bits bits)

/-- Ghost record of one candidate evaluation in `CompressAndEvalTransform`. -/
structure TransformEval where
  tx_select : Int
  skip_transform : Bool
  non_zero : Int
  dist : Distortion
  cost : Cost
  deriving DecidableEq, Repr

/-- The locals of `CompressAndEvalTransform` during the loop over the normal
transforms, with the ghost list of evaluations. -/
structure TransformVars where
  cu : TransformCu
  best_cost_normal : Cost
  best_txselect_normal : Int
  trace : List TransformEval

/-- The local `nbr_tx_select_normal` (lines 75-79). -/
def nbr_tx_select_normal (env : TransformEnv) (comp : YuvComponent) : Int :=
  if IsLuma comp && !env.restrictions.disable_ext_transform_select then
    kMaxTransformSelectIdx
  else 0

/-- The values taken by `tx_select` in `for (int tx_select = -1; tx_select <
nbr; tx_select++)`. -/
def txSelectRange (nbr : Int) : List Int :=
  (List.range (nbr + 1).toNat).map (fun i => (i : Int) - 1)

/-- One candidate evaluation of `CompressAndEvalTransform`, started on the CU
`cu`: `SetTransformFromSelectIdx(comp, tx_select)`, then
`TransformAndReconstruct(.., skip_transform, ..)`, then `get_transform_cost`.
The CU after the evaluation is `candidateCu`. -/
def candidateEval (env : TransformEnv) (comp : YuvComponent) (cu : TransformCu)
    (tx_select : Int) (skip_transform : Bool) : TransformEval :=
  let cu_in := cu.SetTransformFromSelectIdx comp tx_select
  let r := TransformAndReconstruct env cu_in comp skip_transform
  { tx_select := tx_select, skip_transform := skip_transform,
    non_zero := quantNonZero env cu_in comp skip_transform, dist := r.1,
    cost := get_transform_cost env comp cu_in r.2 skip_transform r.1 }

/-- The CU after the candidate evaluation `candidateEval`. -/
def candidateCu (env : TransformEnv) (comp : YuvComponent) (cu : TransformCu)
    (tx_select : Int) (skip_transform : Bool) : TransformCu :=
  (TransformAndReconstruct env (cu.SetTransformFromSelectIdx comp tx_select) comp
    skip_transform).2

/-- The body of the loop over the normal transforms (lines 85-92). -/
def normalBody (env : TransformEnv) (comp : YuvComponent) (v : TransformVars)
    (tx_select : Int) : TransformVars :=
  let e := candidateEval env comp v.cu tx_select false
  let cu_out := candidateCu env comp v.cu tx_select false
  if e.cost < v.best_cost_normal then
    { cu := cu_out, best_cost_normal := e.cost, best_txselect_normal := tx_select,
      trace := v.trace ++ [e] }
  else
    { v with cu := cu_out, trace := v.trace ++ [e] }

/-- Lines 82-93: the evaluation of the normal transforms. -/
def evalNormal (env : TransformEnv) (comp : YuvComponent) (cu : TransformCu) : TransformVars :=
  (txSelectRange (nbr_tx_select_normal env comp)).foldl (normalBody env comp)
    { cu := cu, best_cost_normal := CostMax, best_txselect_normal := -1, trace := [] }

/-- What `CompressAndEvalTransform` leaves behind: the returned distortion,
the CU, the candidate handed to the final `TransformAndReconstruct` call, and
the ghost lists of the evaluations of the normal transforms and of
transform-skip. -/
structure TransformResult where
  dist : Distortion
  cu : TransformCu
  committed_tx_select : Int
  committed_skip : Bool
  normal_trace : List TransformEval
  txskip_trace : List TransformEval

/-- Lines 96-106: the evaluation of transform skip. The result is the local
`best_cost_txskip`, the CU afterwards and the ghost list of the evaluation. -/
def evalTxSkip (env : TransformEnv) (comp : YuvComponent) (cu : TransformCu) :
    Cost × TransformCu × List TransformEval :=
  if cu.can_transform_skip comp && !env.restrictions.disable_transform_skip then
    let e := candidateEval env comp cu (-1) true
    (if e.cost < CostMax then e.cost else CostMax, candidateCu env comp cu (-1) true, [e])
  else (CostMax, cu, [])

/-- Lines 108-111: the condition `best_cost_txskip < best_cost_normal ||
bias_tskip` under which transform skip is committed. -/
def commitTxSkip (env : TransformEnv) (best_cost_txskip best_cost_normal : Cost)
    (best_txselect_normal : Int) : Bool :=
  let bias_tskip := decide (best_cost_txskip = best_cost_normal) &&
    env.encoder_settings.bias_transform_select_cost && decide (best_txselect_normal ≥ 0)
  decide (best_cost_txskip < best_cost_normal) || bias_tskip

/-- The method `TransformEncoder::CompressAndEvalTransform`. -/
def CompressAndEvalTransform (env : TransformEnv) (cu : TransformCu) (comp : YuvComponent) :
    TransformResult :=
  let v := evalNormal env comp cu
  let txskip := evalTxSkip env comp v.cu
  if commitTxSkip env txskip.1 v.best_cost_normal v.best_txselect_normal then
    let r := TransformAndReconstruct env (txskip.2.1.SetTransformFromSelectIdx comp (-1)) comp
      true
    { dist := r.1, cu := r.2, committed_tx_select := -1, committed_skip := true,
      normal_trace := v.trace, txskip_trace := txskip.2.2 }
  else
    let r := TransformAndReconstruct env
      (txskip.2.1.SetTransformFromSelectIdx comp v.best_txselect_normal) comp false
    { dist := r.1, cu := r.2, committed_tx_select := v.best_txselect_normal,
      committed_skip := false, normal_trace := v.trace, txskip_trace := txskip.2.2 }

/-- Modelled from the spec: `CodingUnit::GetTransformSkip`. -/
def TransformCu.GetTransformSkip (cu : TransformCu) (comp : YuvComponent) : Bool :=
  cu.transform_skip comp

/-- Modelled from the spec: `CodingUnit::ClearCbf`, which clears the CBF of the
component. -/
def TransformCu.ClearCbf (cu : TransformCu) (comp : YuvComponent) : TransformCu :=
  cu.SetCbf comp false

/-- The collaborators of `EvalCbfZero`: what the two fresh writers count after
`WriteResidualDataRdoCbf(*cu, comp, ..)` and after `WriteCbf(*cu, comp, false)`. -/
structure CbfZeroEnv where
  encoder_settings : EncoderSettings
  WriteResidualDataRdoCbf_bits : TransformCu → YuvComponent → Bits
  WriteCbf_bits : TransformCu → YuvComponent → Bool → Bits

/-- The method `TransformEncoder::EvalCbfZero`: the returned flag and the CU
after the call. -/
def EvalCbfZero (env : CbfZeroEnv) (cu : TransformCu) (qp : Qp) (comp : YuvComponent)
    (dist_non_zero dist_zero : Distortion) : Bool × TransformCu :=
  let non_zero_bits := env.WriteResidualDataRdoCbf_bits cu comp
  let bits_zero := env.WriteCbf_bits cu comp false
  let cost_non_zero := addU64 dist_non_zero (qp.lambda_bits non_zero_bits)
  let cost_zero := addU64 dist_zero (qp.lambda_bits bits_zero)
  let bias_cbf_zero := decide (cost_zero = cost_non_zero) &&
    env.encoder_settings.bias_transform_select_cost &&
    ((cu.HasTransformSelectIdx && IsLuma comp) || cu.GetTransformSkip comp)
  if decide (cost_zero < cost_non_zero) || bias_cbf_zero then
    (true, cu.ClearCbf comp)
  else
    (false, cu)

/-- Modelled from the spec: `sample_buffer.h` is not under `src/`.
`SampleBuffer::AddClip(width, height, pred, resi, min, max)` stores, sample by
sample, the sum of prediction and residual limited to the range from `min` to
`max`. -/
def AddClip (pred resi : List Int) (min_value max_value : Int) : List Int :=
  List.zipWith (fun p r => Clip3 (p + r) min_value max_value) pred resi

/-- Modelled from the spec: `SampleBuffer::CopyFrom(width, height, src)` copies
the samples of `src`. -/
def CopyFrom (src : List Int) : List Int := src

/-- The sample data of `TransformAndReconstruct`: the bit depth given to the
constructor, the samples of `GetPredBuffer(comp)` over the CU, and the content
of `temp_resi_` after `inv_quant_.Inverse` and the inverse transform (or
`TransformSkip`) of a call entered with the given CU, component and
`skip_transform`. -/
structure ReconEnv where
  transform : TransformEnv
  bitdepth : Nat
  pred_buffer : YuvComponent → List Int
  inverse_residual : TransformCu → YuvComponent → Bool → List Int

/-- The member `min_pel_`, initialised to `0` by the constructor. -/
def ReconEnv.min_pel_ (_env : ReconEnv) : Int := 0

/-- The member `max_pel_`, initialised to `(1 << bitdepth) - 1` by the
constructor. -/
def ReconEnv.max_pel_ (env : ReconEnv) : Int := (2 : Int) ^ env.bitdepth - 1

/-- What `TransformAndReconstruct` leaves behind when the samples are followed
too: the returned distortion, the CU, and the samples of `rec_pic` over the
CU in the component. -/
structure ReconResult where
  dist : Distortion
  cu : TransformCu
  reco : List Int

/-- The method `TransformEncoder::TransformAndReconstruct` with the samples
of `rec_pic` over the CU, `reco` on entry: lines 160-204. -/
def TransformAndReconstruct_reco (env : ReconEnv) (cu : TransformCu) (reco : List Int)
    (comp : YuvComponent) (skip_transform : Bool) : ReconResult :=
  let non_zero := quantNonZero env.transform cu comp skip_transform
  if IsLuma comp && decide (cu.GetTransformSelectIdx > 0) && cu.IsIntra &&
      decide (non_zero < kTransformSelectMinSigCoeffs) then
    { dist := DistortionMax, cu := cu, reco := reco }
  else if IsLuma comp && cu.HasTransformSelectIdx && (cu.IsInter && non_zero == 0) then
    { dist := DistortionMax, cu := cu, reco := reco }
  else if skip_transform && non_zero == 0 then
    { dist := DistortionMax, cu := cu, reco := reco }
  else
    let cbf0 := non_zero != 0
    let cbf := if !cbf0 && env.transform.restrictions.disable_transform_cbf then true else cbf0
    let cu1 := (cu.SetCbf comp cbf).SetTransformSkip comp skip_transform
    let reco1 :=
      if cbf then
        AddClip (env.pred_buffer comp) (env.inverse_residual cu comp skip_transform)
          env.min_pel_ env.max_pel_
      else CopyFrom (env.pred_buffer comp)
    { dist := env.transform.CompareSample cu comp skip_transform, cu := cu1, reco := reco1 }

/-! ## `CuEncoder::CompressIntra` (`cu_encoder.cc`, lines 517-540) -/

/-- Everything `CompressIntra` reads: `components` is
`pic_data_.GetComponents(cu->GetCuTree())`, the two distortions are what
`intra_search_.CompressIntraLuma` and `intra_search_.CompressIntraChroma`
return, and `WriteComponent` is `cu_writer_.WriteComponent(*cu, comp,
&rdo_writer)` on the CU as the searches left it. -/
structure IntraEnv where
  qp : Qp
  components : List YuvComponent
  CompressIntraLuma : Distortion
  CompressIntraChroma : Distortion
  WriteComponent : YuvComponent → RdoSyntaxWriter → RdoSyntaxWriter

/-- What `CompressIntra` leaves behind: the returned `RdoCost` and the
prediction mode and skip flag it set on the CU (the two searches write
neither). -/
structure IntraResult where
  cost : RdoCost
  pred_mode : PredictionMode
  skip_flag : Bool
  deriving DecidableEq, Repr

/-- The method `CuEncoder::CompressIntra`. The test `YuvComponent::kY ==
components[0]` is false for an empty list of components. -/
def CompressIntra (env : IntraEnv) (bitstream_writer : RdoSyntaxWriter) : IntraResult :=
  let rdo_writer : RdoSyntaxWriter := { bitstream_writer with num_written_bits := 0 }
  let luma : Bool := env.components.head? == some YuvComponent.kY
  let dist1 : Distortion := if luma then addU64 0 env.CompressIntraLuma else 0
  let w1 := if luma then env.WriteComponent YuvComponent.kY rdo_writer else rdo_writer
  let chroma : Bool := decide (env.components.length > 1)
  let dist2 : Distortion := if chroma then addU64 dist1 env.CompressIntraChroma else dist1
  let w2 :=
    if chroma then env.WriteComponent YuvComponent.kV (env.WriteComponent YuvComponent.kU w1)
    else w1
  let bits := w2.num_written_bits
  { cost := { cost := addU64 dist2 (env.qp.lambda_bits bits), dist := dist2 },
    pred_mode := PredictionMode.kIntra, skip_flag := false }

/-! ## `CuEncoder::CompressNoSplit` and `CuEncoder::CompressFast`
(`cu_encoder.cc`, lines 366-429) -/

/-- The decisions `CompressNoSplit` leaves in the CU `*best_cu` points to:
the prediction data of the cached donor CU followed by `CompressFast`, the
decisions of `CompressIntra`, or what `CompressInterPic` loaded into the best
CU (the menu entry that won and its `GetHasAnyCbf()`). -/
inductive LeafDecision
  | fast (donor : Nat)
  | intra
  | inter_pic (payload : CuPayload)
  deriving DecidableEq, Repr

/-- Everything `CompressNoSplit` reads besides the result of
`cu_cache_.Lookup`: `inter` is the data of `CompressInterPic` (its field
`cache_result` is not read, the result of the lookup is passed on), `intra`
that of `CompressIntra`; `donor_is_intra d` is `cu->IsIntra()` after
`CopyPredictionDataFrom` the donor `d`; the two `Fast` functions are
`intra_search_.CompressIntraFast` and `inter_search_.CompressInterFast` on that
CU; `WriteSplit` and `WriteComponent` write the CU as the evaluation left
it. -/
structure NoSplitEnv where
  kEncoderStrictRdoBitCounting : Bool
  IsFirstCuInQuad : Bool
  is_intra_pic : Bool
  components : List YuvComponent
  donor_is_intra : Nat → Bool
  CompressIntraFast : Nat → YuvComponent → Distortion
  CompressInterFast : Nat → YuvComponent → Distortion
  intra : IntraEnv
  inter : InterPicEnv
  WriteSplit : LeafDecision → SplitRestriction → RdoSyntaxWriter → RdoSyntaxWriter
  WriteComponent : LeafDecision → YuvComponent → RdoSyntaxWriter → RdoSyntaxWriter

/-- The method `CuEncoder::CompressFast` on the CU holding the prediction data
of the donor `donor`. -/
def CompressFast (env : NoSplitEnv) (donor : Nat) : Distortion :=
  if env.donor_is_intra donor then
    env.components.foldl (fun dist comp => addU64 dist (env.CompressIntraFast donor comp)) 0
  else
    env.components.foldl (fun dist comp => addU64 dist (env.CompressInterFast donor comp)) 0

/-- What `CompressNoSplit` leaves behind: the returned distortion, `*writer`,
the decisions held by the CU `*best_cu` points to, the evaluation whose
reconstruction the footprint of the CU in `rec_pic_` holds, and whether
`cu_cache_.Store` was called. -/
structure NoSplitResult where
  dist : Distortion
  writer : RdoSyntaxWriter
  decision : LeafDecision
  rec_pic : LeafDecision
  stored : Bool
  deriving DecidableEq, Repr

/-- Lines 399-409 of `CompressNoSplit`: the syntax of the CU written to
`*writer`. -/
def writeNoSplit (env : NoSplitEnv) (decision : LeafDecision)
    (split_restriction : SplitRestriction) (writer : RdoSyntaxWriter) : RdoSyntaxWriter :=
  let w1 :=
    if env.kEncoderStrictRdoBitCounting then env.WriteSplit decision split_restriction writer
    else writer
  let w2 := env.components.foldl (fun w comp => env.WriteComponent decision comp w) w1
  if !env.kEncoderStrictRdoBitCounting then env.WriteSplit decision split_restriction w2
  else w2

/-- Lines 399-409 of `CompressNoSplit` after an evaluation that returned
`best_cost` and left `decision` in the CU: `MarkUsedInPic`, `Store` when the
lookup said `cacheable`, and the syntax written to `*writer`. -/
def finishNoSplit (env : NoSplitEnv) (cache_result : CuCacheResult)
    (split_restriction : SplitRestriction) (writer : RdoSyntaxWriter) (best_cost : RdoCost)
    (decision : LeafDecision) : NoSplitResult :=
  { dist := best_cost.dist,
    writer := writeNoSplit env decision split_restriction writer,
    decision := decision, rec_pic := decision,
    stored := cache_result.cacheable }

/-- The method `CuEncoder::CompressNoSplit`, with `cache_result` the value
returned by `cu_cache_.Lookup(*cu)`. The first case is the branch taken under
`skip_mode_decision_for_identical_cu && cache_result.cu &&
cu->IsFirstCuInQuad(..)`. `none` is the failed assertion of
`CompressInterPic`. -/
def CompressNoSplit (env : NoSplitEnv) (cache_result : CuCacheResult)
    (split_restriction : SplitRestriction) (writer : RdoSyntaxWriter) :
    Option NoSplitResult :=
  match cache_result.cu,
      env.inter.encoder_settings.skip_mode_decision_for_identical_cu &&
        env.IsFirstCuInQuad with
  | some donor, true =>
    some (finishNoSplit env cache_result split_restriction writer
      { cost := 0, dist := CompressFast env donor } (LeafDecision.fast donor))
  | _, _ =>
    if env.is_intra_pic then
      some (finishNoSplit env cache_result split_restriction writer
        (CompressIntra env.intra writer).cost LeafDecision.intra)
    else
      match CompressInterPic { env.inter with cache_result := cache_result } with
      | none => none
      | some r =>
        some (finishNoSplit env cache_result split_restriction writer r.cost
          (LeafDecision.inter_pic (r.payload r.best_cu_ref)))

/-! ## `ThreadDecoder` (`thread_decoder.cc`) -/

/-- Modelled from the spec: the enum `OutputStatus` is declared outside `src/`;
these are the four states of the data model (`Processing`, `PostProcessing`,
`FinishedProcessing`, `HasNotBeenOutput`). -/
inductive OutputStatus
  | kHasNotBeenOutput
  | kProcessing
  | kPostProcessing
  | kFinishedProcessing
  deriving DecidableEq, Repr

/-- The identity of a `PictureDecoder` object (the target of a shared pointer). -/
abbrev PicId := Nat

/-- The type `SegmentNum` of `common.h`: `typedef uint8_t SegmentNum`. -/
abbrev SegmentNum := Nat

/-- The conversion `static_cast<SegmentNum>(n)`. -/
def toSegmentNum (n : Int) : SegmentNum := (n % 256).toNat

/-- The fields of `SegmentHeader` read by `WorkerMain`. -/
structure SegmentHeader where
  soc : SegmentNum
  restrictions : Restrictions
  deriving DecidableEq, Repr

/-- The struct `ThreadDecoder::WorkItem`. The last two fields are ghost: what
`Decode` and `Postprocess` returned for the item, `none` before the call. -/
structure WorkItem where
  pic_dec : PicId
  inter_dependencies : List PicId
  segment_header : SegmentHeader
  prev_segment_header : SegmentHeader
  nal : List Nat
  nal_offset : Nat
  success : Bool
  decode_returned : Option Bool
  postprocess_returned : Option Bool
  deriving DecidableEq, Repr

/-- The work item as `DecodeAsync` built it: the fields a worker never writes. -/
def WorkItem.origin (w : WorkItem) : WorkItem :=
  { w with success := false, decode_returned := none, postprocess_returned := none }

/-- The two calls into `PictureDecoder` made by a worker, with the
thread-local `Restrictions` in force during the call. -/
structure PictureDecoderEnv where
  Decode : WorkItem → Restrictions → Bool
  Postprocess : WorkItem → Restrictions → Bool

/-- Where a worker thread stands in `WorkerMain`, and the item it holds. -/
inductive WorkerPhase
  | waiting
  | decoding (work : WorkItem)
  | postprocessing (work : WorkItem)
  | finishing (work : WorkItem)
  | stopped
  deriving DecidableEq, Repr

/-- The item a worker holds: dequeued and not yet pushed to `finished_work_`. -/
def WorkerPhase.held : WorkerPhase → List WorkItem
  | WorkerPhase.waiting => []
  | WorkerPhase.decoding w => [w]
  | WorkerPhase.postprocessing w => [w]
  | WorkerPhase.finishing w => [w]
  | WorkerPhase.stopped => []

/-- One worker thread: its place in `WorkerMain` and its thread-local state,
the `thread_local SegmentNum restriction_soc` and the `Restrictions` instance
of the thread (`Restrictions::GetRW()`). -/
structure Worker where
  phase : WorkerPhase
  restriction_soc : SegmentNum
  restrictions : Restrictions
  deriving DecidableEq, Repr

/-- Lines 123-129: the flag `valid` for one pending item. -/
def dependenciesValid (status : PicId → OutputStatus) (w : WorkItem) : Bool :=
  w.inter_dependencies.all (fun dependency => status dependency != OutputStatus.kProcessing)

/-- Lines 121-137: the scan of `pending_work_` from the front. `some (work,
rest)` when an item was moved to `work` and erased, leaving `rest`. -/
def findWork (status : PicId → OutputStatus) : List WorkItem → Option (WorkItem × List WorkItem)
  | [] => none
  | w :: rest =>
    if dependenciesValid status w then some (w, rest)
    else
      match findWork status rest with
      | none => none
      | some (work, rest1) => some (work, w :: rest1)

/-- What one evaluation of the predicate of `wait_work_cond_.wait` yields: the
returned value, the local `work` and `pending_work_` afterwards. -/
structure WaitResult where
  ready : Bool
  work : Option WorkItem
  pending_work_ : List WorkItem
  deriving DecidableEq, Repr

/-- Lines 113-138: the predicate of `wait_work_cond_.wait`, run with the
mutex held. -/
def WorkerMain_wait_predicate (running_ : Bool) (status : PicId → OutputStatus)
    (pending_work_ : List WorkItem) : WaitResult :=
  if !running_ then
    { ready := true, work := none, pending_work_ := pending_work_ }
  else if pending_work_.isEmpty then
    { ready := false, work := none, pending_work_ := pending_work_ }
  else
    match findWork status pending_work_ with
    | some (work, rest) => { ready := true, work := some work, pending_work_ := rest }
    | none => { ready := false, work := none, pending_work_ := pending_work_ }

/-- Lines 144-149: load the restriction flags for the current thread unless
already done. -/
def WorkerMain_load_restrictions (wk : Worker) (work : WorkItem) : Worker :=
  if wk.restriction_soc != work.segment_header.soc then
    { wk with restrictions := work.segment_header.restrictions,
              restriction_soc := work.segment_header.soc }
  else wk

/-- Lines 151-156: `work.success = work.pic_dec->Decode(..)`, run by a thread
whose thread-local state is `wk`. -/
def WorkerMain_decode (env : PictureDecoderEnv) (wk : Worker) (work : WorkItem) : WorkItem :=
  let r := env.Decode work wk.restrictions
  { work with success := r, decode_returned := some r }

/-- Lines 164-166: `work.success &= work.pic_dec->Postprocess(..)`. -/
def WorkerMain_postprocess (env : PictureDecoderEnv) (wk : Worker) (work : WorkItem) :
    WorkItem :=
  let r := env.Postprocess work wk.restrictions
  { work with success := work.success && r, postprocess_returned := some r }

/-- The state guarded by `global_mutex_` together with the worker threads, the
`OutputStatus` of every picture, and two ghost lists: the items handed to
`DecodeAsync` and the items whose fields were passed to the callback, both in
order. -/
structure ThreadDecoder where
  running_ : Bool
  pending_work_ : List WorkItem
  finished_work_ : List WorkItem
  jobs_in_flight_ : Int
  worker_threads_ : List Worker
  status : PicId → OutputStatus
  submitted : List WorkItem
  callbacks : List WorkItem

/-- The constructor `ThreadDecoder::ThreadDecoder(int num_threads)`; the
arguments after the first are the value of `std::thread::hardware_concurrency()`,
the `Restrictions` a new thread starts with and the status of every picture.
The members start as the spec describes them (`thread_decoder.h` is not under
`src/`): running, both queues empty, no job in flight. -/
def ThreadDecoder.create (num_threads : Int) (hardware_concurrency : Nat)
    (thread_restrictions : Restrictions) (status : PicId → OutputStatus) : ThreadDecoder :=
  let n1 : Int := if num_threads < 0 then (hardware_concurrency : Int) else num_threads
  let n2 : Int := max 1 n1
  { running_ := true, pending_work_ := [], finished_work_ := [], jobs_in_flight_ := 0,
    worker_threads_ := List.replicate n2.toNat
      { phase := WorkerPhase.waiting, restriction_soc := toSegmentNum (-1),
        restrictions := thread_restrictions },
    status := status, submitted := [], callbacks := [] }

/-- The method `ThreadDecoder::DecodeAsync`. It does not assign
`work.success`; the model starts the flag at `false`. -/
def ThreadDecoder.DecodeAsync (s : ThreadDecoder) (segment_header prev_segment_header :
    SegmentHeader) (pic_dec : PicId) (deps : List PicId) (nal : List Nat) (nal_offset : Nat) :
    ThreadDecoder :=
  let work : WorkItem :=
    { pic_dec := pic_dec, inter_dependencies := deps, segment_header := segment_header,
      prev_segment_header := prev_segment_header, nal := nal, nal_offset := nal_offset,
      success := false, decode_returned := none, postprocess_returned := none }
  { s with pending_work_ := s.pending_work_ ++ [work],
           jobs_in_flight_ := s.jobs_in_flight_ + 1,
           submitted := s.submitted ++ [work] }

/-- The method `ThreadDecoder::WaitOne` once `work_done_cond_.wait` lets it
pass; `none` while `finished_work_` is empty (the caller stays blocked). -/
def ThreadDecoder.WaitOne (s : ThreadDecoder) : Option ThreadDecoder :=
  match s.finished_work_ with
  | [] => none
  | work :: rest =>
    some { s with finished_work_ := rest, jobs_in_flight_ := s.jobs_in_flight_ - 1,
                  callbacks := s.callbacks ++ [work] }

/-- One pass through the loop of `ThreadDecoder::WaitAll` (lines 98-105);
`none` when the loop condition fails (`WaitAll` returns) or while
`finished_work_` is empty (the caller stays blocked). -/
def ThreadDecoder.WaitAll_iteration (s : ThreadDecoder) : Option ThreadDecoder :=
  if s.jobs_in_flight_ > 0 then
    match s.finished_work_ with
    | [] => none
    | work :: rest =>
      some { s with finished_work_ := rest, jobs_in_flight_ := s.jobs_in_flight_ - 1,
                    callbacks := s.callbacks ++ [work] }
  else none

/-- Lines 47-49 of `ThreadDecoder::StopAll`. -/
def ThreadDecoder.StopAll (s : ThreadDecoder) : ThreadDecoder :=
  { s with running_ := false }

/-- Lines 51-54 of `ThreadDecoder::StopAll`: the joins return once every worker
has left `WorkerMain`; `none` while some worker has not. -/
def ThreadDecoder.StopAll_join (s : ThreadDecoder) : Option ThreadDecoder :=
  if s.worker_threads_.all (fun wk => wk.phase == WorkerPhase.stopped) then
    some { s with worker_threads_ := [] }
  else none

/-- Replace the phase of worker `i`. -/
def ThreadDecoder.setWorker (s : ThreadDecoder) (i : Nat) (wk : Worker) : ThreadDecoder :=
  { s with worker_threads_ := s.worker_threads_.set i wk }

/-- Lines 110-142: worker `i`, blocked in `wait_work_cond_.wait`, evaluates
the predicate under the mutex. `none` when the predicate is false (the worker
stays blocked) or the worker is not waiting. -/
def ThreadDecoder.worker_wake (s : ThreadDecoder) (i : Nat) : Option ThreadDecoder :=
  match s.worker_threads_[i]? with
  | some wk =>
    match wk.phase with
    | WorkerPhase.waiting =>
      let r := WorkerMain_wait_predicate s.running_ s.status s.pending_work_
      if r.ready then
        if !s.running_ then
          some ({ s with pending_work_ := r.pending_work_ }.setWorker i
            { wk with phase := WorkerPhase.stopped })
        else
          match r.work with
          | some work =>
            some ({ s with pending_work_ := r.pending_work_ }.setWorker i
              { wk with phase := WorkerPhase.decoding work })
          | none => none
      else none
    | _ => none
  | none => none

/-- Lines 144-157: worker `i` loads the restrictions, decodes and sets the
output status to `kPostProcessing`. -/
def ThreadDecoder.worker_decode (env : PictureDecoderEnv) (s : ThreadDecoder) (i : Nat) :
    Option ThreadDecoder :=
  match s.worker_threads_[i]? with
  | some wk =>
    match wk.phase with
    | WorkerPhase.decoding work =>
      let wk1 := WorkerMain_load_restrictions wk work
      let work1 := WorkerMain_decode env wk1 work
      some ({ s with status := fun p =>
                if p = work1.pic_dec then OutputStatus.kPostProcessing else s.status p }.setWorker
        i { wk1 with phase := WorkerPhase.postprocessing work1 })
    | _ => none
  | none => none

/-- Lines 159-167: worker `i` notifies the other workers, post-processes and
sets the output status to `kFinishedProcessing`. -/
def ThreadDecoder.worker_postprocess (env : PictureDecoderEnv) (s : ThreadDecoder) (i : Nat) :
    Option ThreadDecoder :=
  match s.worker_threads_[i]? with
  | some wk =>
    match wk.phase with
    | WorkerPhase.postprocessing work =>
      let work1 := WorkerMain_postprocess env wk work
      some ({ s with status := fun p =>
                if p = work1.pic_dec then OutputStatus.kFinishedProcessing
                else s.status p }.setWorker
        i { wk with phase := WorkerPhase.finishing work1 })
    | _ => none
  | none => none

/-- Lines 169-174: worker `i` pushes the item onto `finished_work_` under the
mutex and goes back to the top of the loop. -/
def ThreadDecoder.worker_finish (s : ThreadDecoder) (i : Nat) : Option ThreadDecoder :=
  match s.worker_threads_[i]? with
  | some wk =>
    match wk.phase with
    | WorkerPhase.finishing work =>
      some ({ s with finished_work_ := s.finished_work_ ++ [work] }.setWorker
        i { wk with phase := WorkerPhase.waiting })
    | _ => none
  | none => none

/-- The atomic steps of the pool: the calls of the host, the four sections of
`WorkerMain` of worker `i`, and a write of the `OutputStatus` of a picture by
code outside the pool (the host, also from inside the callback). -/
inductive Action
  | DecodeAsync (segment_header prev_segment_header : SegmentHeader) (pic_dec : PicId)
      (deps : List PicId) (nal : List Nat) (nal_offset : Nat)
  | WaitOne
  | WaitAll_iteration
  | StopAll
  | StopAll_join
  | worker_wake (i : Nat)
  | worker_decode (i : Nat)
  | worker_postprocess (i : Nat)
  | worker_finish (i : Nat)
  | SetOutputStatus (pic : PicId) (status : OutputStatus)
  deriving DecidableEq, Repr

/-- One atomic step; `none` when the step cannot be taken in this state. -/
def ThreadDecoder.step (env : PictureDecoderEnv) (s : ThreadDecoder) : Action → Option ThreadDecoder
  | Action.DecodeAsync sh psh pic deps nal off => some (s.DecodeAsync sh psh pic deps nal off)
  | Action.WaitOne => s.WaitOne
  | Action.WaitAll_iteration => s.WaitAll_iteration
  | Action.StopAll => some s.StopAll
  | Action.StopAll_join => s.StopAll_join
  | Action.worker_wake i => s.worker_wake i
  | Action.worker_decode i => s.worker_decode env i
  | Action.worker_postprocess i => s.worker_postprocess env i
  | Action.worker_finish i => s.worker_finish i
  | Action.SetOutputStatus pic st =>
    some { s with status := fun p => if p = pic then st else s.status p }

/-- A sequence of atomic steps; `none` when one of them cannot be taken. -/
def ThreadDecoder.run (env : PictureDecoderEnv) (s : ThreadDecoder) :
    List Action → Option ThreadDecoder
  | [] => some s
  | a :: rest =>
    match s.step env a with
    | some s1 => s1.run env rest
    | none => none

/-- The step is a call of `DecodeAsync`. -/
def Action.isDecodeAsync : Action → Bool
  | Action.DecodeAsync _ _ _ _ _ _ => true
  | _ => false

/-- The step hands an item to the callback: `WaitOne`, or one pass of `WaitAll`. -/
def Action.isDrain : Action → Bool
  | Action.WaitOne => true
  | Action.WaitAll_iteration => true
  | _ => false

/-- The items held by the workers: dequeued, not yet pushed to `finished_work_`. -/
def heldItems (workers : List Worker) : List WorkItem :=
  workers.flatMap (fun wk => wk.phase.held)

/-- The thread-local `Restrictions` in force at each call of `Decode` when one
thread with thread-local state `wk` processes the items `works` in turn. -/
def restrictionsAtDecode (wk : Worker) : List WorkItem → List (WorkItem × Restrictions)
  | [] => []
  | work :: rest =>
    let wk1 := WorkerMain_load_restrictions wk work
    (work, wk1.restrictions) :: restrictionsAtDecode wk1 rest

/-- The loop of lines 35-39 of the constructor: `while (num_threads >
static_cast<int>(worker_threads_.size())) worker_threads_.emplace_back(..)`,
every new thread starting `WorkerMain` in the state `wk`. -/
def emplaceWorkers (num_threads : Int) (wk : Worker) (worker_threads_ : List Worker) :
    List Worker :=
  if num_threads > (worker_threads_.length : Int) then
    emplaceWorkers num_threads wk (worker_threads_ ++ [wk])
  else worker_threads_
termination_by (num_threads - (worker_threads_.length : Int)).toNat
decreasing_by
  simp only [List.length_append, List.length_singleton]
  omega

/-! ## `Checksum` (`checksum.h`) -/

/-- The enum `Checksum::Method`. -/
inductive ChecksumMethod
  | kNone
  | kCRC
  | kMD5
  deriving DecidableEq, Repr

/-- The data members of `Checksum`: the hash bytes and the method. -/
structure Checksum where
  hash_ : List Nat
  method_ : ChecksumMethod
  deriving DecidableEq, Repr

/-- The operator `Checksum::operator==`: `hash_ == other.hash_` on the two
byte vectors. -/
def Checksum.operator_eq (a other : Checksum) : Bool := a.hash_ == other.hash_

/-- The operator `Checksum::operator!=`: `!(*this == other)`. -/
def Checksum.operator_ne (a other : Checksum) : Bool := !(a.operator_eq other)

/-! ## Predicates used to state and prove the search properties -/

/-- The incumbent `(best_cu, best)` is the first cheapest entry of the list
`ev` of evaluated candidates: every entry before it is strictly dearer, every
entry after it is at least as dear. With no incumbent (`none`) the tracked
cost is `CostMax` and no entry is below `CostMax`. -/
def FirstCheapest {α : Type} (best_cu : Option α) (best : RdoCost)
    (ev : List (α × RdoCost)) : Prop :=
  (∀ w, best_cu = some w →
    ∃ pre post, ev = pre ++ (w, best) :: post ∧
      (∀ c ∈ pre, best.cost < c.2.cost) ∧ (∀ c ∈ post, best.cost ≤ c.2.cost)) ∧
  (best_cu = none → best.cost = CostMax ∧ ∀ c ∈ ev, CostMax ≤ c.2.cost)

/-- The `RdoCost` that `CompressCu` gives to a candidate when it evaluates it:
for the unsplit candidate the one computed in lines 166-172, for a split the
one returned by `CompressSplitCu`; both are `dist + static_cast<Cost>(bits *
lambda + 0.5)` in unsigned 64-bit arithmetic. -/
def candidateCost (env : CompressCuEnv) (writer : RdoSyntaxWriter) (qp : Qp) :
    SplitType → RdoCost
  | SplitType.kNone =>
    let o := env.CompressNoSplit writer
    { cost := addU64 o.dist
        (qp.lambda_bits (subBits o.writer.num_written_bits writer.num_written_bits)),
      dist := o.dist }
  | t => (CompressSplitCu env qp t writer).cost

/-- The invariant of the locals of `CompressCu` between two evaluations;
`stage` lists the candidates that may have been evaluated so far. -/
def CompressCuVarsInv (env : CompressCuEnv) (writer : RdoSyntaxWriter) (qp : Qp) (df : Bool)
    (stage : List SplitType) (v : CompressCuVars) : Prop :=
  v.best_state = v.best_cu ∧ FirstCheapest v.best_cu v.best_cost v.evaluated ∧
  (∀ c ∈ v.evaluated, c.2 = candidateCost env writer qp c.1) ∧
  (v.evaluated.map Prod.fst).Sublist stage ∧
  (df = true → v.best_cu ≠ none)

/-- The property of a value returned by the search of `CompressCu`. -/
def CompressCuResInv (env : CompressCuEnv) (writer : RdoSyntaxWriter) (qp : Qp) (df : Bool)
    (stage : List SplitType) (r : CompressCuResult) : Prop :=
  (∃ best, FirstCheapest r.best_cu best r.evaluated ∧
    (r.best_cu ≠ none → r.dist = best.dist)) ∧
  (∀ c ∈ r.evaluated, c.2 = candidateCost env writer qp c.1) ∧
  (r.evaluated.map Prod.fst).Sublist stage ∧
  (df = true → r.best_cu ≠ none)

/-- The invariant of the locals of `CompressInterPic` between two menu entries. -/
def InterPicInv (stage : List MenuMode) (v : InterPicVars) : Prop :=
  v.best_cu ≠ v.cu ∧ (v.trace.map Prod.fst).Sublist stage ∧
  ∃ tag, FirstCheapest tag v.best_cost v.trace ∧
    match tag with
    | none => v.best_state = none
    | some m => ∃ cbf, v.best_state = some { decisions := some m, has_any_cbf := cbf } ∧
        v.payload v.best_cu = { decisions := some m, has_any_cbf := cbf }

/-- What the evaluation record `e` of a candidate must satisfy: the cost is an
unsigned 64-bit value, an evaluation that returned `Distortion::MAX` has cost
`Cost::MAX`, a transform-skip evaluation that did not return `Distortion::MAX`
has a non-zero coefficient, and a normal intra luma candidate with a positive
transform-select index and fewer than three non-zero coefficients returned
`Distortion::MAX`. -/
def EvalOk (comp : YuvComponent) (pm : PredictionMode) (e : TransformEval) : Prop :=
  e.cost ≤ CostMax ∧ (e.dist = DistortionMax → e.cost = CostMax) ∧
  (e.dist ≠ DistortionMax → e.skip_transform = true → e.non_zero ≠ 0) ∧
  (IsLuma comp = true → pm = PredictionMode.kIntra → e.skip_transform = false →
    e.tx_select > 0 → e.non_zero < 3 → e.dist = DistortionMax)

/-- The invariant of the loop over the normal transforms once the indices
`done` have been evaluated. -/
def NormalInv (comp : YuvComponent) (pm : PredictionMode) (done : List Int)
    (v : TransformVars) : Prop :=
  v.cu.pred_mode = pm ∧ (∀ e ∈ v.trace, EvalOk comp pm e ∧ e.skip_transform = false) ∧
  v.trace.map (fun e => e.tx_select) = done ∧
  ∃ pre e post, v.trace = pre ++ e :: post ∧ e.tx_select = v.best_txselect_normal ∧
    e.cost = v.best_cost_normal ∧ (∀ c ∈ pre, e.cost < c.cost) ∧ (∀ c ∈ post, e.cost ≤ c.cost)

/-- Both calls have returned for the item and its `success` flag is their
conjunction. -/
def ItemDone (w : WorkItem) : Prop :=
  ∃ d p, w.decode_returned = some d ∧ w.postprocess_returned = some p ∧ w.success = (d && p)

/-- What holds of the item a worker holds, by the place of the worker in
`WorkerMain`. -/
def PhaseOk : WorkerPhase → Prop
  | WorkerPhase.postprocessing w => ∃ d, w.decode_returned = some d ∧ w.success = d
  | WorkerPhase.finishing w => ItemDone w
  | _ => True

/-- The invariant of the pool: `jobs_in_flight_` counts the pending, held and
finished items; the pending, held, finished and drained items are, up to
order and up to the fields a worker writes, the submitted items; and every
finished or drained item carries the conjunction of the two results. -/
def PoolInv (s : ThreadDecoder) : Prop :=
  s.jobs_in_flight_ =
    ((s.pending_work_.length + (heldItems s.worker_threads_).length +
      s.finished_work_.length : Nat) : Int) ∧
  List.Perm
    ((s.pending_work_ ++ heldItems s.worker_threads_ ++ s.finished_work_ ++
      s.callbacks).map WorkItem.origin) s.submitted ∧
  (∀ wk ∈ s.worker_threads_, PhaseOk wk.phase) ∧
  (∀ w ∈ s.finished_work_, ItemDone w) ∧ (∀ w ∈ s.callbacks, ItemDone w)

/-- What the ghost record of a split evaluation of `CompressCu` satisfies.
The two sides of the test are the cost `CompressSplitCu` returned and the cost
of the incumbent; the footprint holds the split right after its evaluation; a
losing split is followed by `LoadStateFrom(*best_state, ..)` and
`MarkUsedInPic`; when the incumbent is the candidate `w`, the snapshot was taken
from it and the CU, the footprint and the marks are those of `w` both before
the evaluation and after the restore. Only the quad split of a CU whose
unsplit candidate is not eligible can meet no incumbent. -/
def SplitRecordOk (env : CompressCuEnv) (writer : RdoSyntaxWriter) (qp : Qp)
    (r : SplitRecord) : Prop :=
  r.split_type ≠ SplitType.kNone ∧
  r.split_cost = (CompressSplitCu env qp r.split_type writer).cost.cost ∧
  r.won = decide (r.split_cost < r.best_cost) ∧
  r.split_rec = some r.split_type ∧
  (r.won = false →
    r.final_cu = r.saved_cu ∧ r.final_rec = r.saved_rec ∧ r.final_marked = r.saved_cu) ∧
  (∀ w, r.incumbent_cu = some w →
    r.saved_cu = some w ∧ r.saved_rec = some w ∧ r.incumbent_rec = some w ∧
    r.incumbent_marked = some w ∧
    (r.won = false →
      r.final_cu = some w ∧ r.final_rec = some w ∧ r.final_marked = some w)) ∧
  (r.incumbent_cu = none →
    do_full env = false ∧ r.split_type = SplitType.kQuad ∧ r.best_cost = CostMax)

/-- The split types among the candidates evaluated so far. -/
def evaluatedSplits (ev : List (SplitType × RdoCost)) : List SplitType :=
  (ev.map Prod.fst).filter (fun t => t != SplitType.kNone)

/-- The invariant of the state `CompressCu` acts on between two evaluations:
the snapshot, the footprint and the marks are those of the incumbent, there is
an incumbent once the unsplit candidate was eligible, and every split
evaluated so far has a record that satisfies `SplitRecordOk`. -/
def RestoreInv (env : CompressCuEnv) (writer : RdoSyntaxWriter) (qp : Qp)
    (v : CompressCuVars) : Prop :=
  (∀ w, v.best_cu = some w →
    v.best_state = some w ∧ v.best_state_rec = some w ∧ v.rec_pic = some w ∧
    v.marked = some w) ∧
  (v.best_cu = none → do_full env = false ∧ v.best_cost.cost = CostMax) ∧
  v.splits.map (fun r => r.split_type) = evaluatedSplits v.evaluated ∧
  ∀ r ∈ v.splits, SplitRecordOk env writer qp r

/-- The property of the records of a value returned by `CompressCu`. -/
def RestoreResInv (env : CompressCuEnv) (writer : RdoSyntaxWriter) (qp : Qp)
    (r : CompressCuResult) : Prop :=
  r.splits.map (fun x => x.split_type) = evaluatedSplits r.evaluated ∧
  ∀ x ∈ r.splits, SplitRecordOk env writer qp x

/-- The candidates evaluated before the quad split when no `return` is taken
earlier: the eligible ones among Full, Horizontal and Vertical, in this order. -/
def eligibleBeforeQuad (env : CompressCuEnv) (split_restiction : SplitRestriction) :
    List SplitType :=
  (if do_full env then [SplitType.kNone] else []) ++
  (if do_hor_split env split_restiction then [SplitType.kHorizontal] else []) ++
  (if do_ver_split env split_restiction then [SplitType.kVertical] else [])

/-- The locals of `CompressCu` at line 176, after the evaluation without split. -/
def varsAfterFull (env : CompressCuEnv) (writer : RdoSyntaxWriter) (qp : Qp) :
    CompressCuVars :=
  if do_full env then evalFull env writer qp (initVars writer) else initVars writer

/-- The sub-blocks whose top-left sample lies inside the picture, row by row,
each with the value of `calc_variance` on its 16x16 samples. -/
def aqpContributing (env : AqpEnv) : List ((Nat × Nat) × Nat) :=
  (List.range (env.cu_height / 16)).flatMap (fun (i : Nat) =>
    if env.y + (i : Int) * 16 ≥ env.picture_height then []
    else
      (List.range (env.cu_height / 16)).filterMap (fun (j : Nat) =>
        if env.x + (j : Int) * 16 ≥ env.picture_width then none
        else
          some ((i, j),
            calc_variance
              (fun k l =>
                env.orig (env.x + (j : Int) * 16 + (l : Int))
                  (env.y + (i : Int) * 16 + (k : Int)))
              16)))

/-- The call of `TransformAndReconstruct` returns `Distortion::MAX` at line
163, 168 or 172, before the CBF is set. -/
def returnsBeforeCbf (env : TransformEnv) (cu : TransformCu) (comp : YuvComponent)
    (skip_transform : Bool) : Bool :=
  (IsLuma comp && decide (cu.GetTransformSelectIdx > 0) && cu.IsIntra &&
    decide (quantNonZero env cu comp skip_transform < kTransformSelectMinSigCoeffs)) ||
  (IsLuma comp && cu.HasTransformSelectIdx &&
    (cu.IsInter && quantNonZero env cu comp skip_transform == 0)) ||
  (skip_transform && quantNonZero env cu comp skip_transform == 0)

/-- The relation between two consecutive recursive calls `c`, `c'` of the loop
of `CompressSplitCu`: `c'` is passed the restriction that
`DeriveSiblingSplitRestriction(split_type)` gives for the sub CU of `c` after
its compression, and the writer as the call `c` left it. -/
def SiblingStep (env : SplitCuEnv) (split_type : SplitType) (c c' : SubCuCall) : Prop :=
  c'.sub_split_restriction =
    (env.CompressCu split_type c.slot c.sub_split_restriction c.rdo_writer).sibling_restriction ∧
  c'.rdo_writer =
    (env.CompressCu split_type c.slot c.sub_split_restriction c.rdo_writer).writer

/-- The invariant of the loop of `CompressSplitCu`: the first call was passed
`kNone`, consecutive calls are related by `SiblingStep`, and the locals hold
what the last call left (`kNone` before the first call). -/
def SubCuInv (env : SplitCuEnv) (split_type : SplitType) (v : SubCuVars) : Prop :=
  (∀ c, v.calls.head? = some c → c.sub_split_restriction = SplitRestriction.kNone) ∧
  (v.calls = [] → v.sub_split_restriction = SplitRestriction.kNone) ∧
  List.Chain' (SiblingStep env split_type) v.calls ∧
  (∀ c, v.calls.getLast? = some c →
    v.sub_split_restriction =
      (env.CompressCu split_type c.slot c.sub_split_restriction
        c.rdo_writer).sibling_restriction ∧
    v.rdo_writer =
      (env.CompressCu split_type c.slot c.sub_split_restriction c.rdo_writer).writer) ∧
  v.dist % 2 ^ 64 =
    (v.calls.map (fun c => (env.CompressCu split_type c.slot c.sub_split_restriction
      c.rdo_writer).dist)).sum % 2 ^ 64

/-- The distortions that `CompressNoSplit` returned for the leaves of the
configuration that `CompressCuTree` commits for the tree: for a CU kept
unsplit the distortion of its `CompressNoSplit` call, for a CU kept with the
split `t` the leaves of the sub CUs as the calls of the evaluation of `t`
compressed them, in slot order; no leaf when no candidate was committed. -/
def committedLeaves (strict : Bool) (qp : Qp) :
    CuTree → SplitRestriction → RdoSyntaxWriter → List Distortion
  | CuTree.null, _, _ => []
  | CuTree.cu node GetSubCu, split_restiction, writer =>
    match (CompressCuTree strict qp (CuTree.cu node GetSubCu) split_restiction writer).best_cu with
    | none => []
    | some SplitType.kNone => [(node.env.CompressNoSplit writer).dist]
    | some t =>
      (subCuLoop
        (treeSplitCuEnv strict node GetSubCu
          (fun t i r w => CompressCuTree strict qp (GetSubCu t i) r w))
        split_restiction t writer).calls.flatMap
        (fun c => committedLeaves strict qp (GetSubCu t c.slot) c.sub_split_restriction
          c.rdo_writer)

/-- The locals of `CompressCu` hold no candidate only with the initial
`best_cost`, whose distortion is 0. -/
def NoCandidateInv (v : CompressCuVars) : Prop :=
  v.best_state = v.best_cu ∧ (v.best_cu = none → v.best_cost.dist = 0)

/-- The recursive calls of `CompressCu` on the sub CUs of a CU of the tree:
`treeSubCall strict qp GetSubCu t i r w` is the call on the sub CU in slot `i`
of the split `t`, with restriction `r` and writer `w`. -/
def treeSubCall (strict : Bool) (qp : Qp) (GetSubCu : SplitType → Nat → CuTree) :
    SplitType → Nat → SplitRestriction → RdoSyntaxWriter → CompressCuResult :=
  fun t i r w => CompressCuTree strict qp (GetSubCu t i) r w

/-- The ghost record of the evaluation of `merge_idx` in the locals `v` of
`CompressMerge`. -/
def mergeEvalOf (env : InterLeafEnv) (force_skip : Bool) (merge_idx : Nat) (v : MergeVars) :
    MergeEval :=
  { merge_idx := merge_idx, force_skip := force_skip,
    dist := (env.inter_search_CompressMergeCand merge_idx force_skip v.best_cu_cost).dist,
    cost := GetCuCostWithoutSplit env.qp
      (env.inter_search_CompressMergeCand merge_idx force_skip v.best_cu_cost).bits
      (env.inter_search_CompressMergeCand merge_idx force_skip v.best_cu_cost).dist,
    has_any_cbf :=
      (env.inter_search_CompressMergeCand merge_idx force_skip v.best_cu_cost).has_any_cbf }

/-- The locals of `CompressMerge` after the evaluation of `merge_idx` when its
cost is not below `best_cost`. -/
def mergeLose (env : InterLeafEnv) (force_skip : Bool) (merge_idx : Nat) (v : MergeVars) :
    MergeVars :=
  { v with
    skip_evaluated :=
      if !(mergeEvalOf env force_skip merge_idx v).has_any_cbf then
        merge_idx :: v.skip_evaluated
      else v.skip_evaluated,
    trace := v.trace ++ [mergeEvalOf env force_skip merge_idx v] }

/-- The locals of `CompressMerge` after the evaluation of `merge_idx` when its
cost is below `best_cost`. -/
def mergeWin (env : InterLeafEnv) (force_skip : Bool) (merge_idx : Nat) (v : MergeVars) :
    MergeVars :=
  { mergeLose env force_skip merge_idx v with
    best_cu_cost := min (mergeEvalOf env force_skip merge_idx v).cost.cost v.best_cu_cost,
    best_cost := (mergeEvalOf env force_skip merge_idx v).cost,
    best_merge_idx := (merge_idx : Int),
    best_has_any_cbf := (mergeEvalOf env force_skip merge_idx v).has_any_cbf }

/-- What holds between an evaluation `a` of `CompressMerge` and a later
evaluation `b`: in the same pass they are of different merge indices; if `a`
left the CU without any CBF they are of different indices; and a force-skip
evaluation is followed by force-skip evaluations only. -/
def MergeOrder (a b : MergeEval) : Prop :=
  (a.force_skip = b.force_skip → a.merge_idx ≠ b.merge_idx) ∧
  (a.has_any_cbf = false → a.merge_idx ≠ b.merge_idx) ∧
  (a.force_skip = true → b.force_skip = true)

/-- The evaluation `a`, made after the evaluations `pre`, is of the pass with
residual allowed, became the new best (its cost is below `Cost::MAX` and below
every earlier cost) and left the CU without any CBF. -/
def MergeWinsNoCbf (pre : List MergeEval) (a : MergeEval) : Prop :=
  a.force_skip = false ∧ a.has_any_cbf = false ∧ a.cost.cost < CostMax ∧
  ∀ c ∈ pre, a.cost.cost < c.cost.cost

/-- After an evaluation for which `MergeWinsNoCbf` holds, only force-skip
evaluations follow: no further candidate is evaluated in the pass with
residual allowed. -/
def MergeBreakOk (tr : List MergeEval) : Prop :=
  ∀ pre a post, tr = pre ++ a :: post → MergeWinsNoCbf pre a →
    ∀ b ∈ post, b.force_skip = true

/-- The locals `best_cost`, `best_merge_idx` and the saved state of
`CompressMerge` are those of the first cheapest evaluation so far; with no
evaluation below `Cost::MAX` the index is still `-1`. -/
def MergeBest (v : MergeVars) : Prop :=
  (v.best_merge_idx < 0 ∧ v.best_cost.cost = CostMax ∧
    ∀ e ∈ v.trace, CostMax ≤ e.cost.cost) ∨
  (∃ pre e post, v.trace = pre ++ e :: post ∧ v.best_cost = e.cost ∧
    v.best_merge_idx = (e.merge_idx : Int) ∧ v.best_has_any_cbf = e.has_any_cbf ∧
    e.cost.cost < CostMax ∧
    (∀ c ∈ pre, e.cost.cost < c.cost.cost) ∧ (∀ c ∈ post, e.cost.cost ≤ c.cost.cost))

/-- While the pass `force_skip` of `CompressMerge` goes on: an evaluation for
which `MergeWinsNoCbf` holds can only be behind in a force-skip pass. -/
def MergeContinues (force_skip : Bool) (tr : List MergeEval) : Prop :=
  ∀ pre a post, tr = pre ++ a :: post → MergeWinsNoCbf pre a →
    force_skip = true ∧ ∀ b ∈ post, b.force_skip = true

/-- The invariant of the inner loop of `CompressMerge` in the pass
`force_skip`, with `rest` the entries of `cand_lookup` still to visit. -/
def MergeInv (lookup : List Nat) (force_skip : Bool) (rest : List Nat) (v : MergeVars) :
    Prop :=
  MergeBest v ∧ List.Pairwise MergeOrder v.trace ∧
  (∀ e ∈ v.trace, e.force_skip = true → force_skip = true) ∧
  (∀ e ∈ v.trace, e.force_skip = force_skip → e.merge_idx ∉ rest) ∧
  (∀ e ∈ v.trace, e.has_any_cbf = false → e.merge_idx ∈ v.skip_evaluated) ∧
  (∀ e ∈ v.trace, e.merge_idx ∈ lookup) ∧
  MergeContinues force_skip v.trace ∧
  rest.Nodup ∧ (∀ x ∈ rest, x ∈ lookup)

/-- What holds of the locals of `CompressMerge` when the inner loop of the pass
`force_skip` is left. -/
def MergeOut (lookup : List Nat) (force_skip : Bool) (v : MergeVars) : Prop :=
  MergeBest v ∧ List.Pairwise MergeOrder v.trace ∧
  (∀ e ∈ v.trace, e.force_skip = true → force_skip = true) ∧
  (∀ e ∈ v.trace, e.has_any_cbf = false → e.merge_idx ∈ v.skip_evaluated) ∧
  (∀ e ∈ v.trace, e.merge_idx ∈ lookup) ∧
  MergeBreakOk v.trace

/-- The empty result of `cu_cache_.Lookup`: no donor CU, not cacheable, no mode
family seen. -/
def emptyCacheResult : CuCacheResult :=
  { cu := none, cacheable := false, any_intra := false, any_skip := false,
    any_inter := false }

/-- What the encoder output takes from a result of `CompressNoSplit`: the
returned distortion, the writer (the bits written), the decisions left in the
CU and the reconstruction. -/
def NoSplitResult.output (r : NoSplitResult) :
    Distortion × RdoSyntaxWriter × LeafDecision × LeafDecision :=
  (r.dist, r.writer, r.decision, r.rec_pic)

/-- The samples `calc_variance` reads, in the order of its two loops: row `k`,
column `l`. -/
def blockSamples (src : Nat → Nat → Nat) (block_size : Nat) : List Nat :=
  (List.range block_size).flatMap
    (fun k => (List.range block_size).map (fun l => src k l))

/-- The item that the step `a`, taken in the state `s`, appends to
`finished_work_` (line 172), with the `OutputStatus` its picture has at that
moment: the item worker `i` holds at line 170 for `worker_finish i`, nothing
for every other step. -/
def pushedBy (s : ThreadDecoder) : Action → List (WorkItem × OutputStatus)
  | Action.worker_finish i =>
    match s.worker_threads_[i]? with
    | some wk =>
      match wk.phase with
      | WorkerPhase.finishing work => [(work, s.status work.pic_dec)]
      | _ => []
    | none => []
  | _ => []

/-- The items appended to `finished_work_` along a sequence of steps started
in `s`, in the order of the appends, each with the `OutputStatus` of its
picture at the moment of the append. -/
def pushedAlong (env : PictureDecoderEnv) : ThreadDecoder → List Action →
    List (WorkItem × OutputStatus)
  | _, [] => []
  | s, a :: rest =>
    match s.step env a with
    | some s1 => pushedBy s a ++ pushedAlong env s1 rest
    | none => []

/-- What the code outside the pool is assumed to respect when it takes the
step `a` in the state `s`: it does not write the `OutputStatus` of a picture
whose item a worker holds, and it does not submit a picture whose item is
still pending or held. -/
def hostRespects (s : ThreadDecoder) : Action → Bool
  | Action.SetOutputStatus pic _ =>
    (heldItems s.worker_threads_).all (fun w => w.pic_dec != pic)
  | Action.DecodeAsync _ _ pic _ _ _ =>
    (s.pending_work_ ++ heldItems s.worker_threads_).all (fun w => w.pic_dec != pic)
  | _ => true

/-- Every step of the sequence, started in `s`, satisfies `hostRespects` in
the state in which it is taken. -/
def runRespects (env : PictureDecoderEnv) : ThreadDecoder → List Action → Bool
  | _, [] => true
  | s, a :: rest =>
    hostRespects s a &&
      (match s.step env a with
       | some s1 => runRespects env s1 rest
       | none => true)

/-- The `OutputStatus` of the picture of the item a worker holds, by the place
of the worker in `WorkerMain`: `kPostProcessing` from line 157 until
`Postprocess` has returned, `kFinishedProcessing` from line 167 until the item
is appended to `finished_work_`. -/
def PhaseStatus (status : PicId → OutputStatus) : WorkerPhase → Prop
  | WorkerPhase.postprocessing w => status w.pic_dec = OutputStatus.kPostProcessing
  | WorkerPhase.finishing w => status w.pic_dec = OutputStatus.kFinishedProcessing
  | _ => True

/-- The pictures of the pending and held items are pairwise different, and
`PhaseStatus` holds of every worker. -/
def HeldStatusInv (s : ThreadDecoder) : Prop :=
  ((s.pending_work_ ++ heldItems s.worker_threads_).map (fun w => w.pic_dec)).Nodup ∧
  ∀ wk ∈ s.worker_threads_, PhaseStatus s.status wk.phase

/-- The dependency relation among the pictures of the items `items`: the
picture `p` depends on `d` when an item for `p` lists `d` among its
`inter_dependencies`. -/
def DependsOn (items : List WorkItem) (d p : PicId) : Prop :=
  ∃ w ∈ items, w.pic_dec = p ∧ d ∈ w.inter_dependencies

/-- The dependency relation among the pictures of the items is acyclic: no
picture depends on itself through a chain of dependencies. -/
def DependenciesAcyclic (items : List WorkItem) : Prop :=
  ∀ p, ¬ Relation.TransGen (DependsOn items) p p

/-- The worker is decoding an item of the picture `d`: it holds the item and
`Decode` has not returned. -/
def isBeingDecoded (wk : Worker) (d : PicId) : Bool :=
  match wk.phase with
  | WorkerPhase.decoding w => w.pic_dec == d
  | _ => false

/-- Every dependency of a pending item is past `kProcessing`, or is the
picture of an item that is itself pending or being decoded. -/
def dependenciesCovered (s : ThreadDecoder) : Bool :=
  s.pending_work_.all (fun w => w.inter_dependencies.all (fun d =>
    s.status d != OutputStatus.kProcessing ||
    s.pending_work_.any (fun w' => w'.pic_dec == d) ||
    s.worker_threads_.any (fun wk => isBeingDecoded wk d)))

/-- The step is one of the four sections of `WorkerMain`. -/
def Action.isWorkerStep : Action → Bool
  | Action.worker_wake _ => true
  | Action.worker_decode _ => true
  | Action.worker_postprocess _ => true
  | Action.worker_finish _ => true
  | _ => false

/-- While the pool is running it has a worker and no worker has left
`WorkerMain`. -/
def RunningInv (s : ThreadDecoder) : Prop :=
  s.running_ = true →
    s.worker_threads_ ≠ [] ∧ ∀ wk ∈ s.worker_threads_, wk.phase ≠ WorkerPhase.stopped

/-- The item whose `Postprocess` call returns in the step `a` taken in the
state `s` (line 166): the item worker `i` holds at line 164 for
`worker_postprocess i`, nothing for every other step. -/
def postprocessedBy (s : ThreadDecoder) : Action → List WorkItem
  | Action.worker_postprocess i =>
    match s.worker_threads_[i]? with
    | some wk =>
      match wk.phase with
      | WorkerPhase.postprocessing work => [work]
      | _ => []
    | none => []
  | _ => []

/-- The items whose `Postprocess` call returned along a sequence of steps
started in `s`, in the order in which the calls returned. -/
def postprocessedAlong (env : PictureDecoderEnv) : ThreadDecoder → List Action →
    List WorkItem
  | _, [] => []
  | s, a :: rest =>
    match s.step env a with
    | some s1 => postprocessedBy s a ++ postprocessedAlong env s1 rest
    | none => []

/-! ## Concrete inputs used to exercise the theorems -/

/-- A `Restrictions` value with every flag cleared. -/
def exampleRestrictions : Restrictions :=
  { disable_ext_transform_size_64 := false, disable_inter_merge_mode := false,
    disable_inter_merge_candidates := false, disable_inter_skip_mode := false,
    disable_ext2_inter_affine_merge := false, disable_ext2_inter_affine := false,
    disable_ext2_inter_local_illumination_comp := false,
    disable_ext2_inter_adaptive_fullpel_mv := false,
    disable_ext_transform_select := false, disable_transform_skip := false,
    disable_transform_cbf := false, disable_ext_implicit_last_ctu := false }

/-- An `EncoderSettings` value with every speed-up switched off. -/
def exampleSettings : EncoderSettings :=
  { adaptive_qp := false, aqp_strength := 0, fast_cu_split_based_on_full_cu := false,
    fast_quad_split_based_on_binary_split := 0,
    skip_mode_decision_for_identical_cu := false,
    fast_mode_selection_for_cached_cu := false, fast_merge_eval := false,
    always_evaluate_intra_in_inter := false, rdo_quant := false,
    fast_inter_transform_dist := false, bias_transform_select_cost := false,
    fast_inter_root_cbf_zero_bits := false }

/-- A writer that has written nothing. -/
def exampleWriter : RdoSyntaxWriter := { num_written_bits := 0, coder_state := 0 }

/-- A `Qp` whose rate term is twice the bit count. -/
def exampleQp : Qp := { lambda_bits := fun b => 2 * b }

/-- A 32x32 CU at depth 1 of an inter picture: all four candidates are
eligible; Full costs 100 + 2 * 10, Horizontal 80 + 2 * 20, Vertical and Quad
50 + 2 * 20. -/
def exampleCompressCuEnv : CompressCuEnv :=
  { cu := { binary_depth := 0, depth := 1, is_binary_split_valid := true,
            is_fully_within_picture := true, width := 32, height := 32 },
    pic_data := { max_depth := 3, max_binary_split_depth := 3, is_intra_pic := false,
                  is_highest_layer := false },
    restrictions := exampleRestrictions,
    encoder_settings := exampleSettings,
    CompressNoSplit := fun w =>
      { dist := 100,
        writer := { num_written_bits := w.num_written_bits + 10, coder_state := 1 },
        skip_flag := false },
    CompressSubCus := fun t w =>
      { dist :=
          match t with
          | SplitType.kHorizontal => 80
          | SplitType.kVertical => 50
          | _ => 50,
        writer := { num_written_bits := w.num_written_bits + 20, coder_state := 2 },
        sub_cu := [some SplitType.kNone, some SplitType.kNone] },
    GetCuAt_binary_depth := fun _ => (0, 0) }

/-- An inter CU for which merge and inter motion estimation both cost 70,
full-pel costs 80 and intra (evaluated because the best CU has a CBF) 75. -/
def exampleInterPicEnv : InterPicEnv :=
  { restrictions := exampleRestrictions,
    encoder_settings := exampleSettings,
    cache_result := { cu := none, cacheable := false, any_intra := false,
                      any_skip := false, any_inter := false },
    can_affine_merge := false,
    use_local_illumination_compensation := false,
    entry_best_payload := { decisions := none, has_any_cbf := false },
    entry_temp_payload := { decisions := none, has_any_cbf := false },
    CompressAffineMerge := fun _ => { cost := { cost := 10, dist := 1 }, has_any_cbf := true },
    CompressMerge := fun _ _ => { cost := { cost := 70, dist := 40 }, has_any_cbf := true },
    CompressInter := fun m _ =>
      match m with
      | RdMode.kInterMe => { cost := { cost := 70, dist := 30 }, has_any_cbf := true }
      | _ => { cost := { cost := 80, dist := 20 }, has_any_cbf := true },
    CompressIntra := { cost := { cost := 75, dist := 10 }, has_any_cbf := true } }

/-- A transform environment with the fast quantiser: the normal transform with
transform-select index 1 yields two non-zero coefficients, every other normal
transform five, transform skip none; the sample distortion is 0 for index 1,
30 for index 2 and 40 otherwise; every candidate costs 3 bits. -/
def exampleTransformEnv : TransformEnv :=
  { restrictions := exampleRestrictions,
    encoder_settings := exampleSettings,
    qp := exampleQp,
    QuantRdo := fun _ _ _ => 0,
    QuantFast := fun cu _ skip =>
      if skip then 0 else if cu.transform_select_idx = 1 then 2 else 5,
    CompareSample := fun cu _ _ =>
      if cu.transform_select_idx = 1 then 0
      else if cu.transform_select_idx = 2 then 30 else 40,
    GetResidualDist := fun _ _ _ => 0,
    WriteComponent_bits := fun _ _ _ => 3,
    WriteResidualDataRdoCbf_bits := fun _ _ _ => 3 }

/-- An intra CU without transform-select index on which transform skip is allowed. -/
def exampleTransformCu : TransformCu :=
  { pred_mode := PredictionMode.kIntra, transform_select_idx := -1,
    cbf := fun _ => false, transform_skip := fun _ => false,
    can_transform_skip := fun _ => true }

/-- A segment header with the given `soc`; `flag` is its `disable_transform_skip`. -/
def exampleHeader (soc : SegmentNum) (flag : Bool) : SegmentHeader :=
  { soc := soc, restrictions := { exampleRestrictions with disable_transform_skip := flag } }

/-- A work item for picture `pic` of the segment `exampleHeader soc flag`. -/
def exampleItem (pic : PicId) (soc : SegmentNum) (flag : Bool) : WorkItem :=
  { pic_dec := pic, inter_dependencies := [], segment_header := exampleHeader soc flag,
    prev_segment_header := exampleHeader soc flag, nal := [0], nal_offset := 0,
    success := false, decode_returned := none, postprocess_returned := none }

/-- A worker thread as `WorkerMain` starts it. -/
def exampleWorker : Worker :=
  { phase := WorkerPhase.waiting, restriction_soc := toSegmentNum (-1),
    restrictions := exampleRestrictions }

/-- A picture decoder for which `Decode` fails on picture 2 and `Postprocess`
fails on picture 0. -/
def examplePictureDecoderEnv : PictureDecoderEnv :=
  { Decode := fun w _ => w.pic_dec != 2, Postprocess := fun w _ => w.pic_dec != 0 }

/-- A pool of two workers; every picture starts in `kProcessing`. -/
def examplePool : ThreadDecoder :=
  ThreadDecoder.create 2 8 exampleRestrictions (fun _ => OutputStatus.kProcessing)

/-- Submit P0, P1 (depending on P0) and P2; worker 0 takes P0. -/
def exampleSubmit : List Action :=
  [Action.DecodeAsync (exampleHeader 0 false) (exampleHeader 0 false) 0 [] [0] 0,
   Action.DecodeAsync (exampleHeader 0 false) (exampleHeader 0 false) 1 [0] [0] 0,
   Action.DecodeAsync (exampleHeader 0 false) (exampleHeader 0 false) 2 [] [0] 0,
   Action.worker_wake 0]

/-- The pool after `exampleSubmit`. -/
def examplePoolSubmitted : ThreadDecoder :=
  (examplePool.run examplePictureDecoderEnv exampleSubmit).getD examplePool

/-- The pool after worker 1 woke up in `examplePoolSubmitted`: it took P2. -/
def examplePoolOvertaken : ThreadDecoder :=
  (examplePoolSubmitted.step examplePictureDecoderEnv (Action.worker_wake 1)).getD examplePool

/-- The workers decode the three pictures while `WaitAll` drains them. -/
def exampleWaitAll : List Action :=
  [Action.worker_wake 1, Action.worker_decode 0, Action.worker_decode 1,
   Action.worker_postprocess 1, Action.worker_finish 1, Action.WaitAll_iteration,
   Action.worker_wake 1, Action.worker_postprocess 0, Action.worker_finish 0,
   Action.worker_decode 1, Action.WaitAll_iteration, Action.worker_postprocess 1,
   Action.worker_finish 1, Action.WaitAll_iteration]

/-- The pool after `exampleWaitAll`, when `WaitAll` returns. -/
def examplePoolDrained : ThreadDecoder :=
  (examplePoolSubmitted.run examplePictureDecoderEnv exampleWaitAll).getD examplePool

/-- The CU of `exampleCompressCuEnv` with the quad-split speed-up set to 1:
the CU found at the top-left sample has binary depth 0 and no sub CU of a binary
split is split, so the quad split is skipped. -/
def exampleQuadSkipEnv : CompressCuEnv :=
  { exampleCompressCuEnv with
    encoder_settings :=
      { exampleSettings with fast_quad_split_based_on_binary_split := 1 } }

/-- The CU of `exampleQuadSkipEnv` when the first sub CU of the vertical split,
the cheaper binary split, is itself split horizontally. -/
def exampleVetoEnv : CompressCuEnv :=
  { exampleQuadSkipEnv with
    CompressSubCus := fun t w =>
      { dist :=
          match t with
          | SplitType.kHorizontal => 80
          | SplitType.kVertical => 50
          | _ => 50,
        writer := { num_written_bits := w.num_written_bits + 20, coder_state := 2 },
        sub_cu :=
          match t with
          | SplitType.kVertical => [some SplitType.kHorizontal, some SplitType.kNone]
          | _ => [some SplitType.kNone, some SplitType.kNone] } }

/-- A 16x16 CU at binary depth 3 whose unsplit candidate is a skip, with the
speed-up `fast_cu_split_based_on_full_cu` enabled. -/
def exampleFullSkipEnv : CompressCuEnv :=
  { exampleCompressCuEnv with
    cu := { binary_depth := 3, depth := 1, is_binary_split_valid := true,
            is_fully_within_picture := true, width := 16, height := 16 },
    encoder_settings := { exampleSettings with fast_cu_split_based_on_full_cu := true },
    CompressNoSplit := fun w =>
      { dist := 100,
        writer := { num_written_bits := w.num_written_bits + 10, coder_state := 1 },
        skip_flag := true } }

/-- A 4x4 CU at the maximal depth: no split is eligible. -/
def exampleNoSplitEnv : CompressCuEnv :=
  { exampleCompressCuEnv with
    cu := { binary_depth := 0, depth := 3, is_binary_split_valid := true,
            is_fully_within_picture := true, width := 4, height := 4 } }

/-- The CU of `exampleCompressCuEnv` when `IsBinarySplitValid()` is false. -/
def exampleInvalidBinaryEnv : CompressCuEnv :=
  { exampleCompressCuEnv with
    cu := { binary_depth := 0, depth := 1, is_binary_split_valid := false,
            is_fully_within_picture := true, width := 32, height := 32 } }

/-- The inter CU of `exampleInterPicEnv` when no inter mode leaves a CBF. -/
def exampleNoCbfInterPicEnv : InterPicEnv :=
  { exampleInterPicEnv with
    CompressMerge := fun _ _ => { cost := { cost := 70, dist := 40 }, has_any_cbf := false },
    CompressInter := fun m _ =>
      match m with
      | RdMode.kInterMe => { cost := { cost := 70, dist := 30 }, has_any_cbf := false }
      | _ => { cost := { cost := 80, dist := 20 }, has_any_cbf := false } }

/-- An inter leaf for which every search of merge index 0, of affine merge and
of regular inter returns `Distortion::MAX`, every other merge index returns
distortion 100, and every CU takes 5 bits. -/
def exampleInterLeafEnv : InterLeafEnv :=
  { restrictions := exampleRestrictions,
    encoder_settings := exampleSettings,
    qp := exampleQp,
    inter_search_CompressInter := fun _ _ =>
      { dist := DistortionMax, has_any_cbf := true, bits := 5 },
    inter_search_SearchMergeCandidates := [],
    inter_search_CompressMergeCand := fun merge_idx _ _ =>
      { dist := if merge_idx = 0 then DistortionMax else 100, has_any_cbf := true,
        bits := 5 },
    inter_search_CompressAffineMerge := fun _ _ =>
      { dist := DistortionMax, has_any_cbf := true, bits := 5 } }

/-- A transform environment with `bias_transform_select_cost` set in which the
normal transform with transform-select index 0 and transform skip both have
distortion 34 and every other candidate 40; every candidate has five non-zero
coefficients and costs 3 bits. -/
def exampleBiasTransformEnv : TransformEnv :=
  { restrictions := exampleRestrictions,
    encoder_settings := { exampleSettings with bias_transform_select_cost := true },
    qp := exampleQp,
    QuantRdo := fun _ _ _ => 0,
    QuantFast := fun _ _ _ => 5,
    CompareSample := fun cu _ skip =>
      if skip then 34 else if cu.transform_select_idx = 0 then 34 else 40,
    GetResidualDist := fun _ _ _ => 0,
    WriteComponent_bits := fun _ _ _ => 3,
    WriteResidualDataRdoCbf_bits := fun _ _ _ => 3 }

/-- A `CbfZeroEnv` with `bias_transform_select_cost` set in which the residual
takes 4 bits and the cleared CBF 1 bit. -/
def exampleCbfZeroEnv : CbfZeroEnv :=
  { encoder_settings := { exampleSettings with bias_transform_select_cost := true },
    WriteResidualDataRdoCbf_bits := fun _ _ => 4,
    WriteCbf_bits := fun _ _ _ => 1 }

/-- A 64x64 CTU at the origin of a 24x64 picture of constant samples 128 at
bit depth 8, with `adaptive_qp` enabled and strength 10; the value of line 360
is taken to be `-15` for the variance 1 and `0` otherwise. -/
def exampleAqpEnv : AqpEnv :=
  { encoder_settings := { exampleSettings with adaptive_qp := true, aqp_strength := 10 },
    x := 0, y := 0, cu_height := 64, picture_width := 24, picture_height := 64,
    bitdepth := 8,
    orig := fun _ _ => 128,
    dqp := fun _ variance _ => if variance = 1 then -15 else 0 }

/-- The CTU of `exampleAqpEnv` in a picture with raw luma QP 30 and a secondary
CU tree. -/
def exampleEncodeCtuEnv : EncodeCtuEnv :=
  { aqp := exampleAqpEnv, pic_qp_raw := 30, has_secondary_cu_tree := true }

/-- Luma and both chroma components are coded: luma distortion 40 in 6 bits,
chroma distortion 10 in 2 bits for each chroma component. -/
def exampleIntraEnv : IntraEnv :=
  { qp := exampleQp,
    components := [YuvComponent.kY, YuvComponent.kU, YuvComponent.kV],
    CompressIntraLuma := 40,
    CompressIntraChroma := 10,
    WriteComponent := fun comp w =>
      { w with num_written_bits :=
          w.num_written_bits + (if comp = YuvComponent.kY then 6 else 2) } }

/-- An inter leaf with five merge candidates of distortion 100, 90, 90, 120,
80 and 5 bits each; the candidates 1 and 4 leave no CBF. -/
def exampleMergeEnv : InterLeafEnv :=
  { restrictions := exampleRestrictions,
    encoder_settings := exampleSettings,
    qp := exampleQp,
    inter_search_CompressInter := fun _ _ => { dist := 70, has_any_cbf := true, bits := 5 },
    inter_search_SearchMergeCandidates := [],
    inter_search_CompressMergeCand := fun merge_idx force_skip _ =>
      { dist :=
          if merge_idx = 0 then 100 else if merge_idx = 1 then 90
          else if merge_idx = 2 then 90 else if merge_idx = 3 then 120 else 80,
        has_any_cbf := !force_skip && merge_idx != 1 && merge_idx != 4,
        bits := 5 },
    inter_search_CompressAffineMerge := fun _ _ =>
      { dist := 95, has_any_cbf := true, bits := 5 } }

/-- The transform environment `exampleTransformEnv` at bit depth 8 with the
prediction samples 5 and 250 and the residual samples 3 and 9. -/
def exampleReconEnv : ReconEnv :=
  { transform := exampleTransformEnv, bitdepth := 8,
    pred_buffer := fun _ => [5, 250],
    inverse_residual := fun _ _ _ => [3, 9] }

/-- A horizontal split with two sub CUs in slots 0 and 1 and two null slots.
A sub CU compressed under `kNone` costs 10 and leaves the restriction
`kNoVertical` for its sibling, a sub CU compressed under another restriction
costs 20; every call writes 3 bits, `WriteSplit` one bit. -/
def exampleSplitCuEnv : SplitCuEnv :=
  { kEncoderStrictRdoBitCounting := false,
    WriteSplit := fun _ _ w => { w with num_written_bits := w.num_written_bits + 1 },
    sub_cu := fun _ => [true, true, false, false],
    CompressCu := fun _ _ r w =>
      { dist := if r = SplitRestriction.kNone then 10 else 20,
        writer := { w with num_written_bits := w.num_written_bits + 3 },
        split := SplitType.kNone,
        sibling_restriction := SplitRestriction.kNoVertical } }

/-- A 4x4 CU at the maximal depth that no split is eligible for, with
`CompressNoSplit` returning the distortion 20 in 10 bits. -/
def exampleLeafNode : CuNode :=
  { env :=
      { exampleNoSplitEnv with
        CompressNoSplit := fun w =>
          { dist := 20,
            writer := { num_written_bits := w.num_written_bits + 10, coder_state := 1 },
            skip_flag := false } },
    sub_cu_slots := 4,
    GetSplit := SplitType.kNone,
    WriteSplit := fun _ _ w => { w with num_written_bits := w.num_written_bits + 1 },
    DeriveSiblingSplitRestriction := fun _ _ => SplitRestriction.kNone }

/-- The CU of `exampleCompressCuEnv` over leaves `exampleLeafNode`: two sub
CUs for a binary split, four for the quad split. Unsplit it costs 100 + 2 * 10,
split horizontally or vertically 40 + 2 * 21, as a quad 80 + 2 * 41. -/
def exampleCuTree : CuTree :=
  CuTree.cu
    { env := exampleCompressCuEnv, sub_cu_slots := 4, GetSplit := SplitType.kNone,
      WriteSplit := fun _ _ w => { w with num_written_bits := w.num_written_bits + 1 },
      DeriveSiblingSplitRestriction := fun _ _ => SplitRestriction.kNone }
    (fun t i =>
      if t = SplitType.kQuad ∨ i < 2 then CuTree.cu exampleLeafNode (fun _ _ => CuTree.null)
      else CuTree.null)

/-- The merge candidates of `exampleMergeEnv` with `fast_merge_eval`:
`SearchMergeCandidates` keeps the candidates 2 and 0, in this order. -/
def exampleFastMergeEnv : InterLeafEnv :=
  { exampleMergeEnv with
    encoder_settings := { exampleSettings with fast_merge_eval := true },
    inter_search_SearchMergeCandidates := [2, 0] }

/-- The inter CU of `exampleInterPicEnv` with
`fast_mode_selection_for_cached_cu` and a regular inter motion estimation of
cost 60, the cheapest mode. -/
def exampleCachedInterPicEnv : InterPicEnv :=
  { exampleInterPicEnv with
    encoder_settings := { exampleSettings with fast_mode_selection_for_cached_cu := true },
    CompressInter := fun m _ =>
      match m with
      | RdMode.kInterMe => { cost := { cost := 60, dist := 30 }, has_any_cbf := true }
      | _ => { cost := { cost := 80, dist := 20 }, has_any_cbf := true } }

/-- A luma and chroma CU of an inter picture; every component takes 4 bits,
the split syntax 1 bit. -/
def exampleNoSplitLeafEnv (inter : InterPicEnv) : NoSplitEnv :=
  { kEncoderStrictRdoBitCounting := false, IsFirstCuInQuad := false, is_intra_pic := false,
    components := [YuvComponent.kY, YuvComponent.kU, YuvComponent.kV],
    donor_is_intra := fun _ => false,
    CompressIntraFast := fun _ _ => 7, CompressInterFast := fun _ _ => 9,
    intra := exampleIntraEnv, inter := inter,
    WriteSplit := fun _ _ w => { w with num_written_bits := w.num_written_bits + 1 },
    WriteComponent := fun _ _ w => { w with num_written_bits := w.num_written_bits + 4 } }

/-- A result of `cu_cache_.Lookup` that has seen the block chosen as skip. -/
def exampleCacheResult : CuCacheResult :=
  { cu := none, cacheable := true, any_intra := false, any_skip := true,
    any_inter := false }

/-- The CU of `exampleNoSplitLeafEnv exampleInterPicEnv` as first CU of its
quad in an intra picture, with `skip_mode_decision_for_identical_cu`. -/
def exampleFastLeafEnv : NoSplitEnv :=
  { exampleNoSplitLeafEnv
      { exampleInterPicEnv with
        encoder_settings :=
          { exampleSettings with skip_mode_decision_for_identical_cu := true } } with
    IsFirstCuInQuad := true, is_intra_pic := true }

/-- A result of `cu_cache_.Lookup` with the donor CU 5, not cacheable. -/
def exampleDonorCacheResult : CuCacheResult :=
  { cu := some 5, cacheable := false, any_intra := false, any_skip := false,
    any_inter := true }

/-- After `exampleSubmit` worker 1 takes P2 and both workers decode; the
`Postprocess` call of worker 0 (P0) returns before that of worker 1 (P2), but
worker 1 takes the mutex of line 170 first; the host then drains twice. -/
def exampleOvertakingFinish : List Action :=
  [Action.worker_wake 1, Action.worker_decode 0, Action.worker_decode 1,
   Action.worker_postprocess 0, Action.worker_postprocess 1,
   Action.worker_finish 1, Action.worker_finish 0, Action.WaitOne, Action.WaitOne]

/-! # Theorems -/

/-! ## `CompressCu` keeps the first cheapest candidate -/

theorem FirstCheapest_all_ge {α : Type} {b : Option α} {best : RdoCost}
    {ev : List (α × RdoCost)} (h : FirstCheapest b best ev) :
    ∀ c ∈ ev, best.cost ≤ c.2.cost := by
  intro c hc
  cases hb : b with
  | none =>
    obtain ⟨h1, h2⟩ := h.2 hb
    rw [h1]; exact h2 c hc
  | some w =>
    obtain ⟨pre, post, he, hpre, hpost⟩ := h.1 w hb
    subst he
    simp only [List.mem_append, List.mem_cons] at hc
    rcases hc with hc | hc | hc
    · exact Nat.le_of_lt (hpre c hc)
    · subst hc; exact Nat.le_refl _
    · exact hpost c hc

theorem FirstCheapest_win {α : Type} {b : Option α} {best : RdoCost}
    {ev : List (α × RdoCost)} (h : FirstCheapest b best ev)
    (t : α) (c : RdoCost) (hlt : c.cost < best.cost) :
    FirstCheapest (some t) c (ev ++ [(t, c)]) := by
  refine ⟨?_, by simp⟩
  intro w hw
  cases hw
  refine ⟨ev, [], rfl, ?_, by simp⟩
  intro d hd
  exact Nat.lt_of_lt_of_le hlt (FirstCheapest_all_ge h d hd)

theorem FirstCheapest_lose {α : Type} {b : Option α} {best : RdoCost}
    {ev : List (α × RdoCost)} (h : FirstCheapest b best ev)
    (t : α) (c : RdoCost) (hge : ¬ c.cost < best.cost) :
    FirstCheapest b best (ev ++ [(t, c)]) := by
  have hge' : best.cost ≤ c.cost := Nat.le_of_not_lt hge
  refine ⟨?_, ?_⟩
  · intro w hw
    obtain ⟨pre, post, he, hpre, hpost⟩ := h.1 w hw
    refine ⟨pre, post ++ [(t, c)], by simp [he], hpre, ?_⟩
    intro d hd
    simp only [List.mem_append, List.mem_singleton] at hd
    rcases hd with hd | hd
    · exact hpost d hd
    · subst hd; exact hge'
  · intro hb
    obtain ⟨h1, h2⟩ := h.2 hb
    refine ⟨h1, ?_⟩
    intro d hd
    simp only [List.mem_append, List.mem_singleton] at hd
    rcases hd with hd | hd
    · exact h2 d hd
    · subst hd; rw [← h1]; exact hge'

theorem CompressCuVarsInv_mono {env writer qp df S S'} {v : CompressCuVars}
    (h : CompressCuVarsInv env writer qp df S v) (hs : S.Sublist S') :
    CompressCuVarsInv env writer qp df S' v :=
  ⟨h.1, h.2.1, h.2.2.1, h.2.2.2.1.trans hs, h.2.2.2.2⟩

theorem CompressCuResInv_mono {env writer qp df S S'} {r : CompressCuResult}
    (h : CompressCuResInv env writer qp df S r) (hs : S.Sublist S') :
    CompressCuResInv env writer qp df S' r :=
  ⟨h.1, h.2.1, h.2.2.1.trans hs, h.2.2.2⟩

theorem returnBest_inv {env writer qp df S} (e : ExitPoint) {v : CompressCuVars}
    (h : CompressCuVarsInv env writer qp df S v) :
    CompressCuResInv env writer qp df S (returnBest e v) :=
  ⟨⟨v.best_cost, h.2.1, fun _ => rfl⟩, h.2.2.1, h.2.2.2.1, h.2.2.2.2⟩

theorem initVars_inv (env : CompressCuEnv) (writer : RdoSyntaxWriter) (qp : Qp) :
    CompressCuVarsInv env writer qp false [] (initVars writer) := by
  refine ⟨rfl, ⟨?_, ?_⟩, ?_, ?_, ?_⟩
  · intro w hw; simp [initVars] at hw
  · intro _; simp [initVars, RdoCost.ofCost]
  · simp [initVars]
  · simp [initVars]
  · simp

theorem evalFull_inv (env : CompressCuEnv) (writer : RdoSyntaxWriter) (qp : Qp) :
    CompressCuVarsInv env writer qp true [SplitType.kNone]
      (evalFull env writer qp (initVars writer)) := by
  refine ⟨rfl, ⟨?_, ?_⟩, ?_, ?_, ?_⟩
  · intro w hw
    simp only [evalFull, initVars, Option.some.injEq] at hw
    subst hw
    exact ⟨[], [], by simp [evalFull, initVars], by simp, by simp⟩
  · intro h; simp [evalFull] at h
  · intro c hc
    simp only [evalFull, initVars, List.nil_append, List.mem_singleton] at hc
    subst hc
    rfl
  · simp [evalFull, initVars]
  · intro _; simp [evalFull]

theorem challenge_sublist {α : Type} {S : List α} {ev : List (α × RdoCost)}
    (h : (ev.map Prod.fst).Sublist S) (t : α) (c : RdoCost) :
    ((ev ++ [(t, c)]).map Prod.fst).Sublist (S ++ [t]) := by
  simpa using List.Sublist.append h (List.Sublist.refl [t])

theorem challenge_orig {env : CompressCuEnv} {writer : RdoSyntaxWriter} {qp : Qp}
    {ev : List (SplitType × RdoCost)}
    (h : ∀ c ∈ ev, c.2 = candidateCost env writer qp c.1) (t : SplitType)
    (ht : candidateCost env writer qp t = (CompressSplitCu env qp t writer).cost) :
    ∀ c ∈ ev ++ [(t, (CompressSplitCu env qp t writer).cost)],
      c.2 = candidateCost env writer qp c.1 := by
  intro c hc
  simp only [List.mem_append, List.mem_singleton] at hc
  rcases hc with hc | hc
  · exact h c hc
  · subst hc; exact ht.symm

theorem evalHorizontal_inv {env writer qp df S} (m : Bool) {v : CompressCuVars}
    (h : CompressCuVarsInv env writer qp df S v) :
    match evalHorizontal env writer qp m v with
    | Sum.inl r => CompressCuResInv env writer qp df (S ++ [SplitType.kHorizontal]) r
    | Sum.inr v' => CompressCuVarsInv env writer qp df (S ++ [SplitType.kHorizontal]) v' := by
  obtain ⟨hst, hfc, horig, hsub, hdf⟩ := h
  have horig' := challenge_orig horig SplitType.kHorizontal rfl
  have hsub' := challenge_sublist hsub SplitType.kHorizontal
    (CompressSplitCu env qp SplitType.kHorizontal writer).cost
  unfold evalHorizontal
  simp only [afterSplitCu, swapBest, saveState, restoreBest, logSplit, returnSplit]
  by_cases hlt : (CompressSplitCu env qp SplitType.kHorizontal writer).cost.cost < v.best_cost.cost
  · have hw := FirstCheapest_win hfc SplitType.kHorizontal _ hlt
    cases m
    · simp only [hlt, if_true]
      exact ⟨⟨_, hw, fun _ => rfl⟩, horig', hsub', fun _ => by simp⟩
    · simp only [hlt, if_true]
      exact ⟨rfl, hw, horig', hsub', fun _ => by simp⟩
  · have hl := FirstCheapest_lose hfc SplitType.kHorizontal _ hlt
    simp only [hlt, if_false]
    refine ⟨rfl, ?_, horig', hsub', ?_⟩
    · simpa [hst] using hl
    · simpa [hst] using hdf

theorem evalVertical_inv {env writer qp df S} (m : Bool) {v : CompressCuVars}
    (h : CompressCuVarsInv env writer qp df S v) :
    match evalVertical env writer qp m v with
    | Sum.inl r => CompressCuResInv env writer qp df (S ++ [SplitType.kVertical]) r
    | Sum.inr v' => CompressCuVarsInv env writer qp df (S ++ [SplitType.kVertical]) v' := by
  obtain ⟨hst, hfc, horig, hsub, hdf⟩ := h
  have horig' := challenge_orig horig SplitType.kVertical rfl
  have hsub' := challenge_sublist hsub SplitType.kVertical
    (CompressSplitCu env qp SplitType.kVertical writer).cost
  unfold evalVertical
  simp only [afterSplitCu, swapBest, saveState, restoreBest, logSplit, returnSplit]
  by_cases hlt : (CompressSplitCu env qp SplitType.kVertical writer).cost.cost < v.best_cost.cost
  · have hw := FirstCheapest_win hfc SplitType.kVertical _ hlt
    cases m
    · simp only [hlt, if_true]
      exact ⟨⟨_, hw, fun _ => rfl⟩, horig', hsub', fun _ => by simp⟩
    · simp only [hlt, if_true]
      exact ⟨rfl, hw, horig', hsub', fun _ => by simp⟩
  · have hl := FirstCheapest_lose hfc SplitType.kVertical _ hlt
    simp only [hlt, if_false]
    refine ⟨rfl, ?_, horig', hsub', ?_⟩
    · simpa [hst] using hl
    · simpa [hst] using hdf

theorem evalQuad_inv {env writer qp df S} {v : CompressCuVars}
    (h : CompressCuVarsInv env writer qp df S v) :
    CompressCuResInv env writer qp df (S ++ [SplitType.kQuad]) (evalQuad env writer qp v) := by
  obtain ⟨hst, hfc, horig, hsub, hdf⟩ := h
  have horig' := challenge_orig horig SplitType.kQuad rfl
  have hsub' := challenge_sublist hsub SplitType.kQuad
    (CompressSplitCu env qp SplitType.kQuad writer).cost
  unfold evalQuad
  simp only [afterSplitCu, swapBest, saveState, restoreBest, logSplit, returnSplit]
  by_cases hlt : (CompressSplitCu env qp SplitType.kQuad writer).cost.cost < v.best_cost.cost
  · have hw := FirstCheapest_win hfc SplitType.kQuad _ hlt
    simp only [hlt, if_true]
    exact ⟨⟨_, hw, fun _ => rfl⟩, horig', hsub', fun _ => by simp⟩
  · have hl := FirstCheapest_lose hfc SplitType.kQuad _ hlt
    simp only [hlt, if_false, returnBest]
    refine ⟨⟨v.best_cost, ?_, fun _ => rfl⟩, horig', hsub', ?_⟩
    · simpa [hst] using hl
    · simpa [hst] using hdf

theorem compressCuBinary_inv (env : CompressCuEnv) (sr : SplitRestriction)
    (writer : RdoSyntaxWriter) (qp : Qp) :
    match compressCuBinary env sr writer qp with
    | Sum.inl r => CompressCuResInv env writer qp (do_full env)
        [SplitType.kNone, SplitType.kHorizontal, SplitType.kVertical] r
    | Sum.inr v => CompressCuVarsInv env writer qp (do_full env)
        [SplitType.kNone, SplitType.kHorizontal, SplitType.kVertical] v := by
  have h1 : CompressCuVarsInv env writer qp (do_full env) [SplitType.kNone]
      (if do_full env then evalFull env writer qp (initVars writer) else initVars writer) := by
    cases hdf : do_full env
    · simpa using CompressCuVarsInv_mono (initVars_inv env writer qp) (by simp)
    · simpa using evalFull_inv env writer qp
  unfold compressCuBinary
  simp only []
  by_cases hs : canSkipAnySplit env writer = true
  · rw [if_pos hs]
    exact CompressCuResInv_mono (returnBest_inv _ h1) (by decide)
  · rw [if_neg hs]
    have h2 : match (if do_hor_split env sr then
          evalHorizontal env writer qp (do_quad_split env || do_ver_split env sr)
            (if do_full env then evalFull env writer qp (initVars writer) else initVars writer)
        else Sum.inr
          (if do_full env then evalFull env writer qp (initVars writer) else initVars writer)) with
        | Sum.inl r => CompressCuResInv env writer qp (do_full env)
            [SplitType.kNone, SplitType.kHorizontal] r
        | Sum.inr v' => CompressCuVarsInv env writer qp (do_full env)
            [SplitType.kNone, SplitType.kHorizontal] v' := by
      cases do_hor_split env sr
      · simpa using CompressCuVarsInv_mono h1 (by decide)
      · simpa using evalHorizontal_inv _ h1
    revert h2
    generalize (if do_hor_split env sr then
          evalHorizontal env writer qp (do_quad_split env || do_ver_split env sr)
            (if do_full env then evalFull env writer qp (initVars writer) else initVars writer)
        else Sum.inr
          (if do_full env then evalFull env writer qp (initVars writer) else initVars writer)) = x
    intro h2
    cases x with
    | inl r => exact CompressCuResInv_mono h2 (by decide)
    | inr v2 =>
      simp only [] at h2 ⊢
      cases do_ver_split env sr
      · simpa using CompressCuVarsInv_mono h2 (by decide)
      · simpa using evalVertical_inv _ h2

theorem compressCuQuad_inv {env : CompressCuEnv} (sr : SplitRestriction)
    {writer : RdoSyntaxWriter} {qp : Qp} {df : Bool} {v : CompressCuVars}
    (h : CompressCuVarsInv env writer qp df
      [SplitType.kNone, SplitType.kHorizontal, SplitType.kVertical] v) :
    CompressCuResInv env writer qp df
      [SplitType.kNone, SplitType.kHorizontal, SplitType.kVertical, SplitType.kQuad]
      (compressCuQuad env sr writer qp v) := by
  unfold compressCuQuad
  split
  · exact CompressCuResInv_mono (returnBest_inv _ h) (by decide)
  · split
    · simpa using evalQuad_inv h
    · exact CompressCuResInv_mono (returnBest_inv _ h) (by decide)

theorem compressCuSearch_inv (env : CompressCuEnv) (sr : SplitRestriction)
    (writer : RdoSyntaxWriter) (qp : Qp) :
    CompressCuResInv env writer qp (do_full env)
      [SplitType.kNone, SplitType.kHorizontal, SplitType.kVertical, SplitType.kQuad]
      (compressCuSearch env sr writer qp) := by
  have h := compressCuBinary_inv env sr writer qp
  unfold compressCuSearch
  split
  · next r hr =>
    rw [hr] at h
    exact CompressCuResInv_mono h (by decide)
  · next v hv =>
    rw [hv] at h
    exact compressCuQuad_inv sr h

/-- C1. For every call of `CompressCu` in which at least one split is eligible
the call returns, and the configuration left in `*best_cu` is the first
cheapest of the candidates evaluated in that call: the candidates are
evaluated in the order Full, Horizontal, Vertical, Quad, each with the cost
`candidateCost` (for Full `dist + round(bits * lambda)` in unsigned 64-bit
arithmetic, for a split the `RdoCost` returned by `CompressSplitCu`); every
candidate evaluated before the one left in `*best_cu` is strictly dearer, every
one evaluated after it is at least as dear (so a later candidate replaces the
incumbent only on a strictly smaller cost), and the returned distortion is that
of the candidate kept. The only case in which `*best_cu` holds no candidate of
the call is the one in which Full is not eligible and no evaluated candidate has
a cost below `Cost::MAX`, the cost of the initial incumbent. -/
theorem CompressCu_keeps_first_cheapest (env : CompressCuEnv)
    (split_restiction : SplitRestriction) (writer : RdoSyntaxWriter) (qp : Qp)
    (h : do_split_any env split_restiction = true) :
    ∃ r, CompressCu env split_restiction writer qp = some r ∧
      (∀ c ∈ r.evaluated, c.2 = candidateCost env writer qp c.1) ∧
      (r.evaluated.map Prod.fst).Sublist
        [SplitType.kNone, SplitType.kHorizontal, SplitType.kVertical, SplitType.kQuad] ∧
      (∀ w, r.best_cu = some w →
        ∃ pre best post, r.evaluated = pre ++ (w, best) :: post ∧ r.dist = best.dist ∧
          (∀ c ∈ pre, best.cost < c.2.cost) ∧ (∀ c ∈ post, best.cost ≤ c.2.cost)) ∧
      (r.best_cu = none →
        do_full env = false ∧ ∀ c ∈ r.evaluated, CostMax ≤ c.2.cost) := by
  refine ⟨compressCuSearch env split_restiction writer qp, ?_, ?_⟩
  · simp [CompressCu, h]
  · obtain ⟨⟨best, hfc, hdist⟩, horig, hsub, hdf⟩ :=
      compressCuSearch_inv env split_restiction writer qp
    refine ⟨horig, hsub, ?_, ?_⟩
    · intro w hw
      obtain ⟨pre, post, he, hpre, hpost⟩ := hfc.1 w hw
      exact ⟨pre, best, post, he, hdist (by simp [hw]), hpre, hpost⟩
    · intro hnone
      refine ⟨?_, (hfc.2 hnone).2⟩
      cases hd : do_full env
      · rfl
      · exact absurd hnone (hdf hd)

/-- C1 at a concrete call: all four candidates are evaluated, Vertical and Quad
tie at cost 90 and the earlier one, Vertical, is kept. -/
theorem CompressCu_keeps_first_cheapest_witness :
    do_split_any exampleCompressCuEnv SplitRestriction.kNone = true ∧
    (∃ r, CompressCu exampleCompressCuEnv SplitRestriction.kNone exampleWriter exampleQp
        = some r ∧
      (∀ c ∈ r.evaluated,
        c.2 = candidateCost exampleCompressCuEnv exampleWriter exampleQp c.1) ∧
      (r.evaluated.map Prod.fst).Sublist
        [SplitType.kNone, SplitType.kHorizontal, SplitType.kVertical, SplitType.kQuad] ∧
      (∀ w, r.best_cu = some w →
        ∃ pre best post, r.evaluated = pre ++ (w, best) :: post ∧ r.dist = best.dist ∧
          (∀ c ∈ pre, best.cost < c.2.cost) ∧ (∀ c ∈ post, best.cost ≤ c.2.cost)) ∧
      (r.best_cu = none →
        do_full exampleCompressCuEnv = false ∧ ∀ c ∈ r.evaluated, CostMax ≤ c.2.cost)) ∧
    (CompressCu exampleCompressCuEnv SplitRestriction.kNone exampleWriter exampleQp).map
        (fun r => (r.best_cu, r.dist, r.evaluated.map Prod.fst)) =
      some (some SplitType.kVertical, 50,
        [SplitType.kNone, SplitType.kHorizontal, SplitType.kVertical, SplitType.kQuad]) :=
  ⟨by decide,
   CompressCu_keeps_first_cheapest exampleCompressCuEnv SplitRestriction.kNone
     exampleWriter exampleQp (by decide),
   by decide⟩

/-! ## `CompressInterPic` returns the first cheapest mode -/

theorem InterPicInv_skip {S : List MenuMode} {v : InterPicVars} (h : InterPicInv S v)
    (m : MenuMode) : InterPicInv (S ++ [m]) v :=
  ⟨h.1, h.2.1.trans (List.sublist_append_left S [m]), h.2.2⟩

theorem save_if_best_cost_inv {S : List MenuMode} {v : InterPicVars} (h : InterPicInv S v)
    (m : MenuMode) (o : ModeOutcome) : InterPicInv (S ++ [m]) (save_if_best_cost m o v) := by
  obtain ⟨hne, hsub, tag, hfc, htag⟩ := h
  have hsub' := challenge_sublist hsub m o.cost
  unfold save_if_best_cost
  by_cases hlt : o.cost.cost < v.best_cost.cost
  · simp only [RdoCost.lt, hlt, decide_True, if_true]
    refine ⟨fun h => hne h.symm, hsub', some m, FirstCheapest_win hfc m o.cost hlt, o.has_any_cbf, ?_, ?_⟩
    · simp [setPayload]
    · simp [setPayload]
  · simp only [RdoCost.lt, hlt, decide_False, if_false]
    refine ⟨hne, hsub', tag, FirstCheapest_lose hfc m o.cost hlt, ?_⟩
    cases tag with
    | none => exact htag
    | some w =>
      obtain ⟨cbf, h1, h2⟩ := htag
      exact ⟨cbf, h1, by simp [setPayload, hne, h2]⟩

theorem interPicInit_inv (env : InterPicEnv) : InterPicInv [] (interPicInit env) := by
  refine ⟨by simp [interPicInit], by simp [interPicInit], none, ⟨?_, ?_⟩, rfl⟩
  · intro w hw; cases hw
  · intro _; simp [interPicInit, RdoCost.ofCost]

theorem menu_entry_inv {S : List MenuMode} {v : InterPicVars} (h : InterPicInv S v)
    (b : Bool) (m : MenuMode) (o : ModeOutcome) :
    InterPicInv (S ++ [m]) (if b = true then save_if_best_cost m o v else v) := by
  cases b
  · exact InterPicInv_skip h m
  · exact save_if_best_cost_inv h m o

theorem interPicSearch_inv (env : InterPicEnv) : InterPicInv menuOrder (interPicSearch env) :=
  menu_entry_inv (menu_entry_inv (menu_entry_inv (menu_entry_inv (menu_entry_inv
    (menu_entry_inv (menu_entry_inv (interPicInit_inv env) _ _ _) _ _ _) _ _ _) _ _ _)
    _ _ _) _ _ _) _ _ _

theorem save_if_best_cost_trace (m : MenuMode) (o : ModeOutcome) (v : InterPicVars) :
    (save_if_best_cost m o v).trace = v.trace ++ [(m, o.cost)] := by
  simp only [save_if_best_cost]
  split <;> rfl

theorem menu_entry_trace_ne {v : InterPicVars} (h : v.trace ≠ [])
    (b : Bool) (m : MenuMode) (o : ModeOutcome) :
    (if b = true then save_if_best_cost m o v else v).trace ≠ [] := by
  cases b
  · exact h
  · simp [save_if_best_cost_trace]

theorem interPicSearch_trace_ne (env : InterPicEnv) : (interPicSearch env).trace ≠ [] := by
  have key : (menuInterMe env (menuMerge env (menuAffineMerge env (interPicInit env)))).trace
      ≠ [] := by
    cases hm : env.restrictions.disable_inter_merge_mode
    · have h2 : (menuMerge env (menuAffineMerge env (interPicInit env))).trace ≠ [] := by
        simp [menuMerge, hm, save_if_best_cost_trace]
      exact menu_entry_trace_ne h2 _ _ _
    · simp [menuInterMe, fast_skip_inter, hm, save_if_best_cost_trace]
  exact menu_entry_trace_ne (menu_entry_trace_ne (menu_entry_trace_ne
    (menu_entry_trace_ne key _ _ _) _ _ _) _ _ _) _ _ _

/-- C2. `CompressInterPic` always evaluates at least one mode, in menu order.
It returns (its final assertion holds) as soon as one evaluated mode has a cost
below `Cost::MAX`, and whenever it returns: the returned `RdoCost` is the one
of an evaluated mode, no evaluated mode has a smaller cost, every mode
evaluated before the winner is strictly dearer (the winner is the first mode in
menu order attaining the minimum, replacement happens only on a strictly
smaller cost), `*best_cu_ref` points to the CU object that holds the winner's
decisions and `*temp_cu_ref` points to the other of the two CU objects. -/
theorem CompressInterPic_returns_first_cheapest (env : InterPicEnv) :
    (interPicSearch env).trace ≠ [] ∧
    ((interPicSearch env).trace.map Prod.fst).Sublist menuOrder ∧
    ((∃ c ∈ (interPicSearch env).trace, c.2.cost < CostMax) →
      ∃ r, CompressInterPic env = some r) ∧
    ∀ r, CompressInterPic env = some r →
      r.trace = (interPicSearch env).trace ∧
      (∀ c ∈ r.trace, r.cost.cost ≤ c.2.cost) ∧
      (∃ pre m post, r.trace = pre ++ (m, r.cost) :: post ∧
        (∀ c ∈ pre, r.cost.cost < c.2.cost) ∧ (∀ c ∈ post, r.cost.cost ≤ c.2.cost) ∧
        (r.payload r.best_cu_ref).decisions = some m) ∧
      r.temp_cu_ref ≠ r.best_cu_ref := by
  obtain ⟨hne, hsub, tag, hfc, htag⟩ := interPicSearch_inv env
  refine ⟨interPicSearch_trace_ne env, hsub, ?_, ?_⟩
  · rintro ⟨c, hc, hlt⟩
    have := FirstCheapest_all_ge hfc c hc
    have hb : (interPicSearch env).best_cost.cost < CostMax := Nat.lt_of_le_of_lt this hlt
    refine ⟨{ cost := (interPicSearch env).best_cost,
              best_cu_ref := (interPicSearch env).best_cu,
              temp_cu_ref := (interPicSearch env).cu,
              payload := loadBestState (interPicSearch env),
              trace := (interPicSearch env).trace }, ?_⟩
    simp [CompressInterPic, hb]
  · intro r hr
    simp only [CompressInterPic] at hr
    split at hr
    · next hb =>
      cases hr
      refine ⟨rfl, FirstCheapest_all_ge hfc, ?_, fun h => hne h.symm⟩
      cases tag with
      | none =>
        exact absurd (hfc.2 rfl).1 (Nat.ne_of_lt hb)
      | some m =>
        obtain ⟨pre, post, he, hpre, hpost⟩ := hfc.1 m rfl
        obtain ⟨cbf, h1, h2⟩ := htag
        refine ⟨pre, m, post, he, hpre, hpost, ?_⟩
        simp [loadBestState, h1, setPayload]
    · cases hr

/-- C2 at a concrete call: merge, inter ME, full-pel and intra are evaluated,
merge and inter ME tie at cost 70 and merge, the earlier one, is returned. -/
theorem CompressInterPic_returns_first_cheapest_witness :
    (∃ c ∈ (interPicSearch exampleInterPicEnv).trace, c.2.cost < CostMax) ∧
    (∃ r, CompressInterPic exampleInterPicEnv = some r) ∧
    (CompressInterPic exampleInterPicEnv).map
        (fun r => (r.cost, r.best_cu_ref, r.temp_cu_ref,
          (r.payload r.best_cu_ref).decisions, r.trace.map Prod.fst)) =
      some ({ cost := 70, dist := 40 }, CuObject.entry_temp, CuObject.entry_best,
        some MenuMode.Merge,
        [MenuMode.Merge, MenuMode.Inter RdMode.kInterMe,
         MenuMode.Inter RdMode.kInterFullpel, MenuMode.Intra]) :=
  ⟨by decide,
   (CompressInterPic_returns_first_cheapest exampleInterPicEnv).2.2.1 (by decide),
   by decide⟩

/-! ## `TransformAndReconstruct` and `CompressAndEvalTransform` -/

theorem addU64_le (a b : Nat) : addU64 a b ≤ CostMax := by
  unfold addU64 CostMax
  omega

theorem get_transform_cost_le (env : TransformEnv) (comp : YuvComponent)
    (cu_in cu_out : TransformCu) (skip : Bool) (dist : Distortion) :
    get_transform_cost env comp cu_in cu_out skip dist ≤ CostMax := by
  unfold get_transform_cost
  split
  · exact Nat.le_refl _
  · exact addU64_le _ _

theorem TransformAndReconstruct_pred_mode (env : TransformEnv) (cu : TransformCu)
    (comp : YuvComponent) (skip : Bool) :
    (TransformAndReconstruct env cu comp skip).2.pred_mode = cu.pred_mode := by
  unfold TransformAndReconstruct
  simp only []
  split
  · rfl
  · split
    · rfl
    · split
      · rfl
      · rfl

theorem SetTransformFromSelectIdx_pred_mode (cu : TransformCu) (comp : YuvComponent)
    (k : Int) : (cu.SetTransformFromSelectIdx comp k).pred_mode = cu.pred_mode := by
  unfold TransformCu.SetTransformFromSelectIdx
  split <;> rfl

theorem candidateCu_pred_mode (env : TransformEnv) (comp : YuvComponent) (cu : TransformCu)
    (t : Int) (skip : Bool) : (candidateCu env comp cu t skip).pred_mode = cu.pred_mode := by
  unfold candidateCu
  rw [TransformAndReconstruct_pred_mode, SetTransformFromSelectIdx_pred_mode]

theorem TransformAndReconstruct_max (env : TransformEnv) (cu : TransformCu)
    (comp : YuvComponent) (skip_transform : Bool)
    (h : (IsLuma comp = true ∧ cu.IsIntra = true ∧ cu.GetTransformSelectIdx > 0 ∧
            quantNonZero env cu comp skip_transform < 3) ∨
         (IsLuma comp = true ∧ cu.IsInter = true ∧ cu.HasTransformSelectIdx = true ∧
            quantNonZero env cu comp skip_transform = 0) ∨
         (skip_transform = true ∧ quantNonZero env cu comp skip_transform = 0)) :
    (TransformAndReconstruct env cu comp skip_transform).1 = DistortionMax := by
  unfold TransformAndReconstruct
  simp only [kTransformSelectMinSigCoeffs]
  rcases h with ⟨h1, h2, h3, h4⟩ | ⟨h1, h2, h3, h4⟩ | ⟨h1, h2⟩
  · simp [h1, h2, h3, h4]
  · split
    · rfl
    · simp [h1, h2, h3, h4]
  · subst h1
    split
    · rfl
    · split
      · rfl
      · simp [h2]

theorem candidateEval_ok (env : TransformEnv) (comp : YuvComponent) (cu : TransformCu)
    (t : Int) (skip : Bool) :
    EvalOk comp cu.pred_mode (candidateEval env comp cu t skip) := by
  refine ⟨get_transform_cost_le _ _ _ _ _ _, ?_, ?_, ?_⟩
  · intro h
    simp only [candidateEval] at h
    simp [candidateEval, get_transform_cost, h]
  · intro hd hs hz
    simp only [candidateEval] at hd hs hz
    exact hd (TransformAndReconstruct_max _ _ _ _ (Or.inr (Or.inr ⟨hs, hz⟩)))
  · intro hl hp hs ht hn
    simp only [candidateEval] at hs ht hn ⊢
    apply TransformAndReconstruct_max
    left
    refine ⟨hl, ?_, ?_, hn⟩
    · simp [TransformCu.IsIntra, SetTransformFromSelectIdx_pred_mode, hp]
    · simp [TransformCu.GetTransformSelectIdx, TransformCu.SetTransformFromSelectIdx, hl]
      exact ht

theorem normalBody_cu (env : TransformEnv) (comp : YuvComponent) (v : TransformVars) (t : Int) :
    (normalBody env comp v t).cu = candidateCu env comp v.cu t false := by
  simp only [normalBody]
  split <;> rfl

theorem normalBody_trace (env : TransformEnv) (comp : YuvComponent) (v : TransformVars)
    (t : Int) :
    (normalBody env comp v t).trace = v.trace ++ [candidateEval env comp v.cu t false] := by
  simp only [normalBody]
  split <;> rfl

theorem normalBody_win (env : TransformEnv) (comp : YuvComponent) (v : TransformVars)
    (t : Int) (h : (candidateEval env comp v.cu t false).cost < v.best_cost_normal) :
    (normalBody env comp v t).best_txselect_normal = t ∧
    (normalBody env comp v t).best_cost_normal = (candidateEval env comp v.cu t false).cost := by
  simp only [normalBody, h, if_true, and_self]

theorem normalBody_lose (env : TransformEnv) (comp : YuvComponent) (v : TransformVars)
    (t : Int) (h : ¬ (candidateEval env comp v.cu t false).cost < v.best_cost_normal) :
    (normalBody env comp v t).best_txselect_normal = v.best_txselect_normal ∧
    (normalBody env comp v t).best_cost_normal = v.best_cost_normal := by
  simp only [normalBody, h, if_false, and_self]

theorem normalBody_first (env : TransformEnv) (comp : YuvComponent) (v : TransformVars)
    (hc : v.best_cost_normal = CostMax) (hi : v.best_txselect_normal = -1)
    (ht : v.trace = []) :
    NormalInv comp v.cu.pred_mode [-1] (normalBody env comp v (-1)) := by
  have hok := candidateEval_ok env comp v.cu (-1) false
  refine ⟨?_, ?_, ?_, ?_⟩
  · rw [normalBody_cu, candidateCu_pred_mode]
  · intro e he
    rw [normalBody_trace, ht] at he
    simp only [List.nil_append, List.mem_singleton] at he
    subst he
    exact ⟨hok, rfl⟩
  · rw [normalBody_trace, ht]; rfl
  · refine ⟨[], candidateEval env comp v.cu (-1) false, [], ?_, ?_, ?_, by simp, by simp⟩
    · rw [normalBody_trace, ht]
    · by_cases hlt : (candidateEval env comp v.cu (-1) false).cost < v.best_cost_normal
      · rw [(normalBody_win env comp _ (-1) hlt).1]; rfl
      · rw [(normalBody_lose env comp _ (-1) hlt).1, hi]; rfl
    · by_cases hlt : (candidateEval env comp v.cu (-1) false).cost < v.best_cost_normal
      · rw [(normalBody_win env comp _ (-1) hlt).2]
      · rw [(normalBody_lose env comp _ (-1) hlt).2]
        rw [hc] at hlt ⊢
        exact Nat.le_antisymm hok.1 (Nat.le_of_not_lt hlt)

theorem normalBody_step (env : TransformEnv) (comp : YuvComponent) (pm : PredictionMode)
    (done : List Int) (v : TransformVars) (t : Int) (h : NormalInv comp pm done v) :
    NormalInv comp pm (done ++ [t]) (normalBody env comp v t) := by
  obtain ⟨hpm, hall, hdone, pre, e, post, he, hidx, hcost, hpre, hpost⟩ := h
  have hok := candidateEval_ok env comp v.cu t false
  rw [hpm] at hok
  refine ⟨?_, ?_, ?_, ?_⟩
  · rw [normalBody_cu, candidateCu_pred_mode, hpm]
  · intro x hx
    rw [normalBody_trace] at hx
    simp only [List.mem_append, List.mem_singleton] at hx
    rcases hx with hx | hx
    · exact hall x hx
    · subst hx
      exact ⟨hok, rfl⟩
  · rw [normalBody_trace]; simp [hdone, candidateEval]
  · by_cases hlt : (candidateEval env comp v.cu t false).cost < v.best_cost_normal
    · have hlt' := hlt
      rw [← hcost] at hlt'
      refine ⟨v.trace, candidateEval env comp v.cu t false, [],
        normalBody_trace env comp v t, ?_, ?_, ?_, by simp⟩
      · rw [(normalBody_win env comp v t hlt).1]; rfl
      · rw [(normalBody_win env comp v t hlt).2]
      · intro c hc
        rw [he] at hc
        simp only [List.mem_append, List.mem_cons] at hc
        rcases hc with hc | hc | hc
        · exact Nat.lt_trans hlt' (hpre c hc)
        · subst hc; exact hlt'
        · exact Nat.lt_of_lt_of_le hlt' (hpost c hc)
    · refine ⟨pre, e, post ++ [candidateEval env comp v.cu t false], ?_, ?_, ?_, hpre, ?_⟩
      · rw [normalBody_trace, he]; simp
      · rw [(normalBody_lose env comp v t hlt).1]; exact hidx
      · rw [(normalBody_lose env comp v t hlt).2]; exact hcost
      · intro c hc
        simp only [List.mem_append, List.mem_singleton] at hc
        rcases hc with hc | hc
        · exact hpost c hc
        · subst hc
          rw [hcost]
          exact Nat.le_of_not_lt hlt

theorem txSelectRange_zero : txSelectRange 0 = [-1] := by decide

theorem txSelectRange_four : txSelectRange 4 = [-1, 0, 1, 2, 3] := by decide

theorem evalNormal_inv (env : TransformEnv) (comp : YuvComponent) (cu : TransformCu) :
    NormalInv comp cu.pred_mode (txSelectRange (nbr_tx_select_normal env comp))
      (evalNormal env comp cu) := by
  have h0 := normalBody_first env comp
    { cu := cu, best_cost_normal := CostMax, best_txselect_normal := -1, trace := [] }
    rfl rfl rfl
  unfold evalNormal nbr_tx_select_normal
  split
  · rw [show kMaxTransformSelectIdx = 4 from rfl, txSelectRange_four]
    simp only [List.foldl]
    have h1 := normalBody_step env comp _ _ _ 0 h0
    have h2 := normalBody_step env comp _ _ _ 1 h1
    have h3 := normalBody_step env comp _ _ _ 2 h2
    exact normalBody_step env comp _ _ _ 3 h3
  · rw [txSelectRange_zero]
    exact h0


theorem evalTxSkip_spec (env : TransformEnv) (comp : YuvComponent) (cu : TransformCu) :
    ((evalTxSkip env comp cu).2.2 = [] ∧ (evalTxSkip env comp cu).1 = CostMax) ∨
    ((evalTxSkip env comp cu).2.2 = [candidateEval env comp cu (-1) true] ∧
      (evalTxSkip env comp cu).1 = (candidateEval env comp cu (-1) true).cost) := by
  unfold evalTxSkip
  split
  · right
    refine ⟨rfl, ?_⟩
    simp only []
    split
    · rfl
    · next h =>
      exact Nat.le_antisymm (Nat.le_of_not_lt h) (candidateEval_ok env comp cu (-1) true).1
  · left
    exact ⟨rfl, rfl⟩

theorem CompressAndEvalTransform_fields (env : TransformEnv) (cu : TransformCu)
    (comp : YuvComponent) :
    (CompressAndEvalTransform env cu comp).normal_trace = (evalNormal env comp cu).trace ∧
    (CompressAndEvalTransform env cu comp).txskip_trace =
      (evalTxSkip env comp (evalNormal env comp cu).cu).2.2 ∧
    (CompressAndEvalTransform env cu comp).committed_skip =
      commitTxSkip env (evalTxSkip env comp (evalNormal env comp cu).cu).1
        (evalNormal env comp cu).best_cost_normal (evalNormal env comp cu).best_txselect_normal ∧
    ((CompressAndEvalTransform env cu comp).committed_skip = true →
      (CompressAndEvalTransform env cu comp).committed_tx_select = -1) ∧
    ((CompressAndEvalTransform env cu comp).committed_skip = false →
      (CompressAndEvalTransform env cu comp).committed_tx_select =
        (evalNormal env comp cu).best_txselect_normal) := by
  unfold CompressAndEvalTransform
  simp only []
  split
  · next h => simp [h]
  · next h => simp [h]

theorem txSelectRange_head (env : TransformEnv) (comp : YuvComponent) :
    ∃ rest, txSelectRange (nbr_tx_select_normal env comp) = -1 :: rest ∧
      (txSelectRange (nbr_tx_select_normal env comp)).Nodup := by
  unfold nbr_tx_select_normal
  split
  · exact ⟨[0, 1, 2, 3], by decide, by decide⟩
  · exact ⟨[], by decide, by decide⟩

theorem NormalInv_best_lt_of_idx {comp : YuvComponent} {pm : PredictionMode} {rest : List Int}
    {v : TransformVars} (h : NormalInv comp pm (-1 :: rest) v)
    (hidx : v.best_txselect_normal ≠ -1) : v.best_cost_normal < CostMax := by
  obtain ⟨_, hall, hdone, pre, e, post, he, hi, hc, hpre, _⟩ := h
  cases pre with
  | nil =>
    rw [he] at hdone
    simp only [List.nil_append, List.map_cons, List.cons.injEq] at hdone
    exact absurd (hi.symm.trans hdone.1) hidx
  | cons c pre' =>
    have h1 := hpre c (by simp)
    have h2 := (hall c (by rw [he]; simp)).1.1
    rw [← hc]
    exact Nat.lt_of_lt_of_le h1 h2


theorem commitTxSkip_true {env : TransformEnv} {a b : Cost} {i : Int}
    (h : commitTxSkip env a b i = true) : a < b ∨ (a = b ∧ i ≥ 0) := by
  simp only [commitTxSkip, Bool.or_eq_true, Bool.and_eq_true, decide_eq_true_eq] at h
  rcases h with h | ⟨⟨h1, _⟩, h3⟩
  · exact Or.inl h
  · exact Or.inr ⟨h1, h3⟩

theorem commitTxSkip_false {env : TransformEnv} {a b : Cost} {i : Int}
    (h : commitTxSkip env a b i = false) : b ≤ a := by
  simp only [commitTxSkip, Bool.or_eq_false_iff, decide_eq_false_iff_not] at h
  exact Nat.le_of_not_lt h.1

/-- C4. In `CompressAndEvalTransform`: an evaluation that returned
`Distortion::MAX` is given cost `Cost::MAX`; the normal candidates are
evaluated in the order `-1, 0, ..`; when a normal transform is committed its
index is the first (lowest) index of minimal cost among the normal candidates,
and that cost does not exceed the transform-skip cost; transform skip is
committed only if it was evaluated, with a cost below `Cost::MAX` (so its
evaluation did not return `Distortion::MAX`); whenever some evaluated candidate
has a cost below `Cost::MAX`, the committed candidate is an evaluated candidate
with a cost below `Cost::MAX` whose evaluation did not return
`Distortion::MAX`; and for an intra CU and the luma component a normal
candidate with a positive transform-select index that yields exactly two
non-zero coefficients returned `Distortion::MAX` and is not the committed
candidate. -/
theorem CompressAndEvalTransform_rejects_infeasible (env : TransformEnv) (cu : TransformCu)
    (comp : YuvComponent) :
    let r := CompressAndEvalTransform env cu comp
    (∀ e ∈ r.normal_trace ++ r.txskip_trace, e.dist = DistortionMax → e.cost = CostMax) ∧
    r.normal_trace.map (fun e => e.tx_select) = txSelectRange (nbr_tx_select_normal env comp) ∧
    (∀ e ∈ r.normal_trace, e.skip_transform = false) ∧
    (∀ e ∈ r.txskip_trace, e.skip_transform = true ∧ e.tx_select = -1) ∧
    (r.committed_skip = false →
      ∃ pre e post, r.normal_trace = pre ++ e :: post ∧ e.tx_select = r.committed_tx_select ∧
        (∀ c ∈ pre, e.cost < c.cost) ∧ (∀ c ∈ post, e.cost ≤ c.cost) ∧
        (∀ c ∈ r.txskip_trace, e.cost ≤ c.cost)) ∧
    (r.committed_skip = true →
      r.committed_tx_select = -1 ∧
      ∃ e ∈ r.txskip_trace, e.cost < CostMax ∧ e.dist ≠ DistortionMax ∧
        ∀ c ∈ r.normal_trace, e.cost ≤ c.cost) ∧
    ((∃ c ∈ r.normal_trace ++ r.txskip_trace, c.cost < CostMax) →
      ∃ e ∈ r.normal_trace ++ r.txskip_trace, e.tx_select = r.committed_tx_select ∧
        e.skip_transform = r.committed_skip ∧ e.cost < CostMax ∧ e.dist ≠ DistortionMax) ∧
    (comp = YuvComponent.kY → cu.IsIntra = true →
      ∀ e ∈ r.normal_trace, e.tx_select > 0 → e.non_zero = 2 →
        e.dist = DistortionMax ∧
        ¬ (r.committed_skip = false ∧ r.committed_tx_select = e.tx_select)) := by
  intro r
  obtain ⟨hnt, hst, hcs, hci1, hci0⟩ := CompressAndEvalTransform_fields env cu comp
  have hinv := evalNormal_inv env comp cu
  obtain ⟨rest, hhead, hnodup⟩ := txSelectRange_head env comp
  have hinv' := hinv
  rw [hhead] at hinv'
  obtain ⟨hpm, hall, hdone, pre, e, post, he, hi, hc, hpre, hpost⟩ := hinv
  have hskipok := candidateEval_ok env comp (evalNormal env comp cu).cu (-1) true
  have hmin : ∀ c ∈ (evalNormal env comp cu).trace, e.cost ≤ c.cost := by
    intro c hcm
    rw [he] at hcm
    simp only [List.mem_append, List.mem_cons] at hcm
    rcases hcm with h | h | h
    · exact Nat.le_of_lt (hpre c h)
    · subst h; exact Nat.le_refl _
    · exact hpost c h
  have hemem : e ∈ (evalNormal env comp cu).trace := by rw [he]; simp
  -- facts about the transform-skip evaluation
  have hsk : ∀ x ∈ r.txskip_trace, x = candidateEval env comp (evalNormal env comp cu).cu (-1) true ∧
      (evalTxSkip env comp (evalNormal env comp cu).cu).1 = x.cost := by
    intro x hx
    change x ∈ (CompressAndEvalTransform env cu comp).txskip_trace at hx
    rw [hst] at hx
    rcases evalTxSkip_spec env comp (evalNormal env comp cu).cu with ⟨h1, _⟩ | ⟨h1, h2⟩
    · rw [h1] at hx; cases hx
    · rw [h1] at hx
      simp only [List.mem_singleton] at hx
      subst hx
      exact ⟨rfl, h2⟩
  have hcommit : r.committed_skip = true →
      ∃ x ∈ r.txskip_trace, x.cost < CostMax ∧ x.dist ≠ DistortionMax ∧
        ∀ c ∈ r.normal_trace, x.cost ≤ c.cost := by
    intro hcom
    change (CompressAndEvalTransform env cu comp).committed_skip = true at hcom
    rw [hcs] at hcom
    have hbest_le : (evalNormal env comp cu).best_cost_normal ≤ CostMax := by
      rw [← hc]; exact (hall e hemem).1.1
    have hlt : (evalTxSkip env comp (evalNormal env comp cu).cu).1 < CostMax ∧
        (evalTxSkip env comp (evalNormal env comp cu).cu).1 ≤
          (evalNormal env comp cu).best_cost_normal := by
      rcases commitTxSkip_true hcom with h | ⟨h1, h2⟩
      · exact ⟨Nat.lt_of_lt_of_le h hbest_le, Nat.le_of_lt h⟩
      · have : (evalNormal env comp cu).best_txselect_normal ≠ -1 := by omega
        have := NormalInv_best_lt_of_idx hinv' this
        exact ⟨by rw [h1]; exact this, Nat.le_of_eq h1⟩
    rcases evalTxSkip_spec env comp (evalNormal env comp cu).cu with ⟨_, h2⟩ | ⟨h1, h2⟩
    · rw [h2] at hlt; exact absurd hlt.1 (Nat.lt_irrefl _)
    · refine ⟨candidateEval env comp (evalNormal env comp cu).cu (-1) true, ?_, ?_, ?_, ?_⟩
      · change _ ∈ (CompressAndEvalTransform env cu comp).txskip_trace
        rw [hst, h1]; simp
      · rw [← h2]; exact hlt.1
      · intro hd
        have := hskipok.2.1 hd
        rw [← h2] at this
        exact absurd this (Nat.ne_of_lt hlt.1)
      · intro c hcm
        change c ∈ (CompressAndEvalTransform env cu comp).normal_trace at hcm
        rw [hnt] at hcm
        rw [← h2]
        exact Nat.le_trans hlt.2 (hc ▸ hmin c hcm)
  have hnormal : r.committed_skip = false →
      e.tx_select = r.committed_tx_select ∧ ∀ c ∈ r.txskip_trace, e.cost ≤ c.cost := by
    intro hcom
    change (CompressAndEvalTransform env cu comp).committed_skip = false at hcom
    refine ⟨?_, ?_⟩
    · change _ = (CompressAndEvalTransform env cu comp).committed_tx_select
      rw [hci0 hcom]; exact hi
    · intro c hcm
      rw [hcs] at hcom
      have := commitTxSkip_false hcom
      rw [(hsk c hcm).2, ← hc] at this
      exact this
  refine ⟨?_, ?_, ?_, ?_, ?_, ?_, ?_, ?_⟩
  · intro x hx
    simp only [List.mem_append] at hx
    rcases hx with hx | hx
    · change x ∈ (CompressAndEvalTransform env cu comp).normal_trace at hx
      rw [hnt] at hx
      exact (hall x hx).1.2.1
    · rw [(hsk x hx).1]; exact hskipok.2.1
  · change List.map _ (CompressAndEvalTransform env cu comp).normal_trace = _
    rw [hnt]; exact hdone
  · intro x hx
    change x ∈ (CompressAndEvalTransform env cu comp).normal_trace at hx
    rw [hnt] at hx
    exact (hall x hx).2
  · intro x hx
    rw [(hsk x hx).1]
    exact ⟨rfl, rfl⟩
  · intro hcom
    refine ⟨pre, e, post, ?_, (hnormal hcom).1, hpre, hpost, (hnormal hcom).2⟩
    change (CompressAndEvalTransform env cu comp).normal_trace = _
    rw [hnt]; exact he
  · intro hcom
    exact ⟨hci1 hcom, hcommit hcom⟩
  · rintro ⟨c, hcm, hclt⟩
    cases hcom : r.committed_skip
    · have hbest : e.cost < CostMax := by
        simp only [List.mem_append] at hcm
        rcases hcm with h | h
        · change c ∈ (CompressAndEvalTransform env cu comp).normal_trace at h
          rw [hnt] at h
          exact Nat.lt_of_le_of_lt (hmin c h) hclt
        · exact Nat.lt_of_le_of_lt ((hnormal hcom).2 c h) hclt
      refine ⟨e, ?_, (hnormal hcom).1, (hall e hemem).2, hbest, ?_⟩
      · simp only [List.mem_append]
        left
        change e ∈ (CompressAndEvalTransform env cu comp).normal_trace
        rw [hnt]; exact hemem
      · intro hd
        exact absurd ((hall e hemem).1.2.1 hd) (Nat.ne_of_lt hbest)
    · obtain ⟨x, hx, hxlt, hxd, _⟩ := hcommit hcom
      refine ⟨x, by simp [hx], ?_, ?_, hxlt, hxd⟩
      · rw [(hsk x hx).1]
        exact (hci1 hcom).symm
      · rw [(hsk x hx).1]; rfl
  · intro hcomp hintra x hx hpos hnz
    change x ∈ (CompressAndEvalTransform env cu comp).normal_trace at hx
    rw [hnt] at hx
    have hpmI : cu.pred_mode = PredictionMode.kIntra := by
      simpa [TransformCu.IsIntra] using hintra
    have hxd : x.dist = DistortionMax :=
      (hall x hx).1.2.2.2 (by simp [IsLuma, hcomp]) hpmI (hall x hx).2 hpos (by omega)
    refine ⟨hxd, ?_⟩
    rintro ⟨hcom, hsel⟩
    have hxe : x = e := by
      apply List.inj_on_of_nodup_map (f := fun e => e.tx_select) ?_ hx hemem
      · show x.tx_select = e.tx_select
        rw [← hsel, ← (hnormal hcom).1]
      · rw [hdone]; exact hnodup
    have hne : (evalNormal env comp cu).best_txselect_normal ≠ -1 := by
      rw [← hi, ← hxe]; omega
    have hlt := NormalInv_best_lt_of_idx hinv' hne
    rw [← hc, ← hxe, (hall x hx).1.2.1 hxd] at hlt
    exact Nat.lt_irrefl _ hlt

/-- C4 at a concrete intra luma block: index 1 would give the smallest sample
distortion but yields two non-zero coefficients; it is rejected and index 2 is
committed. -/
theorem CompressAndEvalTransform_rejects_infeasible_witness :
    (∃ e ∈ (CompressAndEvalTransform exampleTransformEnv exampleTransformCu
          YuvComponent.kY).normal_trace,
      e.tx_select = 1 ∧ e.non_zero = 2 ∧ e.dist = DistortionMax ∧
      ¬ ((CompressAndEvalTransform exampleTransformEnv exampleTransformCu
            YuvComponent.kY).committed_skip = false ∧
         (CompressAndEvalTransform exampleTransformEnv exampleTransformCu
            YuvComponent.kY).committed_tx_select = e.tx_select)) ∧
    ((CompressAndEvalTransform exampleTransformEnv exampleTransformCu
        YuvComponent.kY).committed_tx_select,
     (CompressAndEvalTransform exampleTransformEnv exampleTransformCu
        YuvComponent.kY).committed_skip,
     (CompressAndEvalTransform exampleTransformEnv exampleTransformCu
        YuvComponent.kY).dist) = (2, false, 30) :=
  ⟨⟨candidateEval exampleTransformEnv YuvComponent.kY
      (candidateCu exampleTransformEnv YuvComponent.kY
        (candidateCu exampleTransformEnv YuvComponent.kY exampleTransformCu (-1) false) 0 false)
      1 false,
    by decide, rfl, by decide,
    (CompressAndEvalTransform_rejects_infeasible exampleTransformEnv exampleTransformCu
      YuvComponent.kY).2.2.2.2.2.2.2 rfl rfl _ (by decide) (by decide) (by decide)⟩,
   by decide⟩

/-- C3. `TransformAndReconstruct` returns `Distortion::MAX` (2^64 - 1) whenever,
with `non_zero` the number of non-zero coefficients the quantiser returned,
(a) the component is luma, the CU is intra, its transform-select index is
positive and `non_zero < 3`; or (b) the component is luma, the CU is inter, a
transform-select index is set and `non_zero = 0`; or (c) `skip_transform` is
true and `non_zero = 0`. -/
theorem TransformAndReconstruct_returns_max (env : TransformEnv) (cu : TransformCu)
    (comp : YuvComponent) (skip_transform : Bool)
    (h : (IsLuma comp = true ∧ cu.IsIntra = true ∧ cu.GetTransformSelectIdx > 0 ∧
            quantNonZero env cu comp skip_transform < kTransformSelectMinSigCoeffs) ∨
         (IsLuma comp = true ∧ cu.IsInter = true ∧ cu.HasTransformSelectIdx = true ∧
            quantNonZero env cu comp skip_transform = 0) ∨
         (skip_transform = true ∧ quantNonZero env cu comp skip_transform = 0)) :
    (TransformAndReconstruct env cu comp skip_transform).1 = DistortionMax ∧
    DistortionMax = 18446744073709551615 :=
  ⟨TransformAndReconstruct_max env cu comp skip_transform h, by decide⟩

/-- C3 at concrete calls, one for each of the three cases: an intra luma block
with transform-select index 1 and two non-zero coefficients, an inter luma
block with transform-select index 0 and no non-zero coefficient, and a
transform-skip call with no non-zero coefficient. -/
theorem TransformAndReconstruct_returns_max_witness :
    ((TransformAndReconstruct exampleTransformEnv
        { exampleTransformCu with transform_select_idx := 1 } YuvComponent.kY false).1
        = DistortionMax ∧ DistortionMax = 18446744073709551615) ∧
    ((TransformAndReconstruct { exampleTransformEnv with QuantFast := fun _ _ _ => 0 }
        { exampleTransformCu with pred_mode := PredictionMode.kInter,
                                  transform_select_idx := 0 } YuvComponent.kY false).1
        = DistortionMax ∧ DistortionMax = 18446744073709551615) ∧
    ((TransformAndReconstruct exampleTransformEnv exampleTransformCu YuvComponent.kU true).1
        = DistortionMax ∧ DistortionMax = 18446744073709551615) :=
  ⟨TransformAndReconstruct_returns_max _ _ _ _ (Or.inl (by decide)),
   TransformAndReconstruct_returns_max _ _ _ _ (Or.inr (Or.inl (by decide))),
   TransformAndReconstruct_returns_max _ _ _ _ (Or.inr (Or.inr (by decide)))⟩

/-! ## The scan of `pending_work_` -/

theorem dependenciesValid_iff (status : PicId → OutputStatus) (w : WorkItem) :
    dependenciesValid status w = true ↔
      ∀ d ∈ w.inter_dependencies, status d ≠ OutputStatus.kProcessing := by
  simp [dependenciesValid, List.all_eq_true]

theorem findWork_some {status : PicId → OutputStatus} {l : List WorkItem} {w : WorkItem}
    {rest : List WorkItem} (h : findWork status l = some (w, rest)) :
    ∃ P1 P2, l = P1 ++ w :: P2 ∧ rest = P1 ++ P2 ∧ dependenciesValid status w = true ∧
      ∀ x ∈ P1, dependenciesValid status x = false := by
  induction l generalizing w rest with
  | nil => simp [findWork] at h
  | cons a l ih =>
    unfold findWork at h
    by_cases hv : dependenciesValid status a = true
    · simp only [hv, if_true, Option.some.injEq, Prod.mk.injEq] at h
      obtain ⟨h1, h2⟩ := h
      rw [← h1, ← h2]
      exact ⟨[], l, rfl, rfl, hv, by simp⟩
    · have hv' : dependenciesValid status a = false := by simpa using hv
      rw [hv'] at h
      simp only [Bool.false_eq_true, if_false] at h
      cases hf : findWork status l with
      | none => rw [hf] at h; cases h
      | some p =>
        obtain ⟨x, r1⟩ := p
        rw [hf] at h
        simp only [Option.some.injEq, Prod.mk.injEq] at h
        obtain ⟨h1, h2⟩ := h
        subst h1 h2
        obtain ⟨P1, P2, e1, e2, hvx, hP1⟩ := ih hf
        refine ⟨a :: P1, P2, by simp [e1], by simp [e2], hvx, ?_⟩
        intro y hy
        simp only [List.mem_cons] at hy
        rcases hy with hy | hy
        · subst hy; exact hv'
        · exact hP1 y hy

theorem findWork_of_split (status : PicId → OutputStatus) (P1 P2 : List WorkItem)
    (w : WorkItem) (hw : dependenciesValid status w = true)
    (hP1 : ∀ x ∈ P1, dependenciesValid status x = false) :
    findWork status (P1 ++ w :: P2) = some (w, P1 ++ P2) := by
  induction P1 with
  | nil => simp [findWork, hw]
  | cons a P1 ih =>
    have ha : dependenciesValid status a = false := hP1 a (by simp)
    have := ih (fun x hx => hP1 x (by simp [hx]))
    simp [findWork, ha, this]

theorem findWork_none_iff (status : PicId → OutputStatus) (l : List WorkItem) :
    findWork status l = none ↔ ∀ x ∈ l, dependenciesValid status x = false := by
  induction l with
  | nil => simp [findWork]
  | cons a l ih =>
    unfold findWork
    by_cases hv : dependenciesValid status a = true
    · simp [hv]
    · have hv' : dependenciesValid status a = false := by simpa using hv
      cases hf : findWork status l with
      | none =>
        have := ih.mp hf
        simp only [hv', Bool.false_eq_true, if_false, List.mem_cons, forall_eq_or_imp,
          true_and, true_iff]
        exact this
      | some p =>
        have hne : ¬ ∀ x ∈ l, dependenciesValid status x = false := by
          intro hall
          rw [ih.mpr hall] at hf
          cases hf
        simp only [hv', Bool.false_eq_true, if_false, List.mem_cons, forall_eq_or_imp,
          true_and]
        constructor
        · intro h; cases h
        · intro h; exact absurd h hne

/-- C6. The scan of `pending_work_` (lines 117-137) takes an item exactly when
that item is the earliest one all of whose dependencies have an `OutputStatus`
different from `kProcessing`: it removes exactly that occurrence and keeps the
order of the others; it takes nothing exactly when no pending item is ready.
With `pending_work_ = [P1, P2]`, `P1` depending on a picture in `kProcessing`
and `P2` without dependencies, `P2` is taken and `P1` stays. While `running_`
holds, the predicate of `wait_work_cond_.wait` is this scan. -/
theorem findWork_takes_earliest_ready (status : PicId → OutputStatus)
    (pending_work_ : List WorkItem) :
    (∀ w rest, findWork status pending_work_ = some (w, rest) ↔
      ∃ P1 P2, pending_work_ = P1 ++ w :: P2 ∧ rest = P1 ++ P2 ∧
        (∀ d ∈ w.inter_dependencies, status d ≠ OutputStatus.kProcessing) ∧
        ∀ x ∈ P1, ∃ d ∈ x.inter_dependencies, status d = OutputStatus.kProcessing) ∧
    (findWork status pending_work_ = none ↔
      ∀ x ∈ pending_work_, ∃ d ∈ x.inter_dependencies, status d = OutputStatus.kProcessing) ∧
    (∀ P1 P2 : WorkItem, (∃ d ∈ P1.inter_dependencies, status d = OutputStatus.kProcessing) →
      P2.inter_dependencies = [] → findWork status [P1, P2] = some (P2, [P1])) ∧
    WorkerMain_wait_predicate true status pending_work_ =
      (match findWork status pending_work_ with
       | some (work, rest) => { ready := true, work := some work, pending_work_ := rest }
       | none => { ready := false, work := none, pending_work_ := pending_work_ }) := by
  have hfalse : ∀ x : WorkItem, dependenciesValid status x = false ↔
      ∃ d ∈ x.inter_dependencies, status d = OutputStatus.kProcessing := by
    intro x
    simp [dependenciesValid]
  refine ⟨?_, ?_, ?_, ?_⟩
  · intro w rest
    constructor
    · intro h
      obtain ⟨P1, P2, e1, e2, hw, hP1⟩ := findWork_some h
      exact ⟨P1, P2, e1, e2, (dependenciesValid_iff status w).mp hw,
        fun x hx => (hfalse x).mp (hP1 x hx)⟩
    · rintro ⟨P1, P2, e1, e2, hw, hP1⟩
      subst e1 e2
      exact findWork_of_split status P1 P2 w ((dependenciesValid_iff status w).mpr hw)
        (fun x hx => (hfalse x).mpr (hP1 x hx))
  · rw [findWork_none_iff]
    constructor
    · intro h x hx; exact (hfalse x).mp (h x hx)
    · intro h x hx; exact (hfalse x).mpr (h x hx)
  · intro P1 P2 h1 h2
    have := findWork_of_split status [P1] [] P2
      ((dependenciesValid_iff status P2).mpr (by simp [h2]))
      (fun x hx => by
        simp only [List.mem_singleton] at hx
        subst hx
        exact (hfalse x).mpr h1)
    simpa using this
  · unfold WorkerMain_wait_predicate
    cases pending_work_ with
    | nil => simp [findWork]
    | cons a l => simp


/-! ## The pool invariant -/

theorem heldItems_set (l : List Worker) (i : Nat) (old wk : Worker) (h : l[i]? = some old) :
    ∃ A B, heldItems l = A ++ old.phase.held ++ B ∧
      heldItems (l.set i wk) = A ++ wk.phase.held ++ B := by
  induction l generalizing i with
  | nil => simp at h
  | cons a l ih =>
    cases i with
    | zero =>
      simp only [List.getElem?_cons_zero, Option.some.injEq] at h
      subst h
      exact ⟨[], heldItems l, by simp [heldItems], by simp [heldItems]⟩
    | succ j =>
      simp only [List.getElem?_cons_succ] at h
      obtain ⟨A, B, h1, h2⟩ := ih j h
      refine ⟨a.phase.held ++ A, B, ?_, ?_⟩
      · simp only [heldItems, List.flatMap_cons] at h1 ⊢
        rw [h1]; simp
      · simp only [heldItems, List.set_cons_succ, List.flatMap_cons] at h2 ⊢
        rw [h2]; simp

theorem worker_wake_inv {s s' : ThreadDecoder} {i : Nat} (h : s.worker_wake i = some s') :
    ∃ wk, s.worker_threads_[i]? = some wk ∧ wk.phase = WorkerPhase.waiting ∧
      ((s.running_ = false ∧
        s' = s.setWorker i { wk with phase := WorkerPhase.stopped }) ∨
       (s.running_ = true ∧ ∃ work rest, findWork s.status s.pending_work_ = some (work, rest) ∧
        s' = { s with pending_work_ := rest }.setWorker i
          { wk with phase := WorkerPhase.decoding work })) := by
  unfold ThreadDecoder.worker_wake at h
  cases hw : s.worker_threads_[i]? with
  | none => simp [hw] at h
  | some wk =>
    simp only [hw] at h
    cases hp : wk.phase with
    | waiting =>
      simp only [hp] at h
      refine ⟨wk, rfl, hp, ?_⟩
      cases hr : s.running_ with
      | false =>
        left
        simp only [hr, WorkerMain_wait_predicate, Bool.not_false, if_true,
          Option.some.injEq] at h
        refine ⟨rfl, ?_⟩
        rw [← h]
        cases s
        simp only [] at hr
        subst hr
        rfl
      | true =>
        right
        refine ⟨rfl, ?_⟩
        simp only [hr, WorkerMain_wait_predicate, Bool.not_true, Bool.false_eq_true,
          if_false] at h
        cases hpe : s.pending_work_.isEmpty with
        | true => simp [hpe] at h
        | false =>
          simp only [hpe, Bool.false_eq_true, if_false] at h
          cases hf : findWork s.status s.pending_work_ with
          | none => simp [hf] at h
          | some p =>
            obtain ⟨work, rest⟩ := p
            simp only [hf, if_true, Option.some.injEq] at h
            refine ⟨work, rest, rfl, ?_⟩
            rw [← h]
    | decoding w => simp [hp] at h
    | postprocessing w => simp [hp] at h
    | finishing w => simp [hp] at h
    | stopped => simp [hp] at h

theorem worker_decode_inv {env : PictureDecoderEnv} {s s' : ThreadDecoder} {i : Nat}
    (h : s.worker_decode env i = some s') :
    ∃ wk work, s.worker_threads_[i]? = some wk ∧ wk.phase = WorkerPhase.decoding work ∧
      s' = { s with status := fun p =>
                if p = work.pic_dec then OutputStatus.kPostProcessing else s.status p }.setWorker
        i { WorkerMain_load_restrictions wk work with
            phase := WorkerPhase.postprocessing
              (WorkerMain_decode env (WorkerMain_load_restrictions wk work) work) } := by
  unfold ThreadDecoder.worker_decode at h
  cases hw : s.worker_threads_[i]? with
  | none => simp [hw] at h
  | some wk =>
    simp only [hw] at h
    cases hp : wk.phase with
    | decoding w =>
      simp only [hp, Option.some.injEq] at h
      exact ⟨wk, w, rfl, hp, h.symm⟩
    | waiting => simp [hp] at h
    | postprocessing w => simp [hp] at h
    | finishing w => simp [hp] at h
    | stopped => simp [hp] at h

theorem worker_postprocess_inv {env : PictureDecoderEnv} {s s' : ThreadDecoder} {i : Nat}
    (h : s.worker_postprocess env i = some s') :
    ∃ wk work, s.worker_threads_[i]? = some wk ∧ wk.phase = WorkerPhase.postprocessing work ∧
      s' = { s with status := fun p =>
                if p = work.pic_dec then OutputStatus.kFinishedProcessing
                else s.status p }.setWorker
        i { wk with phase := WorkerPhase.finishing (WorkerMain_postprocess env wk work) } := by
  unfold ThreadDecoder.worker_postprocess at h
  cases hw : s.worker_threads_[i]? with
  | none => simp [hw] at h
  | some wk =>
    simp only [hw] at h
    cases hp : wk.phase with
    | postprocessing w =>
      simp only [hp, Option.some.injEq] at h
      exact ⟨wk, w, rfl, hp, h.symm⟩
    | waiting => simp [hp] at h
    | decoding w => simp [hp] at h
    | finishing w => simp [hp] at h
    | stopped => simp [hp] at h

theorem worker_finish_inv {s s' : ThreadDecoder} {i : Nat}
    (h : s.worker_finish i = some s') :
    ∃ wk work, s.worker_threads_[i]? = some wk ∧ wk.phase = WorkerPhase.finishing work ∧
      s' = { s with finished_work_ := s.finished_work_ ++ [work] }.setWorker
        i { wk with phase := WorkerPhase.waiting } := by
  unfold ThreadDecoder.worker_finish at h
  cases hw : s.worker_threads_[i]? with
  | none => simp [hw] at h
  | some wk =>
    simp only [hw] at h
    cases hp : wk.phase with
    | finishing w =>
      simp only [hp, Option.some.injEq] at h
      exact ⟨wk, w, rfl, hp, h.symm⟩
    | waiting => simp [hp] at h
    | decoding w => simp [hp] at h
    | postprocessing w => simp [hp] at h
    | stopped => simp [hp] at h


theorem mem_set_cases {l : List Worker} {i : Nat} {x y : Worker} (h : y ∈ l.set i x) :
    y ∈ l ∨ y = x :=
  List.mem_or_eq_of_mem_set h

theorem origin_decode (env : PictureDecoderEnv) (wk : Worker) (w : WorkItem) :
    (WorkerMain_decode env wk w).origin = w.origin := rfl

theorem origin_postprocess (env : PictureDecoderEnv) (wk : Worker) (w : WorkItem) :
    (WorkerMain_postprocess env wk w).origin = w.origin := rfl

theorem heldItems_all_stopped {l : List Worker}
    (h : l.all (fun wk => wk.phase == WorkerPhase.stopped) = true) : heldItems l = [] := by
  induction l with
  | nil => rfl
  | cons a l ih =>
    simp only [List.all_cons, Bool.and_eq_true, beq_iff_eq] at h
    simp only [heldItems, List.flatMap_cons] at ih ⊢
    rw [ih h.2, h.1]
    rfl

theorem PoolInv_create (num_threads : Int) (hardware_concurrency : Nat)
    (thread_restrictions : Restrictions) (status : PicId → OutputStatus) :
    PoolInv (ThreadDecoder.create num_threads hardware_concurrency thread_restrictions status) := by
  have hheld : ∀ n : Nat, heldItems (List.replicate n
      ({ phase := WorkerPhase.waiting, restriction_soc := toSegmentNum (-1),
         restrictions := thread_restrictions } : Worker)) = [] := by
    intro n
    induction n with
    | zero => rfl
    | succ k ih =>
      simp only [heldItems, List.replicate_succ, List.flatMap_cons] at ih ⊢
      rw [ih]; rfl
  refine ⟨?_, ?_, ?_, ?_, ?_⟩
  · simp [ThreadDecoder.create, hheld]
  · simp [ThreadDecoder.create, hheld]
  · intro wk hwk
    simp only [ThreadDecoder.create] at hwk
    rw [List.eq_of_mem_replicate hwk]
    trivial
  · intro w hw; simp [ThreadDecoder.create] at hw
  · intro w hw; simp [ThreadDecoder.create] at hw

theorem PoolInv_DecodeAsync {s : ThreadDecoder} (h : PoolInv s) (sh psh : SegmentHeader)
    (pic : PicId) (deps : List PicId) (nal : List Nat) (off : Nat) :
    PoolInv (s.DecodeAsync sh psh pic deps nal off) := by
  obtain ⟨h1, h2, h3, h4, h5⟩ := h
  refine ⟨?_, ?_, h3, h4, h5⟩
  · simp only [ThreadDecoder.DecodeAsync, List.length_append, List.length_singleton]
    rw [h1]; push_cast; omega
  · simp only [ThreadDecoder.DecodeAsync]
    rw [List.perm_iff_count] at h2 ⊢
    intro a
    have := h2 a
    simp only [List.map_append, List.count_append, List.map_cons, List.map_nil] at this ⊢
    have e : WorkItem.origin
        { pic_dec := pic, inter_dependencies := deps, segment_header := sh,
          prev_segment_header := psh, nal := nal, nal_offset := off, success := false,
          decode_returned := none, postprocess_returned := none } =
        { pic_dec := pic, inter_dependencies := deps, segment_header := sh,
          prev_segment_header := psh, nal := nal, nal_offset := off, success := false,
          decode_returned := none, postprocess_returned := none } := rfl
    rw [e]
    omega

theorem PoolInv_drain {s : ThreadDecoder} (h : PoolInv s) (work : WorkItem)
    (rest : List WorkItem) (hf : s.finished_work_ = work :: rest) :
    PoolInv { s with finished_work_ := rest, jobs_in_flight_ := s.jobs_in_flight_ - 1,
                     callbacks := s.callbacks ++ [work] } := by
  obtain ⟨h1, h2, h3, h4, h5⟩ := h
  refine ⟨?_, ?_, h3, ?_, ?_⟩
  · simp only []
    rw [h1, hf]; simp only [List.length_cons]; push_cast; omega
  · simp only []
    rw [List.perm_iff_count] at h2 ⊢
    intro a
    have := h2 a
    rw [hf] at this
    simp only [List.map_append, List.count_append, List.map_cons, List.map_nil,
      List.count_cons, List.count_nil] at this ⊢
    omega
  · intro w hw
    exact h4 w (by rw [hf]; simp [hw])
  · intro w hw
    simp only [List.mem_append, List.mem_singleton] at hw
    rcases hw with hw | hw
    · exact h5 w hw
    · subst hw; exact h4 w (by rw [hf]; simp)


theorem PoolInv_worker_wake {s s' : ThreadDecoder} {i : Nat} (h : PoolInv s)
    (hs : s.worker_wake i = some s') : PoolInv s' := by
  obtain ⟨h1, h2, h3, h4, h5⟩ := h
  obtain ⟨wk, hwk, hph, hcase⟩ := worker_wake_inv hs
  rcases hcase with ⟨_, rfl⟩ | ⟨_, work, rest, hf, rfl⟩
  · obtain ⟨A, B, hA, hA'⟩ := heldItems_set s.worker_threads_ i wk
      { wk with phase := WorkerPhase.stopped } hwk
    rw [hph] at hA
    simp only [WorkerPhase.held, List.append_nil] at hA hA'
    refine ⟨?_, ?_, ?_, h4, h5⟩
    · simp only [ThreadDecoder.setWorker]
      rw [hA', ← hA]; exact h1
    · simp only [ThreadDecoder.setWorker]
      rw [hA', ← hA]; exact h2
    · intro y hy
      simp only [ThreadDecoder.setWorker] at hy
      rcases mem_set_cases hy with hy | hy
      · exact h3 y hy
      · subst hy; trivial
  · obtain ⟨P1, P2, e1, e2, _, _⟩ := findWork_some hf
    obtain ⟨A, B, hA, hA'⟩ := heldItems_set s.worker_threads_ i wk
      { wk with phase := WorkerPhase.decoding work } hwk
    rw [hph] at hA
    simp only [WorkerPhase.held, List.append_nil] at hA hA'
    refine ⟨?_, ?_, ?_, h4, h5⟩
    · simp only [ThreadDecoder.setWorker]
      rw [hA', h1, hA, e1, e2]
      simp only [List.length_append, List.length_cons, List.length_nil]
      push_cast; omega
    · simp only [ThreadDecoder.setWorker]
      rw [List.perm_iff_count] at h2 ⊢
      intro a
      have := h2 a
      rw [hA, e1] at this
      rw [hA', e2]
      simp only [List.map_append, List.count_append, List.map_cons, List.map_nil,
        List.count_cons, List.count_nil] at this ⊢
      omega
    · intro y hy
      simp only [ThreadDecoder.setWorker] at hy
      rcases mem_set_cases hy with hy | hy
      · exact h3 y hy
      · subst hy; trivial

theorem PoolInv_worker_decode {env : PictureDecoderEnv} {s s' : ThreadDecoder} {i : Nat}
    (h : PoolInv s) (hs : s.worker_decode env i = some s') : PoolInv s' := by
  obtain ⟨h1, h2, h3, h4, h5⟩ := h
  obtain ⟨wk, work, hwk, hph, rfl⟩ := worker_decode_inv hs
  obtain ⟨A, B, hA, hA'⟩ := heldItems_set s.worker_threads_ i wk
    { WorkerMain_load_restrictions wk work with
      phase := WorkerPhase.postprocessing
        (WorkerMain_decode env (WorkerMain_load_restrictions wk work) work) } hwk
  rw [hph] at hA
  simp only [WorkerPhase.held] at hA hA'
  refine ⟨?_, ?_, ?_, h4, h5⟩
  · simp only [ThreadDecoder.setWorker]
    rw [hA', h1, hA]
    simp only [List.length_append, List.length_cons, List.length_nil]
  · simp only [ThreadDecoder.setWorker]
    rw [List.perm_iff_count] at h2 ⊢
    intro a
    have := h2 a
    rw [hA] at this
    rw [hA']
    simp only [List.map_append, List.count_append, List.map_cons, List.map_nil,
      List.count_cons, List.count_nil, origin_decode] at this ⊢
    omega
  · intro y hy
    simp only [ThreadDecoder.setWorker] at hy
    rcases mem_set_cases hy with hy | hy
    · exact h3 y hy
    · subst hy
      exact ⟨_, rfl, rfl⟩

theorem PoolInv_worker_postprocess {env : PictureDecoderEnv} {s s' : ThreadDecoder} {i : Nat}
    (h : PoolInv s) (hs : s.worker_postprocess env i = some s') : PoolInv s' := by
  obtain ⟨h1, h2, h3, h4, h5⟩ := h
  obtain ⟨wk, work, hwk, hph, rfl⟩ := worker_postprocess_inv hs
  obtain ⟨A, B, hA, hA'⟩ := heldItems_set s.worker_threads_ i wk
    { wk with phase := WorkerPhase.finishing (WorkerMain_postprocess env wk work) } hwk
  have hok := h3 wk (List.getElem?_mem hwk)
  rw [hph] at hA hok
  simp only [WorkerPhase.held] at hA hA'
  refine ⟨?_, ?_, ?_, h4, h5⟩
  · simp only [ThreadDecoder.setWorker]
    rw [hA', h1, hA]
    simp only [List.length_append, List.length_cons, List.length_nil]
  · simp only [ThreadDecoder.setWorker]
    rw [List.perm_iff_count] at h2 ⊢
    intro a
    have := h2 a
    rw [hA] at this
    rw [hA']
    simp only [List.map_append, List.count_append, List.map_cons, List.map_nil,
      List.count_cons, List.count_nil, origin_postprocess] at this ⊢
    omega
  · intro y hy
    simp only [ThreadDecoder.setWorker] at hy
    rcases mem_set_cases hy with hy | hy
    · exact h3 y hy
    · subst hy
      obtain ⟨d, hd, hs⟩ := hok
      exact ⟨d, env.Postprocess work wk.restrictions, hd, rfl, by
        simp [WorkerMain_postprocess, hs]⟩

theorem PoolInv_worker_finish {s s' : ThreadDecoder} {i : Nat}
    (h : PoolInv s) (hs : s.worker_finish i = some s') : PoolInv s' := by
  obtain ⟨h1, h2, h3, h4, h5⟩ := h
  obtain ⟨wk, work, hwk, hph, rfl⟩ := worker_finish_inv hs
  obtain ⟨A, B, hA, hA'⟩ := heldItems_set s.worker_threads_ i wk
    { wk with phase := WorkerPhase.waiting } hwk
  have hok := h3 wk (List.getElem?_mem hwk)
  rw [hph] at hA hok
  simp only [WorkerPhase.held, List.append_nil] at hA hA'
  refine ⟨?_, ?_, ?_, ?_, h5⟩
  · simp only [ThreadDecoder.setWorker]
    rw [hA', h1, hA]
    simp only [List.length_append, List.length_cons, List.length_nil]
    push_cast; omega
  · simp only [ThreadDecoder.setWorker]
    rw [List.perm_iff_count] at h2 ⊢
    intro a
    have := h2 a
    rw [hA] at this
    rw [hA']
    simp only [List.map_append, List.count_append, List.map_cons, List.map_nil,
      List.count_cons, List.count_nil] at this ⊢
    omega
  · intro y hy
    simp only [ThreadDecoder.setWorker] at hy
    rcases mem_set_cases hy with hy | hy
    · exact h3 y hy
    · subst hy; trivial
  · intro w hw
    simp only [ThreadDecoder.setWorker, List.mem_append, List.mem_singleton] at hw
    rcases hw with hw | hw
    · exact h4 w hw
    · subst hw; exact hok

theorem PoolInv_step {env : PictureDecoderEnv} {s s' : ThreadDecoder} {a : Action}
    (h : PoolInv s) (hs : s.step env a = some s') : PoolInv s' := by
  cases a with
  | DecodeAsync sh psh pic deps nal off =>
    simp only [ThreadDecoder.step, Option.some.injEq] at hs
    subst hs
    exact PoolInv_DecodeAsync h sh psh pic deps nal off
  | WaitOne =>
    simp only [ThreadDecoder.step, ThreadDecoder.WaitOne] at hs
    cases hf : s.finished_work_ with
    | nil => simp [hf] at hs
    | cons work rest =>
      simp only [hf, Option.some.injEq] at hs
      subst hs
      exact PoolInv_drain h work rest hf
  | WaitAll_iteration =>
    simp only [ThreadDecoder.step, ThreadDecoder.WaitAll_iteration] at hs
    split at hs
    · cases hf : s.finished_work_ with
      | nil => simp [hf] at hs
      | cons work rest =>
        simp only [hf, Option.some.injEq] at hs
        subst hs
        exact PoolInv_drain h work rest hf
    · cases hs
  | StopAll =>
    simp only [ThreadDecoder.step, ThreadDecoder.StopAll, Option.some.injEq] at hs
    subst hs
    exact h
  | StopAll_join =>
    simp only [ThreadDecoder.step, ThreadDecoder.StopAll_join] at hs
    split at hs
    · next hall =>
      simp only [Option.some.injEq] at hs
      subst hs
      obtain ⟨h1, h2, h3, h4, h5⟩ := h
      have hh := heldItems_all_stopped hall
      rw [hh] at h1 h2
      refine ⟨h1, h2, ?_, h4, h5⟩
      intro wk hwk
      simp at hwk
    · cases hs
  | worker_wake i => exact PoolInv_worker_wake h hs
  | worker_decode i => exact PoolInv_worker_decode h hs
  | worker_postprocess i => exact PoolInv_worker_postprocess h hs
  | worker_finish i => exact PoolInv_worker_finish h hs
  | SetOutputStatus pic st =>
    simp only [ThreadDecoder.step, Option.some.injEq] at hs
    subst hs
    exact h

theorem PoolInv_run {env : PictureDecoderEnv} (acts : List Action) {s s' : ThreadDecoder}
    (h : PoolInv s) (hs : s.run env acts = some s') : PoolInv s' := by
  induction acts generalizing s with
  | nil =>
    simp only [ThreadDecoder.run, Option.some.injEq] at hs
    subst hs; exact h
  | cons a rest ih =>
    simp only [ThreadDecoder.run] at hs
    cases hst : s.step env a with
    | none => simp [hst] at hs
    | some s1 =>
      simp only [hst] at hs
      exact ih (PoolInv_step h hst) hs


theorem getElem?_lt {l : List Worker} {i : Nat} {wk : Worker} (h : l[i]? = some wk) :
    i < l.length := by
  by_contra hn
  rw [List.getElem?_eq_none (Nat.le_of_not_lt hn)] at h
  cases h

/-- What a step does to `pending_work_`, `status` is left alone by a removal. -/
theorem step_pending {env : PictureDecoderEnv} {s s' : ThreadDecoder} {a : Action}
    (h : s.step env a = some s') :
    (∃ w, s'.pending_work_ = s.pending_work_ ++ [w]) ∨ s'.pending_work_ = s.pending_work_ ∨
    ∃ i wk work P1 P2, a = Action.worker_wake i ∧ s'.worker_threads_[i]? = some wk ∧
      wk.phase = WorkerPhase.decoding work ∧ s.pending_work_ = P1 ++ work :: P2 ∧
      s'.pending_work_ = P1 ++ P2 ∧ s'.status = s.status ∧ s.running_ = true ∧
      dependenciesValid s.status work = true ∧
      ∀ x ∈ P1, dependenciesValid s.status x = false := by
  cases a with
  | DecodeAsync sh psh pic deps nal off =>
    simp only [ThreadDecoder.step, Option.some.injEq] at h
    subst h
    exact Or.inl ⟨_, rfl⟩
  | WaitOne =>
    simp only [ThreadDecoder.step, ThreadDecoder.WaitOne] at h
    cases hf : s.finished_work_ with
    | nil => simp [hf] at h
    | cons work rest =>
      simp only [hf, Option.some.injEq] at h
      subst h
      exact Or.inr (Or.inl rfl)
  | WaitAll_iteration =>
    simp only [ThreadDecoder.step, ThreadDecoder.WaitAll_iteration] at h
    split at h
    · cases hf : s.finished_work_ with
      | nil => simp [hf] at h
      | cons work rest =>
        simp only [hf, Option.some.injEq] at h
        subst h
        exact Or.inr (Or.inl rfl)
    · cases h
  | StopAll =>
    simp only [ThreadDecoder.step, ThreadDecoder.StopAll, Option.some.injEq] at h
    subst h
    exact Or.inr (Or.inl rfl)
  | StopAll_join =>
    simp only [ThreadDecoder.step, ThreadDecoder.StopAll_join] at h
    split at h
    · simp only [Option.some.injEq] at h
      subst h
      exact Or.inr (Or.inl rfl)
    · cases h
  | worker_wake i =>
    obtain ⟨wk, hwk, hph, hcase⟩ := worker_wake_inv h
    rcases hcase with ⟨_, rfl⟩ | ⟨hrun, work, rest, hf, rfl⟩
    · exact Or.inr (Or.inl rfl)
    · obtain ⟨P1, P2, e1, e2, hv, hP1⟩ := findWork_some hf
      refine Or.inr (Or.inr ⟨i, { wk with phase := WorkerPhase.decoding work }, work, P1, P2,
        rfl, ?_, rfl, e1, e2, rfl, hrun, hv, hP1⟩)
      simp only [ThreadDecoder.setWorker]
      exact List.getElem?_set_self (getElem?_lt hwk)
  | worker_decode i =>
    obtain ⟨wk, work, hwk, hph, rfl⟩ := worker_decode_inv h
    exact Or.inr (Or.inl rfl)
  | worker_postprocess i =>
    obtain ⟨wk, work, hwk, hph, rfl⟩ := worker_postprocess_inv h
    exact Or.inr (Or.inl rfl)
  | worker_finish i =>
    obtain ⟨wk, work, hwk, hph, rfl⟩ := worker_finish_inv h
    exact Or.inr (Or.inl rfl)
  | SetOutputStatus pic st =>
    simp only [ThreadDecoder.step, Option.some.injEq] at h
    subst h
    exact Or.inr (Or.inl rfl)

/-- C5. Whenever a step of the pool removes an item from `pending_work_`
(the queue gets shorter), the step is the critical section of a worker in
which the predicate of `wait_work_cond_.wait` ran: in that one step the worker
takes exactly one item, the item it now holds, the pool is running, and every
picture in the item's `inter_dependencies` has an `OutputStatus` different from
`kProcessing`, both in the state in which the check ran and in the state right
after the removal (the step changes no status). -/
theorem pending_removal_has_ready_dependencies (env : PictureDecoderEnv)
    (s s' : ThreadDecoder) (a : Action) (h : s.step env a = some s')
    (hrem : s'.pending_work_.length < s.pending_work_.length) :
    ∃ i wk work P1 P2, a = Action.worker_wake i ∧ s'.worker_threads_[i]? = some wk ∧
      wk.phase = WorkerPhase.decoding work ∧ s.pending_work_ = P1 ++ work :: P2 ∧
      s'.pending_work_ = P1 ++ P2 ∧ s.running_ = true ∧ s'.status = s.status ∧
      (∀ d ∈ work.inter_dependencies, s.status d ≠ OutputStatus.kProcessing) ∧
      (∀ d ∈ work.inter_dependencies, s'.status d ≠ OutputStatus.kProcessing) := by
  rcases step_pending h with ⟨w, hw⟩ | hw | ⟨i, wk, work, P1, P2, ha, hwk, hph, e1, e2, hst, hrun, hv, _⟩
  · rw [hw] at hrem
    simp at hrem
  · rw [hw] at hrem
    exact absurd hrem (Nat.lt_irrefl _)
  · have hdeps := (dependenciesValid_iff s.status work).mp hv
    refine ⟨i, wk, work, P1, P2, ha, hwk, hph, e1, e2, hrun, hst, hdeps, ?_⟩
    rw [hst]; exact hdeps

/-- C7. In every state of the pool reached from the constructor through
`DecodeAsync`, `WaitOne`, passes of `WaitAll`, `StopAll` and the steps of the
workers (and writes of an `OutputStatus` from outside), `jobs_in_flight_`
equals the number of items in `pending_work_` plus the number of items held by
workers plus the number of items in `finished_work_`. -/
theorem jobs_in_flight_counts_items (env : PictureDecoderEnv) (num_threads : Int)
    (hardware_concurrency : Nat) (thread_restrictions : Restrictions)
    (status : PicId → OutputStatus) (acts : List Action) (s : ThreadDecoder)
    (h : (ThreadDecoder.create num_threads hardware_concurrency thread_restrictions
            status).run env acts = some s) :
    s.jobs_in_flight_ =
      (s.pending_work_.length : Int) + ((heldItems s.worker_threads_).length : Int) +
        (s.finished_work_.length : Int) := by
  have := (PoolInv_run acts (PoolInv_create _ _ _ _) h).1
  rw [this]
  push_cast
  rfl


theorem step_ghost {env : PictureDecoderEnv} {s s' : ThreadDecoder} {a : Action}
    (h : s.step env a = some s') :
    (a.isDrain = false → s'.callbacks = s.callbacks) ∧
    (a.isDecodeAsync = false → s'.submitted = s.submitted) ∧
    s'.submitted.length = s.submitted.length + (if a.isDecodeAsync then 1 else 0) := by
  cases a with
  | DecodeAsync sh psh pic deps nal off =>
    simp only [ThreadDecoder.step, Option.some.injEq] at h
    subst h
    simp [ThreadDecoder.DecodeAsync, Action.isDecodeAsync]
  | WaitOne =>
    simp only [ThreadDecoder.step, ThreadDecoder.WaitOne] at h
    cases hf : s.finished_work_ with
    | nil => simp [hf] at h
    | cons work rest =>
      simp only [hf, Option.some.injEq] at h
      subst h
      simp [Action.isDecodeAsync, Action.isDrain]
  | WaitAll_iteration =>
    simp only [ThreadDecoder.step, ThreadDecoder.WaitAll_iteration] at h
    split at h
    · cases hf : s.finished_work_ with
      | nil => simp [hf] at h
      | cons work rest =>
        simp only [hf, Option.some.injEq] at h
        subst h
        simp [Action.isDecodeAsync, Action.isDrain]
    · cases h
  | StopAll =>
    simp only [ThreadDecoder.step, ThreadDecoder.StopAll, Option.some.injEq] at h
    subst h
    simp [Action.isDecodeAsync]
  | StopAll_join =>
    simp only [ThreadDecoder.step, ThreadDecoder.StopAll_join] at h
    split at h
    · simp only [Option.some.injEq] at h
      subst h
      simp [Action.isDecodeAsync]
    · cases h
  | worker_wake i =>
    obtain ⟨wk, hwk, hph, hcase⟩ := worker_wake_inv h
    rcases hcase with ⟨_, rfl⟩ | ⟨hrun, work, rest, hf, rfl⟩
    · simp [Action.isDecodeAsync, ThreadDecoder.setWorker]
    · simp [Action.isDecodeAsync, ThreadDecoder.setWorker]
  | worker_decode i =>
    obtain ⟨wk, work, hwk, hph, rfl⟩ := worker_decode_inv h
    simp [Action.isDecodeAsync, ThreadDecoder.setWorker]
  | worker_postprocess i =>
    obtain ⟨wk, work, hwk, hph, rfl⟩ := worker_postprocess_inv h
    simp [Action.isDecodeAsync, ThreadDecoder.setWorker]
  | worker_finish i =>
    obtain ⟨wk, work, hwk, hph, rfl⟩ := worker_finish_inv h
    simp [Action.isDecodeAsync, ThreadDecoder.setWorker]
  | SetOutputStatus pic st =>
    simp only [ThreadDecoder.step, Option.some.injEq] at h
    subst h
    simp [Action.isDecodeAsync]

theorem run_ghost {env : PictureDecoderEnv} (acts : List Action) {s s' : ThreadDecoder}
    (h : s.run env acts = some s') :
    (acts.all (fun a => !a.isDrain) = true → s'.callbacks = s.callbacks) ∧
    (acts.all (fun a => !a.isDecodeAsync) = true → s'.submitted = s.submitted) ∧
    s'.submitted.length = s.submitted.length + (acts.filter Action.isDecodeAsync).length := by
  induction acts generalizing s with
  | nil =>
    simp only [ThreadDecoder.run, Option.some.injEq] at h
    subst h
    simp
  | cons a rest ih =>
    simp only [ThreadDecoder.run] at h
    cases hst : s.step env a with
    | none => simp [hst] at h
    | some s1 =>
      simp only [hst] at h
      obtain ⟨i1, i2, i3⟩ := ih h
      obtain ⟨g1, g2, g3⟩ := step_ghost hst
      refine ⟨?_, ?_, ?_⟩
      · intro hall
        simp only [List.all_cons, Bool.and_eq_true, Bool.not_eq_true'] at hall
        rw [i1 hall.2, g1 hall.1]
      · intro hall
        simp only [List.all_cons, Bool.and_eq_true, Bool.not_eq_true'] at hall
        rw [i2 hall.2, g2 hall.1]
      · rw [i3, g3]
        cases hd : a.isDecodeAsync
        · simp [List.filter_cons, hd]
        · simp [List.filter_cons, hd]; omega

theorem ItemDone_flag {w : WorkItem} (h : ItemDone w) :
    (!w.success) = (w.decode_returned == some false || w.postprocess_returned == some false) := by
  obtain ⟨d, p, h1, h2, h3⟩ := h
  rw [h1, h2, h3]
  cases d <;> cases p <;> rfl

/-- C8. Start from a new pool, submit items with `DecodeAsync` without draining
any (`acts1`), then let `WaitAll` run, interleaved with the workers and without
further submission or `WaitOne` (`acts2`). When the loop condition of `WaitAll`
fails (it returns): the callback has been invoked exactly `N` times, `N` the
number of `DecodeAsync` calls, once for each submitted item; `jobs_in_flight_`
is 0 and `finished_work_` (and `pending_work_`) is empty; and the number of
invocations with `success = false` is the number of items for which `Decode`
or `Postprocess` returned false. One pass of the loop of `WaitAll` is `WaitOne`
guarded by `jobs_in_flight_ > 0`. -/
theorem WaitAll_invokes_callback_once_per_item (env : PictureDecoderEnv) (num_threads : Int)
    (hardware_concurrency : Nat) (thread_restrictions : Restrictions)
    (status : PicId → OutputStatus) (acts1 acts2 : List Action) (s1 s2 : ThreadDecoder)
    (h1 : (ThreadDecoder.create num_threads hardware_concurrency thread_restrictions
            status).run env acts1 = some s1)
    (hnodrain : acts1.all (fun a => !a.isDrain) = true)
    (h2 : s1.run env acts2 = some s2)
    (hwaitall : acts2.all (fun a => !a.isDecodeAsync && a != Action.WaitOne) = true)
    (hret : ¬ s2.jobs_in_flight_ > 0) :
    s1.callbacks = [] ∧
    s1.submitted.length = (acts1.filter Action.isDecodeAsync).length ∧
    s2.callbacks.length = (acts1.filter Action.isDecodeAsync).length ∧
    List.Perm (s2.callbacks.map WorkItem.origin) s1.submitted ∧
    s2.jobs_in_flight_ = 0 ∧ s2.finished_work_ = [] ∧ s2.pending_work_ = [] ∧
    (s2.callbacks.filter (fun w => !w.success)).length =
      (s2.callbacks.filter (fun w =>
        w.decode_returned == some false || w.postprocess_returned == some false)).length ∧
    (∀ w ∈ s2.callbacks, ∃ d p, w.decode_returned = some d ∧
      w.postprocess_returned = some p ∧ w.success = (d && p)) ∧
    (∀ s : ThreadDecoder,
      s.WaitAll_iteration = if s.jobs_in_flight_ > 0 then s.WaitOne else none) := by
  have inv1 := PoolInv_run acts1 (PoolInv_create _ _ _ _) h1
  have inv2 := PoolInv_run acts2 inv1 h2
  obtain ⟨g1, _, g3⟩ := run_ghost acts1 h1
  obtain ⟨_, k2, _⟩ := run_ghost acts2 h2
  have hsub2 : s2.submitted = s1.submitted := by
    apply k2
    rw [List.all_eq_true] at hwaitall ⊢
    intro a ha
    have := hwaitall a ha
    simp only [Bool.and_eq_true] at this
    exact this.1
  have hcb1 : s1.callbacks = [] := by
    rw [g1 hnodrain]; rfl
  have hlen1 : s1.submitted.length = (acts1.filter Action.isDecodeAsync).length := by
    rw [g3]; simp [ThreadDecoder.create]
  obtain ⟨j1, j2, _, _, j5⟩ := inv2
  have hzero : s2.pending_work_.length = 0 ∧ (heldItems s2.worker_threads_).length = 0 ∧
      s2.finished_work_.length = 0 := by
    rw [j1] at hret
    push_cast at hret
    omega
  have hp : s2.pending_work_ = [] := List.length_eq_zero.mp hzero.1
  have hh : heldItems s2.worker_threads_ = [] := List.length_eq_zero.mp hzero.2.1
  have hf : s2.finished_work_ = [] := List.length_eq_zero.mp hzero.2.2
  have hperm : List.Perm (s2.callbacks.map WorkItem.origin) s1.submitted := by
    rw [hp, hh, hf, hsub2] at j2
    simpa using j2
  refine ⟨hcb1, hlen1, ?_, hperm, ?_, hf, hp, ?_, j5, ?_⟩
  · rw [← hlen1, ← hperm.length_eq, List.length_map]
  · rw [j1, hp, hh, hf]; rfl
  · congr 1
    apply List.filter_congr
    intro w hw
    exact ItemDone_flag (j5 w hw)
  · intro s
    unfold ThreadDecoder.WaitAll_iteration ThreadDecoder.WaitOne
    rfl


theorem worker_decode_eq (env : PictureDecoderEnv) (s : ThreadDecoder) (i : Nat) (wk : Worker)
    (work : WorkItem) (hwk : s.worker_threads_[i]? = some wk)
    (hph : wk.phase = WorkerPhase.decoding work) :
    s.worker_decode env i =
      some ({ s with status := fun p =>
                if p = work.pic_dec then OutputStatus.kPostProcessing else s.status p }.setWorker
        i { WorkerMain_load_restrictions wk work with
            phase := WorkerPhase.postprocessing
              (WorkerMain_decode env (WorkerMain_load_restrictions wk work) work) }) := by
  simp only [ThreadDecoder.worker_decode, hwk, hph]
  rfl

theorem worker_postprocess_eq (env : PictureDecoderEnv) (s : ThreadDecoder) (i : Nat)
    (wk : Worker) (work : WorkItem) (hwk : s.worker_threads_[i]? = some wk)
    (hph : wk.phase = WorkerPhase.postprocessing work) :
    s.worker_postprocess env i =
      some ({ s with status := fun p =>
                if p = work.pic_dec then OutputStatus.kFinishedProcessing
                else s.status p }.setWorker
        i { wk with phase := WorkerPhase.finishing (WorkerMain_postprocess env wk work) }) := by
  simp only [ThreadDecoder.worker_postprocess, hwk, hph]
  rfl

theorem worker_finish_eq (s : ThreadDecoder) (i : Nat) (wk : Worker) (work : WorkItem)
    (hwk : s.worker_threads_[i]? = some wk) (hph : wk.phase = WorkerPhase.finishing work) :
    s.worker_finish i =
      some ({ s with finished_work_ := s.finished_work_ ++ [work] }.setWorker
        i { wk with phase := WorkerPhase.waiting }) := by
  simp only [ThreadDecoder.worker_finish, hwk, hph]

theorem setWorker_get (s : ThreadDecoder) (i : Nat) (wk : Worker)
    (h : i < s.worker_threads_.length) : (s.setWorker i wk).worker_threads_[i]? = some wk := by
  simp only [ThreadDecoder.setWorker]
  exact List.getElem?_set_self h

theorem setWorker_length (s : ThreadDecoder) (i : Nat) (wk : Worker) :
    (s.setWorker i wk).worker_threads_.length = s.worker_threads_.length := by
  simp [ThreadDecoder.setWorker]

theorem worker_pipeline (env : PictureDecoderEnv) (s : ThreadDecoder) (i : Nat) (wk : Worker)
    (work : WorkItem) (hwk : s.worker_threads_[i]? = some wk)
    (hph : wk.phase = WorkerPhase.decoding work) :
    ∃ s1 s2 s3 work1 work2,
      s.worker_decode env i = some s1 ∧
      work1 = WorkerMain_decode env (WorkerMain_load_restrictions wk work) work ∧
      s1.status work.pic_dec = OutputStatus.kPostProcessing ∧
      s1.worker_postprocess env i = some s2 ∧
      work2 = WorkerMain_postprocess env (WorkerMain_load_restrictions wk work) work1 ∧
      s2.status work.pic_dec = OutputStatus.kFinishedProcessing ∧
      s2.worker_finish i = some s3 ∧
      s3.finished_work_ = s.finished_work_ ++ [work2] ∧
      s3.pending_work_ = s.pending_work_ ∧ s3.jobs_in_flight_ = s.jobs_in_flight_ := by
  have hlt := getElem?_lt hwk
  have e1 := worker_decode_eq env s i wk work hwk hph
  have hwk1 := setWorker_get { s with status := fun p =>
      if p = work.pic_dec then OutputStatus.kPostProcessing else s.status p } i
    { WorkerMain_load_restrictions wk work with
      phase := WorkerPhase.postprocessing
        (WorkerMain_decode env (WorkerMain_load_restrictions wk work) work) } hlt
  have e2 := worker_postprocess_eq env _ i _ _ hwk1 rfl
  have hwk2 := setWorker_get ({ ({ s with status := fun p =>
      if p = work.pic_dec then OutputStatus.kPostProcessing else s.status p }.setWorker i
    { WorkerMain_load_restrictions wk work with
      phase := WorkerPhase.postprocessing
        (WorkerMain_decode env (WorkerMain_load_restrictions wk work) work) }) with
      status := fun p =>
        if p = (WorkerMain_decode env (WorkerMain_load_restrictions wk work) work).pic_dec then
          OutputStatus.kFinishedProcessing
        else ({ s with status := fun p =>
          if p = work.pic_dec then OutputStatus.kPostProcessing else s.status p }.setWorker i
          { WorkerMain_load_restrictions wk work with
            phase := WorkerPhase.postprocessing
              (WorkerMain_decode env (WorkerMain_load_restrictions wk work) work) }).status p })
    i { ({ WorkerMain_load_restrictions wk work with
          phase := WorkerPhase.postprocessing
            (WorkerMain_decode env (WorkerMain_load_restrictions wk work) work) } : Worker) with
        phase := WorkerPhase.finishing (WorkerMain_postprocess env
          { WorkerMain_load_restrictions wk work with
            phase := WorkerPhase.postprocessing
              (WorkerMain_decode env (WorkerMain_load_restrictions wk work) work) }
          (WorkerMain_decode env (WorkerMain_load_restrictions wk work) work)) }
    (by rw [setWorker_length]; exact hlt)
  have e3 := worker_finish_eq _ i _ _ hwk2 rfl
  refine ⟨_, _, _, _, _, e1, rfl, ?_, e2, rfl, ?_, e3, ?_, ?_, ?_⟩
  · simp [ThreadDecoder.setWorker]
  · simp [ThreadDecoder.setWorker, WorkerMain_decode]
  · simp [ThreadDecoder.setWorker, WorkerMain_postprocess]
  · simp [ThreadDecoder.setWorker]
  · simp [ThreadDecoder.setWorker]

/-- C9. The `success` flag handed to the completion callback is true exactly
when both `Decode` and `Postprocess` returned true, for every item drained in
any run of the pool. Whatever `Decode` returns, the pipeline of the worker
completes: from the state in which a worker holds a dequeued item, decoding
ends with the status `kPostProcessing`, `Postprocess` is run and ends with the
status `kFinishedProcessing`, and the item is pushed onto the back of
`finished_work_` with `success` equal to the conjunction of the two results. -/
theorem success_flag_is_conjunction (env : PictureDecoderEnv) :
    (∀ (num_threads : Int) (hardware_concurrency : Nat) (thread_restrictions : Restrictions)
      (status : PicId → OutputStatus) (acts : List Action) (s : ThreadDecoder),
      (ThreadDecoder.create num_threads hardware_concurrency thread_restrictions
        status).run env acts = some s →
      ∀ w ∈ s.callbacks, ∃ d p, w.decode_returned = some d ∧ w.postprocess_returned = some p ∧
        (w.success = true ↔ (d = true ∧ p = true))) ∧
    (∀ (s : ThreadDecoder) (i : Nat) (wk : Worker) (work : WorkItem),
      s.worker_threads_[i]? = some wk → wk.phase = WorkerPhase.decoding work →
      ∃ s1 s2 s3 work1 work2,
        s.worker_decode env i = some s1 ∧
        work1 = WorkerMain_decode env (WorkerMain_load_restrictions wk work) work ∧
        s1.status work.pic_dec = OutputStatus.kPostProcessing ∧
        s1.worker_postprocess env i = some s2 ∧
        work2 = WorkerMain_postprocess env (WorkerMain_load_restrictions wk work) work1 ∧
        s2.status work.pic_dec = OutputStatus.kFinishedProcessing ∧
        s2.worker_finish i = some s3 ∧
        s3.finished_work_ = s.finished_work_ ++ [work2] ∧
        work2.pic_dec = work.pic_dec ∧
        work2.inter_dependencies = work.inter_dependencies ∧
        work2.decode_returned =
          some (env.Decode work (WorkerMain_load_restrictions wk work).restrictions) ∧
        work2.postprocess_returned =
          some (env.Postprocess work1 (WorkerMain_load_restrictions wk work).restrictions) ∧
        work2.success =
          (env.Decode work (WorkerMain_load_restrictions wk work).restrictions &&
           env.Postprocess work1 (WorkerMain_load_restrictions wk work).restrictions)) := by
  refine ⟨?_, ?_⟩
  · intro n hc R status acts s h w hw
    obtain ⟨d, p, h1, h2, h3⟩ := (PoolInv_run acts (PoolInv_create _ _ _ _) h).2.2.2.2 w hw
    refine ⟨d, p, h1, h2, ?_⟩
    rw [h3]
    simp
  · intro s i wk work hwk hph
    obtain ⟨s1, s2, s3, work1, work2, e1, hw1, st1, e2, hw2, st2, e3, hfin, _, _⟩ :=
      worker_pipeline env s i wk work hwk hph
    refine ⟨s1, s2, s3, work1, work2, e1, hw1, st1, e2, hw2, st2, e3, hfin, ?_, ?_, ?_, ?_, ?_⟩
    · rw [hw2, hw1]; rfl
    · rw [hw2, hw1]; rfl
    · rw [hw2, hw1]; rfl
    · rw [hw2]; rfl
    · rw [hw2, hw1]; rfl

theorem restrictionsAtDecode_ok (wk : Worker) (works : List WorkItem)
    (hcache : ∀ w ∈ works, w.segment_header.soc = wk.restriction_soc →
      w.segment_header.restrictions = wk.restrictions)
    (hsoc : ∀ a ∈ works, ∀ b ∈ works, a.segment_header.soc = b.segment_header.soc →
      a.segment_header.restrictions = b.segment_header.restrictions) :
    ∀ p ∈ restrictionsAtDecode wk works, p.2 = p.1.segment_header.restrictions := by
  induction works generalizing wk with
  | nil => intro p hp; simp [restrictionsAtDecode] at hp
  | cons w rest ih =>
    intro p hp
    simp only [restrictionsAtDecode, List.mem_cons] at hp
    by_cases hne : wk.restriction_soc = w.segment_header.soc
    · have hload : WorkerMain_load_restrictions wk w = wk := by
        simp [WorkerMain_load_restrictions, hne]
      rw [hload] at hp
      rcases hp with hp | hp
      · rw [hp]
        exact (hcache w (by simp) hne.symm).symm
      · exact ih wk (fun x hx => hcache x (by simp [hx]))
          (fun a ha b hb => hsoc a (by simp [ha]) b (by simp [hb])) p hp
    · have hload : WorkerMain_load_restrictions wk w =
          { wk with restrictions := w.segment_header.restrictions,
                    restriction_soc := w.segment_header.soc } := by
        simp [WorkerMain_load_restrictions, hne]
      rw [hload] at hp
      rcases hp with hp | hp
      · rw [hp]
      · refine ih _ ?_ (fun a ha b hb => hsoc a (by simp [ha]) b (by simp [hb])) p hp
        intro x hx hxs
        exact hsoc x (by simp [hx]) w (by simp) hxs

/-- C10 as stated fails: a thread that decodes two items whose segment headers
carry the same 8-bit `soc` 7 and different restrictions calls `Decode` for the
second item with the restrictions of the first. -/
theorem restrictions_stale_when_soc_coincides :
    ¬ (∀ p ∈ restrictionsAtDecode exampleWorker [exampleItem 0 7 false, exampleItem 1 7 true],
        p.2 = p.1.segment_header.restrictions) := by
  decide

/-- C10 amended. The per-thread cache is refreshed before `Decode` is called
exactly when the 8-bit `soc` of the item differs from the `soc` cached by the
thread, and `Decode` runs with the thread-local restrictions after that
refresh. Hence, for every sequence of items in which items of equal `soc` carry
equal restrictions, processed by a thread whose cached `soc` stands for its
current restrictions as far as these items go, the thread-local `Restrictions`
at every call of `Decode` are those of the item's segment header. -/
theorem restrictions_refreshed_when_soc_differs (wk : Worker) (works : List WorkItem)
    (hcache : ∀ w ∈ works, w.segment_header.soc = wk.restriction_soc →
      w.segment_header.restrictions = wk.restrictions)
    (hsoc : ∀ a ∈ works, ∀ b ∈ works, a.segment_header.soc = b.segment_header.soc →
      a.segment_header.restrictions = b.segment_header.restrictions) :
    (∀ p ∈ restrictionsAtDecode wk works, p.2 = p.1.segment_header.restrictions) ∧
    (∀ (w : Worker) (work : WorkItem),
      (w.restriction_soc ≠ work.segment_header.soc →
        (WorkerMain_load_restrictions w work).restrictions = work.segment_header.restrictions ∧
        (WorkerMain_load_restrictions w work).restriction_soc = work.segment_header.soc) ∧
      (w.restriction_soc = work.segment_header.soc →
        WorkerMain_load_restrictions w work = w)) ∧
    (∀ (env : PictureDecoderEnv) (s s' : ThreadDecoder) (i : Nat),
      s.worker_decode env i = some s' →
      ∃ w work, s.worker_threads_[i]? = some w ∧ w.phase = WorkerPhase.decoding work ∧
        s'.worker_threads_[i]? = some
          { WorkerMain_load_restrictions w work with
            phase := WorkerPhase.postprocessing
              { work with
                success := env.Decode work (WorkerMain_load_restrictions w work).restrictions,
                decode_returned :=
                  some (env.Decode work (WorkerMain_load_restrictions w work).restrictions) } }) := by
  refine ⟨restrictionsAtDecode_ok wk works hcache hsoc, ?_, ?_⟩
  · intro w work
    constructor
    · intro h
      simp [WorkerMain_load_restrictions, h]
    · intro h
      simp [WorkerMain_load_restrictions, h]
  · intro env s s' i h
    obtain ⟨w, work, hw, hph, rfl⟩ := worker_decode_inv h
    exact ⟨w, work, hw, hph, setWorker_get _ i _ (getElem?_lt hw)⟩

/-- C5 at a concrete step: with P0 being decoded and `pending_work_ = [P1, P2]`,
worker 1 takes P2, whose dependencies (none) are ready; P1 stays. -/
theorem pending_removal_has_ready_dependencies_witness :
    examplePoolSubmitted.step examplePictureDecoderEnv (Action.worker_wake 1)
      = some examplePoolOvertaken ∧
    examplePoolOvertaken.pending_work_.length < examplePoolSubmitted.pending_work_.length ∧
    (∃ i wk work P1 P2, Action.worker_wake 1 = Action.worker_wake i ∧
      examplePoolOvertaken.worker_threads_[i]? = some wk ∧
      wk.phase = WorkerPhase.decoding work ∧
      examplePoolSubmitted.pending_work_ = P1 ++ work :: P2 ∧
      examplePoolOvertaken.pending_work_ = P1 ++ P2 ∧
      examplePoolSubmitted.running_ = true ∧
      examplePoolOvertaken.status = examplePoolSubmitted.status ∧
      (∀ d ∈ work.inter_dependencies,
        examplePoolSubmitted.status d ≠ OutputStatus.kProcessing) ∧
      (∀ d ∈ work.inter_dependencies,
        examplePoolOvertaken.status d ≠ OutputStatus.kProcessing)) ∧
    examplePoolOvertaken.pending_work_.map (fun w => w.pic_dec) = [1] :=
  ⟨rfl, by decide,
   pending_removal_has_ready_dependencies examplePictureDecoderEnv examplePoolSubmitted
     examplePoolOvertaken (Action.worker_wake 1) rfl (by decide),
   by decide⟩

/-- C7 at a concrete run: after three submissions and one dequeue the counter
is 3 = 2 pending + 1 held + 0 finished. -/
theorem jobs_in_flight_counts_items_witness :
    examplePool.run examplePictureDecoderEnv exampleSubmit = some examplePoolSubmitted ∧
    examplePoolSubmitted.jobs_in_flight_ =
      (examplePoolSubmitted.pending_work_.length : Int) +
        ((heldItems examplePoolSubmitted.worker_threads_).length : Int) +
        (examplePoolSubmitted.finished_work_.length : Int) ∧
    (examplePoolSubmitted.jobs_in_flight_, examplePoolSubmitted.pending_work_.length,
      (heldItems examplePoolSubmitted.worker_threads_).length,
      examplePoolSubmitted.finished_work_.length) = (3, 2, 1, 0) :=
  ⟨rfl,
   jobs_in_flight_counts_items examplePictureDecoderEnv 2 8 exampleRestrictions
     (fun _ => OutputStatus.kProcessing) exampleSubmit examplePoolSubmitted rfl,
   by decide⟩

/-- C8 at a concrete run: three submissions, `WaitAll` returns after three
callbacks, in the order P2, P0, P1, two of them with `success = false`. -/
theorem WaitAll_invokes_callback_once_per_item_witness :
    (examplePoolDrained.callbacks.length = (exampleSubmit.filter Action.isDecodeAsync).length ∧
     List.Perm (examplePoolDrained.callbacks.map WorkItem.origin)
       examplePoolSubmitted.submitted ∧
     examplePoolDrained.jobs_in_flight_ = 0 ∧ examplePoolDrained.finished_work_ = []) ∧
    examplePoolDrained.callbacks.map (fun w => (w.pic_dec, w.success)) =
      [(2, false), (0, false), (1, true)] :=
  ⟨(fun h => ⟨h.2.2.1, h.2.2.2.1, h.2.2.2.2.1, h.2.2.2.2.2.1⟩)
     (WaitAll_invokes_callback_once_per_item examplePictureDecoderEnv 2 8
       exampleRestrictions (fun _ => OutputStatus.kProcessing) exampleSubmit exampleWaitAll
       examplePoolSubmitted examplePoolDrained rfl (by decide) rfl (by decide) (by decide)),
   by decide⟩

/-- C9 at a concrete run: the flags handed to the callback for P2 (`Decode`
failed), P0 (`Postprocess` failed) and P1 (both succeeded). -/
theorem success_flag_is_conjunction_witness :
    examplePool.run examplePictureDecoderEnv (exampleSubmit ++ exampleWaitAll)
      = some examplePoolDrained ∧
    (∀ w ∈ examplePoolDrained.callbacks, ∃ d p, w.decode_returned = some d ∧
      w.postprocess_returned = some p ∧ (w.success = true ↔ (d = true ∧ p = true))) ∧
    examplePoolDrained.callbacks.map
        (fun w => (w.pic_dec, w.decode_returned, w.postprocess_returned, w.success)) =
      [(2, some false, some true, false), (0, some true, some false, false),
       (1, some true, some true, true)] :=
  ⟨rfl,
   (success_flag_is_conjunction examplePictureDecoderEnv).1 2 8 exampleRestrictions
     (fun _ => OutputStatus.kProcessing) (exampleSubmit ++ exampleWaitAll) examplePoolDrained rfl,
   by decide⟩

/-- C10 amended, at a concrete sequence: two items of segment 7, then one of
segment 8 with other restrictions; each is decoded under its own restrictions. -/
theorem restrictions_refreshed_when_soc_differs_witness :
    (∀ p ∈ restrictionsAtDecode exampleWorker
        [exampleItem 0 7 false, exampleItem 1 7 false, exampleItem 2 8 true],
      p.2 = p.1.segment_header.restrictions) ∧
    (restrictionsAtDecode exampleWorker
        [exampleItem 0 7 false, exampleItem 1 7 false, exampleItem 2 8 true]).map
      (fun p => p.2.disable_transform_skip) = [false, false, true] :=
  ⟨(restrictions_refreshed_when_soc_differs exampleWorker
      [exampleItem 0 7 false, exampleItem 1 7 false, exampleItem 2 8 true]
      (by decide) (by decide)).1,
   by decide⟩

/-! ## `CompressCu` restores the incumbent after a losing split -/

theorem evaluatedSplits_append (ev : List (SplitType × RdoCost)) (t : SplitType) (c : RdoCost)
    (ht : t ≠ SplitType.kNone) :
    evaluatedSplits (ev ++ [(t, c)]) = evaluatedSplits ev ++ [t] := by
  simp [evaluatedSplits, ht]

theorem forall_mem_append_singleton {α : Type} {P : α → Prop} {l : List α} {x : α}
    (h : ∀ r ∈ l, P r) (hx : P x) : ∀ r ∈ l ++ [x], P r := by
  intro r hr
  simp only [List.mem_append, List.mem_singleton] at hr
  rcases hr with hr | hr
  · exact h r hr
  · subst hr; exact hx

theorem initVars_restore (env : CompressCuEnv) (writer : RdoSyntaxWriter) (qp : Qp)
    (hdf : do_full env = false) : RestoreInv env writer qp (initVars writer) := by
  refine ⟨?_, ?_, ?_, ?_⟩
  · intro w hw; simp [initVars] at hw
  · intro _; exact ⟨hdf, rfl⟩
  · simp [initVars, evaluatedSplits]
  · simp [initVars]

theorem evalFull_restore (env : CompressCuEnv) (writer : RdoSyntaxWriter) (qp : Qp) :
    RestoreInv env writer qp (evalFull env writer qp (initVars writer)) := by
  refine ⟨?_, ?_, ?_, ?_⟩
  · intro w hw
    simp only [evalFull, initVars, Option.some.injEq] at hw
    subst hw
    simp [evalFull]
  · intro h; simp [evalFull] at h
  · simp [evalFull, initVars, evaluatedSplits]
  · simp [evalFull, initVars]

theorem splitRecord_ok {env : CompressCuEnv} {writer : RdoSyntaxWriter} {qp : Qp}
    {v : CompressCuVars} (h : RestoreInv env writer qp v)
    (t : SplitType) (ht : t ≠ SplitType.kNone) (hq : v.best_cu = none → t = SplitType.kQuad)
    (won : Bool)
    (hwon : won = decide ((CompressSplitCu env qp t writer).cost.cost < v.best_cost.cost))
    (v1 v2 : CompressCuVars) (hv1 : v1.rec_pic = some t)
    (hv2 : won = false →
      v2.best_cu = v.best_state ∧ v2.rec_pic = v.best_state_rec ∧ v2.marked = v.best_state) :
    SplitRecordOk env writer qp
      (splitRecord t (CompressSplitCu env qp t writer).cost won v v1 v2) := by
  obtain ⟨hsome, hnone, -, -⟩ := h
  refine ⟨ht, rfl, hwon, hv1, hv2, ?_, ?_⟩
  · intro w hw
    obtain ⟨h1, h2, h3, h4⟩ := hsome w hw
    refine ⟨h1, h2, h3, h4, ?_⟩
    intro hl
    obtain ⟨g1, g2, g3⟩ := hv2 hl
    exact ⟨g1.trans h1, g2.trans h2, g3.trans h1⟩
  · intro hb
    exact ⟨(hnone hb).1, hq hb, (hnone hb).2⟩

theorem RestoreInv_some {env : CompressCuEnv} {writer : RdoSyntaxWriter} {qp : Qp}
    {v : CompressCuVars} (h : RestoreInv env writer qp v) (hdf : do_full env = true) :
    ∃ w, v.best_cu = some w := by
  cases hb : v.best_cu with
  | none =>
    have := (h.2.1 hb).1
    rw [hdf] at this
    cases this
  | some w => exact ⟨w, rfl⟩

theorem evalHorizontal_restore {env : CompressCuEnv} {writer : RdoSyntaxWriter} {qp : Qp}
    (m : Bool) {v : CompressCuVars} (h : RestoreInv env writer qp v)
    (hdf : do_full env = true) :
    match evalHorizontal env writer qp m v with
    | Sum.inl r => RestoreResInv env writer qp r
    | Sum.inr v' => RestoreInv env writer qp v' := by
  obtain ⟨w, hw⟩ := RestoreInv_some h hdf
  have hq : v.best_cu = none → SplitType.kHorizontal = SplitType.kQuad := by
    intro hb; rw [hw] at hb; cases hb
  have hrec := fun won hwon v1 v2 hv1 hv2 =>
    splitRecord_ok h SplitType.kHorizontal (by decide) hq won hwon v1 v2 hv1 hv2
  obtain ⟨hsome, hnone, hmap, hall⟩ := h
  obtain ⟨h1, h2, h3, h4⟩ := hsome w hw
  have hmap' := evaluatedSplits_append v.evaluated SplitType.kHorizontal
    (CompressSplitCu env qp SplitType.kHorizontal writer).cost (by decide)
  unfold evalHorizontal
  simp only [afterSplitCu, swapBest, saveState, restoreBest, logSplit, returnSplit]
  by_cases hlt : (CompressSplitCu env qp SplitType.kHorizontal writer).cost.cost < v.best_cost.cost
  · cases m
    · simp only [hlt, if_true]
      refine ⟨?_, ?_⟩
      · simp only [List.map_append, List.map_cons, List.map_nil, hmap, hmap']; rfl
      · exact forall_mem_append_singleton hall
          (hrec true (by simp [hlt]) _ _ rfl (fun hc => by cases hc))
    · simp only [hlt, if_true]
      refine ⟨?_, ?_, ?_, ?_⟩
      · intro w' hw'
        simp only [Option.some.injEq] at hw'
        subst hw'
        exact ⟨rfl, rfl, rfl, rfl⟩
      · intro hb; cases hb
      · simp only [List.map_append, List.map_cons, List.map_nil, hmap, hmap']; rfl
      · exact forall_mem_append_singleton hall
          (hrec true (by simp [hlt]) _ _ rfl (fun hc => by cases hc))
  · simp only [hlt, if_false]
    refine ⟨?_, ?_, ?_, ?_⟩
    · intro w' hw'
      simp only [h1, Option.some.injEq] at hw'
      subst hw'
      exact ⟨h1, h2, h2, h1⟩
    · intro hb; simp only [h1] at hb; cases hb
    · simp only [List.map_append, List.map_cons, List.map_nil, hmap, hmap']; rfl
    · exact forall_mem_append_singleton hall
        (hrec false (by simp [hlt]) _ _ rfl (fun _ => ⟨rfl, rfl, rfl⟩))

theorem evalVertical_restore {env : CompressCuEnv} {writer : RdoSyntaxWriter} {qp : Qp}
    (m : Bool) {v : CompressCuVars} (h : RestoreInv env writer qp v)
    (hdf : do_full env = true) :
    match evalVertical env writer qp m v with
    | Sum.inl r => RestoreResInv env writer qp r
    | Sum.inr v' => RestoreInv env writer qp v' := by
  obtain ⟨w, hw⟩ := RestoreInv_some h hdf
  have hq : v.best_cu = none → SplitType.kVertical = SplitType.kQuad := by
    intro hb; rw [hw] at hb; cases hb
  have hrec := fun won hwon v1 v2 hv1 hv2 =>
    splitRecord_ok h SplitType.kVertical (by decide) hq won hwon v1 v2 hv1 hv2
  obtain ⟨hsome, hnone, hmap, hall⟩ := h
  obtain ⟨h1, h2, h3, h4⟩ := hsome w hw
  have hmap' := evaluatedSplits_append v.evaluated SplitType.kVertical
    (CompressSplitCu env qp SplitType.kVertical writer).cost (by decide)
  unfold evalVertical
  simp only [afterSplitCu, swapBest, saveState, restoreBest, logSplit, returnSplit]
  by_cases hlt : (CompressSplitCu env qp SplitType.kVertical writer).cost.cost < v.best_cost.cost
  · cases m
    · simp only [hlt, if_true]
      refine ⟨?_, ?_⟩
      · simp only [List.map_append, List.map_cons, List.map_nil, hmap, hmap']; rfl
      · exact forall_mem_append_singleton hall
          (hrec true (by simp [hlt]) _ _ rfl (fun hc => by cases hc))
    · simp only [hlt, if_true]
      refine ⟨?_, ?_, ?_, ?_⟩
      · intro w' hw'
        simp only [Option.some.injEq] at hw'
        subst hw'
        exact ⟨rfl, rfl, rfl, rfl⟩
      · intro hb; cases hb
      · simp only [List.map_append, List.map_cons, List.map_nil, hmap, hmap']; rfl
      · exact forall_mem_append_singleton hall
          (hrec true (by simp [hlt]) _ _ rfl (fun hc => by cases hc))
  · simp only [hlt, if_false]
    refine ⟨?_, ?_, ?_, ?_⟩
    · intro w' hw'
      simp only [h1, Option.some.injEq] at hw'
      subst hw'
      exact ⟨h1, h2, h2, h1⟩
    · intro hb; simp only [h1] at hb; cases hb
    · simp only [List.map_append, List.map_cons, List.map_nil, hmap, hmap']; rfl
    · exact forall_mem_append_singleton hall
        (hrec false (by simp [hlt]) _ _ rfl (fun _ => ⟨rfl, rfl, rfl⟩))

theorem evalQuad_restore {env : CompressCuEnv} {writer : RdoSyntaxWriter} {qp : Qp}
    {v : CompressCuVars} (h : RestoreInv env writer qp v) :
    RestoreResInv env writer qp (evalQuad env writer qp v) := by
  have hrec := fun won hwon v1 v2 hv1 hv2 =>
    splitRecord_ok h SplitType.kQuad (by decide) (fun _ => rfl) won hwon v1 v2 hv1 hv2
  obtain ⟨hsome, hnone, hmap, hall⟩ := h
  have hmap' := evaluatedSplits_append v.evaluated SplitType.kQuad
    (CompressSplitCu env qp SplitType.kQuad writer).cost (by decide)
  unfold evalQuad
  simp only [afterSplitCu, swapBest, saveState, restoreBest, logSplit, returnSplit, returnBest]
  by_cases hlt : (CompressSplitCu env qp SplitType.kQuad writer).cost.cost < v.best_cost.cost
  · simp only [hlt, if_true]
    refine ⟨?_, ?_⟩
    · simp only [List.map_append, List.map_cons, List.map_nil, hmap, hmap']; rfl
    · exact forall_mem_append_singleton hall
        (hrec true (by simp [hlt]) _ _ rfl (fun hc => by cases hc))
  · simp only [hlt, if_false]
    refine ⟨?_, ?_⟩
    · simp only [List.map_append, List.map_cons, List.map_nil, hmap, hmap']; rfl
    · exact forall_mem_append_singleton hall
        (hrec false (by simp [hlt]) _ _ rfl (fun _ => ⟨rfl, rfl, rfl⟩))

theorem returnBest_restore {env : CompressCuEnv} {writer : RdoSyntaxWriter} {qp : Qp}
    (e : ExitPoint) {v : CompressCuVars} (h : RestoreInv env writer qp v) :
    RestoreResInv env writer qp (returnBest e v) :=
  ⟨h.2.2.1, h.2.2.2⟩

theorem can_binary_split_full {env : CompressCuEnv} (h : can_binary_split env = true) :
    do_full env = true := by
  simp only [can_binary_split, Bool.and_eq_true, decide_eq_true_eq] at h
  simp only [do_full, Bool.and_eq_true, decide_eq_true_eq]
  exact ⟨⟨h.1.1.2, h.1.2⟩, h.2⟩

theorem do_hor_split_full {env : CompressCuEnv} {sr : SplitRestriction}
    (h : do_hor_split env sr = true) : do_full env = true := by
  simp only [do_hor_split, Bool.and_eq_true] at h
  exact can_binary_split_full h.1.1

theorem do_ver_split_full {env : CompressCuEnv} {sr : SplitRestriction}
    (h : do_ver_split env sr = true) : do_full env = true := by
  simp only [do_ver_split, Bool.and_eq_true] at h
  exact can_binary_split_full h.1.1

theorem compressCuBinary_restore (env : CompressCuEnv) (sr : SplitRestriction)
    (writer : RdoSyntaxWriter) (qp : Qp) :
    match compressCuBinary env sr writer qp with
    | Sum.inl r => RestoreResInv env writer qp r
    | Sum.inr v => RestoreInv env writer qp v := by
  have h1 : RestoreInv env writer qp
      (if do_full env then evalFull env writer qp (initVars writer) else initVars writer) := by
    cases hdf : do_full env
    · simpa using initVars_restore env writer qp hdf
    · simpa using evalFull_restore env writer qp
  unfold compressCuBinary
  simp only []
  by_cases hs : canSkipAnySplit env writer = true
  · rw [if_pos hs]
    exact returnBest_restore _ h1
  · rw [if_neg hs]
    have h2 : match (if do_hor_split env sr then
          evalHorizontal env writer qp (do_quad_split env || do_ver_split env sr)
            (if do_full env then evalFull env writer qp (initVars writer) else initVars writer)
        else Sum.inr
          (if do_full env then evalFull env writer qp (initVars writer) else initVars writer)) with
        | Sum.inl r => RestoreResInv env writer qp r
        | Sum.inr v' => RestoreInv env writer qp v' := by
      cases hh : do_hor_split env sr
      · simpa using h1
      · simpa using evalHorizontal_restore _ h1 (do_hor_split_full hh)
    revert h2
    generalize (if do_hor_split env sr then
          evalHorizontal env writer qp (do_quad_split env || do_ver_split env sr)
            (if do_full env then evalFull env writer qp (initVars writer) else initVars writer)
        else Sum.inr
          (if do_full env then evalFull env writer qp (initVars writer) else initVars writer)) = x
    intro h2
    cases x with
    | inl r => exact h2
    | inr v2 =>
      simp only [] at h2 ⊢
      cases hv : do_ver_split env sr
      · simpa using h2
      · simpa using evalVertical_restore _ h2 (do_ver_split_full hv)

theorem compressCuSearch_restore (env : CompressCuEnv) (sr : SplitRestriction)
    (writer : RdoSyntaxWriter) (qp : Qp) :
    RestoreResInv env writer qp (compressCuSearch env sr writer qp) := by
  have h := compressCuBinary_restore env sr writer qp
  unfold compressCuSearch
  split
  · next r hr =>
    rw [hr] at h
    exact h
  · next v hv =>
    rw [hv] at h
    unfold compressCuQuad
    split
    · exact returnBest_restore _ h
    · split
      · exact evalQuad_restore h
      · exact returnBest_restore _ h

/-- C12. In every call of `CompressCu` with an eligible split, each split
candidate evaluated (Horizontal, Vertical, Quad, in the order of the ghost list
`evaluated`) has a record in `splits`; its evaluation leaves the reconstruction
of the split in the footprint of the CU, and it wins exactly when its cost is
strictly below that of the incumbent. Every split that does not win is followed
by `LoadStateFrom(*best_state, &rec_pic_)` and `MarkUsedInPic` on the CU
`*best_cu` points to; when the incumbent is the candidate `w`, `*best_state`
was saved from `w` (payload and footprint), so after the losing split the CU
`*best_cu` points to, the footprint in `rec_pic_` and the marks of `pic_data_`
are those of `w`, as they were before the split was evaluated. A losing split
meets no incumbent candidate only when it is the quad split of a CU whose
unsplit candidate is not eligible, the tracked best cost still being
`Cost::MAX`. -/
theorem losing_split_restores_incumbent (env : CompressCuEnv)
    (split_restiction : SplitRestriction) (writer : RdoSyntaxWriter) (qp : Qp)
    (h : do_split_any env split_restiction = true) :
    ∃ r, CompressCu env split_restiction writer qp = some r ∧
      r.splits.map (fun x => x.split_type) = evaluatedSplits r.evaluated ∧
      ∀ x ∈ r.splits,
        x.split_cost = (CompressSplitCu env qp x.split_type writer).cost.cost ∧
        x.won = decide (x.split_cost < x.best_cost) ∧
        x.split_rec = some x.split_type ∧
        (x.won = false →
          (x.final_cu = x.saved_cu ∧ x.final_rec = x.saved_rec ∧
            x.final_marked = x.saved_cu) ∧
          (∀ w, x.incumbent_cu = some w →
            x.saved_cu = some w ∧ x.saved_rec = some w ∧
            x.incumbent_rec = some w ∧ x.incumbent_marked = some w ∧
            x.final_cu = some w ∧ x.final_rec = some w ∧ x.final_marked = some w) ∧
          (x.incumbent_cu = none →
            do_full env = false ∧ x.split_type = SplitType.kQuad ∧
            x.best_cost = CostMax)) := by
  refine ⟨compressCuSearch env split_restiction writer qp, ?_, ?_⟩
  · simp [CompressCu, h]
  · obtain ⟨hmap, hall⟩ := compressCuSearch_restore env split_restiction writer qp
    refine ⟨hmap, ?_⟩
    intro x hx
    obtain ⟨-, hc, hwon, hrec, hload, hsome, hnone⟩ := hall x hx
    refine ⟨hc, hwon, hrec, ?_⟩
    intro hl
    refine ⟨hload hl, ?_, hnone⟩
    intro w hw
    obtain ⟨g1, g2, g3, g4, g5⟩ := hsome w hw
    obtain ⟨k1, k2, k3⟩ := g5 hl
    exact ⟨g1, g2, g3, g4, k1, k2, k3⟩

/-- C12 at a concrete call: Horizontal (cost 120) loses against Full (cost
120) and Quad (cost 90) loses against Vertical (cost 90); after each of the two
the CU, the footprint and the marks are those of the incumbent again. -/
theorem losing_split_restores_incumbent_witness :
    do_split_any exampleCompressCuEnv SplitRestriction.kNone = true ∧
    (∃ r, CompressCu exampleCompressCuEnv SplitRestriction.kNone exampleWriter exampleQp
        = some r ∧
      r.splits.map (fun x => x.split_type) = evaluatedSplits r.evaluated ∧
      ∀ x ∈ r.splits,
        x.split_cost =
          (CompressSplitCu exampleCompressCuEnv exampleQp x.split_type exampleWriter).cost.cost ∧
        x.won = decide (x.split_cost < x.best_cost) ∧
        x.split_rec = some x.split_type ∧
        (x.won = false →
          (x.final_cu = x.saved_cu ∧ x.final_rec = x.saved_rec ∧
            x.final_marked = x.saved_cu) ∧
          (∀ w, x.incumbent_cu = some w →
            x.saved_cu = some w ∧ x.saved_rec = some w ∧
            x.incumbent_rec = some w ∧ x.incumbent_marked = some w ∧
            x.final_cu = some w ∧ x.final_rec = some w ∧ x.final_marked = some w) ∧
          (x.incumbent_cu = none →
            do_full exampleCompressCuEnv = false ∧ x.split_type = SplitType.kQuad ∧
            x.best_cost = CostMax))) ∧
    (CompressCu exampleCompressCuEnv SplitRestriction.kNone exampleWriter exampleQp).map
        (fun r => r.splits.map
          (fun x => (x.split_type, x.won, x.incumbent_cu, x.split_rec, x.final_cu,
            x.final_rec))) =
      some [(SplitType.kHorizontal, false, some SplitType.kNone, some SplitType.kHorizontal,
              some SplitType.kNone, some SplitType.kNone),
            (SplitType.kVertical, true, some SplitType.kNone, some SplitType.kVertical,
              some SplitType.kVertical, some SplitType.kVertical),
            (SplitType.kQuad, false, some SplitType.kVertical, some SplitType.kQuad,
              some SplitType.kVertical, some SplitType.kVertical)] :=
  ⟨by decide,
   losing_split_restores_incumbent exampleCompressCuEnv SplitRestriction.kNone
     exampleWriter exampleQp (by decide),
   rfl⟩

/-! ## The `return` statements of `CompressCu` and the candidates it evaluates -/

theorem subCuSplitLoop_true (flag : Bool) (l : List (Option SplitType)) :
    subCuSplitLoop flag l = true ↔
      flag = true ∨ ∃ t, some t ∈ l ∧ t ≠ SplitType.kNone := by
  unfold subCuSplitLoop
  induction l generalizing flag with
  | nil => simp
  | cons s l ih =>
    rw [List.foldl_cons, ih]
    cases s with
    | none => simp
    | some t =>
      by_cases ht : t = SplitType.kNone
      · subst ht; simp
      · simp [ht]

theorem evalHorizontal_shape (env : CompressCuEnv) (writer : RdoSyntaxWriter) (qp : Qp)
    (m : Bool) (v : CompressCuVars) :
    (∃ r, evalHorizontal env writer qp m v = Sum.inl r ∧ m = false ∧
        r.exit = ExitPoint.horizontal ∧
        r.evaluated = v.evaluated ++
          [(SplitType.kHorizontal, (CompressSplitCu env qp SplitType.kHorizontal writer).cost)]) ∨
    (∃ v', evalHorizontal env writer qp m v = Sum.inr v' ∧
        v'.evaluated = v.evaluated ++
          [(SplitType.kHorizontal, (CompressSplitCu env qp SplitType.kHorizontal writer).cost)] ∧
        v'.best_binary_depth_greater_than_one =
          subCuSplitLoop v.best_binary_depth_greater_than_one
            (CompressSplitCu env qp SplitType.kHorizontal writer).sub_cu ∧
        v'.hor_cost = (CompressSplitCu env qp SplitType.kHorizontal writer).cost.cost) := by
  unfold evalHorizontal
  simp only [afterSplitCu, swapBest, saveState, restoreBest, logSplit, returnSplit]
  by_cases hlt : (CompressSplitCu env qp SplitType.kHorizontal writer).cost.cost < v.best_cost.cost
  · cases m
    · rw [if_pos hlt]
      exact Or.inl ⟨_, rfl, rfl, rfl, rfl⟩
    · rw [if_pos hlt]
      exact Or.inr ⟨_, rfl, rfl, rfl, rfl⟩
  · rw [if_neg hlt]
    exact Or.inr ⟨_, rfl, rfl, rfl, rfl⟩

theorem evalVertical_shape (env : CompressCuEnv) (writer : RdoSyntaxWriter) (qp : Qp)
    (m : Bool) (v : CompressCuVars) :
    (∃ r, evalVertical env writer qp m v = Sum.inl r ∧ m = false ∧
        r.exit = ExitPoint.vertical ∧
        r.evaluated = v.evaluated ++
          [(SplitType.kVertical, (CompressSplitCu env qp SplitType.kVertical writer).cost)]) ∨
    (∃ v', evalVertical env writer qp m v = Sum.inr v' ∧
        v'.evaluated = v.evaluated ++
          [(SplitType.kVertical, (CompressSplitCu env qp SplitType.kVertical writer).cost)] ∧
        v'.best_binary_depth_greater_than_one =
          (if (CompressSplitCu env qp SplitType.kVertical writer).cost.cost < v.hor_cost then
            subCuSplitLoop false (CompressSplitCu env qp SplitType.kVertical writer).sub_cu
          else v.best_binary_depth_greater_than_one)) := by
  unfold evalVertical
  simp only [afterSplitCu, swapBest, saveState, restoreBest, logSplit, returnSplit]
  by_cases hlt : (CompressSplitCu env qp SplitType.kVertical writer).cost.cost < v.best_cost.cost
  · cases m
    · rw [if_pos hlt]
      exact Or.inl ⟨_, rfl, rfl, rfl, rfl⟩
    · rw [if_pos hlt]
      exact Or.inr ⟨_, rfl, rfl, rfl⟩
  · rw [if_neg hlt]
    exact Or.inr ⟨_, rfl, rfl, rfl⟩

theorem evalQuad_shape (env : CompressCuEnv) (writer : RdoSyntaxWriter) (qp : Qp)
    (v : CompressCuVars) :
    ((evalQuad env writer qp v).exit = ExitPoint.quad ∨
      (evalQuad env writer qp v).exit = ExitPoint.last) ∧
    (evalQuad env writer qp v).evaluated = v.evaluated ++
      [(SplitType.kQuad, (CompressSplitCu env qp SplitType.kQuad writer).cost)] := by
  unfold evalQuad
  simp only [afterSplitCu, swapBest, saveState, restoreBest, logSplit, returnSplit, returnBest]
  by_cases hlt : (CompressSplitCu env qp SplitType.kQuad writer).cost.cost < v.best_cost.cost
  · rw [if_pos hlt]
    exact ⟨Or.inl rfl, rfl⟩
  · rw [if_neg hlt]
    exact ⟨Or.inr rfl, rfl⟩

theorem varsAfterFull_shape (env : CompressCuEnv) (writer : RdoSyntaxWriter) (qp : Qp) :
    (varsAfterFull env writer qp).evaluated.map Prod.fst =
      (if do_full env then [SplitType.kNone] else []) ∧
    (varsAfterFull env writer qp).best_binary_depth_greater_than_one = false ∧
    (varsAfterFull env writer qp).hor_cost = 0 ∧
    (varsAfterFull env writer qp).splits = [] := by
  unfold varsAfterFull
  cases do_full env <;> simp [evalFull, initVars]

theorem compressCuBinary_eq (env : CompressCuEnv) (sr : SplitRestriction)
    (writer : RdoSyntaxWriter) (qp : Qp) :
    compressCuBinary env sr writer qp =
      if canSkipAnySplit env writer then
        Sum.inl (returnBest ExitPoint.full_skip (varsAfterFull env writer qp))
      else
        match (if do_hor_split env sr then
            evalHorizontal env writer qp (do_quad_split env || do_ver_split env sr)
              (varsAfterFull env writer qp)
          else Sum.inr (varsAfterFull env writer qp)) with
        | Sum.inl r => Sum.inl r
        | Sum.inr v2 =>
          if do_ver_split env sr then evalVertical env writer qp (do_quad_split env) v2
          else Sum.inr v2 := rfl

theorem compressCuBinary_shape (env : CompressCuEnv) (sr : SplitRestriction)
    (writer : RdoSyntaxWriter) (qp : Qp) (hs : canSkipAnySplit env writer = false) :
    (∃ r, compressCuBinary env sr writer qp = Sum.inl r ∧ do_quad_split env = false ∧
        (r.exit = ExitPoint.horizontal ∨ r.exit = ExitPoint.vertical) ∧
        r.evaluated.map Prod.fst = eligibleBeforeQuad env sr) ∨
    (∃ v, compressCuBinary env sr writer qp = Sum.inr v ∧
        v.evaluated.map Prod.fst = eligibleBeforeQuad env sr ∧
        (do_hor_split env sr = true → do_ver_split env sr = true →
          v.best_binary_depth_greater_than_one =
            if (CompressSplitCu env qp SplitType.kVertical writer).cost.cost <
                (CompressSplitCu env qp SplitType.kHorizontal writer).cost.cost then
              subCuSplitLoop false (CompressSplitCu env qp SplitType.kVertical writer).sub_cu
            else
              subCuSplitLoop false
                (CompressSplitCu env qp SplitType.kHorizontal writer).sub_cu)) := by
  obtain ⟨e1, f1, -, -⟩ := varsAfterFull_shape env writer qp
  rw [compressCuBinary_eq, hs]
  simp only [Bool.false_eq_true, if_false]
  cases hh : do_hor_split env sr
  · simp only [Bool.false_eq_true, if_false]
    cases hv : do_ver_split env sr
    · simp only [Bool.false_eq_true, if_false]
      refine Or.inr ⟨_, rfl, ?_, fun h => by cases h⟩
      simp [eligibleBeforeQuad, hh, hv, e1]
    · simp only [if_true]
      rcases evalVertical_shape env writer qp (do_quad_split env) (varsAfterFull env writer qp)
        with ⟨r, hr, hm, he, hev⟩ | ⟨v', hr, hev, -⟩
      · refine Or.inl ⟨r, hr, hm, Or.inr he, ?_⟩
        simp [eligibleBeforeQuad, hh, hv, e1, hev]
      · refine Or.inr ⟨v', hr, ?_, fun h => by cases h⟩
        simp [eligibleBeforeQuad, hh, hv, e1, hev]
  · simp only [if_true]
    rcases evalHorizontal_shape env writer qp (do_quad_split env || do_ver_split env sr)
        (varsAfterFull env writer qp) with ⟨r, hr, hm, he, hev⟩ | ⟨v2, hr, hev2, hf2, hc2⟩
    · rw [hr]
      simp only [Bool.or_eq_false_iff] at hm
      refine Or.inl ⟨r, rfl, hm.1, Or.inl he, ?_⟩
      simp [eligibleBeforeQuad, hh, hm.2, e1, hev]
    · rw [hr]
      simp only []
      cases hv : do_ver_split env sr
      · simp only [Bool.false_eq_true, if_false]
        refine Or.inr ⟨v2, rfl, ?_, fun _ h => by cases h⟩
        simp [eligibleBeforeQuad, hh, hv, e1, hev2]
      · simp only [if_true]
        rcases evalVertical_shape env writer qp (do_quad_split env) v2
          with ⟨r, hr', hm, he, hev⟩ | ⟨v', hr', hev, hf⟩
        · refine Or.inl ⟨r, hr', hm, Or.inr he, ?_⟩
          simp [eligibleBeforeQuad, hh, hv, e1, hev, hev2]
        · refine Or.inr ⟨v', hr', ?_, fun _ _ => ?_⟩
          · simp [eligibleBeforeQuad, hh, hv, e1, hev, hev2]
          · rw [hf, hc2, hf2, f1]

theorem compressCuSearch_shape (env : CompressCuEnv) (sr : SplitRestriction)
    (writer : RdoSyntaxWriter) (qp : Qp) :
    (canSkipAnySplit env writer = true ∧
      compressCuBinary env sr writer qp =
        Sum.inl (returnBest ExitPoint.full_skip (varsAfterFull env writer qp)) ∧
      compressCuSearch env sr writer qp =
        returnBest ExitPoint.full_skip (varsAfterFull env writer qp)) ∨
    (canSkipAnySplit env writer = false ∧
      ∃ r, compressCuBinary env sr writer qp = Sum.inl r ∧
        compressCuSearch env sr writer qp = r ∧ do_quad_split env = false ∧
        (r.exit = ExitPoint.horizontal ∨ r.exit = ExitPoint.vertical) ∧
        r.evaluated.map Prod.fst = eligibleBeforeQuad env sr) ∨
    (canSkipAnySplit env writer = false ∧
      ∃ v, compressCuBinary env sr writer qp = Sum.inr v ∧
        v.evaluated.map Prod.fst = eligibleBeforeQuad env sr ∧
        ((canSkipQuadSplit env sr v = true ∧
            compressCuSearch env sr writer qp = returnBest ExitPoint.quad_skip v) ∨
          (canSkipQuadSplit env sr v = false ∧ do_quad_split env = true ∧
            ((compressCuSearch env sr writer qp).exit = ExitPoint.quad ∨
              (compressCuSearch env sr writer qp).exit = ExitPoint.last) ∧
            (compressCuSearch env sr writer qp).evaluated.map Prod.fst =
              eligibleBeforeQuad env sr ++ [SplitType.kQuad]) ∨
          (canSkipQuadSplit env sr v = false ∧ do_quad_split env = false ∧
            compressCuSearch env sr writer qp = returnBest ExitPoint.last v))) := by
  cases hs : canSkipAnySplit env writer
  · right
    rcases compressCuBinary_shape env sr writer qp hs with
      ⟨r, hr, hq, he, hev⟩ | ⟨v, hr, hev, -⟩
    · left
      refine ⟨rfl, r, hr, ?_, hq, he, hev⟩
      unfold compressCuSearch
      rw [hr]
    · right
      refine ⟨rfl, v, hr, hev, ?_⟩
      unfold compressCuSearch
      rw [hr]
      simp only []
      unfold compressCuQuad
      cases hk : canSkipQuadSplit env sr v
      · cases hq : do_quad_split env
        · exact Or.inr (Or.inr ⟨rfl, rfl, by simp⟩)
        · refine Or.inr (Or.inl ⟨rfl, rfl, ?_, ?_⟩)
          · simpa using (evalQuad_shape env writer qp v).1
          · simp [(evalQuad_shape env writer qp v).2, hev]
      · exact Or.inl ⟨rfl, by simp⟩
  · left
    have hb : compressCuBinary env sr writer qp =
        Sum.inl (returnBest ExitPoint.full_skip (varsAfterFull env writer qp)) := by
      rw [compressCuBinary_eq, hs]; rfl
    refine ⟨rfl, hb, ?_⟩
    unfold compressCuSearch
    rw [hb]

theorem quad_not_mem_eligibleBeforeQuad (env : CompressCuEnv) (sr : SplitRestriction) :
    SplitType.kQuad ∉ eligibleBeforeQuad env sr := by
  unfold eligibleBeforeQuad
  cases do_full env <;> cases do_hor_split env sr <;> cases do_ver_split env sr <;> simp

theorem hor_mem_eligibleBeforeQuad {env : CompressCuEnv} {sr : SplitRestriction}
    (h : do_hor_split env sr = true) : SplitType.kHorizontal ∈ eligibleBeforeQuad env sr := by
  simp [eligibleBeforeQuad, h]

theorem ver_mem_eligibleBeforeQuad {env : CompressCuEnv} {sr : SplitRestriction}
    (h : do_ver_split env sr = true) : SplitType.kVertical ∈ eligibleBeforeQuad env sr := by
  simp [eligibleBeforeQuad, h]

theorem canSkipQuadSplit_iff (env : CompressCuEnv) (sr : SplitRestriction)
    (v : CompressCuVars) :
    canSkipQuadSplit env sr v = true ↔
      env.encoder_settings.fast_quad_split_based_on_binary_split ≠ 0 ∧
      do_quad_split env = true ∧ do_hor_split env sr = true ∧ do_ver_split env sr = true ∧
      CanSkipQuadSplitForCu env.encoder_settings env.pic_data
        (env.GetCuAt_binary_depth v.best_cu).1 (env.GetCuAt_binary_depth v.best_cu).2
        v.best_binary_depth_greater_than_one = true := by
  simp only [canSkipQuadSplit, Bool.and_eq_true, decide_eq_true_eq, and_assoc]

theorem CompressCu_search {env : CompressCuEnv} {sr : SplitRestriction}
    (writer : RdoSyntaxWriter) (qp : Qp) (h : do_split_any env sr = true) :
    CompressCu env sr writer qp = some (compressCuSearch env sr writer qp) := by
  simp [CompressCu, h]

/-- C14. When the veto does not apply (the setting is not 1 or the flag is
false), `CanSkipQuadSplitForCu` returns, with `best_is_no_split` the test that
the CU found at the top-left sample has binary depth 0 and
`best_is_single_bt_split` the test that the CUs found at the top-left and
bottom-right samples both have binary depth 1: for the maximal binary split
depth 1 and 2 `best_is_no_split` and not intra picture, for 3
`best_is_no_split` or (`best_is_single_bt_split` and not intra picture), for 4
`best_is_no_split` or `best_is_single_bt_split`, and false for every other
depth. A call of `CompressCu` with an eligible split leaves through the
`return` of the quad-split skip (line 250) exactly when
`fast_quad_split_based_on_binary_split` is non-zero, the quad, horizontal and
vertical splits are all eligible, and the predicate is true in the locals with
which line 246 is reached; it then returns the current best and the quad split
is not evaluated. Line 246 is reached whenever the quad split is eligible and
the skip of line 177 is not taken, and then the quad split is evaluated exactly
when the `return` of line 250 is not taken. -/
theorem quad_skip_decision (env : CompressCuEnv) (split_restiction : SplitRestriction)
    (writer : RdoSyntaxWriter) (qp : Qp)
    (h : do_split_any env split_restiction = true) :
    (∀ (tl br : Int) (flag : Bool),
      ¬ (env.encoder_settings.fast_quad_split_based_on_binary_split = 1 ∧ flag = true) →
      (CanSkipQuadSplitForCu env.encoder_settings env.pic_data tl br flag = true ↔
        ((env.pic_data.max_binary_split_depth = 1 ∨
            env.pic_data.max_binary_split_depth = 2) ∧
          tl = 0 ∧ env.pic_data.is_intra_pic = false) ∨
        (env.pic_data.max_binary_split_depth = 3 ∧
          (tl = 0 ∨ ((tl = 1 ∧ br = 1) ∧ env.pic_data.is_intra_pic = false))) ∨
        (env.pic_data.max_binary_split_depth = 4 ∧ (tl = 0 ∨ (tl = 1 ∧ br = 1))))) ∧
    ∃ r, CompressCu env split_restiction writer qp = some r ∧
      (r.exit = ExitPoint.quad_skip ↔
        env.encoder_settings.fast_quad_split_based_on_binary_split ≠ 0 ∧
        do_quad_split env = true ∧ do_hor_split env split_restiction = true ∧
        do_ver_split env split_restiction = true ∧
        ∃ v, compressCuBinary env split_restiction writer qp = Sum.inr v ∧
          CanSkipQuadSplitForCu env.encoder_settings env.pic_data
            (env.GetCuAt_binary_depth v.best_cu).1 (env.GetCuAt_binary_depth v.best_cu).2
            v.best_binary_depth_greater_than_one = true) ∧
      (r.exit = ExitPoint.quad_skip →
        SplitType.kQuad ∉ r.evaluated.map Prod.fst ∧
        ∃ v, compressCuBinary env split_restiction writer qp = Sum.inr v ∧
          r.dist = v.best_cost.dist ∧ r.writer = v.best_writer ∧ r.best_cu = v.best_cu) ∧
      (do_quad_split env = true → canSkipAnySplit env writer = false →
        (∃ v, compressCuBinary env split_restiction writer qp = Sum.inr v) ∧
        (SplitType.kQuad ∈ r.evaluated.map Prod.fst ↔ r.exit ≠ ExitPoint.quad_skip)) := by
  refine ⟨?_, compressCuSearch env split_restiction writer qp, CompressCu_search writer qp h, ?_⟩
  · intro tl br flag hveto
    have hv : (env.encoder_settings.fast_quad_split_based_on_binary_split == 1 && flag) = false := by
      cases flag
      · simp
      · simp only [Bool.and_true, beq_eq_false_iff_ne]
        intro h1; exact hveto ⟨h1, rfl⟩
    unfold CanSkipQuadSplitForCu
    simp only [hv, Bool.false_eq_true, if_false]
    by_cases h1 : env.pic_data.max_binary_split_depth = 1
    · simp [h1]
    · by_cases h2 : env.pic_data.max_binary_split_depth = 2
      · simp [h2]
      · by_cases h3 : env.pic_data.max_binary_split_depth = 3
        · simp [h3]
        · by_cases h4 : env.pic_data.max_binary_split_depth = 4
          · simp [h4]
          · simp [h1, h2, h3, h4]
  · rcases compressCuSearch_shape env split_restiction writer qp with
      ⟨hs, hb, hr⟩ | ⟨hs, r, hb, hr, hq, he, hev⟩ | ⟨hs, v, hb, hev, hcase⟩
    · rw [hr]
      refine ⟨⟨(fun hx => by cases hx), ?_⟩, (fun hx => by cases hx), ?_⟩
      · rintro ⟨-, -, -, -, v, hv, -⟩
        rw [hb] at hv; cases hv
      · intro _ hs'
        rw [hs] at hs'; cases hs'
    · rw [hr]
      have hne : r.exit ≠ ExitPoint.quad_skip := by
        rcases he with he | he <;> rw [he] <;> decide
      refine ⟨⟨fun hx => absurd hx hne, ?_⟩, fun hx => absurd hx hne, ?_⟩
      · rintro ⟨-, -, -, -, v, hv, -⟩
        rw [hb] at hv; cases hv
      · intro hq'
        rw [hq] at hq'; cases hq'
    · have hv' : ∀ v', compressCuBinary env split_restiction writer qp = Sum.inr v' → v' = v := by
        intro v' h'
        rw [hb] at h'
        exact (Sum.inr.inj h').symm
      rcases hcase with ⟨hk, hr⟩ | ⟨hk, hq, he, hev'⟩ | ⟨hk, hq, hr⟩
      · rw [hr]
        have hk' := (canSkipQuadSplit_iff env split_restiction v).1 hk
        refine ⟨⟨fun _ => ⟨hk'.1, hk'.2.1, hk'.2.2.1, hk'.2.2.2.1, v, hb, hk'.2.2.2.2⟩,
          fun _ => rfl⟩, fun _ => ⟨?_, v, hb, rfl, rfl, rfl⟩, fun _ _ => ⟨⟨v, hb⟩, ?_⟩⟩
        · show SplitType.kQuad ∉ v.evaluated.map Prod.fst
          rw [hev]; exact quad_not_mem_eligibleBeforeQuad env split_restiction
        · show SplitType.kQuad ∈ v.evaluated.map Prod.fst ↔ _
          rw [hev]
          exact ⟨fun hx => absurd hx (quad_not_mem_eligibleBeforeQuad env split_restiction),
            fun hx => absurd rfl hx⟩
      · have hne : (compressCuSearch env split_restiction writer qp).exit ≠
            ExitPoint.quad_skip := by
          rcases he with he | he <;> rw [he] <;> decide
        refine ⟨⟨fun hx => absurd hx hne, ?_⟩, fun hx => absurd hx hne,
          fun _ _ => ⟨⟨v, hb⟩, ?_⟩⟩
        · rintro ⟨g1, g2, g3, g4, v', hv1, g5⟩
          rw [hv' v' hv1] at g5
          have := (canSkipQuadSplit_iff env split_restiction v).2 ⟨g1, g2, g3, g4, g5⟩
          rw [hk] at this; cases this
        · rw [hev']
          exact ⟨fun _ => hne, fun _ => by simp⟩
      · rw [hr]
        refine ⟨⟨(fun hx => by cases hx), ?_⟩, (fun hx => by cases hx), ?_⟩
        · rintro ⟨-, g2, -⟩
          rw [hq] at g2; cases g2
        · intro hq'
          rw [hq] at hq'; cases hq'

/-- C15. With `fast_quad_split_based_on_binary_split == 1` and the flag set,
`CanSkipQuadSplitForCu` returns false. In a call of `CompressCu` in which the
quad, horizontal and vertical splits are all eligible and the skip of line 177
is not taken, line 246 is reached, and the flag passed there,
`best_binary_depth_greater_than_one`, is true exactly when some sub CU of the
cheaper binary split, Vertical when its cost is strictly below that of
Horizontal and Horizontal otherwise, is non-null with a split other than
`kNone`. When the setting is 1 and the flag is true, the skip of the quad split
is not taken and the quad split is evaluated. -/
theorem quad_skip_veto (env : CompressCuEnv) (split_restiction : SplitRestriction)
    (writer : RdoSyntaxWriter) (qp : Qp)
    (hq : do_quad_split env = true) (hh : do_hor_split env split_restiction = true)
    (hv : do_ver_split env split_restiction = true)
    (hs : canSkipAnySplit env writer = false) :
    (∀ (pic_data : PictureData) (tl br : Int),
      env.encoder_settings.fast_quad_split_based_on_binary_split = 1 →
      CanSkipQuadSplitForCu env.encoder_settings pic_data tl br true = false) ∧
    ∃ v r, compressCuBinary env split_restiction writer qp = Sum.inr v ∧
      CompressCu env split_restiction writer qp = some r ∧
      (v.best_binary_depth_greater_than_one = true ↔
        ∃ t, t ≠ SplitType.kNone ∧
          some t ∈
            (if (CompressSplitCu env qp SplitType.kVertical writer).cost.cost <
                (CompressSplitCu env qp SplitType.kHorizontal writer).cost.cost then
              (CompressSplitCu env qp SplitType.kVertical writer).sub_cu
            else (CompressSplitCu env qp SplitType.kHorizontal writer).sub_cu)) ∧
      (env.encoder_settings.fast_quad_split_based_on_binary_split = 1 →
        v.best_binary_depth_greater_than_one = true →
        canSkipQuadSplit env split_restiction v = false ∧
        r.exit ≠ ExitPoint.quad_skip ∧ SplitType.kQuad ∈ r.evaluated.map Prod.fst) := by
  have hany : do_split_any env split_restiction = true := by
    simp [do_split_any, hq]
  have hveto : ∀ (pic_data : PictureData) (tl br : Int),
      env.encoder_settings.fast_quad_split_based_on_binary_split = 1 →
      CanSkipQuadSplitForCu env.encoder_settings pic_data tl br true = false := by
    intro pic_data tl br h1
    simp [CanSkipQuadSplitForCu, h1]
  refine ⟨hveto, ?_⟩
  rcases compressCuBinary_shape env split_restiction writer qp hs with
    ⟨r, -, hq', -, -⟩ | ⟨v, hb, hev, hflag⟩
  · rw [hq] at hq'; cases hq'
  · refine ⟨v, compressCuSearch env split_restiction writer qp, hb,
      CompressCu_search writer qp hany, ?_, ?_⟩
    · rw [hflag hh hv]
      by_cases hlt : (CompressSplitCu env qp SplitType.kVertical writer).cost.cost <
          (CompressSplitCu env qp SplitType.kHorizontal writer).cost.cost
      · simp only [hlt, if_true, subCuSplitLoop_true, Bool.false_eq_true, false_or]
        exact ⟨fun ⟨t, h1, h2⟩ => ⟨t, h2, h1⟩, fun ⟨t, h1, h2⟩ => ⟨t, h2, h1⟩⟩
      · simp only [hlt, if_false, subCuSplitLoop_true, Bool.false_eq_true, false_or]
        exact ⟨fun ⟨t, h1, h2⟩ => ⟨t, h2, h1⟩, fun ⟨t, h1, h2⟩ => ⟨t, h2, h1⟩⟩
    · intro h1 hf
      have hk : canSkipQuadSplit env split_restiction v = false := by
        simp only [canSkipQuadSplit, hf, hveto _ _ _ h1, Bool.and_false]
      refine ⟨hk, ?_⟩
      rcases compressCuSearch_shape env split_restiction writer qp with
        ⟨hs', -, -⟩ | ⟨-, r, hb', -⟩ | ⟨-, v', hb', -, hcase⟩
      · rw [hs] at hs'; cases hs'
      · rw [hb] at hb'; cases hb'
      · have hvv : v' = v := by
          rw [hb] at hb'
          exact (Sum.inr.inj hb').symm
        subst hvv
        rcases hcase with ⟨hk', -⟩ | ⟨-, -, he, hev'⟩ | ⟨-, hq', -⟩
        · rw [hk] at hk'; cases hk'
        · refine ⟨?_, ?_⟩
          · rcases he with he | he <;> rw [he] <;> decide
          · rw [hev']; simp
        · rw [hq] at hq'; cases hq'

/-- C16. A call of `CompressCu` with an eligible split leaves through the
`return` of line 180 exactly when `fast_cu_split_based_on_full_cu` is enabled,
the unsplit candidate was evaluated (`do_full`), and the CU it produced has its
skip flag set and a binary depth of at least the threshold, 2 in the highest
temporal layer and 3 otherwise. It then returns the distortion of the unsplit
candidate and leaves its writer in `*writer`, and only the unsplit candidate was
evaluated. When the condition fails every eligible binary split is evaluated,
the quad split is evaluated when it is eligible unless the quad-split skip of
line 250 is taken, and at least one split is evaluated. -/
theorem full_skip_decision (env : CompressCuEnv) (split_restiction : SplitRestriction)
    (writer : RdoSyntaxWriter) (qp : Qp)
    (h : do_split_any env split_restiction = true) :
    ∃ r, CompressCu env split_restiction writer qp = some r ∧
      (r.exit = ExitPoint.full_skip ↔
        env.encoder_settings.fast_cu_split_based_on_full_cu = true ∧ do_full env = true ∧
        (env.CompressNoSplit writer).skip_flag = true ∧
        env.cu.binary_depth ≥ (if env.pic_data.is_highest_layer = true then 2 else 3)) ∧
      (r.exit = ExitPoint.full_skip →
        r.dist = (env.CompressNoSplit writer).dist ∧
        r.writer = (env.CompressNoSplit writer).writer ∧
        r.evaluated.map Prod.fst = [SplitType.kNone] ∧ r.splits = []) ∧
      (r.exit ≠ ExitPoint.full_skip →
        (do_hor_split env split_restiction = true →
          SplitType.kHorizontal ∈ r.evaluated.map Prod.fst) ∧
        (do_ver_split env split_restiction = true →
          SplitType.kVertical ∈ r.evaluated.map Prod.fst) ∧
        (do_quad_split env = true →
          (SplitType.kQuad ∈ r.evaluated.map Prod.fst ↔ r.exit ≠ ExitPoint.quad_skip)) ∧
        ∃ t, t ≠ SplitType.kNone ∧ t ∈ r.evaluated.map Prod.fst) := by
  refine ⟨compressCuSearch env split_restiction writer qp, CompressCu_search writer qp h, ?_⟩
  have hiff : canSkipAnySplit env writer = true ↔
      env.encoder_settings.fast_cu_split_based_on_full_cu = true ∧ do_full env = true ∧
      (env.CompressNoSplit writer).skip_flag = true ∧
      env.cu.binary_depth ≥ (if env.pic_data.is_highest_layer = true then 2 else 3) := by
    simp only [canSkipAnySplit, CanSkipAnySplitForCu, Bool.and_eq_true, decide_eq_true_eq,
      and_assoc]
  have hsplit : ∀ l : List SplitType,
      (do_hor_split env split_restiction = true → SplitType.kHorizontal ∈ l) →
      (do_ver_split env split_restiction = true → SplitType.kVertical ∈ l) →
      (do_quad_split env = true → SplitType.kQuad ∈ l ∨ do_hor_split env split_restiction = true) →
      ∃ t, t ≠ SplitType.kNone ∧ t ∈ l := by
    intro l g1 g2 g3
    simp only [do_split_any, Bool.or_eq_true] at h
    rcases h with (hq | hh) | hv
    · rcases g3 hq with g | g
      · exact ⟨_, by decide, g⟩
      · exact ⟨_, by decide, g1 g⟩
    · exact ⟨_, by decide, g1 hh⟩
    · exact ⟨_, by decide, g2 hv⟩
  rcases compressCuSearch_shape env split_restiction writer qp with
    ⟨hs, hb, hr⟩ | ⟨hs, r, hb, hr, hq, he, hev⟩ | ⟨hs, v, hb, hev, hcase⟩
  · rw [hr]
    have hdf := (hiff.1 hs).2.1
    refine ⟨⟨fun _ => hiff.1 hs, fun _ => rfl⟩, fun _ => ?_, fun hx => absurd rfl hx⟩
    simp only [returnBest, varsAfterFull, hdf, if_true]
    exact ⟨rfl, rfl, rfl, rfl⟩
  · rw [hr]
    have hne : r.exit ≠ ExitPoint.full_skip := by
      rcases he with he | he <;> rw [he] <;> decide
    have hnot : ¬ canSkipAnySplit env writer = true := by rw [hs]; simp
    refine ⟨⟨fun hx => absurd hx hne, fun hx => absurd (hiff.2 hx) hnot⟩,
      fun hx => absurd hx hne, fun _ => ?_⟩
    rw [hev]
    refine ⟨hor_mem_eligibleBeforeQuad, ver_mem_eligibleBeforeQuad,
      (fun hq' => by rw [hq] at hq'; cases hq'), ?_⟩
    exact hsplit _ hor_mem_eligibleBeforeQuad ver_mem_eligibleBeforeQuad
      (fun hq' => by rw [hq] at hq'; cases hq')
  · have hnot : ¬ canSkipAnySplit env writer = true := by rw [hs]; simp
    rcases hcase with ⟨hk, hr⟩ | ⟨hk, hq, he, hev'⟩ | ⟨hk, hq, hr⟩
    · rw [hr]
      have hk' := (canSkipQuadSplit_iff env split_restiction v).1 hk
      refine ⟨⟨(fun hx => by cases hx), fun hx => absurd (hiff.2 hx) hnot⟩,
        (fun hx => by cases hx), fun _ => ?_⟩
      show (_ → _ ∈ v.evaluated.map Prod.fst) ∧ (_ → _ ∈ v.evaluated.map Prod.fst) ∧
        (_ → (_ ∈ v.evaluated.map Prod.fst ↔ _)) ∧ ∃ t, _ ∧ t ∈ v.evaluated.map Prod.fst
      rw [hev]
      refine ⟨hor_mem_eligibleBeforeQuad, ver_mem_eligibleBeforeQuad, fun _ => ?_, ?_⟩
      · exact ⟨fun hx => absurd hx (quad_not_mem_eligibleBeforeQuad env split_restiction),
          fun hx => absurd rfl hx⟩
      · exact ⟨_, by decide, hor_mem_eligibleBeforeQuad hk'.2.2.1⟩
    · have hne : (compressCuSearch env split_restiction writer qp).exit ≠
          ExitPoint.full_skip := by
        rcases he with he | he <;> rw [he] <;> decide
      have hne' : (compressCuSearch env split_restiction writer qp).exit ≠
          ExitPoint.quad_skip := by
        rcases he with he | he <;> rw [he] <;> decide
      refine ⟨⟨fun hx => absurd hx hne, fun hx => absurd (hiff.2 hx) hnot⟩,
        fun hx => absurd hx hne, fun _ => ?_⟩
      rw [hev']
      refine ⟨fun g => ?_, fun g => ?_, fun _ => ⟨fun _ => hne', fun _ => by simp⟩,
        ⟨SplitType.kQuad, by decide, by simp⟩⟩
      · exact List.mem_append_left _ (hor_mem_eligibleBeforeQuad g)
      · exact List.mem_append_left _ (ver_mem_eligibleBeforeQuad g)
    · rw [hr]
      refine ⟨⟨(fun hx => by cases hx), fun hx => absurd (hiff.2 hx) hnot⟩,
        (fun hx => by cases hx), fun _ => ?_⟩
      show (_ → _ ∈ v.evaluated.map Prod.fst) ∧ (_ → _ ∈ v.evaluated.map Prod.fst) ∧
        (_ → (_ ∈ v.evaluated.map Prod.fst ↔ _)) ∧ ∃ t, _ ∧ t ∈ v.evaluated.map Prod.fst
      rw [hev]
      refine ⟨hor_mem_eligibleBeforeQuad, ver_mem_eligibleBeforeQuad,
        (fun hq' => by rw [hq] at hq'; cases hq'), ?_⟩
      exact hsplit _ hor_mem_eligibleBeforeQuad ver_mem_eligibleBeforeQuad
        (fun hq' => by rw [hq] at hq'; cases hq')

/-- C17, as the claim states it, fails: a 32x32 CU inside the picture with no
restriction on the axis meets every condition the claim lists, yet with
`IsBinarySplitValid()` false neither binary split is eligible. -/
theorem binary_split_needs_valid_cu :
    (exampleInvalidBinaryEnv.cu.is_fully_within_picture = true ∧
      exampleInvalidBinaryEnv.cu.width ≤ kMaxTrSize exampleInvalidBinaryEnv.restrictions ∧
      exampleInvalidBinaryEnv.cu.height ≤ kMaxTrSize exampleInvalidBinaryEnv.restrictions ∧
      SplitRestriction.kNone ≠ SplitRestriction.kNoHorizontal ∧
      SplitRestriction.kNone ≠ SplitRestriction.kNoVertical ∧
      exampleInvalidBinaryEnv.cu.height > kMinBinarySplitSize ∧
      exampleInvalidBinaryEnv.cu.width > kMinBinarySplitSize) ∧
    do_hor_split exampleInvalidBinaryEnv SplitRestriction.kNone = false ∧
    do_ver_split exampleInvalidBinaryEnv SplitRestriction.kNone = false := by
  decide

/-- C17, amended. In `CompressCu` a horizontal (respectively vertical) binary
split is eligible exactly when `IsBinarySplitValid()` holds for the CU, the CU
is fully inside the picture, its luma width and height are both at most
`kMaxTrSize`, the incoming `SplitRestriction` is not `kNoHorizontal`
(respectively `kNoVertical`), and the luma height (respectively width) is above
`kMinBinarySplitSize = 4`. -/
theorem binary_split_eligibility (env : CompressCuEnv)
    (split_restiction : SplitRestriction) :
    (do_hor_split env split_restiction = true ↔
      env.cu.is_binary_split_valid = true ∧ env.cu.is_fully_within_picture = true ∧
      env.cu.width ≤ kMaxTrSize env.restrictions ∧
      env.cu.height ≤ kMaxTrSize env.restrictions ∧
      split_restiction ≠ SplitRestriction.kNoHorizontal ∧
      env.cu.height > kMinBinarySplitSize) ∧
    (do_ver_split env split_restiction = true ↔
      env.cu.is_binary_split_valid = true ∧ env.cu.is_fully_within_picture = true ∧
      env.cu.width ≤ kMaxTrSize env.restrictions ∧
      env.cu.height ≤ kMaxTrSize env.restrictions ∧
      split_restiction ≠ SplitRestriction.kNoVertical ∧
      env.cu.width > kMinBinarySplitSize) ∧
    kMinBinarySplitSize = 4 := by
  refine ⟨?_, ?_, rfl⟩
  · simp only [do_hor_split, can_binary_split, Bool.and_eq_true, decide_eq_true_eq,
      bne_iff_ne, ne_eq, and_assoc]
  · simp only [do_ver_split, can_binary_split, Bool.and_eq_true, decide_eq_true_eq,
      bne_iff_ne, ne_eq, and_assoc]

/-- C18. In `CompressCu` the Full candidate is eligible exactly when the CU is
fully inside the picture and its luma width and height are both at most
`kMaxTrSize`, which is 64 when `disable_ext_transform_size_64` is not set and
32 otherwise; the Quad candidate is eligible exactly when the binary depth of
the CU is 0 and its depth is below the maximal depth of its tree. When no split
is eligible and the assertion `do_full || do_split_any` holds, `CompressCu`
returns what `CompressNoSplit` returns on the live writer and evaluates nothing
else; when no split and not Full is eligible the assertion fails. -/
theorem full_and_quad_eligibility (env : CompressCuEnv)
    (split_restiction : SplitRestriction) (writer : RdoSyntaxWriter) (qp : Qp) :
    (do_full env = true ↔
      env.cu.is_fully_within_picture = true ∧
      env.cu.width ≤ kMaxTrSize env.restrictions ∧
      env.cu.height ≤ kMaxTrSize env.restrictions) ∧
    (kMaxTrSize env.restrictions =
      if env.restrictions.disable_ext_transform_size_64 = true then 32 else 64) ∧
    (do_quad_split env = true ↔
      env.cu.binary_depth = 0 ∧ env.cu.depth < env.pic_data.max_depth) ∧
    (do_split_any env split_restiction = false →
      (do_full env = true →
        ∃ r, CompressCu env split_restiction writer qp = some r ∧
          r.dist = (env.CompressNoSplit writer).dist ∧
          r.writer = (env.CompressNoSplit writer).writer ∧
          r.evaluated = [] ∧ r.splits = [] ∧ r.exit = ExitPoint.no_split) ∧
      (do_full env = false → CompressCu env split_restiction writer qp = none)) := by
  refine ⟨?_, ?_, ?_, ?_⟩
  · simp only [do_full, Bool.and_eq_true, decide_eq_true_eq, and_assoc]
  · unfold kMaxTrSize
    cases env.restrictions.disable_ext_transform_size_64 <;> simp
  · simp only [do_quad_split, Bool.and_eq_true, decide_eq_true_eq, beq_iff_eq]
  · intro hs
    refine ⟨fun hf => ?_, fun hf => ?_⟩
    · refine ⟨{ dist := (env.CompressNoSplit writer).dist,
                writer := (env.CompressNoSplit writer).writer,
                best_cu := some SplitType.kNone, rec_pic := some SplitType.kNone,
                marked := some SplitType.kNone, evaluated := [], splits := [],
                exit := ExitPoint.no_split }, ?_, rfl, rfl, rfl, rfl, rfl⟩
      simp [CompressCu, hs, hf]
    · simp [CompressCu, hs, hf]

/-- C14 at a concrete call: with the setting 1, all splits eligible and the CU
at the top-left sample unsplit, `CompressCu` leaves through line 250 after
Full, Horizontal and Vertical, without evaluating the quad split. -/
theorem quad_skip_decision_witness :
    (do_split_any exampleQuadSkipEnv SplitRestriction.kNone = true) ∧
    ((∀ (tl br : Int) (flag : Bool),
      ¬ (exampleQuadSkipEnv.encoder_settings.fast_quad_split_based_on_binary_split = 1 ∧ flag = true) →
      (CanSkipQuadSplitForCu exampleQuadSkipEnv.encoder_settings exampleQuadSkipEnv.pic_data tl br flag = true ↔
        ((exampleQuadSkipEnv.pic_data.max_binary_split_depth = 1 ∨
            exampleQuadSkipEnv.pic_data.max_binary_split_depth = 2) ∧
          tl = 0 ∧ exampleQuadSkipEnv.pic_data.is_intra_pic = false) ∨
        (exampleQuadSkipEnv.pic_data.max_binary_split_depth = 3 ∧
          (tl = 0 ∨ ((tl = 1 ∧ br = 1) ∧ exampleQuadSkipEnv.pic_data.is_intra_pic = false))) ∨
        (exampleQuadSkipEnv.pic_data.max_binary_split_depth = 4 ∧ (tl = 0 ∨ (tl = 1 ∧ br = 1))))) ∧
    ∃ r, CompressCu exampleQuadSkipEnv SplitRestriction.kNone exampleWriter exampleQp = some r ∧
      (r.exit = ExitPoint.quad_skip ↔
        exampleQuadSkipEnv.encoder_settings.fast_quad_split_based_on_binary_split ≠ 0 ∧
        do_quad_split exampleQuadSkipEnv = true ∧ do_hor_split exampleQuadSkipEnv SplitRestriction.kNone = true ∧
        do_ver_split exampleQuadSkipEnv SplitRestriction.kNone = true ∧
        ∃ v, compressCuBinary exampleQuadSkipEnv SplitRestriction.kNone exampleWriter exampleQp = Sum.inr v ∧
          CanSkipQuadSplitForCu exampleQuadSkipEnv.encoder_settings exampleQuadSkipEnv.pic_data
            (exampleQuadSkipEnv.GetCuAt_binary_depth v.best_cu).1 (exampleQuadSkipEnv.GetCuAt_binary_depth v.best_cu).2
            v.best_binary_depth_greater_than_one = true) ∧
      (r.exit = ExitPoint.quad_skip →
        SplitType.kQuad ∉ r.evaluated.map Prod.fst ∧
        ∃ v, compressCuBinary exampleQuadSkipEnv SplitRestriction.kNone exampleWriter exampleQp = Sum.inr v ∧
          r.dist = v.best_cost.dist ∧ r.writer = v.best_writer ∧ r.best_cu = v.best_cu) ∧
      (do_quad_split exampleQuadSkipEnv = true → canSkipAnySplit exampleQuadSkipEnv exampleWriter = false →
        (∃ v, compressCuBinary exampleQuadSkipEnv SplitRestriction.kNone exampleWriter exampleQp = Sum.inr v) ∧
        (SplitType.kQuad ∈ r.evaluated.map Prod.fst ↔ r.exit ≠ ExitPoint.quad_skip))) ∧
    ((CompressCu exampleQuadSkipEnv SplitRestriction.kNone exampleWriter exampleQp).map
        (fun r => (r.exit, r.evaluated.map Prod.fst, r.best_cu)) =
      some (ExitPoint.quad_skip,
        [SplitType.kNone, SplitType.kHorizontal, SplitType.kVertical],
        some SplitType.kVertical)) :=
  ⟨by decide,
   quad_skip_decision exampleQuadSkipEnv SplitRestriction.kNone exampleWriter exampleQp (by decide),
   rfl⟩

/-- C15 at a concrete call: the vertical split is the cheaper binary split and
its first sub CU is split, so with the setting 1 the quad split is evaluated. -/
theorem quad_skip_veto_witness :
    (do_quad_split exampleVetoEnv = true) ∧
    (do_hor_split exampleVetoEnv SplitRestriction.kNone = true) ∧
    (do_ver_split exampleVetoEnv SplitRestriction.kNone = true) ∧
    (canSkipAnySplit exampleVetoEnv exampleWriter = false) ∧
    ((∀ (pic_data : PictureData) (tl br : Int),
      exampleVetoEnv.encoder_settings.fast_quad_split_based_on_binary_split = 1 →
      CanSkipQuadSplitForCu exampleVetoEnv.encoder_settings pic_data tl br true = false) ∧
    ∃ v r, compressCuBinary exampleVetoEnv SplitRestriction.kNone exampleWriter exampleQp = Sum.inr v ∧
      CompressCu exampleVetoEnv SplitRestriction.kNone exampleWriter exampleQp = some r ∧
      (v.best_binary_depth_greater_than_one = true ↔
        ∃ t, t ≠ SplitType.kNone ∧
          some t ∈
            (if (CompressSplitCu exampleVetoEnv exampleQp SplitType.kVertical exampleWriter).cost.cost <
                (CompressSplitCu exampleVetoEnv exampleQp SplitType.kHorizontal exampleWriter).cost.cost then
              (CompressSplitCu exampleVetoEnv exampleQp SplitType.kVertical exampleWriter).sub_cu
            else (CompressSplitCu exampleVetoEnv exampleQp SplitType.kHorizontal exampleWriter).sub_cu)) ∧
      (exampleVetoEnv.encoder_settings.fast_quad_split_based_on_binary_split = 1 →
        v.best_binary_depth_greater_than_one = true →
        canSkipQuadSplit exampleVetoEnv SplitRestriction.kNone v = false ∧
        r.exit ≠ ExitPoint.quad_skip ∧ SplitType.kQuad ∈ r.evaluated.map Prod.fst)) ∧
    ((CompressCu exampleVetoEnv SplitRestriction.kNone exampleWriter exampleQp).map
        (fun r => (r.exit, r.evaluated.map Prod.fst)) =
      some (ExitPoint.last,
        [SplitType.kNone, SplitType.kHorizontal, SplitType.kVertical, SplitType.kQuad])) :=
  ⟨by decide,
   by decide,
   by decide,
   by decide,
   quad_skip_veto exampleVetoEnv SplitRestriction.kNone exampleWriter exampleQp (by decide) (by decide) (by decide) (by decide),
   rfl⟩

/-- C16 at a concrete call: a skipped unsplit candidate at binary depth 3 ends
the call before any split is evaluated. -/
theorem full_skip_decision_witness :
    (do_split_any exampleFullSkipEnv SplitRestriction.kNone = true) ∧
    (∃ r, CompressCu exampleFullSkipEnv SplitRestriction.kNone exampleWriter exampleQp = some r ∧
      (r.exit = ExitPoint.full_skip ↔
        exampleFullSkipEnv.encoder_settings.fast_cu_split_based_on_full_cu = true ∧ do_full exampleFullSkipEnv = true ∧
        (exampleFullSkipEnv.CompressNoSplit exampleWriter).skip_flag = true ∧
        exampleFullSkipEnv.cu.binary_depth ≥ (if exampleFullSkipEnv.pic_data.is_highest_layer = true then 2 else 3)) ∧
      (r.exit = ExitPoint.full_skip →
        r.dist = (exampleFullSkipEnv.CompressNoSplit exampleWriter).dist ∧
        r.writer = (exampleFullSkipEnv.CompressNoSplit exampleWriter).writer ∧
        r.evaluated.map Prod.fst = [SplitType.kNone] ∧ r.splits = []) ∧
      (r.exit ≠ ExitPoint.full_skip →
        (do_hor_split exampleFullSkipEnv SplitRestriction.kNone = true →
          SplitType.kHorizontal ∈ r.evaluated.map Prod.fst) ∧
        (do_ver_split exampleFullSkipEnv SplitRestriction.kNone = true →
          SplitType.kVertical ∈ r.evaluated.map Prod.fst) ∧
        (do_quad_split exampleFullSkipEnv = true →
          (SplitType.kQuad ∈ r.evaluated.map Prod.fst ↔ r.exit ≠ ExitPoint.quad_skip)) ∧
        ∃ t, t ≠ SplitType.kNone ∧ t ∈ r.evaluated.map Prod.fst)) ∧
    ((CompressCu exampleFullSkipEnv SplitRestriction.kNone exampleWriter exampleQp).map
        (fun r => (r.exit, r.dist, r.writer.num_written_bits, r.evaluated.map Prod.fst)) =
      some (ExitPoint.full_skip, 100, 10, [SplitType.kNone])) :=
  ⟨by decide,
   full_skip_decision exampleFullSkipEnv SplitRestriction.kNone exampleWriter exampleQp (by decide),
   rfl⟩

/-- C18 at a concrete call: for a 4x4 CU at the maximal depth no split is
eligible and `CompressCu` returns the distortion and the writer of
`CompressNoSplit`. -/
theorem full_and_quad_eligibility_witness :
    do_split_any exampleNoSplitEnv SplitRestriction.kNone = false ∧
    do_full exampleNoSplitEnv = true ∧
    ∃ r, CompressCu exampleNoSplitEnv SplitRestriction.kNone exampleWriter exampleQp = some r ∧
      r.dist = (exampleNoSplitEnv.CompressNoSplit exampleWriter).dist ∧
      r.writer = (exampleNoSplitEnv.CompressNoSplit exampleWriter).writer ∧
      r.evaluated = [] ∧ r.splits = [] ∧ r.exit = ExitPoint.no_split :=
  ⟨by decide, by decide,
   ((full_and_quad_eligibility exampleNoSplitEnv SplitRestriction.kNone exampleWriter
      exampleQp).2.2.2 (by decide)).1 (by decide)⟩

/-! ## The Intra entry of `CompressInterPic` -/

theorem interPicBeforeIntra_inv (env : InterPicEnv) :
    InterPicInv
      [MenuMode.AffineMerge, MenuMode.Merge, MenuMode.Inter RdMode.kInterMe,
       MenuMode.Inter RdMode.kInterLic, MenuMode.Inter RdMode.kInterFullpel,
       MenuMode.Inter RdMode.kInterLicFullpel] (interPicBeforeIntra env) :=
  menu_entry_inv (menu_entry_inv (menu_entry_inv (menu_entry_inv (menu_entry_inv
    (menu_entry_inv (interPicInit_inv env) _ _ _) _ _ _) _ _ _) _ _ _) _ _ _) _ _ _

theorem interPicBeforeIntra_no_intra (env : InterPicEnv) :
    MenuMode.Intra ∉ (interPicBeforeIntra env).trace.map Prod.fst := by
  intro h
  have := (interPicBeforeIntra_inv env).2.1.subset h
  simp at this

/-- C13, as the claim states it, fails: with `fast_skip_intra` false, so that
the disjunction of the claim holds, Intra is not evaluated when the best CU
found by the inter modes has no CBF and `always_evaluate_intra_in_inter` is
not set. -/
theorem intra_skipped_without_cbf :
    (fast_skip_intra exampleNoCbfInterPicEnv = false ∨
      ((interPicBeforeIntra exampleNoCbfInterPicEnv).payload
        (interPicBeforeIntra exampleNoCbfInterPicEnv).best_cu).has_any_cbf = true ∨
      exampleNoCbfInterPicEnv.encoder_settings.always_evaluate_intra_in_inter = true) ∧
    MenuMode.Intra ∉ (interPicSearch exampleNoCbfInterPicEnv).trace.map Prod.fst ∧
    (CompressInterPic exampleNoCbfInterPicEnv).map (fun r => r.trace.map Prod.fst) =
      some [MenuMode.Merge, MenuMode.Inter RdMode.kInterMe,
            MenuMode.Inter RdMode.kInterFullpel] := by
  refine ⟨Or.inl (by decide), by decide, by decide⟩

/-- C13, amended. In `CompressInterPic` the Intra mode is evaluated exactly
when (`fast_skip_intra` is false and the best CU found so far, the CU
`best_cu` points to when line 504 is reached, has a non-zero CBF on some
component) or `always_evaluate_intra_in_inter` is set, where `fast_skip_intra`
is `fast_mode_selection_for_cached_cu` and `cache_result.any_inter`; Intra is
then the last mode evaluated. -/
theorem intra_evaluated_iff (env : InterPicEnv) :
    (MenuMode.Intra ∈ (interPicSearch env).trace.map Prod.fst ↔
      (fast_skip_intra env = false ∧
        ((interPicBeforeIntra env).payload (interPicBeforeIntra env).best_cu).has_any_cbf
          = true) ∨
      env.encoder_settings.always_evaluate_intra_in_inter = true) ∧
    (fast_skip_intra env = true ↔
      env.encoder_settings.fast_mode_selection_for_cached_cu = true ∧
      env.cache_result.any_inter = true) ∧
    (MenuMode.Intra ∈ (interPicSearch env).trace.map Prod.fst →
      (interPicSearch env).trace =
        (interPicBeforeIntra env).trace ++ [(MenuMode.Intra, env.CompressIntra.cost)]) ∧
    (∀ r, CompressInterPic env = some r → r.trace = (interPicSearch env).trace) := by
  have hno := interPicBeforeIntra_no_intra env
  have hs : interPicSearch env = menuIntra env (interPicBeforeIntra env) := rfl
  have hc : ((!fast_skip_intra env &&
        ((interPicBeforeIntra env).payload (interPicBeforeIntra env).best_cu).has_any_cbf) ||
        env.encoder_settings.always_evaluate_intra_in_inter) = true ↔
      (fast_skip_intra env = false ∧
        ((interPicBeforeIntra env).payload (interPicBeforeIntra env).best_cu).has_any_cbf
          = true) ∨
      env.encoder_settings.always_evaluate_intra_in_inter = true := by
    simp only [Bool.or_eq_true, Bool.and_eq_true, Bool.not_eq_true']
  have ht : (interPicSearch env).trace =
      if ((!fast_skip_intra env &&
        ((interPicBeforeIntra env).payload (interPicBeforeIntra env).best_cu).has_any_cbf) ||
        env.encoder_settings.always_evaluate_intra_in_inter) = true then
        (interPicBeforeIntra env).trace ++ [(MenuMode.Intra, env.CompressIntra.cost)]
      else (interPicBeforeIntra env).trace := by
    rw [hs]
    unfold menuIntra
    split
    · exact save_if_best_cost_trace _ _ _
    · rfl
  refine ⟨?_, ?_, ?_, ?_⟩
  · rw [← hc, ht]
    split
    · next h => simp [h]
    · next h => simp [h, hno]
  · simp only [fast_skip_intra, Bool.and_eq_true]
  · intro hmem
    rw [ht] at hmem ⊢
    split
    · rfl
    · next h =>
      rw [if_neg h] at hmem
      exact absurd hmem hno
  · intro r hr
    simp only [CompressInterPic] at hr
    split at hr
    · cases hr; rfl
    · cases hr

/-! ## `GetCuCostWithoutSplit` at `Distortion::MAX` -/

/-- C11 at the failing input. For a CU that takes 5 bits, with the rate term
`2 * bits`, `GetCuCostWithoutSplit` gives the distortion `Distortion::MAX` the
cost `(2^64 - 1 + 10) mod 2^64 = 9`. In `CompressMerge` the merge candidate 0,
whose search returned `Distortion::MAX`, therefore beats the incumbent
`Cost::MAX` and the four candidates of cost 110 and is the one committed, and
`CompressAffineMerge` returns the cost 9 for a search that returned
`Distortion::MAX`; only `CompressInter`, which tests for `Distortion::MAX`
before the call, returns `Cost::MAX`. -/
theorem infeasible_merge_cost_wraps :
    GetCuCostWithoutSplit exampleQp 5 DistortionMax = { cost := 9, dist := DistortionMax } ∧
    (CompressMerge exampleInterLeafEnv CostMax false).map
        (fun r => (r.cost, r.merge_idx,
          r.trace.map (fun e => (e.merge_idx, e.force_skip, e.cost.cost)))) =
      some ({ cost := 9, dist := DistortionMax }, 0,
        [(0, false, 9), (1, false, 110), (2, false, 110), (3, false, 110), (4, false, 110),
         (0, true, 9), (1, true, 110), (2, true, 110), (3, true, 110), (4, true, 110)]) ∧
    (CompressAffineMerge exampleInterLeafEnv CostMax).cost =
      { cost := 9, dist := DistortionMax } ∧
    (CompressInter exampleInterLeafEnv RdMode.kInterMe CostMax).cost =
      { cost := CostMax, dist := DistortionMax } := by
  refine ⟨by decide, by decide, by decide, by decide⟩

/-! ## `EvalCbfZero` and the tie-break of `CompressAndEvalTransform` -/

/-- C19. `EvalCbfZero` returns true exactly when `cost_zero < cost_non_zero`,
or the two costs are equal, `bias_transform_select_cost` is set and (the
component is luma and the CU has a transform-select index, or transform skip is
set on the component), where `cost_non_zero` and `cost_zero` are `dist +
static_cast<Cost>(bits * lambda + 0.5)` in unsigned 64-bit arithmetic for the
bits of the residual and of the cleared CBF. When it returns true the CBF of
the component has been cleared by `ClearCbf`; when it returns false the CU is
unchanged. -/
theorem EvalCbfZero_decision (env : CbfZeroEnv) (cu : TransformCu) (qp : Qp)
    (comp : YuvComponent) (dist_non_zero dist_zero : Distortion) :
    ((EvalCbfZero env cu qp comp dist_non_zero dist_zero).1 = true ↔
      addU64 dist_zero (qp.lambda_bits (env.WriteCbf_bits cu comp false)) <
        addU64 dist_non_zero (qp.lambda_bits (env.WriteResidualDataRdoCbf_bits cu comp)) ∨
      (addU64 dist_zero (qp.lambda_bits (env.WriteCbf_bits cu comp false)) =
          addU64 dist_non_zero (qp.lambda_bits (env.WriteResidualDataRdoCbf_bits cu comp)) ∧
        env.encoder_settings.bias_transform_select_cost = true ∧
        ((IsLuma comp = true ∧ cu.HasTransformSelectIdx = true) ∨
          cu.GetTransformSkip comp = true))) ∧
    ((EvalCbfZero env cu qp comp dist_non_zero dist_zero).1 = true →
      (EvalCbfZero env cu qp comp dist_non_zero dist_zero).2 = cu.ClearCbf comp ∧
      (EvalCbfZero env cu qp comp dist_non_zero dist_zero).2.GetCbf comp = false) ∧
    ((EvalCbfZero env cu qp comp dist_non_zero dist_zero).1 = false →
      (EvalCbfZero env cu qp comp dist_non_zero dist_zero).2 = cu) ∧
    (EvalCbfZero exampleCbfZeroEnv { exampleTransformCu with cbf := fun _ => true } exampleQp
        YuvComponent.kY 10 18).1 = false ∧
    (EvalCbfZero exampleCbfZeroEnv
        { exampleTransformCu with cbf := fun _ => true, transform_select_idx := 0 } exampleQp
        YuvComponent.kY 10 16).1 = true := by
  have hc : (decide (addU64 dist_zero (qp.lambda_bits (env.WriteCbf_bits cu comp false)) <
        addU64 dist_non_zero (qp.lambda_bits (env.WriteResidualDataRdoCbf_bits cu comp))) ||
      (decide (addU64 dist_zero (qp.lambda_bits (env.WriteCbf_bits cu comp false)) =
          addU64 dist_non_zero (qp.lambda_bits (env.WriteResidualDataRdoCbf_bits cu comp))) &&
        env.encoder_settings.bias_transform_select_cost &&
        ((cu.HasTransformSelectIdx && IsLuma comp) || cu.GetTransformSkip comp))) = true ↔
      addU64 dist_zero (qp.lambda_bits (env.WriteCbf_bits cu comp false)) <
        addU64 dist_non_zero (qp.lambda_bits (env.WriteResidualDataRdoCbf_bits cu comp)) ∨
      (addU64 dist_zero (qp.lambda_bits (env.WriteCbf_bits cu comp false)) =
          addU64 dist_non_zero (qp.lambda_bits (env.WriteResidualDataRdoCbf_bits cu comp)) ∧
        env.encoder_settings.bias_transform_select_cost = true ∧
        ((IsLuma comp = true ∧ cu.HasTransformSelectIdx = true) ∨
          cu.GetTransformSkip comp = true)) := by
    simp only [Bool.or_eq_true, Bool.and_eq_true, decide_eq_true_eq, and_assoc,
      and_comm (a := cu.HasTransformSelectIdx = true)]
  rw [← hc]
  unfold EvalCbfZero
  simp only []
  split
  · next h =>
    refine ⟨⟨fun _ => h, fun _ => rfl⟩, fun _ => ⟨rfl, ?_⟩, (fun hx => by cases hx),
      by decide, by decide⟩
    simp [TransformCu.ClearCbf, TransformCu.SetCbf, TransformCu.GetCbf]
  · next h =>
    exact ⟨⟨(fun hx => by cases hx), fun hx => absurd hx h⟩, (fun hx => by cases hx),
      fun _ => rfl, by decide, by decide⟩

/-- C20, as the claim states it, fails: with `bias_transform_select_cost` set,
the normal transform with transform-select index 0, which is not positive, wins
among the normal transforms with cost 40, transform skip costs 40 as well, and
transform skip is committed. -/
theorem transform_skip_preferred_at_index_zero :
    exampleBiasTransformEnv.encoder_settings.bias_transform_select_cost = true ∧
    (evalNormal exampleBiasTransformEnv YuvComponent.kY exampleTransformCu).best_txselect_normal
      = 0 ∧
    (evalNormal exampleBiasTransformEnv YuvComponent.kY exampleTransformCu).best_cost_normal
      = 40 ∧
    (evalTxSkip exampleBiasTransformEnv YuvComponent.kY
      (evalNormal exampleBiasTransformEnv YuvComponent.kY exampleTransformCu).cu).1 = 40 ∧
    (CompressAndEvalTransform exampleBiasTransformEnv exampleTransformCu
      YuvComponent.kY).committed_skip = true := by
  refine ⟨by decide, by decide, by decide, by decide, by decide⟩

/-- C20, amended. In `CompressAndEvalTransform` transform skip is committed
exactly when its cost is strictly below the best cost of the normal transforms,
or the two costs are equal, `bias_transform_select_cost` is set and the winning
normal transform-select index is at least 0 (a transform-select index is set);
in every other case, in particular on every other equality, the winning normal
transform is committed. -/
theorem transform_skip_tie_break (env : TransformEnv) (cu : TransformCu)
    (comp : YuvComponent) :
    ((CompressAndEvalTransform env cu comp).committed_skip = true ↔
      (evalTxSkip env comp (evalNormal env comp cu).cu).1 <
          (evalNormal env comp cu).best_cost_normal ∨
      ((evalTxSkip env comp (evalNormal env comp cu).cu).1 =
          (evalNormal env comp cu).best_cost_normal ∧
        env.encoder_settings.bias_transform_select_cost = true ∧
        (evalNormal env comp cu).best_txselect_normal ≥ 0)) ∧
    ((CompressAndEvalTransform env cu comp).committed_skip = true →
      (CompressAndEvalTransform env cu comp).committed_tx_select = -1) ∧
    ((CompressAndEvalTransform env cu comp).committed_skip = false →
      (CompressAndEvalTransform env cu comp).committed_tx_select =
        (evalNormal env comp cu).best_txselect_normal) := by
  obtain ⟨-, -, hc, ht, hf⟩ := CompressAndEvalTransform_fields env cu comp
  refine ⟨?_, ht, hf⟩
  rw [hc]
  simp only [commitTxSkip, Bool.or_eq_true, Bool.and_eq_true, decide_eq_true_eq, and_assoc]

/-! ## `Checksum` -/

/-- C30. For all `Checksum` values `a` and `b`, `a == b` holds exactly when
their hash byte vectors are equal, whatever their methods (two checksums with
equal bytes and the methods `kCRC` and `kMD5` compare equal), and `a != b` is
the negation of `a == b`. -/
theorem Checksum_equality_on_hash (a b : Checksum) :
    (a.operator_eq b = true ↔ a.hash_ = b.hash_) ∧
    a.operator_ne b = !a.operator_eq b ∧
    (∀ (hash : List Nat) (m1 m2 : ChecksumMethod),
      Checksum.operator_eq { hash_ := hash, method_ := m1 } { hash_ := hash, method_ := m2 }
        = true) ∧
    Checksum.operator_eq { hash_ := [1, 2, 3], method_ := ChecksumMethod.kCRC }
      { hash_ := [1, 2, 3], method_ := ChecksumMethod.kMD5 } = true ∧
    Checksum.operator_ne { hash_ := [1, 2, 3], method_ := ChecksumMethod.kCRC }
      { hash_ := [1, 2, 4], method_ := ChecksumMethod.kCRC } = true := by
  refine ⟨?_, rfl, ?_, by decide, by decide⟩
  · simp [Checksum.operator_eq]
  · intro hash m1 m2
    simp [Checksum.operator_eq]

/-! ## Skip flag after `CompressMerge` and `CompressIntra` -/

/-- C26. Whenever `CompressMerge` returns, the skip flag it set on the CU is
true exactly when the CU has no CBF on any component (`GetHasAnyCbf()` is
false) and `disable_inter_skip_mode` is not set; so a CU that `CompressMerge`
flags as skip has no CBF. After `CompressIntra` the skip flag is false (and
the prediction mode is intra). -/
theorem skip_flag_after_merge_and_intra (env : InterLeafEnv) (best_cu_cost : Cost)
    (fast_merge_skip : Bool) (intra : IntraEnv) (writer : RdoSyntaxWriter) :
    (∀ r, CompressMerge env best_cu_cost fast_merge_skip = some r →
      (r.skip_flag = true ↔
        r.has_any_cbf = false ∧ env.restrictions.disable_inter_skip_mode = false) ∧
      (r.skip_flag = true → r.has_any_cbf = false)) ∧
    (CompressIntra intra writer).skip_flag = false ∧
    (CompressIntra intra writer).pred_mode = PredictionMode.kIntra ∧
    (CompressMerge exampleMergeEnv CostMax false).map
        (fun r => (r.merge_idx, r.has_any_cbf, r.skip_flag)) = some (4, false, true) ∧
    (CompressIntra exampleIntraEnv exampleWriter).cost = { cost := 70, dist := 50 } := by
  refine ⟨?_, rfl, rfl, by decide, by decide⟩
  intro r hr
  unfold CompressMerge at hr
  by_cases hneg : (mergeSearch env best_cu_cost fast_merge_skip).best_merge_idx < 0
  · simp only [hneg, if_true] at hr
    cases hr
  · simp only [hneg, if_false, Option.some.injEq] at hr
    subst hr
    refine ⟨?_, ?_⟩
    · simp only [Bool.and_eq_true, Bool.not_eq_true']
    · intro h
      simp only [Bool.and_eq_true, Bool.not_eq_true'] at h
      exact h.1

/-! ## The distortion returned by `CompressAndEvalTransform` -/

theorem foldl_normalBody_cu (env : TransformEnv) (comp : YuvComponent) (l : List Int)
    (v : TransformVars) :
    (l.foldl (normalBody env comp) v).cu =
      l.foldl (fun c t => candidateCu env comp c t false) v.cu := by
  induction l generalizing v with
  | nil => rfl
  | cons t l ih =>
    rw [List.foldl_cons, List.foldl_cons, ih, normalBody_cu]

theorem evalNormal_cu_residual (env : TransformEnv) (comp : YuvComponent) (cu : TransformCu)
    (g : TransformCu → YuvComponent → Bool → Distortion) :
    (evalNormal { env with GetResidualDist := g } comp cu).cu = (evalNormal env comp cu).cu := by
  unfold evalNormal
  rw [foldl_normalBody_cu, foldl_normalBody_cu]
  rfl

theorem evalTxSkip_cu_residual (env : TransformEnv) (comp : YuvComponent) (cu : TransformCu)
    (g : TransformCu → YuvComponent → Bool → Distortion) :
    (evalTxSkip { env with GetResidualDist := g } comp cu).2.1 = (evalTxSkip env comp cu).2.1 := by
  unfold evalTxSkip
  split <;> rfl

theorem CompressAndEvalTransform_dist (env : TransformEnv) (cu : TransformCu)
    (comp : YuvComponent) :
    (CompressAndEvalTransform env cu comp).dist =
      (TransformAndReconstruct env
        ((evalTxSkip env comp (evalNormal env comp cu).cu).2.1.SetTransformFromSelectIdx comp
          (CompressAndEvalTransform env cu comp).committed_tx_select)
        comp (CompressAndEvalTransform env cu comp).committed_skip).1 := by
  unfold CompressAndEvalTransform
  simp only []
  split <;> rfl

theorem TransformAndReconstruct_dist (env : TransformEnv) (cu : TransformCu)
    (comp : YuvComponent) (skip : Bool) :
    (TransformAndReconstruct env cu comp skip).1 = DistortionMax ∨
    (TransformAndReconstruct env cu comp skip).1 = env.CompareSample cu comp skip := by
  unfold TransformAndReconstruct
  simp only []
  split
  · exact Or.inl rfl
  · split
    · exact Or.inl rfl
    · split
      · exact Or.inl rfl
      · exact Or.inr rfl

/-- C22. For every setting of `fast_inter_transform_dist`, the value returned
by `CompressAndEvalTransform` is the value returned by the final
`TransformAndReconstruct` call, made for the committed candidate on the CU as
the evaluations left it: `Distortion::MAX` or the value of
`metric.CompareSample` on the reconstruction of that call. The residual-domain
metric `GetResidualDist` enters only the costs that select the candidate:
replacing it by any other function `g` changes neither the CU on which the
final call is made nor, when the same candidate is committed, the value
returned. -/
theorem CompressAndEvalTransform_returns_sample_distortion (env : TransformEnv)
    (cu : TransformCu) (comp : YuvComponent)
    (g : TransformCu → YuvComponent → Bool → Distortion) :
    (CompressAndEvalTransform env cu comp).dist =
      (TransformAndReconstruct env
        ((evalTxSkip env comp (evalNormal env comp cu).cu).2.1.SetTransformFromSelectIdx comp
          (CompressAndEvalTransform env cu comp).committed_tx_select)
        comp (CompressAndEvalTransform env cu comp).committed_skip).1 ∧
    ((CompressAndEvalTransform env cu comp).dist = DistortionMax ∨
      (CompressAndEvalTransform env cu comp).dist =
        env.CompareSample
          ((evalTxSkip env comp (evalNormal env comp cu).cu).2.1.SetTransformFromSelectIdx comp
            (CompressAndEvalTransform env cu comp).committed_tx_select)
          comp (CompressAndEvalTransform env cu comp).committed_skip) ∧
    (evalTxSkip { env with GetResidualDist := g } comp
        (evalNormal { env with GetResidualDist := g } comp cu).cu).2.1 =
      (evalTxSkip env comp (evalNormal env comp cu).cu).2.1 ∧
    ((CompressAndEvalTransform { env with GetResidualDist := g } cu comp).committed_tx_select =
        (CompressAndEvalTransform env cu comp).committed_tx_select →
      (CompressAndEvalTransform { env with GetResidualDist := g } cu comp).committed_skip =
        (CompressAndEvalTransform env cu comp).committed_skip →
      (CompressAndEvalTransform { env with GetResidualDist := g } cu comp).dist =
        (CompressAndEvalTransform env cu comp).dist) := by
  have hcu : (evalTxSkip { env with GetResidualDist := g } comp
        (evalNormal { env with GetResidualDist := g } comp cu).cu).2.1 =
      (evalTxSkip env comp (evalNormal env comp cu).cu).2.1 := by
    rw [evalNormal_cu_residual, evalTxSkip_cu_residual]
  refine ⟨CompressAndEvalTransform_dist env cu comp, ?_, hcu, ?_⟩
  · rw [CompressAndEvalTransform_dist env cu comp]
    exact TransformAndReconstruct_dist env _ comp _
  · intro h1 h2
    rw [CompressAndEvalTransform_dist env cu comp,
      CompressAndEvalTransform_dist { env with GetResidualDist := g } cu comp, h1, h2, hcu]
    rfl

/-! ## `CalcDeltaQpFromVariance` and the QP set by `EncodeCtu` -/

theorem Clip3_range (value min_value max_value : Int) (h : min_value ≤ max_value) :
    min_value ≤ Clip3 value min_value max_value ∧
    Clip3 value min_value max_value ≤ max_value := by
  unfold Clip3
  split
  · exact ⟨Int.le_refl _, h⟩
  · split
    · exact ⟨h, Int.le_refl _⟩
    · constructor <;> omega

theorem insertionSort_append_replicate (l : List Nat) (M n : Nat) (h : ∀ x ∈ l, x ≤ M) :
    (l ++ List.replicate n M).insertionSort (fun a b => a ≤ b) =
      l.insertionSort (fun a b => a ≤ b) ++ List.replicate n M := by
  apply List.eq_of_perm_of_sorted (r := fun a b => a ≤ b)
  · exact (List.perm_insertionSort _ _).trans
      (List.Perm.append_right _ (List.perm_insertionSort _ _).symm)
  · exact List.sorted_insertionSort _ _
  · rw [List.Sorted, List.pairwise_append]
    refine ⟨List.sorted_insertionSort _ _, ?_, ?_⟩
    · simp [List.pairwise_replicate]
    · intro a ha b hb
      rw [List.mem_replicate] at hb
      rw [hb.2]
      exact h a ((List.perm_insertionSort _ _).subset ha)

theorem calc_variance_le (src : Nat → Nat → Nat) (block_size : Nat) :
    calc_variance src block_size ≤ 2 ^ 64 - 1 := by
  unfold calc_variance
  simp only []
  refine Nat.le_trans (Nat.div_le_self _ _) ?_
  unfold mulU64
  omega

theorem aqpInner_fold (env : AqpEnv) (i : Nat) (st : List ((Nat × Nat) × Nat)) (n : Nat) :
    ((List.range n).foldl (aqpInnerBody env i) { orig_column := env.x, stored := st }).stored =
      st ++ (List.range n).filterMap (fun (j : Nat) =>
        if env.x + (j : Int) * 16 ≥ env.picture_width then none
        else
          some ((i, j),
            calc_variance
              (fun k l =>
                env.orig (env.x + (j : Int) * 16 + (l : Int))
                  (env.y + (i : Int) * 16 + (k : Int)))
              16)) ∧
    ((∀ j < n, env.x + (j : Int) * 16 < env.picture_width) →
      ((List.range n).foldl (aqpInnerBody env i)
        { orig_column := env.x, stored := st }).orig_column = env.x + (n : Int) * 16) := by
  induction n with
  | zero => simp
  | succ n ih =>
    obtain ⟨ih1, ih2⟩ := ih
    rw [List.range_succ, List.foldl_append, List.filterMap_append]
    simp only [List.foldl_cons, List.foldl_nil, List.filterMap_cons, List.filterMap_nil]
    by_cases hc : env.x + (n : Int) * 16 ≥ env.picture_width
    · refine ⟨?_, ?_⟩
      · simp only [aqpInnerBody, hc, if_true, ih1, List.append_nil]
      · intro hall
        have := hall n (Nat.lt_succ_self n)
        omega
    · have hcol := ih2 (fun j hj => by
        have : (j : Int) < (n : Int) := by exact_mod_cast hj
        omega)
      refine ⟨?_, ?_⟩
      · simp only [aqpInnerBody, hc, if_false, ih1, hcol, List.append_assoc]
      · intro _
        simp only [aqpInnerBody, hc, if_false, hcol]
        push_cast
        ring

theorem aqpStored_eq (env : AqpEnv) : aqpStored env = aqpContributing env := by
  unfold aqpStored aqpContributing
  simp only []
  generalize env.cu_height / 16 = w
  suffices h : ∀ n : Nat,
      (List.range n).foldl (aqpOuterBody env w) [] =
        (List.range n).flatMap (fun (i : Nat) =>
          if env.y + (i : Int) * 16 ≥ env.picture_height then []
          else
            (List.range w).filterMap (fun (j : Nat) =>
              if env.x + (j : Int) * 16 ≥ env.picture_width then none
              else
                some ((i, j),
                  calc_variance
                    (fun k l =>
                      env.orig (env.x + (j : Int) * 16 + (l : Int))
                        (env.y + (i : Int) * 16 + (k : Int)))
                    16))) from h w
  intro n
  induction n with
  | zero => simp
  | succ n ih =>
    rw [List.range_succ, List.foldl_append, List.flatMap_append, ih]
    simp only [List.foldl_cons, List.foldl_nil, List.flatMap_cons, List.flatMap_nil,
      List.append_nil]
    unfold aqpOuterBody
    by_cases hc : env.y + (n : Int) * 16 ≥ env.picture_height
    · simp only [hc, if_true, List.append_nil]
    · simp only [hc, if_false]
      exact (aqpInner_fold env n _ w).1

theorem mem_aqpContributing (env : AqpEnv) (i j : Nat) (c : Nat) :
    ((i, j), c) ∈ aqpContributing env ↔
      i < env.cu_height / 16 ∧ j < env.cu_height / 16 ∧
      env.y + (i : Int) * 16 < env.picture_height ∧
      env.x + (j : Int) * 16 < env.picture_width ∧
      c = calc_variance
        (fun k l =>
          env.orig (env.x + (j : Int) * 16 + (l : Int)) (env.y + (i : Int) * 16 + (k : Int)))
        16 := by
  unfold aqpContributing
  simp only [List.mem_flatMap, List.mem_range]
  constructor
  · rintro ⟨i', hi', hmem⟩
    by_cases hc : env.y + (i' : Int) * 16 ≥ env.picture_height
    · simp [hc] at hmem
    · simp only [hc, if_false, List.mem_filterMap, List.mem_range] at hmem
      obtain ⟨j', hj', hsome⟩ := hmem
      by_cases hd : env.x + (j' : Int) * 16 ≥ env.picture_width
      · simp [hd] at hsome
      · simp only [hd, if_false, Option.some.injEq, Prod.mk.injEq] at hsome
        obtain ⟨⟨h1, h2⟩, h3⟩ := hsome
        subst h1; subst h2
        exact ⟨hi', hj', by omega, by omega, h3.symm⟩
  · rintro ⟨hi, hj, hy, hx, hcv⟩
    refine ⟨i, hi, ?_⟩
    have hc : ¬ env.y + (i : Int) * 16 ≥ env.picture_height := by omega
    simp only [hc, if_false, List.mem_filterMap, List.mem_range]
    refine ⟨j, hj, ?_⟩
    have hd : ¬ env.x + (j : Int) * 16 ≥ env.picture_width := by omega
    simp only [hd, if_false, hcv]

theorem CalcDeltaQpFromVariance_some (env : AqpEnv) (h : 16 ≤ env.cu_height) :
    ∃ m, ((((aqpStored env).map Prod.snd) ++
        List.replicate (env.cu_height / 16 * (env.cu_height / 16) -
          ((aqpStored env).map Prod.snd).length) (2 ^ 64 - 1)).insertionSort
          (fun a b => a ≤ b))[((aqpStored env).map Prod.snd).length / 2]? = some m ∧
      CalcDeltaQpFromVariance env =
        some (Clip3 (env.dqp env.encoder_settings.aqp_strength (addU64 1 m) env.bitdepth)
          (-3) 7) := by
  have hpos : 1 ≤ env.cu_height / 16 := (Nat.one_le_div_iff (by decide)).2 h
  have hpos2 : 1 ≤ env.cu_height / 16 * (env.cu_height / 16) := Nat.mul_pos hpos hpos
  have hlen : ((aqpStored env).map Prod.snd).length / 2 <
      ((((aqpStored env).map Prod.snd) ++
        List.replicate (env.cu_height / 16 * (env.cu_height / 16) -
          ((aqpStored env).map Prod.snd).length) (2 ^ 64 - 1)).insertionSort
          (fun a b => a ≤ b)).length := by
    rw [List.length_insertionSort, List.length_append, List.length_replicate]
    omega
  refine ⟨_, List.getElem?_eq_getElem hlen, ?_⟩
  unfold CalcDeltaQpFromVariance
  simp only []
  rw [List.getElem?_eq_getElem hlen]

/-- C27. For a CU of luma height at least 16 (a CTU is 64 samples high),
whatever the picture, the samples and `aqp_strength`,
`CalcDeltaQpFromVariance` returns an integer between `-3` and `7`, the result
of `util::Clip3(static_cast<int>(dqp), -3, 7)`. `EncodeCtu` sets the QP of the
CTU (line 96) to the raw luma QP of the picture plus that value when
`adaptive_qp` is enabled and to the raw luma QP of the picture otherwise, and
sets the same QP on the CTU of the secondary tree when there is one. -/
theorem EncodeCtu_qp_range (env : EncodeCtuEnv) (h : 16 ≤ env.aqp.cu_height) :
    (∃ d, CalcDeltaQpFromVariance env.aqp = some d ∧ -3 ≤ d ∧ d ≤ 7) ∧
    ∃ q, EncodeCtu_qp env = some q ∧
      (env.aqp.encoder_settings.adaptive_qp = true →
        ∃ d, CalcDeltaQpFromVariance env.aqp = some d ∧ q.ctu_qp = env.pic_qp_raw + d) ∧
      (env.aqp.encoder_settings.adaptive_qp = false → q.ctu_qp = env.pic_qp_raw) ∧
      (env.has_secondary_cu_tree = true → q.ctu2_qp = some q.ctu_qp) ∧
      (env.has_secondary_cu_tree = false → q.ctu2_qp = none) := by
  obtain ⟨m, -, hd⟩ := CalcDeltaQpFromVariance_some env.aqp h
  have hr := Clip3_range
    (env.aqp.dqp env.aqp.encoder_settings.aqp_strength (addU64 1 m) env.aqp.bitdepth) (-3) 7
    (by decide)
  refine ⟨⟨_, hd, hr.1, hr.2⟩, ?_⟩
  unfold EncodeCtu_qp
  cases ha : env.aqp.encoder_settings.adaptive_qp
  · simp only [Bool.false_eq_true, if_false]
    refine ⟨_, rfl, (fun hx => by cases hx), fun _ => by simp, ?_, ?_⟩
    · intro hs; simp [hs]
    · intro hs; simp [hs]
  · simp only [if_true, hd]
    refine ⟨_, rfl, fun _ => ⟨_, rfl, rfl⟩, (fun hx => by cases hx), ?_, ?_⟩
    · intro hs; simp [hs]
    · intro hs; simp [hs]

set_option maxRecDepth 100000 in
/-- C27 at a concrete CTU: constant samples give the variance 0 in every
sub-block, the value of line 360 is `-15` for the variance `1`, which is
clipped to `-3`; with the picture QP 30 both CTUs get the QP 27. -/
theorem EncodeCtu_qp_range_witness :
    16 ≤ exampleEncodeCtuEnv.aqp.cu_height ∧
    ((∃ d, CalcDeltaQpFromVariance exampleEncodeCtuEnv.aqp = some d ∧ -3 ≤ d ∧ d ≤ 7) ∧
      ∃ q, EncodeCtu_qp exampleEncodeCtuEnv = some q ∧
        (exampleEncodeCtuEnv.aqp.encoder_settings.adaptive_qp = true →
          ∃ d, CalcDeltaQpFromVariance exampleEncodeCtuEnv.aqp = some d ∧
            q.ctu_qp = exampleEncodeCtuEnv.pic_qp_raw + d) ∧
        (exampleEncodeCtuEnv.aqp.encoder_settings.adaptive_qp = false →
          q.ctu_qp = exampleEncodeCtuEnv.pic_qp_raw) ∧
        (exampleEncodeCtuEnv.has_secondary_cu_tree = true → q.ctu2_qp = some q.ctu_qp) ∧
        (exampleEncodeCtuEnv.has_secondary_cu_tree = false → q.ctu2_qp = none)) ∧
    EncodeCtu_qp exampleEncodeCtuEnv = some { ctu_qp := 27, ctu2_qp := some 27 } :=
  ⟨by decide, EncodeCtu_qp_range exampleEncodeCtuEnv (by decide), by decide⟩

/-- C28, as the claim states it, fails: in a picture 24 samples wide the
sub-block `(0, 1)` of the CTU at the origin covers the columns 16 to 31, so it
reaches beyond the right edge of the picture, and its variance is stored. -/
theorem aqp_block_past_edge_contributes :
    exampleAqpEnv.x + ((1 : Int) + 1) * 16 > exampleAqpEnv.picture_width ∧
    (0, 1) ∈ (aqpStored exampleAqpEnv).map Prod.fst := by
  refine ⟨by decide, ?_⟩
  rw [aqpStored_eq, List.mem_map]
  exact ⟨((0, 1), _), (mem_aqpContributing exampleAqpEnv 0 1 _).2
    ⟨by decide, by decide, by decide, by decide, rfl⟩, rfl⟩

/-- C28, amended. In `CalcDeltaQpFromVariance` the 16x16 sub-block `(i, j)`
of the CU contributes its variance exactly when its top-left sample lies
inside the picture, `y + 16 i < height` and `x + 16 j < width`; a sub-block
that starts inside the picture and reaches beyond the right or bottom edge
contributes as well. The variance stored for a sub-block is `calc_variance` on
its 16x16 samples, and when some sub-block contributes the value used at line
357 is the element of index `blocks / 2` of the sorted variances of the
contributing sub-blocks only. -/
theorem aqp_contributing_blocks (env : AqpEnv) :
    (∀ i j : Nat, (i, j) ∈ (aqpStored env).map Prod.fst ↔
      i < env.cu_height / 16 ∧ j < env.cu_height / 16 ∧
      env.y + (i : Int) * 16 < env.picture_height ∧
      env.x + (j : Int) * 16 < env.picture_width) ∧
    (∀ (i j c : Nat), ((i, j), c) ∈ aqpStored env →
      c = calc_variance
        (fun k l =>
          env.orig (env.x + (j : Int) * 16 + (l : Int)) (env.y + (i : Int) * 16 + (k : Int)))
        16) ∧
    (∀ d, CalcDeltaQpFromVariance env = some d → aqpStored env ≠ [] →
      ∃ m, (((aqpStored env).map Prod.snd).insertionSort
          (fun a b => a ≤ b))[(aqpStored env).length / 2]? = some m ∧
        d = Clip3 (env.dqp env.encoder_settings.aqp_strength (addU64 1 m) env.bitdepth)
          (-3) 7) := by
  refine ⟨?_, ?_, ?_⟩
  · intro i j
    rw [aqpStored_eq, List.mem_map]
    constructor
    · rintro ⟨⟨⟨i', j'⟩, c⟩, hmem, heq⟩
      simp only [Prod.mk.injEq] at heq
      obtain ⟨h1, h2⟩ := heq
      subst h1; subst h2
      obtain ⟨g1, g2, g3, g4, -⟩ := (mem_aqpContributing env _ _ c).1 hmem
      exact ⟨g1, g2, g3, g4⟩
    · rintro ⟨g1, g2, g3, g4⟩
      exact ⟨((i, j), _), (mem_aqpContributing env i j _).2 ⟨g1, g2, g3, g4, rfl⟩, rfl⟩
  · intro i j c hmem
    rw [aqpStored_eq] at hmem
    exact ((mem_aqpContributing env i j c).1 hmem).2.2.2.2
  · intro d hd hne
    have hle : ∀ x ∈ (aqpStored env).map Prod.snd, x ≤ 2 ^ 64 - 1 := by
      intro x hx
      rw [List.mem_map] at hx
      obtain ⟨⟨⟨i, j⟩, c⟩, hmem, heq⟩ := hx
      rw [aqpStored_eq] at hmem
      have := ((mem_aqpContributing env i j c).1 hmem).2.2.2.2
      simp only at heq
      rw [← heq, this]
      exact calc_variance_le _ _
    have hpos : 0 < (aqpStored env).length := List.length_pos.2 hne
    have hlt : ((aqpStored env).map Prod.snd).length / 2 <
        (((aqpStored env).map Prod.snd).insertionSort (fun a b => a ≤ b)).length := by
      rw [List.length_insertionSort, List.length_map]
      omega
    unfold CalcDeltaQpFromVariance at hd
    simp only [] at hd
    rw [insertionSort_append_replicate _ _ _ hle, List.getElem?_append_left hlt,
      List.length_map] at hd
    cases hm : (((aqpStored env).map Prod.snd).insertionSort
        (fun a b => a ≤ b))[(aqpStored env).length / 2]? with
    | none => rw [hm] at hd; cases hd
    | some m =>
      rw [hm] at hd
      simp only [Option.some.injEq] at hd
      exact ⟨m, rfl, hd.symm⟩

/-! ## The reconstruction written by `TransformAndReconstruct` -/

theorem TransformAndReconstruct_reco_eq (env : ReconEnv) (cu : TransformCu) (reco : List Int)
    (comp : YuvComponent) (skip : Bool) :
    (TransformAndReconstruct_reco env cu reco comp skip).dist =
      (TransformAndReconstruct env.transform cu comp skip).1 ∧
    (TransformAndReconstruct_reco env cu reco comp skip).cu =
      (TransformAndReconstruct env.transform cu comp skip).2 := by
  unfold TransformAndReconstruct_reco TransformAndReconstruct
  simp only []
  split
  · exact ⟨rfl, rfl⟩
  · split
    · exact ⟨rfl, rfl⟩
    · split
      · exact ⟨rfl, rfl⟩
      · exact ⟨rfl, rfl⟩

/-- C21, as the claim states it, fails: a call with `skip_transform` in which
the quantiser leaves no non-zero coefficient, `disable_transform_cbf` not
being set, returns `Distortion::MAX` at line 172 without touching the CBF or
the reconstruction. Entered with CBF false and reconstructed samples 1 and 2
it returns with CBF false and the reconstruction is not the prediction 5 and
250; entered with CBF true it returns with CBF true, so the CBF is not set
false. -/
theorem reconstruction_untouched_on_early_return :
    quantNonZero exampleReconEnv.transform exampleTransformCu YuvComponent.kY true = 0 ∧
    exampleReconEnv.transform.restrictions.disable_transform_cbf = false ∧
    (TransformAndReconstruct_reco exampleReconEnv exampleTransformCu [1, 2]
      YuvComponent.kY true).cu.GetCbf YuvComponent.kY = false ∧
    (TransformAndReconstruct_reco exampleReconEnv exampleTransformCu [1, 2]
      YuvComponent.kY true).reco = [1, 2] ∧
    exampleReconEnv.pred_buffer YuvComponent.kY = [5, 250] ∧
    (TransformAndReconstruct_reco exampleReconEnv
      { exampleTransformCu with cbf := fun _ => true } [1, 2]
      YuvComponent.kY true).cu.GetCbf YuvComponent.kY = true := by
  refine ⟨by decide, by decide, by decide, by decide, by decide, by decide⟩

/-- C21, amended. A call of `TransformAndReconstruct` that returns
`Distortion::MAX` at line 163, 168 or 172 leaves the CBF and the
reconstruction as they were. Every other call sets `CBF[comp]`, to false
exactly when quantisation produced no non-zero coefficient and
`disable_transform_cbf` is not set; when it sets the CBF to false the
reconstructed samples of the CU in the component are the samples of the
prediction buffer, and otherwise they are `clip(prediction + inverse
transformed residual)` to the range from 0 to `2^bitdepth - 1`. -/
theorem reconstruction_after_cbf (env : ReconEnv) (cu : TransformCu) (reco : List Int)
    (comp : YuvComponent) (skip_transform : Bool) :
    (returnsBeforeCbf env.transform cu comp skip_transform = true →
      (TransformAndReconstruct_reco env cu reco comp skip_transform).dist = DistortionMax ∧
      (TransformAndReconstruct_reco env cu reco comp skip_transform).cu = cu ∧
      (TransformAndReconstruct_reco env cu reco comp skip_transform).reco = reco) ∧
    (returnsBeforeCbf env.transform cu comp skip_transform = false →
      ((TransformAndReconstruct_reco env cu reco comp skip_transform).cu.GetCbf comp = false ↔
        quantNonZero env.transform cu comp skip_transform = 0 ∧
        env.transform.restrictions.disable_transform_cbf = false) ∧
      ((TransformAndReconstruct_reco env cu reco comp skip_transform).cu.GetCbf comp = false →
        (TransformAndReconstruct_reco env cu reco comp skip_transform).reco =
          env.pred_buffer comp) ∧
      ((TransformAndReconstruct_reco env cu reco comp skip_transform).cu.GetCbf comp = true →
        (TransformAndReconstruct_reco env cu reco comp skip_transform).reco =
          List.zipWith (fun p r => Clip3 (p + r) 0 ((2 : Int) ^ env.bitdepth - 1))
            (env.pred_buffer comp) (env.inverse_residual cu comp skip_transform))) ∧
    (TransformAndReconstruct_reco exampleReconEnv exampleTransformCu [1, 2]
      YuvComponent.kY false).reco = [8, 255] := by
  refine ⟨?_, ?_, by decide⟩
  · intro h
    unfold returnsBeforeCbf at h
    unfold TransformAndReconstruct_reco
    simp only []
    split
    · exact ⟨rfl, rfl, rfl⟩
    · split
      · exact ⟨rfl, rfl, rfl⟩
      · split
        · exact ⟨rfl, rfl, rfl⟩
        · next h1 h2 h3 =>
          simp only [Bool.or_eq_true] at h
          rcases h with (h | h) | h
          · exact absurd h h1
          · exact absurd h h2
          · exact absurd h h3
  · intro h
    unfold returnsBeforeCbf at h
    simp only [Bool.or_eq_false_iff] at h
    obtain ⟨⟨h1, h2⟩, h3⟩ := h
    unfold TransformAndReconstruct_reco
    simp only [h1, h2, h3, Bool.false_eq_true, if_false]
    by_cases hz : quantNonZero env.transform cu comp skip_transform = 0
    · cases hd : env.transform.restrictions.disable_transform_cbf
      · simp [hz, hd, TransformCu.GetCbf, TransformCu.SetCbf, TransformCu.SetTransformSkip,
          CopyFrom]
      · simp [hz, hd, TransformCu.GetCbf, TransformCu.SetCbf, TransformCu.SetTransformSkip,
          AddClip, ReconEnv.min_pel_, ReconEnv.max_pel_]
    · simp [hz, TransformCu.GetCbf, TransformCu.SetCbf, TransformCu.SetTransformSkip,
        AddClip, ReconEnv.min_pel_, ReconEnv.max_pel_]

/-! ## The restriction passed to the sub CUs by `CompressSplitCu` -/

theorem subCuBody_inv {env : SplitCuEnv} {st : SplitType} {v : SubCuVars}
    (s : Nat × Bool) (h : SubCuInv env st v) :
    SubCuInv env st (subCuBody (env.CompressCu st) v s) := by
  obtain ⟨h1, h2, h3, h4, h5⟩ := h
  unfold subCuBody
  by_cases hs : s.2 = true
  · rw [if_pos hs]
    refine ⟨?_, ?_, ?_, ?_, ?_⟩
    · intro c hc
      cases hcalls : v.calls with
      | nil =>
        simp only [hcalls, List.nil_append, List.head?_cons, Option.some.injEq] at hc
        rw [← hc]
        exact h2 hcalls
      | cons a l =>
        simp only [hcalls, List.cons_append, List.head?_cons, Option.some.injEq] at hc
        exact h1 c (by rw [hcalls, ← hc]; rfl)
    · intro hc
      simp at hc
    · simp only []
      rw [List.chain'_append]
      refine ⟨h3, List.chain'_singleton _, ?_⟩
      intro x hx y hy
      simp only [List.head?_cons, Option.mem_def, Option.some.injEq] at hy
      rw [← hy]
      exact h4 x hx
    · intro c hc
      rw [List.getLast?_append, List.getLast?_singleton] at hc
      have hc' := Option.some.inj hc
      rw [← hc']
      exact ⟨rfl, rfl⟩
    · simp only [List.map_append, List.map_cons, List.map_nil, List.sum_append, List.sum_cons,
        List.sum_nil, Nat.add_zero, addU64]
      rw [Nat.mod_mod, Nat.add_mod, h5, ← Nat.add_mod]
  · rw [if_neg hs]
    exact ⟨h1, h2, h3, h4, h5⟩

theorem subCuFold_inv {env : SplitCuEnv} {st : SplitType} (l : List (Nat × Bool)) :
    ∀ v : SubCuVars, SubCuInv env st v →
      SubCuInv env st (l.foldl (subCuBody (env.CompressCu st)) v) := by
  induction l with
  | nil => intro v h; exact h
  | cons s l ih => intro v h; exact ih _ (subCuBody_inv s h)

theorem subCuInit_inv (env : SplitCuEnv) (sr : SplitRestriction) (st : SplitType)
    (w : RdoSyntaxWriter) : SubCuInv env st (subCuInit env sr st w) := by
  refine ⟨?_, fun _ => rfl, List.chain'_nil, ?_, rfl⟩
  · intro c hc
    simp [subCuInit] at hc
  · intro c hc
    simp [subCuInit] at hc

theorem subCuLoop_inv (env : SplitCuEnv) (sr : SplitRestriction) (st : SplitType)
    (w : RdoSyntaxWriter) : SubCuInv env st (subCuLoop env sr st w) :=
  subCuFold_inv _ _ (subCuInit_inv env sr st w)

theorem subCuFold_slots (f : Nat → SplitRestriction → RdoSyntaxWriter → SubCuOutcome)
    (l : List (Nat × Bool)) :
    ∀ v : SubCuVars,
      (l.foldl (subCuBody f) v).calls.map SubCuCall.slot =
        v.calls.map SubCuCall.slot ++ (l.filter (fun s => s.2)).map Prod.fst := by
  induction l with
  | nil => intro v; simp
  | cons s l ih =>
    intro v
    rw [List.foldl_cons, ih]
    unfold subCuBody
    by_cases hs : s.2 = true
    · rw [if_pos hs]
      simp [List.filter_cons, hs]
    · rw [if_neg hs]
      simp [List.filter_cons, hs]

theorem subCuInit_eq_of_WriteSplit (env : SplitCuEnv) (sr sr' : SplitRestriction)
    (st : SplitType) (w : RdoSyntaxWriter)
    (h : env.kEncoderStrictRdoBitCounting = true →
      env.WriteSplit st sr w = env.WriteSplit st sr' w) :
    subCuInit env sr st w = subCuInit env sr' st w := by
  unfold subCuInit
  cases hk : env.kEncoderStrictRdoBitCounting
  · simp
  · simp [h hk]

/-- C23. In the loop of `CompressSplitCu` over `cu->GetSubCu()` one recursive
`CompressCu` call is made for every non-null slot, in slot order. The first
call is passed `SplitRestriction::kNone`; every later call is passed the value
of `DeriveSiblingSplitRestriction(split_type)` of the sub CU of the call made
immediately before it, taken after that sub CU was compressed (`SiblingStep`,
which also says that it continues on the writer that call left). The
restriction `split_restriction` of the parent enters only as the argument of
`WriteSplit`: two restrictions for which `WriteSplit` writes the same give the
same loop and the same outcome, and when the bit counting is not strict
(`WriteSplit` after the loop) the calls are the same for every restriction. In
the example the two sub CUs are compressed under `kNone` and `kNoVertical`
whatever restriction the parent has. -/
theorem sub_cu_restriction_from_previous_sibling (env : SplitCuEnv)
    (split_restriction : SplitRestriction) (split_type : SplitType)
    (rdo_writer : RdoSyntaxWriter) :
    (subCuLoop env split_restriction split_type rdo_writer).calls.map SubCuCall.slot =
      ((env.sub_cu split_type).enum.filter (fun s => s.2)).map Prod.fst ∧
    (∀ c, (subCuLoop env split_restriction split_type rdo_writer).calls.head? = some c →
      c.sub_split_restriction = SplitRestriction.kNone) ∧
    List.Chain' (SiblingStep env split_type)
      (subCuLoop env split_restriction split_type rdo_writer).calls ∧
    (compressSubCus env split_restriction split_type rdo_writer).dist =
      (subCuLoop env split_restriction split_type rdo_writer).dist ∧
    (∀ other : SplitRestriction,
      (∀ w, env.WriteSplit split_type split_restriction w =
        env.WriteSplit split_type other w) →
      subCuLoop env split_restriction split_type rdo_writer =
        subCuLoop env other split_type rdo_writer ∧
      compressSubCus env split_restriction split_type rdo_writer =
        compressSubCus env other split_type rdo_writer) ∧
    (env.kEncoderStrictRdoBitCounting = false →
      ∀ other : SplitRestriction,
        subCuLoop env split_restriction split_type rdo_writer =
          subCuLoop env other split_type rdo_writer) ∧
    (∀ sr : SplitRestriction,
      (subCuLoop exampleSplitCuEnv sr SplitType.kHorizontal exampleWriter).calls.map
          (fun c => (c.slot, c.sub_split_restriction)) =
        [(0, SplitRestriction.kNone), (1, SplitRestriction.kNoVertical)] ∧
      (CompressSplitCu_sub_cus exampleCompressCuEnv exampleSplitCuEnv exampleQp
          SplitType.kHorizontal sr exampleWriter).cost = { cost := 44, dist := 30 }) := by
  have hinv := subCuLoop_inv env split_restriction split_type rdo_writer
  refine ⟨?_, hinv.1, hinv.2.2.1, rfl, ?_, ?_, ?_⟩
  · unfold subCuLoop
    rw [subCuFold_slots]
    simp [subCuInit]
  · intro other h
    have hl : subCuLoop env split_restriction split_type rdo_writer =
        subCuLoop env other split_type rdo_writer := by
      unfold subCuLoop
      rw [subCuInit_eq_of_WriteSplit env split_restriction other split_type rdo_writer
        (fun _ => h rdo_writer)]
    refine ⟨hl, ?_⟩
    unfold compressSubCus
    simp only [hl, h]
  · intro hk other
    unfold subCuLoop
    rw [subCuInit_eq_of_WriteSplit env split_restriction other split_type rdo_writer
      (fun h => by rw [hk] at h; cases h)]
  · intro sr
    cases sr <;> exact ⟨by decide, by decide⟩

/-! ## The distortion returned by `CompressCu` -/

theorem evalFull_noCandidate (env : CompressCuEnv) (w : RdoSyntaxWriter) (qp : Qp)
    (v : CompressCuVars) : NoCandidateInv (evalFull env w qp v) := by
  refine ⟨rfl, fun h => ?_⟩
  simp [evalFull] at h

theorem evalHorizontal_noCandidate (env : CompressCuEnv) (w : RdoSyntaxWriter) (qp : Qp)
    (m : Bool) {v : CompressCuVars} (h : NoCandidateInv v) :
    match evalHorizontal env w qp m v with
    | Sum.inl r => r.best_cu = none → r.dist = 0
    | Sum.inr v' => NoCandidateInv v' := by
  obtain ⟨h1, h2⟩ := h
  unfold evalHorizontal
  simp only []
  split_ifs
  all_goals first
    | (simp [returnSplit, logSplit, swapBest, afterSplitCu]; done)
    | (simp [NoCandidateInv, logSplit, swapBest, afterSplitCu, saveState]; done)
    | simpa [NoCandidateInv, logSplit, restoreBest, afterSplitCu, h1] using h2

theorem evalVertical_noCandidate (env : CompressCuEnv) (w : RdoSyntaxWriter) (qp : Qp)
    (m : Bool) {v : CompressCuVars} (h : NoCandidateInv v) :
    match evalVertical env w qp m v with
    | Sum.inl r => r.best_cu = none → r.dist = 0
    | Sum.inr v' => NoCandidateInv v' := by
  obtain ⟨h1, h2⟩ := h
  unfold evalVertical
  simp only []
  split_ifs
  all_goals first
    | (simp [returnSplit, logSplit, swapBest, afterSplitCu]; done)
    | (simp [NoCandidateInv, logSplit, swapBest, afterSplitCu, saveState]; done)
    | simpa [NoCandidateInv, logSplit, restoreBest, afterSplitCu, h1] using h2

theorem evalQuad_noCandidate (env : CompressCuEnv) (w : RdoSyntaxWriter) (qp : Qp)
    {v : CompressCuVars} (h : NoCandidateInv v) :
    (evalQuad env w qp v).best_cu = none → (evalQuad env w qp v).dist = 0 := by
  obtain ⟨h1, h2⟩ := h
  unfold evalQuad
  simp only []
  split_ifs
  all_goals first
    | (simp [returnSplit, logSplit, swapBest, afterSplitCu]; done)
    | simpa [returnBest, logSplit, restoreBest, afterSplitCu, h1] using h2

theorem compressCuSearch_noCandidate (env : CompressCuEnv) (sr : SplitRestriction)
    (w : RdoSyntaxWriter) (qp : Qp) :
    (compressCuSearch env sr w qp).best_cu = none →
      (compressCuSearch env sr w qp).dist = 0 := by
  have h0 : NoCandidateInv (initVars w) := ⟨rfl, fun _ => rfl⟩
  have h1 : NoCandidateInv (if do_full env then evalFull env w qp (initVars w)
      else initVars w) := by
    split_ifs
    · exact evalFull_noCandidate env w qp _
    · exact h0
  have hb : match compressCuBinary env sr w qp with
      | Sum.inl r => r.best_cu = none → r.dist = 0
      | Sum.inr v' => NoCandidateInv v' := by
    unfold compressCuBinary
    simp only []
    generalize (if do_full env then evalFull env w qp (initVars w) else initVars w) = v1
      at h1 ⊢
    by_cases hs : canSkipAnySplit env w = true
    · rw [if_pos hs]
      exact fun h => h1.2 h
    · rw [if_neg hs]
      by_cases hh : do_hor_split env sr = true
      · rw [if_pos hh]
        have hh' := evalHorizontal_noCandidate env w qp
          (do_quad_split env || do_ver_split env sr) h1
        generalize evalHorizontal env w qp (do_quad_split env || do_ver_split env sr) v1 = x
          at hh' ⊢
        cases x with
        | inl r => exact hh'
        | inr v2 =>
          simp only []
          by_cases hv : do_ver_split env sr = true
          · rw [if_pos hv]
            exact evalVertical_noCandidate env w qp (do_quad_split env) hh'
          · rw [if_neg hv]
            exact hh'
      · rw [if_neg hh]
        simp only []
        by_cases hv : do_ver_split env sr = true
        · rw [if_pos hv]
          exact evalVertical_noCandidate env w qp (do_quad_split env) h1
        · rw [if_neg hv]
          exact h1
  unfold compressCuSearch
  generalize compressCuBinary env sr w qp = x at hb
  cases x with
  | inl r => exact hb
  | inr v =>
    simp only []
    unfold compressCuQuad
    split_ifs
    · exact fun h => hb.2 h
    · exact evalQuad_noCandidate env w qp hb
    · exact fun h => hb.2 h

theorem CompressCu_ndebug_of_some {env : CompressCuEnv} {sr : SplitRestriction}
    {w : RdoSyntaxWriter} {qp : Qp} {r : CompressCuResult}
    (h : CompressCu env sr w qp = some r) : r = CompressCu_ndebug env sr w qp := by
  unfold CompressCu at h
  unfold CompressCu_ndebug
  split_ifs at h with h1 h2
  · rw [if_pos h2]
    exact (Option.some.inj h).symm
  · rw [if_neg h2]
    exact (Option.some.inj h).symm

theorem CompressCu_ndebug_noCandidate (env : CompressCuEnv) (sr : SplitRestriction)
    (w : RdoSyntaxWriter) (qp : Qp) :
    (CompressCu_ndebug env sr w qp).best_cu = none → (CompressCu_ndebug env sr w qp).dist = 0 := by
  unfold CompressCu_ndebug
  split_ifs
  · intro h
    simp at h
  · exact compressCuSearch_noCandidate env sr w qp

theorem CompressCu_ndebug_kept (env : CompressCuEnv) (sr : SplitRestriction)
    (w : RdoSyntaxWriter) (qp : Qp) (t : SplitType)
    (h : (CompressCu_ndebug env sr w qp).best_cu = some t) :
    (CompressCu_ndebug env sr w qp).dist = (candidateCost env w qp t).dist ∧
    ∀ c ∈ (CompressCu_ndebug env sr w qp).evaluated,
      (candidateCost env w qp t).cost ≤ c.2.cost := by
  unfold CompressCu_ndebug at h ⊢
  split_ifs at h ⊢ with hs
  · simp only [Option.some.injEq] at h
    subst h
    refine ⟨rfl, ?_⟩
    intro c hc
    simp at hc
  · obtain ⟨⟨best, hfc, hd⟩, hev, -, -⟩ := compressCuSearch_inv env sr w qp
    obtain ⟨pre, post, hsplit, hpre, hpost⟩ := hfc.1 t h
    have hmem : (t, best) ∈ (compressCuSearch env sr w qp).evaluated := by
      rw [hsplit]; simp
    have hbest : best = candidateCost env w qp t := hev _ hmem
    refine ⟨?_, ?_⟩
    · rw [hd (by rw [h]; simp), hbest]
    · intro c hc
      rw [← hbest]
      rw [hsplit] at hc
      rcases List.mem_append.1 hc with hc | hc
      · exact Nat.le_of_lt (hpre c hc)
      · rcases List.mem_cons.1 hc with hc | hc
        · rw [hc]
        · exact hpost c hc

theorem sum_flatMap_mod {α : Type} (l : List α) (f : α → Nat) (g : α → List Nat)
    (h : ∀ a ∈ l, f a % 2 ^ 64 = (g a).sum % 2 ^ 64) :
    (l.map f).sum % 2 ^ 64 = (l.flatMap g).sum % 2 ^ 64 := by
  induction l with
  | nil => rfl
  | cons a l ih =>
    simp only [List.map_cons, List.sum_cons, List.flatMap_cons, List.sum_append]
    rw [Nat.add_mod, h a (List.mem_cons_self _ _),
      ih (fun b hb => h b (List.mem_cons_of_mem _ hb)), ← Nat.add_mod]

theorem subCuOutcome_dist (t : SplitType) (sub_cu : CuTree) (r : CompressCuResult) :
    (subCuOutcome t sub_cu r).dist = r.dist := by
  cases sub_cu <;> rfl

theorem CompressCuTree_leaves (strict : Bool) (qp : Qp) (tree : CuTree) :
    ∀ (sr : SplitRestriction) (w : RdoSyntaxWriter),
      (CompressCuTree strict qp tree sr w).dist % 2 ^ 64 =
        (committedLeaves strict qp tree sr w).sum % 2 ^ 64 := by
  induction tree with
  | null => intro sr w; rfl
  | cu node GetSubCu ih =>
    intro sr w
    rw [committedLeaves]
    cases hb : (CompressCuTree strict qp (CuTree.cu node GetSubCu) sr w).best_cu with
    | none =>
      simp only []
      rw [CompressCuTree] at hb ⊢
      rw [CompressCu_ndebug_noCandidate _ _ _ _ hb]
      rfl
    | some t =>
      have hk := CompressCu_ndebug_kept
        (treeEnv strict node GetSubCu
          (fun t i r w => CompressCuTree strict qp (GetSubCu t i) r w) sr) sr w qp t
        (by rw [CompressCuTree] at hb; exact hb)
      have hd : (CompressCuTree strict qp (CuTree.cu node GetSubCu) sr w).dist =
          (candidateCost (treeEnv strict node GetSubCu
            (fun t i r w => CompressCuTree strict qp (GetSubCu t i) r w) sr) w qp t).dist := by
        rw [CompressCuTree]; exact hk.1
      rw [hd]
      have hl := (subCuLoop_inv
        (treeSplitCuEnv strict node GetSubCu
          (fun t i r w => CompressCuTree strict qp (GetSubCu t i) r w)) sr t w).2.2.2.2
      have hsum := sum_flatMap_mod
        (subCuLoop
          (treeSplitCuEnv strict node GetSubCu
            (fun t i r w => CompressCuTree strict qp (GetSubCu t i) r w)) sr t w).calls
        (fun c => ((treeSplitCuEnv strict node GetSubCu
            (fun t i r w => CompressCuTree strict qp (GetSubCu t i) r w)).CompressCu t c.slot
              c.sub_split_restriction c.rdo_writer).dist)
        (fun c => committedLeaves strict qp (GetSubCu t c.slot) c.sub_split_restriction
          c.rdo_writer)
        (fun c _ => by
          simp only [treeSplitCuEnv, subCuOutcome_dist]
          exact ih t c.slot c.sub_split_restriction c.rdo_writer)
      cases t with
      | kNone => rfl
      | kHorizontal => exact hl.trans hsum
      | kVertical => exact hl.trans hsum
      | kQuad => exact hl.trans hsum

theorem subCuFold_dist_lt (f : Nat → SplitRestriction → RdoSyntaxWriter → SubCuOutcome)
    (l : List (Nat × Bool)) :
    ∀ v : SubCuVars, v.dist < 2 ^ 64 → (l.foldl (subCuBody f) v).dist < 2 ^ 64 := by
  induction l with
  | nil => intro v h; exact h
  | cons s l ih =>
    intro v h
    rw [List.foldl_cons]
    apply ih
    unfold subCuBody
    split_ifs
    · exact Nat.mod_lt _ (by norm_num)
    · exact h

theorem subCuLoop_dist_lt (env : SplitCuEnv) (sr : SplitRestriction) (st : SplitType)
    (w : RdoSyntaxWriter) : (subCuLoop env sr st w).dist < 2 ^ 64 :=
  subCuFold_dist_lt _ _ _ (by simp [subCuInit])

theorem candidateCost_split_dist (env : CompressCuEnv) (w : RdoSyntaxWriter) (qp : Qp)
    (t : SplitType) (ht : t ≠ SplitType.kNone) :
    (candidateCost env w qp t).dist = (env.CompressSubCus t w).dist := by
  cases t with
  | kNone => exact absurd rfl ht
  | kHorizontal => rfl
  | kVertical => rfl
  | kQuad => rfl

/-- C24. For a CU of the CU tree, `CompressCu` (with its recursion through
`CompressSplitCu` written out, `CompressCuTree`; a call of `CompressCu` whose
assertion holds returns the same) returns the distortion of the configuration
it commits in `*best_cu`. When the unsplit CU is kept it returns the
distortion returned by `CompressNoSplit`. When a split `t` is kept it returns
the sum, in the unsigned 64-bit arithmetic of `Distortion`, of the distortions
returned by the recursive `CompressCu` calls on the non-null sub CUs of `t`
(one call per non-null slot). The configuration kept is a cheapest of the
candidates evaluated, so the distortion is never that of a candidate that
lost. Hence the returned distortion is, modulo `2 ^ 64`, the sum of the
distortions `CompressNoSplit` returned for the leaves of the committed
configuration (`committedLeaves`). A call that commits no candidate returns
0. In the example tree the horizontal split is kept and 40 = 20 + 20 is
returned. -/
theorem CompressCu_returns_committed_distortion (strict : Bool) (qp : Qp) (node : CuNode)
    (GetSubCu : SplitType → Nat → CuTree) (split_restiction : SplitRestriction)
    (writer : RdoSyntaxWriter) :
    (∀ r,
      CompressCu (treeEnv strict node GetSubCu (treeSubCall strict qp GetSubCu)
        split_restiction) split_restiction writer qp = some r →
      r = CompressCuTree strict qp (CuTree.cu node GetSubCu) split_restiction writer) ∧
    ((CompressCuTree strict qp (CuTree.cu node GetSubCu) split_restiction writer).best_cu =
        some SplitType.kNone →
      (CompressCuTree strict qp (CuTree.cu node GetSubCu) split_restiction writer).dist =
        (node.env.CompressNoSplit writer).dist) ∧
    (∀ t, t ≠ SplitType.kNone →
      (CompressCuTree strict qp (CuTree.cu node GetSubCu) split_restiction writer).best_cu =
        some t →
      (CompressCuTree strict qp (CuTree.cu node GetSubCu) split_restiction writer).dist =
        ((subCuLoop (treeSplitCuEnv strict node GetSubCu (treeSubCall strict qp GetSubCu))
            split_restiction t writer).calls.map
          (fun c => (CompressCuTree strict qp (GetSubCu t c.slot) c.sub_split_restriction
            c.rdo_writer).dist)).sum % 2 ^ 64 ∧
      (subCuLoop (treeSplitCuEnv strict node GetSubCu (treeSubCall strict qp GetSubCu))
          split_restiction t writer).calls.map SubCuCall.slot =
        ((((List.range node.sub_cu_slots).map
          (fun i => (GetSubCu t i).isNonNull)).enum.filter (fun s => s.2)).map Prod.fst)) ∧
    (∀ t,
      (CompressCuTree strict qp (CuTree.cu node GetSubCu) split_restiction writer).best_cu =
        some t →
      ∀ c ∈ (CompressCuTree strict qp (CuTree.cu node GetSubCu) split_restiction
          writer).evaluated,
        (candidateCost (treeEnv strict node GetSubCu (treeSubCall strict qp GetSubCu)
          split_restiction) writer qp t).cost ≤ c.2.cost) ∧
    ((CompressCuTree strict qp (CuTree.cu node GetSubCu) split_restiction writer).best_cu =
        none →
      (CompressCuTree strict qp (CuTree.cu node GetSubCu) split_restiction writer).dist = 0) ∧
    (CompressCuTree strict qp (CuTree.cu node GetSubCu) split_restiction writer).dist % 2 ^ 64 =
      (committedLeaves strict qp (CuTree.cu node GetSubCu) split_restiction writer).sum
        % 2 ^ 64 ∧
    (CompressCuTree false exampleQp exampleCuTree SplitRestriction.kNone exampleWriter).best_cu =
      some SplitType.kHorizontal ∧
    (CompressCuTree false exampleQp exampleCuTree SplitRestriction.kNone exampleWriter).dist =
      40 ∧
    committedLeaves false exampleQp exampleCuTree SplitRestriction.kNone exampleWriter =
      [20, 20] := by
  have heq : CompressCuTree strict qp (CuTree.cu node GetSubCu) split_restiction writer =
      CompressCu_ndebug (treeEnv strict node GetSubCu (treeSubCall strict qp GetSubCu)
        split_restiction) split_restiction writer qp := by
    rw [CompressCuTree]; rfl
  refine ⟨?_, ?_, ?_, ?_, ?_, CompressCuTree_leaves strict qp _ split_restiction writer,
    by decide, by decide, by decide⟩
  · intro r hr
    rw [heq]
    exact CompressCu_ndebug_of_some hr
  · intro hb
    rw [heq] at hb ⊢
    exact (CompressCu_ndebug_kept _ _ _ _ _ hb).1
  · intro t ht hb
    rw [heq] at hb ⊢
    refine ⟨?_, ?_⟩
    · rw [(CompressCu_ndebug_kept _ _ _ _ _ hb).1, candidateCost_split_dist _ _ _ _ ht]
      have hl := (subCuLoop_inv
        (treeSplitCuEnv strict node GetSubCu (treeSubCall strict qp GetSubCu))
        split_restiction t writer).2.2.2.2
      have hlt := subCuLoop_dist_lt
        (treeSplitCuEnv strict node GetSubCu (treeSubCall strict qp GetSubCu))
        split_restiction t writer
      have hm : (fun c : SubCuCall =>
          ((treeSplitCuEnv strict node GetSubCu (treeSubCall strict qp GetSubCu)).CompressCu t
            c.slot c.sub_split_restriction c.rdo_writer).dist) =
          (fun c : SubCuCall => (CompressCuTree strict qp (GetSubCu t c.slot)
            c.sub_split_restriction c.rdo_writer).dist) := by
        funext c
        simp only [treeSplitCuEnv, subCuOutcome_dist, treeSubCall]
      rw [hm] at hl
      rw [← hl, Nat.mod_eq_of_lt hlt]
      rfl
    · unfold subCuLoop
      rw [subCuFold_slots]
      simp [subCuInit, treeSplitCuEnv]
  · intro t hb
    rw [heq] at hb ⊢
    exact (CompressCu_ndebug_kept _ _ _ _ _ hb).2
  · intro hb
    rw [heq] at hb ⊢
    exact CompressCu_ndebug_noCandidate _ _ _ _ hb

/-! ## The candidates evaluated by `CompressMerge` -/

theorem mergeCandLoop_cons (env : InterLeafEnv) (f : Bool) (idx : Nat) (rest : List Nat)
    (v : MergeVars) :
    mergeCandLoop env f (idx :: rest) v =
      if v.skip_evaluated.contains idx then mergeCandLoop env f rest v
      else if (mergeEvalOf env f idx v).cost.cost < v.best_cost.cost then
        (if !(mergeEvalOf env f idx v).has_any_cbf && !f then mergeWin env f idx v
         else mergeCandLoop env f rest (mergeWin env f idx v))
      else mergeCandLoop env f rest (mergeLose env f idx v) := by
  rw [mergeCandLoop]
  rfl

theorem append_singleton_split {α : Type} {pre post old : List α} {a b : α}
    (h : old ++ [b] = pre ++ a :: post) :
    (post = [] ∧ pre = old ∧ a = b) ∨ (∃ post', post = post' ++ [b] ∧ old = pre ++ a :: post') := by
  rcases List.eq_nil_or_concat post with hp | ⟨post', x, hp⟩
  · left
    subst hp
    have h' : old ++ [b] = pre ++ [a] := h
    have := List.append_inj' h' rfl
    exact ⟨rfl, this.1.symm, by simpa using this.2.symm⟩
  · right
    rw [List.concat_eq_append] at hp
    subst hp
    have h' : old ++ [b] = (pre ++ a :: post') ++ [x] := by
      rw [h]; simp
    have := List.append_inj' h' rfl
    have hx : b = x := by simpa using this.2
    subst hx
    exact ⟨post', rfl, this.1⟩

theorem mergeBest_le_CostMax {v : MergeVars} (h : MergeBest v) : v.best_cost.cost ≤ CostMax := by
  rcases h with ⟨-, h, -⟩ | ⟨pre, e, post, -, h, -, -, hlt, -, -⟩
  · exact Nat.le_of_eq h
  · rw [h]; exact Nat.le_of_lt hlt

theorem mergeBest_all_ge {v : MergeVars} (h : MergeBest v) :
    ∀ c ∈ v.trace, v.best_cost.cost ≤ c.cost.cost := by
  rcases h with ⟨-, h, hall⟩ | ⟨pre, e, post, ht, h, -, -, -, hpre, hpost⟩
  · intro c hc
    rw [h]; exact hall c hc
  · intro c hc
    rw [h]
    rw [ht] at hc
    rcases List.mem_append.1 hc with hc | hc
    · exact Nat.le_of_lt (hpre c hc)
    · rcases List.mem_cons.1 hc with hc | hc
      · rw [hc]
      · exact hpost c hc

theorem mergeBest_lt_of_wins {v : MergeVars} {b : MergeEval} (h : MergeBest v)
    (h1 : b.cost.cost < CostMax) (h2 : ∀ c ∈ v.trace, b.cost.cost < c.cost.cost) :
    b.cost.cost < v.best_cost.cost := by
  rcases h with ⟨-, h, -⟩ | ⟨pre, e, post, ht, h, -, -, -, -, -⟩
  · rw [h]; exact h1
  · rw [h]
    exact h2 e (by rw [ht]; simp)

theorem mergeBest_win {v v' : MergeVars} {b : MergeEval} (h : MergeBest v)
    (ht : v'.trace = v.trace ++ [b]) (hlt : b.cost.cost < v.best_cost.cost)
    (h1 : v'.best_cost = b.cost) (h2 : v'.best_merge_idx = (b.merge_idx : Int))
    (h3 : v'.best_has_any_cbf = b.has_any_cbf) : MergeBest v' := by
  right
  refine ⟨v.trace, b, [], ht, h1, h2, h3,
    Nat.lt_of_lt_of_le hlt (mergeBest_le_CostMax h), ?_, ?_⟩
  · intro c hc
    exact Nat.lt_of_lt_of_le hlt (mergeBest_all_ge h c hc)
  · intro c hc
    simp at hc

theorem mergeBest_lose {v v' : MergeVars} {b : MergeEval} (h : MergeBest v)
    (ht : v'.trace = v.trace ++ [b]) (hge : ¬ b.cost.cost < v.best_cost.cost)
    (h1 : v'.best_cost = v.best_cost) (h2 : v'.best_merge_idx = v.best_merge_idx)
    (h3 : v'.best_has_any_cbf = v.best_has_any_cbf) : MergeBest v' := by
  have hge' : v.best_cost.cost ≤ b.cost.cost := Nat.le_of_not_lt hge
  rcases h with ⟨hneg, h, hall⟩ | ⟨pre, e, post, htr, h, hidx, hcbf, hlt, hpre, hpost⟩
  · left
    refine ⟨by rw [h2]; exact hneg, by rw [h1]; exact h, ?_⟩
    intro c hc
    rw [ht] at hc
    rcases List.mem_append.1 hc with hc | hc
    · exact hall c hc
    · simp only [List.mem_singleton] at hc
      rw [hc, ← h]; exact hge'
  · right
    refine ⟨pre, e, post ++ [b], ?_, by rw [h1]; exact h, by rw [h2]; exact hidx,
      by rw [h3]; exact hcbf, hlt, hpre, ?_⟩
    · rw [ht, htr]; simp
    · intro c hc
      rcases List.mem_append.1 hc with hc | hc
      · exact hpost c hc
      · simp only [List.mem_singleton] at hc
        rw [hc, ← h]; exact hge'

theorem mergeContinues_append {f : Bool} {tr : List MergeEval} {b : MergeEval}
    (h : MergeContinues f tr) (hb : b.force_skip = f)
    (hlast : MergeWinsNoCbf tr b → f = true) : MergeContinues f (tr ++ [b]) := by
  intro pre a post hsplit hw
  rcases append_singleton_split hsplit with ⟨hp, hpre, hab⟩ | ⟨post', hp, hold⟩
  · subst hp; subst hpre; subst hab
    refine ⟨hlast hw, ?_⟩
    intro x hx
    simp at hx
  · obtain ⟨hf, hall⟩ := h pre a post' hold hw
    refine ⟨hf, ?_⟩
    intro x hx
    rw [hp] at hx
    rcases List.mem_append.1 hx with hx | hx
    · exact hall x hx
    · simp only [List.mem_singleton] at hx
      rw [hx, hb, hf]

theorem mergeBreakOk_append {f : Bool} {tr : List MergeEval} {b : MergeEval}
    (h : MergeContinues f tr) (hb : b.force_skip = f) : MergeBreakOk (tr ++ [b]) := by
  intro pre a post hsplit hw
  rcases append_singleton_split hsplit with ⟨hp, -, -⟩ | ⟨post', hp, hold⟩
  · subst hp
    intro x hx
    simp at hx
  · obtain ⟨hf, hall⟩ := h pre a post' hold hw
    intro x hx
    rw [hp] at hx
    rcases List.mem_append.1 hx with hx | hx
    · exact hall x hx
    · simp only [List.mem_singleton] at hx
      rw [hx, hb, hf]

theorem mergeInv_append {lookup : List Nat} {f : Bool} {idx : Nat} {rest : List Nat}
    {v : MergeVars} (v' : MergeVars) (b : MergeEval) (h : MergeInv lookup f (idx :: rest) v)
    (hs : idx ∉ v.skip_evaluated) (hb1 : b.merge_idx = idx) (hb2 : b.force_skip = f)
    (ht : v'.trace = v.trace ++ [b])
    (hsk : v'.skip_evaluated =
      if !b.has_any_cbf then idx :: v.skip_evaluated else v.skip_evaluated) :
    List.Pairwise MergeOrder v'.trace ∧
    (∀ e ∈ v'.trace, e.force_skip = true → f = true) ∧
    (∀ e ∈ v'.trace, e.force_skip = f → e.merge_idx ∉ rest) ∧
    (∀ e ∈ v'.trace, e.has_any_cbf = false → e.merge_idx ∈ v'.skip_evaluated) ∧
    (∀ e ∈ v'.trace, e.merge_idx ∈ lookup) ∧
    rest.Nodup ∧ (∀ x ∈ rest, x ∈ lookup) := by
  obtain ⟨-, h2, h3, h4, h5, h6, -, h8, h9⟩ := h
  have hnd := List.nodup_cons.1 h8
  have hmem : ∀ e, e ∈ v'.trace → e ∈ v.trace ∨ e = b := by
    intro e he
    rw [ht] at he
    rcases List.mem_append.1 he with he | he
    · exact Or.inl he
    · exact Or.inr (by simpa using he)
  have hsub : ∀ x ∈ v.skip_evaluated, x ∈ v'.skip_evaluated := by
    intro x hx
    rw [hsk]
    split_ifs
    · exact List.mem_cons_of_mem _ hx
    · exact hx
  refine ⟨?_, ?_, ?_, ?_, ?_, hnd.2, fun x hx => h9 x (List.mem_cons_of_mem _ hx)⟩
  · rw [ht, List.pairwise_append]
    refine ⟨h2, List.pairwise_singleton _ _, ?_⟩
    intro a ha x hx
    simp only [List.mem_singleton] at hx
    subst hx
    refine ⟨?_, ?_, ?_⟩
    · intro hfs
      rw [hb1]
      intro heq
      exact h4 a ha (by rw [hfs, hb2]) (by rw [heq]; exact List.mem_cons_self _ _)
    · intro hc
      rw [hb1]
      intro heq
      exact hs (heq ▸ h5 a ha hc)
    · intro hfs
      rw [hb2]
      exact h3 a ha hfs
  · intro e he hfs
    rcases hmem e he with he | he
    · exact h3 e he hfs
    · rw [he, hb2] at hfs; exact hfs
  · intro e he hfs
    rcases hmem e he with he | he
    · exact fun hr => h4 e he hfs (List.mem_cons_of_mem _ hr)
    · rw [he, hb1]; exact hnd.1
  · intro e he hc
    rcases hmem e he with he | he
    · exact hsub _ (h5 e he hc)
    · subst he
      rw [hsk, hc, hb1]
      simp
  · intro e he
    rcases hmem e he with he | he
    · exact h6 e he
    · rw [he, hb1]; exact h9 idx (List.mem_cons_self _ _)

theorem mergeCandLoop_inv (env : InterLeafEnv) (lookup : List Nat) (f : Bool)
    (rest : List Nat) :
    ∀ v : MergeVars, MergeInv lookup f rest v →
      MergeOut lookup f (mergeCandLoop env f rest v) := by
  induction rest with
  | nil =>
    intro v h
    obtain ⟨h1, h2, h3, -, h5, h6, h7, -, -⟩ := h
    exact ⟨h1, h2, h3, h5, h6, fun pre a post hs hw => (h7 pre a post hs hw).2⟩
  | cons idx rest ih =>
    intro v h
    rw [mergeCandLoop_cons]
    by_cases hsk : v.skip_evaluated.contains idx = true
    · rw [if_pos hsk]
      apply ih
      obtain ⟨h1, h2, h3, h4, h5, h6, h7, h8, h9⟩ := h
      exact ⟨h1, h2, h3, fun e he hfs hr => h4 e he hfs (List.mem_cons_of_mem _ hr), h5, h6,
        h7, (List.nodup_cons.1 h8).2, fun x hx => h9 x (List.mem_cons_of_mem _ hx)⟩
    · rw [if_neg hsk]
      have hs : idx ∉ v.skip_evaluated := by
        intro hmem
        exact hsk (by simpa using hmem)
      by_cases hlt : (mergeEvalOf env f idx v).cost.cost < v.best_cost.cost
      · rw [if_pos hlt]
        obtain ⟨g2, g3, g4, g5, g6, g8, g9⟩ :=
          mergeInv_append (mergeWin env f idx v) (mergeEvalOf env f idx v)
            h hs rfl rfl rfl rfl
        have g1 : MergeBest (mergeWin env f idx v) :=
          mergeBest_win (b := mergeEvalOf env f idx v) h.1 rfl hlt rfl rfl rfl
        by_cases hbr : (!(mergeEvalOf env f idx v).has_any_cbf && !f) = true
        · rw [if_pos hbr]
          exact ⟨g1, g2, g3, g5, g6, mergeBreakOk_append h.2.2.2.2.2.2.1 rfl⟩
        · rw [if_neg hbr]
          apply ih
          refine ⟨g1, g2, g3, g4, g5, g6, ?_, g8, g9⟩
          refine mergeContinues_append h.2.2.2.2.2.2.1 rfl ?_
          intro hw
          obtain ⟨hw1, hw2, -, -⟩ := hw
          have hf : f = false := hw1
          exfalso
          apply hbr
          rw [hw2, hf]
          rfl
      · rw [if_neg hlt]
        apply ih
        obtain ⟨g2, g3, g4, g5, g6, g8, g9⟩ :=
          mergeInv_append (mergeLose env f idx v) (mergeEvalOf env f idx v)
            h hs rfl rfl rfl rfl
        have g1 : MergeBest (mergeLose env f idx v) :=
          mergeBest_lose (b := mergeEvalOf env f idx v) h.1 rfl hlt rfl rfl rfl
        refine ⟨g1, g2, g3, g4, g5, g6, ?_, g8, g9⟩
        refine mergeContinues_append h.2.2.2.2.2.2.1 rfl ?_
        intro hw
        exact absurd (mergeBest_lt_of_wins h.1 hw.2.2.1 hw.2.2.2) hlt

theorem mergeInit_inv (lookup : List Nat) (f : Bool) (c : Cost) (hn : lookup.Nodup) :
    MergeInv lookup f lookup (mergeInit c) := by
  refine ⟨Or.inl ⟨by simp [mergeInit], rfl, ?_⟩, List.Pairwise.nil, ?_, ?_, ?_, ?_, ?_, hn,
    fun x hx => hx⟩
  all_goals simp [mergeInit, MergeContinues]

theorem mergeOut_next {lookup : List Nat} {v : MergeVars} (hn : lookup.Nodup)
    (h : MergeOut lookup false v) : MergeInv lookup true lookup v := by
  obtain ⟨h1, h2, h3, h5, h6, h7⟩ := h
  refine ⟨h1, h2, fun _ _ _ => rfl, ?_, h5, h6, ?_, hn, fun x hx => hx⟩
  · intro e he hfs
    have := h3 e he hfs
    cases this
  · intro pre a post hs hw
    exact ⟨rfl, h7 pre a post hs hw⟩

theorem mergeSearch_inv (env : InterLeafEnv) (c : Cost) (fast_merge_skip : Bool)
    (hn : (mergeCandLookup env fast_merge_skip).Nodup) :
    MergeOut (mergeCandLookup env fast_merge_skip) true (mergeSearch env c fast_merge_skip) := by
  unfold mergeSearch mergePasses
  cases fast_merge_skip with
  | true =>
    simp only [if_true, List.foldl_cons, List.foldl_nil]
    exact mergeCandLoop_inv env _ true _ _ (mergeInit_inv _ true c hn)
  | false =>
    simp only [Bool.false_eq_true, if_false, List.foldl_cons, List.foldl_nil]
    exact mergeCandLoop_inv env _ true _ _
      (mergeOut_next hn (mergeCandLoop_inv env _ false _ _ (mergeInit_inv _ false c hn)))

theorem mergeCandLookup_nodup (env : InterLeafEnv) (fast_merge_skip : Bool)
    (h : env.inter_search_SearchMergeCandidates.Nodup) :
    (mergeCandLookup env fast_merge_skip).Nodup := by
  unfold mergeCandLookup
  simp only []
  split_ifs
  all_goals first
    | exact h
    | exact List.nodup_range _

theorem mergeCandLookup_length (env : InterLeafEnv) (fast_merge_skip : Bool)
    (h : env.inter_search_SearchMergeCandidates.length ≤ kNumInterMergeCandidates) :
    (mergeCandLookup env fast_merge_skip).length ≤ kNumInterMergeCandidates := by
  unfold mergeCandLookup
  simp only []
  split_ifs
  all_goals first
    | exact h
    | (rw [List.length_range]; decide)
    | (rw [List.length_range])

theorem mergeCandLookup_disabled (env : InterLeafEnv) (fast_merge_skip : Bool)
    (h : env.restrictions.disable_inter_merge_candidates = true) :
    mergeCandLookup env fast_merge_skip = [0] := by
  unfold mergeCandLookup
  simp [h]
  rfl

theorem mergeOrder_same_idx_length {tr : List MergeEval} (h : List.Pairwise MergeOrder tr)
    (i : Nat) : (tr.filter (fun e => e.merge_idx == i)).length ≤ 2 := by
  have h1 : List.Pairwise MergeOrder (tr.filter (fun e => e.merge_idx == i)) :=
    List.Pairwise.filter _ h
  have h2 : List.Pairwise (fun a b : MergeEval => a.force_skip ≠ b.force_skip)
      (tr.filter (fun e => e.merge_idx == i)) := by
    refine List.Pairwise.imp_of_mem ?_ h1
    intro a b ha hb hab hfs
    have ha' : a.merge_idx = i := by simpa using (List.mem_filter.1 ha).2
    have hb' : b.merge_idx = i := by simpa using (List.mem_filter.1 hb).2
    exact hab.1 hfs (by rw [ha', hb'])
  have h3 : ((tr.filter (fun e => e.merge_idx == i)).map MergeEval.force_skip).Nodup := by
    unfold List.Nodup
    rw [List.pairwise_map]
    exact h2
  have h4 := List.Nodup.length_le_card h3
  rw [List.length_map] at h4
  exact h4

/-- C25. Let `inter_search_.SearchMergeCandidates` fill `cand_lookup` with at
most `kNumInterMergeCandidates` pairwise different indices. Then in
`CompressMerge`: the indices considered are the entries of `cand_lookup`, at
most 5 of them, and index 0 alone when merge candidates are disabled; every
evaluation is of one of them. Between an evaluation and a later one
(`MergeOrder`): within a pass they are of different indices, so each index is
evaluated at most once per pass; force-skip evaluations are never followed by
an evaluation with residual allowed, so an index is evaluated at most twice,
first with residual allowed and then with force-skip; and an index whose
evaluation left the CU without any CBF is not evaluated again. When an
evaluation of the pass with residual allowed becomes the new best without any
CBF, only force-skip evaluations follow (`MergeBreakOk`). `CompressMerge`
returns when some evaluation has a cost below `Cost::MAX`; the cost it returns
is that of an evaluation `e` which is strictly cheaper than every earlier and
at least as cheap as every later evaluation, and the merge index and CBF state
it commits are those of `e`. -/
theorem CompressMerge_candidates_and_minimum (env : InterLeafEnv) (best_cu_cost : Cost)
    (fast_merge_skip : Bool)
    (h : env.inter_search_SearchMergeCandidates.Nodup ∧
      env.inter_search_SearchMergeCandidates.length ≤ kNumInterMergeCandidates) :
    (mergeCandLookup env fast_merge_skip).length ≤ kNumInterMergeCandidates ∧
    (env.restrictions.disable_inter_merge_candidates = true →
      mergeCandLookup env fast_merge_skip = [0]) ∧
    (∀ e ∈ (mergeSearch env best_cu_cost fast_merge_skip).trace,
      e.merge_idx ∈ mergeCandLookup env fast_merge_skip) ∧
    List.Pairwise MergeOrder (mergeSearch env best_cu_cost fast_merge_skip).trace ∧
    (∀ i, ((mergeSearch env best_cu_cost fast_merge_skip).trace.filter
      (fun e => e.merge_idx == i)).length ≤ 2) ∧
    MergeBreakOk (mergeSearch env best_cu_cost fast_merge_skip).trace ∧
    ((∃ e ∈ (mergeSearch env best_cu_cost fast_merge_skip).trace, e.cost.cost < CostMax) →
      ∃ r, CompressMerge env best_cu_cost fast_merge_skip = some r) ∧
    (∀ r, CompressMerge env best_cu_cost fast_merge_skip = some r →
      r.trace = (mergeSearch env best_cu_cost fast_merge_skip).trace ∧
      ∃ pre e post, r.trace = pre ++ e :: post ∧ r.cost = e.cost ∧
        r.merge_idx = (e.merge_idx : Int) ∧ r.has_any_cbf = e.has_any_cbf ∧
        (∀ c ∈ pre, e.cost.cost < c.cost.cost) ∧ (∀ c ∈ post, e.cost.cost ≤ c.cost.cost)) := by
  obtain ⟨hb, hp, -, -, hl, hbr⟩ :=
    mergeSearch_inv env best_cu_cost fast_merge_skip
      (mergeCandLookup_nodup env fast_merge_skip h.1)
  refine ⟨mergeCandLookup_length env fast_merge_skip h.2,
    mergeCandLookup_disabled env fast_merge_skip, hl, hp,
    mergeOrder_same_idx_length hp, hbr, ?_, ?_⟩
  · rintro ⟨e, he, hlt⟩
    rcases hb with ⟨-, -, hall⟩ | ⟨pre, e', post, -, -, hidx, -, -, -, -⟩
    · exact absurd hlt (Nat.not_lt.2 (hall e he))
    · have hneg : ¬ (mergeSearch env best_cu_cost fast_merge_skip).best_merge_idx < 0 := by
        rw [hidx]; omega
      unfold CompressMerge
      simp only []
      rw [if_neg hneg]
      exact ⟨_, rfl⟩
  · intro r hr
    unfold CompressMerge at hr
    simp only [] at hr
    by_cases hneg : (mergeSearch env best_cu_cost fast_merge_skip).best_merge_idx < 0
    · rw [if_pos hneg] at hr
      cases hr
    · rw [if_neg hneg] at hr
      have hr' := Option.some.inj hr
      subst hr'
      refine ⟨rfl, ?_⟩
      rcases hb with ⟨hlt, -, -⟩ | ⟨pre, e, post, ht, hc, hidx, hcbf, -, hpre, hpost⟩
      · exact absurd hlt hneg
      · exact ⟨pre, e, post, ht, hc, hidx, hcbf, hpre, hpost⟩

/-- C25 at a concrete CU with `fast_merge_eval`: the candidates 2 and 0 are
evaluated with residual allowed, then with force-skip; candidate 2 with
residual allowed is the first cheapest evaluation (with force-skip it costs
the same and does not replace it) and is committed. -/
theorem CompressMerge_candidates_and_minimum_witness :
    (exampleFastMergeEnv.inter_search_SearchMergeCandidates.Nodup ∧
      exampleFastMergeEnv.inter_search_SearchMergeCandidates.length ≤ kNumInterMergeCandidates) ∧
    ((mergeCandLookup exampleFastMergeEnv false).length ≤ kNumInterMergeCandidates ∧
    (exampleFastMergeEnv.restrictions.disable_inter_merge_candidates = true →
      mergeCandLookup exampleFastMergeEnv false = [0]) ∧
    (∀ e ∈ (mergeSearch exampleFastMergeEnv CostMax false).trace,
      e.merge_idx ∈ mergeCandLookup exampleFastMergeEnv false) ∧
    List.Pairwise MergeOrder (mergeSearch exampleFastMergeEnv CostMax false).trace ∧
    (∀ i, ((mergeSearch exampleFastMergeEnv CostMax false).trace.filter
      (fun e => e.merge_idx == i)).length ≤ 2) ∧
    MergeBreakOk (mergeSearch exampleFastMergeEnv CostMax false).trace ∧
    ((∃ e ∈ (mergeSearch exampleFastMergeEnv CostMax false).trace, e.cost.cost < CostMax) →
      ∃ r, CompressMerge exampleFastMergeEnv CostMax false = some r) ∧
    (∀ r, CompressMerge exampleFastMergeEnv CostMax false = some r →
      r.trace = (mergeSearch exampleFastMergeEnv CostMax false).trace ∧
      ∃ pre e post, r.trace = pre ++ e :: post ∧ r.cost = e.cost ∧
        r.merge_idx = (e.merge_idx : Int) ∧ r.has_any_cbf = e.has_any_cbf ∧
        (∀ c ∈ pre, e.cost.cost < c.cost.cost) ∧ (∀ c ∈ post, e.cost.cost ≤ c.cost.cost))) ∧
    (CompressMerge exampleFastMergeEnv CostMax false).map
        (fun r => (r.cost, r.merge_idx, r.trace.map (fun e => (e.merge_idx, e.force_skip)))) =
      some ({ cost := 100, dist := 90 }, 2, [(2, false), (0, false), (2, true), (0, true)]) :=
  ⟨by decide,
    CompressMerge_candidates_and_minimum exampleFastMergeEnv CostMax false (by decide),
    by decide⟩

/-! ## `CompressNoSplit` and the result of the cache lookup -/

theorem interPicSearch_cache_result (env : InterPicEnv) (c c' : CuCacheResult)
    (h1 : env.encoder_settings.fast_mode_selection_for_cached_cu = false)
    (h2 : env.encoder_settings.fast_merge_eval = false) :
    interPicSearch { env with cache_result := c } =
      interPicSearch { env with cache_result := c' } := by
  simp only [interPicSearch, menuIntra, menuInterLicFullpel, menuInterFullpel, menuInterLic,
    menuInterMe, menuMerge, menuAffineMerge, interPicInit, fast_skip_inter, fast_skip_intra,
    h1, h2, Bool.false_and]

theorem CompressInterPic_cache_result (env : InterPicEnv) (c c' : CuCacheResult)
    (h1 : env.encoder_settings.fast_mode_selection_for_cached_cu = false)
    (h2 : env.encoder_settings.fast_merge_eval = false) :
    CompressInterPic { env with cache_result := c } =
      CompressInterPic { env with cache_result := c' } := by
  unfold CompressInterPic
  rw [interPicSearch_cache_result env c c' h1 h2]

/-- C29, as the claim states it, fails: with
`fast_mode_selection_for_cached_cu` a lookup that reports `any_skip` makes
`CompressInterPic` leave out the regular inter motion estimation, which is the
cheapest mode of this CU. With the actual lookup result `CompressNoSplit`
returns the distortion 40 of the merge mode, with the empty result the
distortion 30 of the inter mode, and leaves that mode in the CU. -/
theorem cache_result_changes_leaf_decision :
    (CompressNoSplit (exampleNoSplitLeafEnv exampleCachedInterPicEnv) exampleCacheResult
        SplitRestriction.kNone exampleWriter).map NoSplitResult.output =
      some (40, { num_written_bits := 13, coder_state := 0 },
        LeafDecision.inter_pic { decisions := some MenuMode.Merge, has_any_cbf := true },
        LeafDecision.inter_pic { decisions := some MenuMode.Merge, has_any_cbf := true }) ∧
    (CompressNoSplit (exampleNoSplitLeafEnv exampleCachedInterPicEnv) emptyCacheResult
        SplitRestriction.kNone exampleWriter).map NoSplitResult.output =
      some (30, { num_written_bits := 13, coder_state := 0 },
        LeafDecision.inter_pic
          { decisions := some (MenuMode.Inter RdMode.kInterMe), has_any_cbf := true },
        LeafDecision.inter_pic
          { decisions := some (MenuMode.Inter RdMode.kInterMe), has_any_cbf := true }) := by
  exact ⟨by decide, by decide⟩

/-- C29, amended. When the encoder settings
`skip_mode_decision_for_identical_cu`, `fast_mode_selection_for_cached_cu` and
`fast_merge_eval` are all off, `CompressNoSplit` gives the same output with
the actual result of `cu_cache_.Lookup` as with the empty result: it returns
in the same cases, and then with the same distortion, the same writer (so the
same bits written), the same decisions in the CU and the same
reconstruction. What still differs is whether `cu_cache_.Store` is called. -/
theorem cache_result_irrelevant_without_fast_settings (env : NoSplitEnv)
    (cache_result : CuCacheResult) (split_restriction : SplitRestriction)
    (writer : RdoSyntaxWriter)
    (h1 : env.inter.encoder_settings.skip_mode_decision_for_identical_cu = false)
    (h2 : env.inter.encoder_settings.fast_mode_selection_for_cached_cu = false)
    (h3 : env.inter.encoder_settings.fast_merge_eval = false) :
    (CompressNoSplit env cache_result split_restriction writer).map NoSplitResult.output =
      (CompressNoSplit env emptyCacheResult split_restriction writer).map
        NoSplitResult.output ∧
    ((CompressNoSplit env cache_result split_restriction writer).isSome = true ↔
      (env.is_intra_pic = true ∨ (CompressInterPic env.inter).isSome = true)) := by
  have hc : ∀ c : CuCacheResult,
      CompressInterPic { env.inter with cache_result := c } = CompressInterPic env.inter :=
    fun c => CompressInterPic_cache_result env.inter c env.inter.cache_result h2 h3
  have hform : ∀ c : CuCacheResult,
      CompressNoSplit env c split_restriction writer =
        if env.is_intra_pic then
          some (finishNoSplit env c split_restriction writer
            (CompressIntra env.intra writer).cost LeafDecision.intra)
        else
          match CompressInterPic env.inter with
          | none => none
          | some r =>
            some (finishNoSplit env c split_restriction writer r.cost
              (LeafDecision.inter_pic (r.payload r.best_cu_ref))) := by
    intro c
    unfold CompressNoSplit
    rw [h1, hc c]
    cases c.cu <;> rfl
  rw [hform cache_result, hform emptyCacheResult]
  cases env.is_intra_pic
  · cases CompressInterPic env.inter <;> simp [finishNoSplit, NoSplitResult.output]
  · simp [finishNoSplit, NoSplitResult.output]

/-- C29, amended, at a concrete inter CU with the three settings off: with
the lookup result that reports `any_skip` and with the empty result
`CompressNoSplit` returns the distortion 40 of the merge mode in 13 bits. -/
theorem cache_result_irrelevant_without_fast_settings_witness :
    ((exampleNoSplitLeafEnv
        exampleInterPicEnv).inter.encoder_settings.skip_mode_decision_for_identical_cu = false ∧
      (exampleNoSplitLeafEnv
        exampleInterPicEnv).inter.encoder_settings.fast_mode_selection_for_cached_cu = false ∧
      (exampleNoSplitLeafEnv exampleInterPicEnv).inter.encoder_settings.fast_merge_eval = false) ∧
    ((CompressNoSplit (exampleNoSplitLeafEnv exampleInterPicEnv) exampleCacheResult
        SplitRestriction.kNone exampleWriter).map NoSplitResult.output =
      (CompressNoSplit (exampleNoSplitLeafEnv exampleInterPicEnv) emptyCacheResult
        SplitRestriction.kNone exampleWriter).map NoSplitResult.output ∧
    ((CompressNoSplit (exampleNoSplitLeafEnv exampleInterPicEnv) exampleCacheResult
        SplitRestriction.kNone exampleWriter).isSome = true ↔
      ((exampleNoSplitLeafEnv exampleInterPicEnv).is_intra_pic = true ∨
        (CompressInterPic (exampleNoSplitLeafEnv exampleInterPicEnv).inter).isSome = true))) ∧
    (CompressNoSplit (exampleNoSplitLeafEnv exampleInterPicEnv) exampleCacheResult SplitRestriction.kNone
        exampleWriter).map NoSplitResult.output =
      some (40, { num_written_bits := 13, coder_state := 0 },
        LeafDecision.inter_pic { decisions := some MenuMode.Merge, has_any_cbf := true },
        LeafDecision.inter_pic { decisions := some MenuMode.Merge, has_any_cbf := true }) :=
  ⟨⟨by decide, by decide, by decide⟩,
    cache_result_irrelevant_without_fast_settings (exampleNoSplitLeafEnv exampleInterPicEnv)
      exampleCacheResult SplitRestriction.kNone exampleWriter (by decide) (by decide)
      (by decide),
    by decide⟩

/-! ## The workers started by the constructor -/

theorem emplaceWorkers_eq (num_threads : Int) (wk : Worker) :
    ∀ (k : Nat) (l : List Worker), (num_threads - (l.length : Int)).toNat = k →
      emplaceWorkers num_threads wk l =
        l ++ List.replicate (num_threads - (l.length : Int)).toNat wk := by
  intro k
  induction k with
  | zero =>
    intro l hk
    rw [emplaceWorkers, if_neg (by omega), hk]
    simp
  | succ k ih =>
    intro l hk
    rw [emplaceWorkers, if_pos (by omega)]
    rw [ih (l ++ [wk]) (by simp only [List.length_append, List.length_singleton]; omega)]
    have h1 : (num_threads - ((l ++ [wk]).length : Int)).toNat = k := by
      simp only [List.length_append, List.length_singleton]; omega
    rw [h1, hk, List.replicate_succ, List.append_assoc]
    rfl

/-- C33. For every requested `num_threads`, with `n` being `num_threads` when
it is not negative and `std::thread::hardware_concurrency()` when it is, the
constructor starts exactly `max(1, n)` workers: the loop of lines 35-39 run on
the empty `worker_threads_` leaves that many threads. The pool has at least
one worker, `num_threads = 0` gives exactly one worker (as does a hardware
concurrency of 0), and every worker starts waiting in `WorkerMain`. -/
theorem constructor_starts_max_one_n_workers (num_threads : Int) (hardware_concurrency : Nat)
    (thread_restrictions : Restrictions) (status : PicId → OutputStatus) :
    (ThreadDecoder.create num_threads hardware_concurrency thread_restrictions
        status).worker_threads_ =
      emplaceWorkers (max 1 (if num_threads < 0 then (hardware_concurrency : Int)
          else num_threads))
        { phase := WorkerPhase.waiting, restriction_soc := toSegmentNum (-1),
          restrictions := thread_restrictions } [] ∧
    (((ThreadDecoder.create num_threads hardware_concurrency thread_restrictions
        status).worker_threads_.length : Nat) : Int) =
      max 1 (if num_threads < 0 then (hardware_concurrency : Int) else num_threads) ∧
    1 ≤ (ThreadDecoder.create num_threads hardware_concurrency thread_restrictions
        status).worker_threads_.length ∧
    (num_threads = 0 →
      (ThreadDecoder.create num_threads hardware_concurrency thread_restrictions
        status).worker_threads_.length = 1) ∧
    (num_threads < 0 →
      (ThreadDecoder.create num_threads hardware_concurrency thread_restrictions
        status).worker_threads_.length = max 1 hardware_concurrency) ∧
    (0 ≤ num_threads →
      (ThreadDecoder.create num_threads hardware_concurrency thread_restrictions
        status).worker_threads_.length = max 1 num_threads.toNat) ∧
    (∀ wk ∈ (ThreadDecoder.create num_threads hardware_concurrency thread_restrictions
        status).worker_threads_, wk.phase = WorkerPhase.waiting) ∧
    (ThreadDecoder.create (-1) 8 thread_restrictions status).worker_threads_.length = 8 ∧
    (ThreadDecoder.create 3 8 thread_restrictions status).worker_threads_.length = 3 := by
  have hlen : (ThreadDecoder.create num_threads hardware_concurrency thread_restrictions
      status).worker_threads_.length =
      (max 1 (if num_threads < 0 then (hardware_concurrency : Int) else num_threads)).toNat := by
    simp [ThreadDecoder.create]
  refine ⟨?_, ?_, ?_, ?_, ?_, ?_, ?_, ?_, ?_⟩
  · rw [emplaceWorkers_eq _ _ _ [] rfl]
    simp [ThreadDecoder.create]
  · rw [hlen]
    omega
  · rw [hlen]
    omega
  · intro h
    rw [hlen, h]
    rfl
  · intro h
    rw [hlen, if_pos h]
    omega
  · intro h
    rw [hlen, if_neg (by omega)]
    omega
  · intro wk hwk
    simp only [ThreadDecoder.create] at hwk
    rw [(List.mem_replicate.1 hwk).2]
  · simp [ThreadDecoder.create]
  · simp [ThreadDecoder.create]

/-! ## The candidates evaluated by `CompressAndEvalTransform` -/

theorem TransformAndReconstruct_can_transform_skip (env : TransformEnv) (cu : TransformCu)
    (comp : YuvComponent) (skip : Bool) :
    (TransformAndReconstruct env cu comp skip).2.can_transform_skip = cu.can_transform_skip := by
  unfold TransformAndReconstruct
  simp only []
  split
  · rfl
  · split
    · rfl
    · split
      · rfl
      · rfl

theorem candidateCu_can_transform_skip (env : TransformEnv) (comp : YuvComponent)
    (cu : TransformCu) (t : Int) (skip : Bool) :
    (candidateCu env comp cu t skip).can_transform_skip = cu.can_transform_skip := by
  unfold candidateCu
  rw [TransformAndReconstruct_can_transform_skip]
  unfold TransformCu.SetTransformFromSelectIdx
  split <;> rfl

theorem evalNormal_can_transform_skip (env : TransformEnv) (comp : YuvComponent)
    (cu : TransformCu) :
    (evalNormal env comp cu).cu.can_transform_skip = cu.can_transform_skip := by
  unfold evalNormal
  rw [foldl_normalBody_cu]
  generalize txSelectRange (nbr_tx_select_normal env comp) = l
  simp only []
  induction l generalizing cu with
  | nil => rfl
  | cons t l ih => rw [List.foldl_cons, ih, candidateCu_can_transform_skip]

/-- C34. In `CompressAndEvalTransform` the normal transform is evaluated for
the transform-select indices `-1, 0, 1, 2, 3`, in this order (five
candidates, `kMaxTransformSelectIdx = 4`), when the component is luma and
`disable_ext_transform_select` is not set, and for the single index `-1` when
the component is chroma or the restriction is set; none of these evaluations
uses transform skip. The transform-skip candidate is evaluated exactly when
`CanTransformSkip(comp)` holds and `disable_transform_skip` is not set, it is
evaluated once, after the normal transforms, with the index `-1`. -/
theorem transform_candidates_evaluated (env : TransformEnv) (cu : TransformCu)
    (comp : YuvComponent) :
    (IsLuma comp = true ∧ env.restrictions.disable_ext_transform_select = false →
      (CompressAndEvalTransform env cu comp).normal_trace.map (fun e => e.tx_select) =
        [-1, 0, 1, 2, 3]) ∧
    (IsLuma comp = false ∨ env.restrictions.disable_ext_transform_select = true →
      (CompressAndEvalTransform env cu comp).normal_trace.map (fun e => e.tx_select) = [-1]) ∧
    (∀ e ∈ (CompressAndEvalTransform env cu comp).normal_trace, e.skip_transform = false) ∧
    (cu.can_transform_skip comp = true ∧ env.restrictions.disable_transform_skip = false →
      (CompressAndEvalTransform env cu comp).txskip_trace =
        [candidateEval env comp (evalNormal env comp cu).cu (-1) true] ∧
      ∀ e ∈ (CompressAndEvalTransform env cu comp).txskip_trace,
        e.tx_select = -1 ∧ e.skip_transform = true) ∧
    (cu.can_transform_skip comp = false ∨ env.restrictions.disable_transform_skip = true →
      (CompressAndEvalTransform env cu comp).txskip_trace = []) ∧
    ((CompressAndEvalTransform exampleTransformEnv exampleTransformCu
        YuvComponent.kY).normal_trace.map (fun e => e.tx_select) = [-1, 0, 1, 2, 3] ∧
      (CompressAndEvalTransform exampleTransformEnv exampleTransformCu
        YuvComponent.kU).normal_trace.map (fun e => e.tx_select) = [-1]) := by
  obtain ⟨hn, ht, -, -, -⟩ := CompressAndEvalTransform_fields env cu comp
  obtain ⟨-, hall, hmap, -⟩ := evalNormal_inv env comp cu
  rw [hn, ht]
  refine ⟨?_, ?_, fun e he => (hall e he).2, ?_, ?_, by decide, by decide⟩
  · rintro ⟨h1, h2⟩
    rw [hmap]
    unfold nbr_tx_select_normal
    rw [h1, h2]
    decide
  · intro h
    rw [hmap]
    unfold nbr_tx_select_normal
    rcases h with h | h
    · rw [h]
      simp only [Bool.false_and, Bool.false_eq_true, if_false]
      decide
    · rw [h]
      simp only [Bool.not_true, Bool.and_false, Bool.false_eq_true, if_false]
      decide
  · rintro ⟨h1, h2⟩
    have hc : (evalNormal env comp cu).cu.can_transform_skip comp = true := by
      rw [evalNormal_can_transform_skip]; exact h1
    unfold evalTxSkip
    rw [hc, h2]
    simp [candidateEval]
  · intro h
    have hc : (evalNormal env comp cu).cu.can_transform_skip comp = cu.can_transform_skip comp := by
      rw [evalNormal_can_transform_skip]
    unfold evalTxSkip
    rw [hc]
    rcases h with h | h
    · rw [h]; rfl
    · rw [h]
      cases cu.can_transform_skip comp <;> rfl

/-! ## The evaluation chosen by `CompressNoSplit` -/

/-- C36. A call of `CompressNoSplit` runs one of three evaluations, and the
decisions it leaves in the CU are those of the one it ran. When
`skip_mode_decision_for_identical_cu` is enabled, the lookup returned a donor
CU and the CU is the first CU of its quad, the prediction data of the donor is
copied and `CompressFast` gives the distortion, with the cost 0; this holds
whatever the picture type. Otherwise `CompressIntra` is called when the picture
is intra, and `CompressInterPic` (with the lookup result) when it is not.
`cu_cache_.Store` is called exactly when the lookup reported `cacheable`. In
the example an intra picture with a donor CU takes the cache path and nothing
is stored. -/
theorem CompressNoSplit_runs_one_evaluation (env : NoSplitEnv) (cache_result : CuCacheResult)
    (split_restriction : SplitRestriction) (writer : RdoSyntaxWriter) :
    (∀ donor, env.inter.encoder_settings.skip_mode_decision_for_identical_cu = true →
      cache_result.cu = some donor → env.IsFirstCuInQuad = true →
      CompressNoSplit env cache_result split_restriction writer =
        some (finishNoSplit env cache_result split_restriction writer
          { cost := 0, dist := CompressFast env donor } (LeafDecision.fast donor))) ∧
    ((env.inter.encoder_settings.skip_mode_decision_for_identical_cu = false ∨
        cache_result.cu = none ∨ env.IsFirstCuInQuad = false) →
      (env.is_intra_pic = true →
        CompressNoSplit env cache_result split_restriction writer =
          some (finishNoSplit env cache_result split_restriction writer
            (CompressIntra env.intra writer).cost LeafDecision.intra)) ∧
      (env.is_intra_pic = false →
        CompressNoSplit env cache_result split_restriction writer =
          (CompressInterPic { env.inter with cache_result := cache_result }).map
            (fun r => finishNoSplit env cache_result split_restriction writer r.cost
              (LeafDecision.inter_pic (r.payload r.best_cu_ref))))) ∧
    (∀ r, CompressNoSplit env cache_result split_restriction writer = some r →
      (r.stored = true ↔ cache_result.cacheable = true) ∧
      ((∃ donor, r.decision = LeafDecision.fast donor) ↔
        (env.inter.encoder_settings.skip_mode_decision_for_identical_cu = true ∧
          cache_result.cu ≠ none ∧ env.IsFirstCuInQuad = true)) ∧
      (r.decision = LeafDecision.intra ↔
        (¬ (env.inter.encoder_settings.skip_mode_decision_for_identical_cu = true ∧
          cache_result.cu ≠ none ∧ env.IsFirstCuInQuad = true) ∧ env.is_intra_pic = true)) ∧
      ((∃ payload, r.decision = LeafDecision.inter_pic payload) ↔
        (¬ (env.inter.encoder_settings.skip_mode_decision_for_identical_cu = true ∧
          cache_result.cu ≠ none ∧ env.IsFirstCuInQuad = true) ∧
          env.is_intra_pic = false))) ∧
    (CompressNoSplit exampleFastLeafEnv exampleDonorCacheResult SplitRestriction.kNone
        exampleWriter).map (fun r => (r.dist, r.decision, r.stored)) =
      some (27, LeafDecision.fast 5, false) := by
  have hform : CompressNoSplit env cache_result split_restriction writer =
      if env.inter.encoder_settings.skip_mode_decision_for_identical_cu = true ∧
          cache_result.cu ≠ none ∧ env.IsFirstCuInQuad = true then
        cache_result.cu.map (fun donor =>
          finishNoSplit env cache_result split_restriction writer
            { cost := 0, dist := CompressFast env donor } (LeafDecision.fast donor))
      else if env.is_intra_pic = true then
        some (finishNoSplit env cache_result split_restriction writer
          (CompressIntra env.intra writer).cost LeafDecision.intra)
      else
        (CompressInterPic { env.inter with cache_result := cache_result }).map
          (fun r => finishNoSplit env cache_result split_restriction writer r.cost
            (LeafDecision.inter_pic (r.payload r.best_cu_ref))) := by
    unfold CompressNoSplit
    cases h1 : cache_result.cu <;>
      cases h2 : env.inter.encoder_settings.skip_mode_decision_for_identical_cu <;>
      cases h3 : env.IsFirstCuInQuad <;>
      cases h4 : env.is_intra_pic <;>
      cases h5 : CompressInterPic { env.inter with cache_result := cache_result } <;>
      simp
  refine ⟨?_, ?_, ?_, by decide⟩
  · intro donor h1 h2 h3
    rw [hform, if_pos ⟨h1, by rw [h2]; simp, h3⟩, h2]
    rfl
  · intro h
    have hn : ¬ (env.inter.encoder_settings.skip_mode_decision_for_identical_cu = true ∧
        cache_result.cu ≠ none ∧ env.IsFirstCuInQuad = true) := by
      rintro ⟨h1, h2, h3⟩
      rcases h with h | h | h
      · rw [h] at h1; cases h1
      · exact h2 h
      · rw [h] at h3; cases h3
    refine ⟨fun hi => ?_, fun hi => ?_⟩
    · rw [hform, if_neg hn, if_pos hi]
    · rw [hform, if_neg hn, if_neg (by rw [hi]; simp)]
  · intro r hr
    rw [hform] at hr
    by_cases hc : env.inter.encoder_settings.skip_mode_decision_for_identical_cu = true ∧
        cache_result.cu ≠ none ∧ env.IsFirstCuInQuad = true
    · rw [if_pos hc] at hr
      cases hcu : cache_result.cu with
      | none => exact absurd hcu hc.2.1
      | some donor =>
        rw [hcu] at hr
        simp only [Option.map_some', Option.some.injEq] at hr
        subst hr
        simp [finishNoSplit, hc.1, hc.2.2]
    · rw [if_neg hc] at hr
      by_cases hi : env.is_intra_pic = true
      · rw [if_pos hi] at hr
        simp only [Option.some.injEq] at hr
        subst hr
        simp [finishNoSplit, hc, hi]
      · rw [if_neg hi] at hr
        cases hp : CompressInterPic { env.inter with cache_result := cache_result } with
        | none => rw [hp] at hr; cases hr
        | some x =>
          rw [hp] at hr
          simp only [Option.map_some', Option.some.injEq] at hr
          subst hr
          simp [finishNoSplit, hc, hi]

/-! ## The arithmetic of `calc_variance` -/

theorem foldl_addU64_sum (f : Nat → Nat) (l : List Nat) :
    ∀ a : Nat, a + (l.map f).sum < 2 ^ 64 →
      l.foldl (fun a x => addU64 a (f x)) a = a + (l.map f).sum := by
  induction l with
  | nil => intro a _; simp
  | cons x l ih =>
    intro a h
    simp only [List.map_cons, List.sum_cons] at h
    rw [List.foldl_cons]
    have hx : addU64 a (f x) = a + f x := by
      unfold addU64
      exact Nat.mod_eq_of_lt (by omega)
    rw [hx, ih (a + f x) (by omega)]
    simp only [List.map_cons, List.sum_cons]
    omega

theorem two_mul_sum_le (a : Nat) (l : List Nat) :
    2 * a * l.sum ≤ l.length * (a * a) + (l.map (fun x => x * x)).sum := by
  induction l with
  | nil => simp
  | cons x l ih =>
    simp only [List.sum_cons, List.length_cons, List.map_cons]
    have hx : 2 * a * x ≤ a * a + x * x := by
      zify
      nlinarith [sq_nonneg ((a : Int) - (x : Int))]
    nlinarith [ih, hx]

theorem sq_sum_le_length_mul (l : List Nat) :
    l.sum * l.sum ≤ l.length * (l.map (fun x => x * x)).sum := by
  induction l with
  | nil => simp
  | cons x l ih =>
    simp only [List.sum_cons, List.length_cons, List.map_cons]
    have h2 := two_mul_sum_le x l
    nlinarith [ih, h2]

theorem blockSamples_length (src : Nat → Nat → Nat) (n : Nat) :
    (blockSamples src n).length = n * n := by
  unfold blockSamples
  rw [List.length_flatMap]
  have : (List.length ∘ fun k => List.map (fun l => src k l) (List.range n)) = fun _ => n := by
    funext k
    simp
  rw [this]
  simp

theorem mem_blockSamples {src : Nat → Nat → Nat} {n x : Nat} (h : x ∈ blockSamples src n) :
    ∃ k l, k < n ∧ l < n ∧ x = src k l := by
  unfold blockSamples at h
  rw [List.mem_flatMap] at h
  obtain ⟨k, hk, hx⟩ := h
  rw [List.mem_map] at hx
  obtain ⟨l, hl, hx⟩ := hx
  exact ⟨k, l, List.mem_range.1 hk, List.mem_range.1 hl, hx.symm⟩

theorem sum_le_of_forall_le (l : List Nat) (b : Nat) (h : ∀ x ∈ l, x ≤ b) :
    l.sum ≤ l.length * b := by
  induction l with
  | nil => simp
  | cons x l ih =>
    simp only [List.sum_cons, List.length_cons]
    have hx := h x (List.mem_cons_self _ _)
    have hl := ih (fun y hy => h y (List.mem_cons_of_mem _ hy))
    nlinarith [hx, hl]

theorem sum_eq_of_forall_eq (l : List Nat) (c : Nat) (h : ∀ x ∈ l, x = c) :
    l.sum = l.length * c := by
  induction l with
  | nil => simp
  | cons x l ih =>
    simp only [List.sum_cons, List.length_cons]
    rw [h x (List.mem_cons_self _ _), ih (fun y hy => h y (List.mem_cons_of_mem _ hy))]
    ring

theorem calc_variance_eq (src : Nat → Nat → Nat) (n : Nat) :
    calc_variance src n =
      mulU64 256
        (subU64 ((blockSamples src n).foldl (fun a x => addU64 a (x * x)) 0)
          (mulU64 ((blockSamples src n).foldl (fun a x => addU64 a x) 0)
            ((blockSamples src n).foldl (fun a x => addU64 a x) 0) /
            (blockSamples src n).foldl (fun a _ => addU64 a 1) 0)) /
        (blockSamples src n).foldl (fun a _ => addU64 a 1) 0 := rfl

theorem calc_variance_16 (src : Nat → Nat → Nat)
    (h : ∀ k l, k < 16 → l < 16 → src k l < 2 ^ 15) :
    (blockSamples src 16).foldl (fun a x => addU64 a x) 0 = (blockSamples src 16).sum ∧
    (blockSamples src 16).foldl (fun a x => addU64 a (x * x)) 0 =
      ((blockSamples src 16).map (fun x => x * x)).sum ∧
    (blockSamples src 16).foldl (fun a _ => addU64 a 1) 0 = 256 ∧
    (blockSamples src 16).sum * (blockSamples src 16).sum < 2 ^ 64 ∧
    (blockSamples src 16).sum * (blockSamples src 16).sum / 256 ≤
      ((blockSamples src 16).map (fun x => x * x)).sum ∧
    256 * ((blockSamples src 16).map (fun x => x * x)).sum < 2 ^ 64 := by
  have hlen := blockSamples_length src 16
  have hb : ∀ x ∈ blockSamples src 16, x ≤ 32767 := by
    intro x hx
    obtain ⟨k, l, hk, hl, rfl⟩ := mem_blockSamples hx
    have := h k l hk hl
    omega
  have hS : (blockSamples src 16).sum ≤ 256 * 32767 := by
    have := sum_le_of_forall_le _ 32767 hb
    rw [hlen] at this
    exact this
  have hQ : ((blockSamples src 16).map (fun x => x * x)).sum ≤ 256 * (32767 * 32767) := by
    have := sum_le_of_forall_le ((blockSamples src 16).map (fun x => x * x)) (32767 * 32767)
      (by
        intro y hy
        rw [List.mem_map] at hy
        obtain ⟨x, hx, rfl⟩ := hy
        exact Nat.mul_le_mul (hb x hx) (hb x hx))
    rw [List.length_map, hlen] at this
    exact this
  have hone : ((blockSamples src 16).map (fun _ => 1)).sum = 256 := by
    rw [sum_eq_of_forall_eq _ 1 (by intro y hy; rw [List.mem_map] at hy; obtain ⟨_, _, rfl⟩ := hy; rfl),
      List.length_map, hlen]
  have hcs := sq_sum_le_length_mul (blockSamples src 16)
  rw [hlen] at hcs
  refine ⟨?_, ?_, ?_, ?_, ?_, ?_⟩
  · have := foldl_addU64_sum (fun x => x) (blockSamples src 16) 0
      (by simp only [List.map_id', Nat.zero_add]; omega)
    simpa using this
  · have := foldl_addU64_sum (fun x => x * x) (blockSamples src 16) 0
      (by rw [Nat.zero_add]; omega)
    simpa using this
  · have := foldl_addU64_sum (fun _ => 1) (blockSamples src 16) 0
      (by rw [Nat.zero_add, hone]; norm_num)
    rw [this, hone]
  · have : (blockSamples src 16).sum * (blockSamples src 16).sum ≤
        (256 * 32767) * (256 * 32767) := Nat.mul_le_mul hS hS
    omega
  · exact Nat.div_le_of_le_mul (by omega)
  · omega

/-- C37. For a 16x16 block whose samples are all below `2 ^ 15`: the `int`
product `(*src) * (*src)` fits an `int`; the three accumulators of
`calc_variance` hold the exact sum, the exact sum of squares and 256, without
wrapping; the unsigned 64-bit subtraction `squares - (sum * sum) / num` does
not underflow, the sum of squares being at least `floor(sum ^ 2 / 256)`; the
lambda returns exactly `sum(x ^ 2) - floor((sum x) ^ 2 / 256)`; and it returns
0 when all samples of the block are equal. -/
theorem calc_variance_exact (src : Nat → Nat → Nat)
    (h : ∀ k l, k < 16 → l < 16 → src k l < 2 ^ 15) :
    (∀ x ∈ blockSamples src 16, x * x < 2 ^ 31) ∧
    (blockSamples src 16).foldl (fun a x => addU64 a x) 0 = (blockSamples src 16).sum ∧
    (blockSamples src 16).foldl (fun a x => addU64 a (x * x)) 0 =
      ((blockSamples src 16).map (fun x => x * x)).sum ∧
    (blockSamples src 16).foldl (fun a _ => addU64 a 1) 0 = 256 ∧
    mulU64 ((blockSamples src 16).sum) ((blockSamples src 16).sum) / 256 ≤
      ((blockSamples src 16).map (fun x => x * x)).sum ∧
    subU64 (((blockSamples src 16).map (fun x => x * x)).sum)
        (mulU64 ((blockSamples src 16).sum) ((blockSamples src 16).sum) / 256) =
      ((blockSamples src 16).map (fun x => x * x)).sum -
        (blockSamples src 16).sum ^ 2 / 256 ∧
    calc_variance src 16 =
      ((blockSamples src 16).map (fun x => x * x)).sum -
        (blockSamples src 16).sum ^ 2 / 256 ∧
    (∀ c, (∀ k l, k < 16 → l < 16 → src k l = c) → calc_variance src 16 = 0) := by
  obtain ⟨h1, h2, h3, h4, h5, h6⟩ := calc_variance_16 src h
  have hmul : mulU64 ((blockSamples src 16).sum) ((blockSamples src 16).sum) =
      (blockSamples src 16).sum * (blockSamples src 16).sum := by
    unfold mulU64
    exact Nat.mod_eq_of_lt h4
  have hsub : subU64 (((blockSamples src 16).map (fun x => x * x)).sum)
      ((blockSamples src 16).sum * (blockSamples src 16).sum / 256) =
      ((blockSamples src 16).map (fun x => x * x)).sum -
        (blockSamples src 16).sum * (blockSamples src 16).sum / 256 := by
    unfold subU64
    rw [Nat.mod_eq_of_lt (by omega : ((blockSamples src 16).map (fun x => x * x)).sum < 2 ^ 64),
      Nat.mod_eq_of_lt (by omega :
        (blockSamples src 16).sum * (blockSamples src 16).sum / 256 < 2 ^ 64)]
    omega
  have hval : calc_variance src 16 =
      ((blockSamples src 16).map (fun x => x * x)).sum -
        (blockSamples src 16).sum ^ 2 / 256 := by
    rw [calc_variance_eq, h1, h2, h3, hmul, hsub, pow_two]
    unfold mulU64
    rw [Nat.mod_eq_of_lt (by omega)]
    omega
  refine ⟨?_, h1, h2, h3, by rw [hmul]; exact h5, by rw [hmul, hsub, pow_two], hval, ?_⟩
  · intro x hx
    obtain ⟨k, l, hk, hl, rfl⟩ := mem_blockSamples hx
    have hlt := h k l hk hl
    have : src k l * src k l ≤ 32767 * 32767 := Nat.mul_le_mul (by omega) (by omega)
    omega
  · intro c hc
    have hall : ∀ x ∈ blockSamples src 16, x = c := by
      intro x hx
      obtain ⟨k, l, hk, hl, rfl⟩ := mem_blockSamples hx
      exact hc k l hk hl
    have hallsq : ∀ y ∈ (blockSamples src 16).map (fun x => x * x), y = c * c := by
      intro y hy
      rw [List.mem_map] at hy
      obtain ⟨x, hx, rfl⟩ := hy
      rw [hall x hx]
    rw [hval, sum_eq_of_forall_eq _ c hall, sum_eq_of_forall_eq _ (c * c) hallsq,
      List.length_map, blockSamples_length]
    have : (16 * 16 * c) ^ 2 / 256 = 16 * 16 * (c * c) := by
      rw [show (16 * 16 * c) ^ 2 = 16 * 16 * (c * c) * 256 by ring]
      exact Nat.mul_div_cancel _ (by norm_num)
    rw [this]
    exact Nat.sub_self _

/-- C37 at a block whose samples grow with the row: the hypothesis holds and
the conclusions follow; a block of constant samples 128 has variance 0. -/
theorem calc_variance_exact_witness :
    (∀ k l, k < 16 → l < 16 → (fun (k _ : Nat) => 100 + k) k l < 2 ^ 15) ∧
    calc_variance (fun (k _ : Nat) => 100 + k) 16 =
      ((blockSamples (fun (k _ : Nat) => 100 + k) 16).map (fun x => x * x)).sum -
        (blockSamples (fun (k _ : Nat) => 100 + k) 16).sum ^ 2 / 256 ∧
    calc_variance (fun _ _ => 128) 16 = 0 :=
  ⟨fun k l hk hl => by simp only []; omega,
    (calc_variance_exact (fun (k _ : Nat) => 100 + k)
      (fun k l hk hl => by simp only []; omega)).2.2.2.2.2.2.1,
    (calc_variance_exact (fun _ _ => 128) (fun k l hk hl => by norm_num)).2.2.2.2.2.2.2 128
      (fun _ _ _ _ => rfl)⟩

/-! ## `WaitOne` and the order of `finished_work_` -/

theorem pushedBy_of_not_finish (s : ThreadDecoder) (a : Action)
    (h : ∀ i, a ≠ Action.worker_finish i) : pushedBy s a = [] := by
  cases a with
  | worker_finish i => exact absurd rfl (h i)
  | _ => rfl

theorem setWorker_fields (s : ThreadDecoder) (i : Nat) (wk : Worker) :
    (s.setWorker i wk).finished_work_ = s.finished_work_ ∧
    (s.setWorker i wk).callbacks = s.callbacks ∧
    (s.setWorker i wk).pending_work_ = s.pending_work_ ∧
    (s.setWorker i wk).status = s.status ∧
    (s.setWorker i wk).running_ = s.running_ ∧
    (s.setWorker i wk).jobs_in_flight_ = s.jobs_in_flight_ ∧
    (s.setWorker i wk).submitted = s.submitted :=
  ⟨rfl, rfl, rfl, rfl, rfl, rfl, rfl⟩

theorem step_finished {env : PictureDecoderEnv} {s s' : ThreadDecoder} {a : Action}
    (hs : s.step env a = some s') :
    (s'.finished_work_ = s.finished_work_ ∧ s'.callbacks = s.callbacks ∧ pushedBy s a = []) ∨
    (∃ i w, a = Action.worker_finish i ∧ s'.finished_work_ = s.finished_work_ ++ [w] ∧
      s'.callbacks = s.callbacks ∧ pushedBy s a = [(w, s.status w.pic_dec)]) ∨
    (∃ w, a.isDrain = true ∧ s.finished_work_ = w :: s'.finished_work_ ∧
      s'.callbacks = s.callbacks ++ [w] ∧ pushedBy s a = []) := by
  cases a with
  | DecodeAsync sh psh pic deps nal off =>
    simp only [ThreadDecoder.step, Option.some.injEq] at hs
    subst hs
    exact Or.inl ⟨rfl, rfl, rfl⟩
  | WaitOne =>
    simp only [ThreadDecoder.step, ThreadDecoder.WaitOne] at hs
    cases hf : s.finished_work_ with
    | nil => simp [hf] at hs
    | cons work rest =>
      simp only [hf, Option.some.injEq] at hs
      subst hs
      exact Or.inr (Or.inr ⟨work, rfl, rfl, rfl, rfl⟩)
  | WaitAll_iteration =>
    simp only [ThreadDecoder.step, ThreadDecoder.WaitAll_iteration] at hs
    split at hs
    · cases hf : s.finished_work_ with
      | nil => simp [hf] at hs
      | cons work rest =>
        simp only [hf, Option.some.injEq] at hs
        subst hs
        exact Or.inr (Or.inr ⟨work, rfl, rfl, rfl, rfl⟩)
    · cases hs
  | StopAll =>
    simp only [ThreadDecoder.step, ThreadDecoder.StopAll, Option.some.injEq] at hs
    subst hs
    exact Or.inl ⟨rfl, rfl, rfl⟩
  | StopAll_join =>
    simp only [ThreadDecoder.step, ThreadDecoder.StopAll_join] at hs
    split at hs
    · simp only [Option.some.injEq] at hs
      subst hs
      exact Or.inl ⟨rfl, rfl, rfl⟩
    · cases hs
  | worker_wake i =>
    obtain ⟨wk, -, -, hcase⟩ := worker_wake_inv hs
    rcases hcase with ⟨-, rfl⟩ | ⟨-, work, rest, -, rfl⟩
    · exact Or.inl ⟨rfl, rfl, rfl⟩
    · exact Or.inl ⟨rfl, rfl, rfl⟩
  | worker_decode i =>
    obtain ⟨wk, work, -, -, rfl⟩ := worker_decode_inv hs
    exact Or.inl ⟨rfl, rfl, rfl⟩
  | worker_postprocess i =>
    obtain ⟨wk, work, -, -, rfl⟩ := worker_postprocess_inv hs
    exact Or.inl ⟨rfl, rfl, rfl⟩
  | worker_finish i =>
    obtain ⟨wk, work, hwk, hph, rfl⟩ := worker_finish_inv hs
    refine Or.inr (Or.inl ⟨i, work, rfl, rfl, rfl, ?_⟩)
    simp only [pushedBy, hwk, hph]
  | SetOutputStatus pic st =>
    simp only [ThreadDecoder.step, Option.some.injEq] at hs
    subst hs
    exact Or.inl ⟨rfl, rfl, rfl⟩

theorem run_pushed {env : PictureDecoderEnv} (acts : List Action) :
    ∀ {s s' : ThreadDecoder}, s.run env acts = some s' →
      s'.callbacks ++ s'.finished_work_ =
        s.callbacks ++ s.finished_work_ ++ (pushedAlong env s acts).map Prod.fst := by
  induction acts with
  | nil =>
    intro s s' hs
    simp only [ThreadDecoder.run, Option.some.injEq] at hs
    subst hs
    simp [pushedAlong]
  | cons a rest ih =>
    intro s s' hs
    simp only [ThreadDecoder.run] at hs
    cases hst : s.step env a with
    | none => simp [hst] at hs
    | some s1 =>
      simp only [hst] at hs
      rw [ih hs]
      simp only [pushedAlong, hst, List.map_append]
      rcases step_finished hst with ⟨h1, h2, h3⟩ | ⟨i, w, -, h1, h2, h3⟩ | ⟨w, -, h1, h2, h3⟩
      · rw [h1, h2, h3]; simp
      · rw [h1, h2, h3]; simp
      · rw [h1, h2, h3]; simp

theorem pushedBy_done {s : ThreadDecoder} (h : PoolInv s) (a : Action) :
    ∀ x ∈ pushedBy s a, ItemDone x.1 := by
  intro x hx
  cases a with
  | worker_finish i =>
    simp only [pushedBy] at hx
    cases hwk : s.worker_threads_[i]? with
    | none => simp [hwk] at hx
    | some wk =>
      simp only [hwk] at hx
      have hps := h.2.2.1 wk (List.getElem?_mem hwk)
      cases hph : wk.phase with
      | finishing w =>
        rw [hph] at hps
        simp only [hph, List.mem_singleton] at hx
        rw [hx]
        exact hps
      | waiting => simp [hph] at hx
      | decoding w => simp [hph] at hx
      | postprocessing w => simp [hph] at hx
      | stopped => simp [hph] at hx
  | DecodeAsync sh psh pic deps nal off => simp [pushedBy] at hx
  | WaitOne => simp [pushedBy] at hx
  | WaitAll_iteration => simp [pushedBy] at hx
  | StopAll => simp [pushedBy] at hx
  | StopAll_join => simp [pushedBy] at hx
  | worker_wake i => simp [pushedBy] at hx
  | worker_decode i => simp [pushedBy] at hx
  | worker_postprocess i => simp [pushedBy] at hx
  | SetOutputStatus pic st => simp [pushedBy] at hx

theorem pushedAlong_done {env : PictureDecoderEnv} (acts : List Action) :
    ∀ {s s' : ThreadDecoder}, PoolInv s → s.run env acts = some s' →
      ∀ x ∈ pushedAlong env s acts, ItemDone x.1 := by
  induction acts with
  | nil =>
    intro s s' _ _ x hx
    simp [pushedAlong] at hx
  | cons a rest ih =>
    intro s s' h hs x hx
    simp only [ThreadDecoder.run] at hs
    cases hst : s.step env a with
    | none => simp [hst] at hs
    | some s1 =>
      simp only [hst] at hs
      simp only [pushedAlong, hst, List.mem_append] at hx
      rcases hx with hx | hx
      · exact pushedBy_done h a x hx
      · exact ih (PoolInv_step h hst) hs x hx

/-- C31, as the claim states it, fails in its last part: the `Postprocess`
call for P0 returns (and its status is set to `kFinishedProcessing`) before
that for P2, but the worker of P2 takes the mutex of line 170 first and
appends P2 before P0; the host receives P2 and then P0. -/
theorem callback_order_differs_from_postprocess_order :
    (examplePoolSubmitted.run examplePictureDecoderEnv exampleOvertakingFinish).isSome = true ∧
    (postprocessedAlong examplePictureDecoderEnv examplePoolSubmitted
        exampleOvertakingFinish).map (fun w => w.pic_dec) = [0, 2] ∧
    (pushedAlong examplePictureDecoderEnv examplePoolSubmitted
        exampleOvertakingFinish).map (fun x => x.1.pic_dec) = [2, 0] ∧
    ((examplePoolSubmitted.run examplePictureDecoderEnv exampleOvertakingFinish).map
        (fun s => s.callbacks.map (fun w => w.pic_dec))) = some [2, 0] := by
  refine ⟨by decide, by decide, by decide, by decide⟩

/-- C31, amended. In every state of the pool with non-empty `finished_work_`,
`WaitOne` passes its wait and removes the front item of `finished_work_`,
decrements `jobs_in_flight_` by one, leaves `pending_work_`, the workers, the
statuses and the rest of `finished_work_` in its order unchanged, and hands the
callback that item once (its picture, `success` flag and dependency list are
the fields of the item); with an empty `finished_work_` it stays blocked.
Every step of the pool leaves `finished_work_` alone, appends one item at its
back (only a worker at line 172 does) or removes its front item (only the
host, draining). Hence, along every sequence of steps, the items handed to
the callback followed by the items still in `finished_work_` are the items in
the order in which the workers appended them; in a pool started by the
constructor every item is appended after both its calls have returned. -/
theorem WaitOne_pops_front_of_finished_work (env : PictureDecoderEnv) (s : ThreadDecoder) :
    (∀ work rest, s.finished_work_ = work :: rest →
      ∃ s', s.WaitOne = some s' ∧ s'.finished_work_ = rest ∧
        s'.jobs_in_flight_ = s.jobs_in_flight_ - 1 ∧
        s'.pending_work_ = s.pending_work_ ∧
        s'.callbacks = s.callbacks ++ [work] ∧
        s'.worker_threads_ = s.worker_threads_ ∧ s'.status = s.status ∧
        s'.running_ = s.running_ ∧ s'.submitted = s.submitted) ∧
    (s.finished_work_ = [] → s.WaitOne = none) ∧
    (∀ a s', s.step env a = some s' →
      s'.finished_work_ = s.finished_work_ ∨
      (∃ i w, a = Action.worker_finish i ∧ s'.finished_work_ = s.finished_work_ ++ [w]) ∨
      (∃ w, a.isDrain = true ∧ s.finished_work_ = w :: s'.finished_work_)) ∧
    (∀ acts s', s.run env acts = some s' →
      s'.callbacks ++ s'.finished_work_ =
        s.callbacks ++ s.finished_work_ ++ (pushedAlong env s acts).map Prod.fst) ∧
    (PoolInv s → ∀ acts s', s.run env acts = some s' →
      ∀ x ∈ pushedAlong env s acts, ItemDone x.1) ∧
    ((pushedAlong examplePictureDecoderEnv examplePool (exampleSubmit ++ exampleWaitAll)).map
        (fun x => x.1.pic_dec) = [2, 0, 1] ∧
      examplePoolDrained.callbacks.map (fun w => w.pic_dec) = [2, 0, 1]) := by
  refine ⟨?_, ?_, ?_, fun acts s' hs => run_pushed acts hs,
    fun h acts s' hs => pushedAlong_done acts h hs, by decide, by decide⟩
  · intro work rest hf
    refine ⟨{ s with finished_work_ := rest, jobs_in_flight_ := s.jobs_in_flight_ - 1,
                     callbacks := s.callbacks ++ [work] },
      ?_, rfl, rfl, rfl, rfl, rfl, rfl, rfl, rfl⟩
    unfold ThreadDecoder.WaitOne
    rw [hf]
  · intro hf
    unfold ThreadDecoder.WaitOne
    rw [hf]
  · intro a s' hs
    rcases step_finished hs with ⟨h1, -, -⟩ | ⟨i, w, ha, h1, -, -⟩ | ⟨w, ha, h1, -, -⟩
    · exact Or.inl h1
    · exact Or.inr (Or.inl ⟨i, w, ha, h1⟩)
    · exact Or.inr (Or.inr ⟨w, ha, h1⟩)

/-! ## The `OutputStatus` written by a worker -/

theorem mem_heldItems {l : List Worker} {y : Worker} {w : WorkItem} (hy : y ∈ l)
    (hw : w ∈ y.phase.held) : w ∈ heldItems l := by
  unfold heldItems
  rw [List.mem_flatMap]
  exact ⟨y, hy, hw⟩

theorem heldItems_set_mem (l : List Worker) (i : Nat) (old wk : Worker)
    (h : l[i]? = some old) :
    ∃ A B, heldItems l = A ++ old.phase.held ++ B ∧
      heldItems (l.set i wk) = A ++ wk.phase.held ++ B ∧
      ∀ y ∈ l.set i wk, y = wk ∨ (y ∈ l ∧ ∀ w ∈ y.phase.held, w ∈ A ++ B) := by
  induction l generalizing i with
  | nil => simp at h
  | cons a l ih =>
    cases i with
    | zero =>
      simp only [List.getElem?_cons_zero, Option.some.injEq] at h
      subst h
      refine ⟨[], heldItems l, by simp [heldItems], by simp [heldItems], ?_⟩
      intro y hy
      simp only [List.set_cons_zero, List.mem_cons] at hy
      rcases hy with hy | hy
      · exact Or.inl hy
      · refine Or.inr ⟨List.mem_cons_of_mem _ hy, fun w hw => ?_⟩
        simp only [List.nil_append]
        exact mem_heldItems hy hw
    | succ j =>
      simp only [List.getElem?_cons_succ] at h
      obtain ⟨A, B, h1, h2, h3⟩ := ih j h
      refine ⟨a.phase.held ++ A, B, ?_, ?_, ?_⟩
      · simp only [heldItems, List.flatMap_cons] at h1 ⊢
        rw [h1]; simp
      · simp only [heldItems, List.set_cons_succ, List.flatMap_cons] at h2 ⊢
        rw [h2]; simp
      · intro y hy
        simp only [List.set_cons_succ, List.mem_cons] at hy
        rcases hy with hy | hy
        · refine Or.inr ⟨by rw [hy]; exact List.mem_cons_self _ _, fun w hw => ?_⟩
          rw [hy] at hw
          simp only [List.append_assoc, List.mem_append]
          exact Or.inl hw
        · rcases h3 y hy with h3 | ⟨h3, h4⟩
          · exact Or.inl h3
          · refine Or.inr ⟨List.mem_cons_of_mem _ h3, fun w hw => ?_⟩
            have := h4 w hw
            simp only [List.append_assoc, List.mem_append] at this ⊢
            rcases this with this | this
            · exact Or.inr (Or.inl this)
            · exact Or.inr (Or.inr this)

theorem nodup_of_count_le {l l' : List PicId} (h : l.Nodup)
    (hc : ∀ a, l'.count a ≤ l.count a) : l'.Nodup := by
  rw [List.nodup_iff_count_le_one] at h ⊢
  exact fun a => Nat.le_trans (hc a) (h a)

theorem nodup_held_ne {P A B : List WorkItem} {x : WorkItem}
    (h : ((P ++ (A ++ [x] ++ B)).map (fun w => w.pic_dec)).Nodup) :
    ∀ w ∈ A ++ B, w.pic_dec ≠ x.pic_dec := by
  intro w hw heq
  rw [List.nodup_iff_count_le_one] at h
  have h1 := h x.pic_dec
  simp only [List.map_append, List.count_append, List.map_cons, List.map_nil,
    List.count_cons, List.count_nil, beq_self_eq_true, if_true] at h1
  have hm : x.pic_dec ∈ (A ++ B).map (fun w => w.pic_dec) :=
    List.mem_map.2 ⟨w, hw, heq⟩
  have hpos := List.count_pos_iff.2 hm
  simp only [List.map_append, List.count_append] at hpos
  omega

theorem PhaseStatus_of_ne {status status' : PicId → OutputStatus} {ph : WorkerPhase}
    (h : PhaseStatus status ph) (hw : ∀ w ∈ ph.held, status' w.pic_dec = status w.pic_dec) :
    PhaseStatus status' ph := by
  cases ph with
  | waiting => trivial
  | decoding w => trivial
  | postprocessing w =>
    simp only [PhaseStatus] at h ⊢
    rw [hw w (by simp [WorkerPhase.held]), h]
  | finishing w =>
    simp only [PhaseStatus] at h ⊢
    rw [hw w (by simp [WorkerPhase.held]), h]
  | stopped => trivial

theorem HeldStatusInv_worker_wake {s s' : ThreadDecoder} {i : Nat} (h : HeldStatusInv s)
    (hs : s.worker_wake i = some s') : HeldStatusInv s' := by
  obtain ⟨h1, h2⟩ := h
  obtain ⟨wk, hwk, hph, hcase⟩ := worker_wake_inv hs
  rcases hcase with ⟨_, rfl⟩ | ⟨_, work, rest, hf, rfl⟩
  · obtain ⟨A, B, hA, hA', hmem⟩ := heldItems_set_mem s.worker_threads_ i wk
      { wk with phase := WorkerPhase.stopped } hwk
    rw [hph] at hA
    simp only [WorkerPhase.held, List.append_nil] at hA hA'
    refine ⟨?_, ?_⟩
    · simp only [ThreadDecoder.setWorker]
      rw [hA', ← hA]; exact h1
    · intro y hy
      simp only [ThreadDecoder.setWorker] at hy
      rcases hmem y hy with hy | ⟨hy, -⟩
      · subst hy; trivial
      · exact h2 y hy
  · obtain ⟨P1, P2, e1, e2, _, _⟩ := findWork_some hf
    obtain ⟨A, B, hA, hA', hmem⟩ := heldItems_set_mem s.worker_threads_ i wk
      { wk with phase := WorkerPhase.decoding work } hwk
    rw [hph] at hA
    simp only [WorkerPhase.held, List.append_nil] at hA hA'
    refine ⟨?_, ?_⟩
    · simp only [ThreadDecoder.setWorker]
      refine nodup_of_count_le h1 (fun a => ?_)
      rw [hA', hA, e1, e2]
      simp only [List.map_append, List.count_append, List.map_cons, List.map_nil,
        List.count_cons, List.count_nil]
      omega
    · intro y hy
      simp only [ThreadDecoder.setWorker] at hy
      rcases hmem y hy with hy | ⟨hy, -⟩
      · subst hy; trivial
      · exact h2 y hy

theorem HeldStatusInv_worker_decode {env : PictureDecoderEnv} {s s' : ThreadDecoder} {i : Nat}
    (h : HeldStatusInv s) (hs : s.worker_decode env i = some s') : HeldStatusInv s' := by
  obtain ⟨h1, h2⟩ := h
  obtain ⟨wk, work, hwk, hph, rfl⟩ := worker_decode_inv hs
  obtain ⟨A, B, hA, hA', hmem⟩ := heldItems_set_mem s.worker_threads_ i wk
    { WorkerMain_load_restrictions wk work with
      phase := WorkerPhase.postprocessing
        (WorkerMain_decode env (WorkerMain_load_restrictions wk work) work) } hwk
  rw [hph] at hA
  simp only [WorkerPhase.held] at hA hA'
  rw [hA] at h1
  have hne := nodup_held_ne h1
  refine ⟨?_, ?_⟩
  · simp only [ThreadDecoder.setWorker]
    rw [hA']
    refine nodup_of_count_le h1 (fun a => ?_)
    simp only [List.map_append, List.count_append, List.map_cons, List.map_nil,
      List.count_cons, List.count_nil, WorkerMain_decode]
    omega
  · intro y hy
    simp only [ThreadDecoder.setWorker] at hy ⊢
    rcases hmem y hy with hy | ⟨hy, hsub⟩
    · subst hy
      simp [PhaseStatus, WorkerMain_decode]
    · refine PhaseStatus_of_ne (h2 y hy) (fun w hw => ?_)
      dsimp only
      rw [if_neg (hne w (hsub w hw))]

theorem HeldStatusInv_worker_postprocess {env : PictureDecoderEnv} {s s' : ThreadDecoder}
    {i : Nat} (h : HeldStatusInv s) (hs : s.worker_postprocess env i = some s') :
    HeldStatusInv s' := by
  obtain ⟨h1, h2⟩ := h
  obtain ⟨wk, work, hwk, hph, rfl⟩ := worker_postprocess_inv hs
  obtain ⟨A, B, hA, hA', hmem⟩ := heldItems_set_mem s.worker_threads_ i wk
    { wk with phase := WorkerPhase.finishing (WorkerMain_postprocess env wk work) } hwk
  rw [hph] at hA
  simp only [WorkerPhase.held] at hA hA'
  rw [hA] at h1
  have hne := nodup_held_ne h1
  refine ⟨?_, ?_⟩
  · simp only [ThreadDecoder.setWorker]
    rw [hA']
    refine nodup_of_count_le h1 (fun a => ?_)
    simp only [List.map_append, List.count_append, List.map_cons, List.map_nil,
      List.count_cons, List.count_nil, WorkerMain_postprocess]
    omega
  · intro y hy
    simp only [ThreadDecoder.setWorker] at hy ⊢
    rcases hmem y hy with hy | ⟨hy, hsub⟩
    · subst hy
      simp [PhaseStatus, WorkerMain_postprocess]
    · refine PhaseStatus_of_ne (h2 y hy) (fun w hw => ?_)
      dsimp only
      rw [if_neg (hne w (hsub w hw))]

theorem HeldStatusInv_worker_finish {s s' : ThreadDecoder} {i : Nat}
    (h : HeldStatusInv s) (hs : s.worker_finish i = some s') : HeldStatusInv s' := by
  obtain ⟨h1, h2⟩ := h
  obtain ⟨wk, work, hwk, hph, rfl⟩ := worker_finish_inv hs
  obtain ⟨A, B, hA, hA', hmem⟩ := heldItems_set_mem s.worker_threads_ i wk
    { wk with phase := WorkerPhase.waiting } hwk
  rw [hph] at hA
  simp only [WorkerPhase.held, List.append_nil] at hA hA'
  refine ⟨?_, ?_⟩
  · simp only [ThreadDecoder.setWorker]
    rw [hA']
    refine nodup_of_count_le h1 (fun a => ?_)
    rw [hA]
    simp only [List.map_append, List.count_append, List.map_cons, List.map_nil,
      List.count_cons, List.count_nil]
    omega
  · intro y hy
    simp only [ThreadDecoder.setWorker] at hy
    rcases hmem y hy with hy | ⟨hy, -⟩
    · subst hy; trivial
    · exact h2 y hy

theorem HeldStatusInv_step {env : PictureDecoderEnv} {s s' : ThreadDecoder} {a : Action}
    (h : HeldStatusInv s) (hr : hostRespects s a = true) (hs : s.step env a = some s') :
    HeldStatusInv s' := by
  cases a with
  | DecodeAsync sh psh pic deps nal off =>
    simp only [ThreadDecoder.step, Option.some.injEq] at hs
    subst hs
    obtain ⟨h1, h2⟩ := h
    refine ⟨?_, h2⟩
    simp only [hostRespects, List.all_eq_true, bne_iff_ne, ne_eq] at hr
    have hnot : pic ∉ (s.pending_work_ ++ heldItems s.worker_threads_).map
        (fun w => w.pic_dec) := by
      intro hm
      obtain ⟨w, hw, hp⟩ := List.mem_map.1 hm
      exact hr w hw hp
    have hz := List.count_eq_zero_of_not_mem hnot
    rw [List.nodup_iff_count_le_one] at h1 ⊢
    intro a
    have ha := h1 a
    simp only [ThreadDecoder.DecodeAsync, List.map_append, List.count_append, List.map_cons,
      List.map_nil, List.count_cons, List.count_nil] at ha hz ⊢
    by_cases hap : pic = a
    · subst hap
      simp only [beq_self_eq_true, if_true]
      omega
    · have : (pic == a) = false := by simpa using hap
      rw [this]
      simp only [Bool.false_eq_true, if_false]
      omega
  | WaitOne =>
    simp only [ThreadDecoder.step, ThreadDecoder.WaitOne] at hs
    cases hf : s.finished_work_ with
    | nil => simp [hf] at hs
    | cons work rest =>
      simp only [hf, Option.some.injEq] at hs
      subst hs
      exact h
  | WaitAll_iteration =>
    simp only [ThreadDecoder.step, ThreadDecoder.WaitAll_iteration] at hs
    split at hs
    · cases hf : s.finished_work_ with
      | nil => simp [hf] at hs
      | cons work rest =>
        simp only [hf, Option.some.injEq] at hs
        subst hs
        exact h
    · cases hs
  | StopAll =>
    simp only [ThreadDecoder.step, ThreadDecoder.StopAll, Option.some.injEq] at hs
    subst hs
    exact h
  | StopAll_join =>
    simp only [ThreadDecoder.step, ThreadDecoder.StopAll_join] at hs
    split at hs
    · next hall =>
      simp only [Option.some.injEq] at hs
      subst hs
      obtain ⟨h1, h2⟩ := h
      have hh := heldItems_all_stopped hall
      rw [hh] at h1
      refine ⟨by simpa [heldItems] using h1, ?_⟩
      intro wk hwk
      simp at hwk
    · cases hs
  | worker_wake i => exact HeldStatusInv_worker_wake h hs
  | worker_decode i => exact HeldStatusInv_worker_decode h hs
  | worker_postprocess i => exact HeldStatusInv_worker_postprocess h hs
  | worker_finish i => exact HeldStatusInv_worker_finish h hs
  | SetOutputStatus pic st =>
    simp only [ThreadDecoder.step, Option.some.injEq] at hs
    subst hs
    obtain ⟨h1, h2⟩ := h
    refine ⟨h1, ?_⟩
    simp only [hostRespects, List.all_eq_true, bne_iff_ne, ne_eq] at hr
    intro wk hwk
    refine PhaseStatus_of_ne (h2 wk hwk) (fun w hw => ?_)
    dsimp only
    rw [if_neg (hr w (mem_heldItems hwk hw))]

theorem pushedBy_status {s : ThreadDecoder} (h : HeldStatusInv s) (a : Action) :
    ∀ x ∈ pushedBy s a, x.2 = OutputStatus.kFinishedProcessing := by
  intro x hx
  cases a with
  | worker_finish i =>
    simp only [pushedBy] at hx
    cases hwk : s.worker_threads_[i]? with
    | none => simp [hwk] at hx
    | some wk =>
      simp only [hwk] at hx
      have hmem : wk ∈ s.worker_threads_ := List.getElem?_mem hwk
      have hps := h.2 wk hmem
      cases hph : wk.phase with
      | finishing w =>
        rw [hph] at hps
        simp only [hph, List.mem_singleton] at hx
        rw [hx]
        exact hps
      | waiting => simp [hph] at hx
      | decoding w => simp [hph] at hx
      | postprocessing w => simp [hph] at hx
      | stopped => simp [hph] at hx
  | DecodeAsync sh psh pic deps nal off => simp [pushedBy] at hx
  | WaitOne => simp [pushedBy] at hx
  | WaitAll_iteration => simp [pushedBy] at hx
  | StopAll => simp [pushedBy] at hx
  | StopAll_join => simp [pushedBy] at hx
  | worker_wake i => simp [pushedBy] at hx
  | worker_decode i => simp [pushedBy] at hx
  | worker_postprocess i => simp [pushedBy] at hx
  | SetOutputStatus pic st => simp [pushedBy] at hx

theorem HeldStatusInv_run {env : PictureDecoderEnv} (acts : List Action) :
    ∀ {s s' : ThreadDecoder}, HeldStatusInv s → runRespects env s acts = true →
      s.run env acts = some s' →
      HeldStatusInv s' ∧
      ∀ x ∈ pushedAlong env s acts, x.2 = OutputStatus.kFinishedProcessing := by
  induction acts with
  | nil =>
    intro s s' h _ hs
    simp only [ThreadDecoder.run, Option.some.injEq] at hs
    subst hs
    exact ⟨h, by simp [pushedAlong]⟩
  | cons a rest ih =>
    intro s s' h hr hs
    simp only [ThreadDecoder.run] at hs
    cases hst : s.step env a with
    | none => simp [hst] at hs
    | some s1 =>
      simp only [hst] at hs
      simp only [runRespects, hst, Bool.and_eq_true] at hr
      obtain ⟨hi, hp⟩ := ih (HeldStatusInv_step h hr.1 hst) hr.2 hs
      refine ⟨hi, ?_⟩
      intro x hx
      simp only [pushedAlong, hst, List.mem_append] at hx
      rcases hx with hx | hx
      · exact pushedBy_status h a x hx
      · exact hp x hx

theorem heldItems_replicate_waiting (n : Nat) (soc : SegmentNum) (r : Restrictions) :
    heldItems (List.replicate n
      ({ phase := WorkerPhase.waiting, restriction_soc := soc, restrictions := r } : Worker)) =
      [] := by
  induction n with
  | zero => rfl
  | succ k ih =>
    simp only [heldItems, List.replicate_succ, List.flatMap_cons] at ih ⊢
    rw [ih]; rfl

theorem HeldStatusInv_create (num_threads : Int) (hardware_concurrency : Nat)
    (thread_restrictions : Restrictions) (status : PicId → OutputStatus) :
    HeldStatusInv
      (ThreadDecoder.create num_threads hardware_concurrency thread_restrictions status) := by
  refine ⟨?_, ?_⟩
  · simp [ThreadDecoder.create, heldItems_replicate_waiting]
  · intro wk hwk
    simp only [ThreadDecoder.create] at hwk
    rw [List.eq_of_mem_replicate hwk]
    trivial

theorem step_status {env : PictureDecoderEnv} {s s' : ThreadDecoder} {a : Action}
    (hs : s.step env a = some s') (ha : ∀ pic st, a ≠ Action.SetOutputStatus pic st) :
    ∀ p, s'.status p = s.status p ∨ s'.status p = OutputStatus.kPostProcessing ∨
      s'.status p = OutputStatus.kFinishedProcessing := by
  intro p
  cases a with
  | DecodeAsync sh psh pic deps nal off =>
    simp only [ThreadDecoder.step, Option.some.injEq] at hs
    subst hs
    exact Or.inl rfl
  | WaitOne =>
    simp only [ThreadDecoder.step, ThreadDecoder.WaitOne] at hs
    cases hf : s.finished_work_ with
    | nil => simp [hf] at hs
    | cons work rest =>
      simp only [hf, Option.some.injEq] at hs
      subst hs
      exact Or.inl rfl
  | WaitAll_iteration =>
    simp only [ThreadDecoder.step, ThreadDecoder.WaitAll_iteration] at hs
    split at hs
    · cases hf : s.finished_work_ with
      | nil => simp [hf] at hs
      | cons work rest =>
        simp only [hf, Option.some.injEq] at hs
        subst hs
        exact Or.inl rfl
    · cases hs
  | StopAll =>
    simp only [ThreadDecoder.step, ThreadDecoder.StopAll, Option.some.injEq] at hs
    subst hs
    exact Or.inl rfl
  | StopAll_join =>
    simp only [ThreadDecoder.step, ThreadDecoder.StopAll_join] at hs
    split at hs
    · simp only [Option.some.injEq] at hs
      subst hs
      exact Or.inl rfl
    · cases hs
  | worker_wake i =>
    obtain ⟨wk, -, -, hcase⟩ := worker_wake_inv hs
    rcases hcase with ⟨-, rfl⟩ | ⟨-, work, rest, -, rfl⟩
    · exact Or.inl rfl
    · exact Or.inl rfl
  | worker_decode i =>
    obtain ⟨wk, work, -, -, rfl⟩ := worker_decode_inv hs
    simp only [ThreadDecoder.setWorker]
    by_cases hp : p = work.pic_dec
    · rw [if_pos hp]; exact Or.inr (Or.inl rfl)
    · rw [if_neg hp]; exact Or.inl rfl
  | worker_postprocess i =>
    obtain ⟨wk, work, -, -, rfl⟩ := worker_postprocess_inv hs
    simp only [ThreadDecoder.setWorker]
    by_cases hp : p = work.pic_dec
    · rw [if_pos hp]; exact Or.inr (Or.inr rfl)
    · rw [if_neg hp]; exact Or.inl rfl
  | worker_finish i =>
    obtain ⟨wk, work, -, -, rfl⟩ := worker_finish_inv hs
    exact Or.inl rfl
  | SetOutputStatus pic st => exact absurd rfl (ha pic st)

/-- C32. A worker that holds an item whose `Decode` call has not been made
(line 151) makes the call and then sets the `OutputStatus` of the picture to
`kPostProcessing`; the item then waits for its `Postprocess` call with the
result of `Decode` recorded. A worker that holds an item before its
`Postprocess` call (line 164) makes the call and then sets the status to
`kFinishedProcessing`; the item is appended to `finished_work_` only by the
next step of the worker. No step of the pool other than a write by code
outside it changes a status to anything but these two values, so a worker
never sets `kProcessing` or `kHasNotBeenOutput`. When the code outside the
pool does not write the status of a picture whose item a worker holds and does
not submit a picture that is still pending or held (`runRespects`), then in
every state reached from the constructor a picture is `kPostProcessing` while
its item waits for `Postprocess` and `kFinishedProcessing` while it waits to
be appended, every item was appended with the status `kFinishedProcessing`,
and the items handed to the callback or still in `finished_work_` are the
appended ones. -/
theorem worker_sets_status_before_next_stage (env : PictureDecoderEnv) (s : ThreadDecoder) :
    (∀ i s', s.worker_decode env i = some s' →
      ∃ wk work, s.worker_threads_[i]? = some wk ∧ wk.phase = WorkerPhase.decoding work ∧
        s'.status work.pic_dec = OutputStatus.kPostProcessing ∧
        (∀ p, p ≠ work.pic_dec → s'.status p = s.status p) ∧
        s'.finished_work_ = s.finished_work_ ∧
        ∃ wk' work', s'.worker_threads_[i]? = some wk' ∧
          wk'.phase = WorkerPhase.postprocessing work' ∧ work'.pic_dec = work.pic_dec ∧
          work'.decode_returned =
            some (env.Decode work (WorkerMain_load_restrictions wk work).restrictions) ∧
          work'.postprocess_returned = work.postprocess_returned) ∧
    (∀ i s', s.worker_postprocess env i = some s' →
      ∃ wk work, s.worker_threads_[i]? = some wk ∧
        wk.phase = WorkerPhase.postprocessing work ∧
        s'.status work.pic_dec = OutputStatus.kFinishedProcessing ∧
        (∀ p, p ≠ work.pic_dec → s'.status p = s.status p) ∧
        s'.finished_work_ = s.finished_work_ ∧
        ∃ wk' work', s'.worker_threads_[i]? = some wk' ∧
          wk'.phase = WorkerPhase.finishing work' ∧ work'.pic_dec = work.pic_dec ∧
          work'.postprocess_returned = some (env.Postprocess work wk.restrictions)) ∧
    (∀ a s', s.step env a = some s' → (∀ pic st, a ≠ Action.SetOutputStatus pic st) →
      ∀ p, s'.status p = s.status p ∨ s'.status p = OutputStatus.kPostProcessing ∨
        s'.status p = OutputStatus.kFinishedProcessing) ∧
    (∀ (num_threads : Int) (hardware_concurrency : Nat) (thread_restrictions : Restrictions)
      (status : PicId → OutputStatus) (acts : List Action) (s' : ThreadDecoder),
      (ThreadDecoder.create num_threads hardware_concurrency thread_restrictions status).run
        env acts = some s' →
      runRespects env
        (ThreadDecoder.create num_threads hardware_concurrency thread_restrictions status)
        acts = true →
      (∀ wk ∈ s'.worker_threads_, PhaseStatus s'.status wk.phase) ∧
      (∀ x ∈ pushedAlong env
          (ThreadDecoder.create num_threads hardware_concurrency thread_restrictions status)
          acts, x.2 = OutputStatus.kFinishedProcessing) ∧
      s'.callbacks ++ s'.finished_work_ =
        (pushedAlong env
          (ThreadDecoder.create num_threads hardware_concurrency thread_restrictions status)
          acts).map Prod.fst) ∧
    (runRespects examplePictureDecoderEnv examplePool (exampleSubmit ++ exampleWaitAll) = true ∧
      (pushedAlong examplePictureDecoderEnv examplePool (exampleSubmit ++ exampleWaitAll)).map
          (fun x => (x.1.pic_dec, x.2)) =
        [(2, OutputStatus.kFinishedProcessing), (0, OutputStatus.kFinishedProcessing),
         (1, OutputStatus.kFinishedProcessing)]) := by
  refine ⟨?_, ?_, fun a s' hs ha => step_status hs ha, ?_, by decide, by decide⟩
  · intro i s' hs
    obtain ⟨wk, work, hwk, hph, rfl⟩ := worker_decode_inv hs
    refine ⟨wk, work, hwk, hph, ?_, ?_, rfl, _, _, setWorker_get _ i _ (getElem?_lt hwk), rfl,
      rfl, rfl, rfl⟩
    · simp [ThreadDecoder.setWorker]
    · intro p hp
      simp [ThreadDecoder.setWorker, hp]
  · intro i s' hs
    obtain ⟨wk, work, hwk, hph, rfl⟩ := worker_postprocess_inv hs
    refine ⟨wk, work, hwk, hph, ?_, ?_, rfl, _, _, setWorker_get _ i _ (getElem?_lt hwk), rfl,
      rfl, rfl⟩
    · simp [ThreadDecoder.setWorker]
    · intro p hp
      simp [ThreadDecoder.setWorker, hp]
  · intro num_threads hardware_concurrency thread_restrictions status acts s' hs hr
    obtain ⟨hi, hp⟩ := HeldStatusInv_run acts
      (HeldStatusInv_create num_threads hardware_concurrency thread_restrictions status) hr hs
    refine ⟨hi.2, hp, ?_⟩
    rw [run_pushed acts hs]
    simp [ThreadDecoder.create]

/-! ## Progress of the pool under acyclic dependencies -/

theorem acyclic_of_rank (items : List WorkItem) (rank : PicId → Nat)
    (h : ∀ w ∈ items, ∀ d ∈ w.inter_dependencies, rank d < rank w.pic_dec) :
    DependenciesAcyclic items := by
  have hlt : ∀ a b, Relation.TransGen (DependsOn items) a b → rank a < rank b := by
    intro a b hab
    induction hab with
    | single hr =>
      obtain ⟨w, hw, hp, hd⟩ := hr
      rw [← hp]
      exact h w hw _ hd
    | tail _ hr ih =>
      obtain ⟨w, hw, hp, hd⟩ := hr
      rw [← hp]
      exact Nat.lt_trans ih (h w hw _ hd)
  intro p hp
  exact Nat.lt_irrefl _ (hlt p p hp)

theorem DependsOn_mono {l l' : List WorkItem}
    (h : ∀ w ∈ l, ∃ w' ∈ l', w'.pic_dec = w.pic_dec ∧
      w'.inter_dependencies = w.inter_dependencies)
    (hacyc : DependenciesAcyclic l') : DependenciesAcyclic l := by
  intro p hp
  refine hacyc p (Relation.TransGen.mono ?_ hp)
  intro a b hab
  obtain ⟨w, hw, hpic, hd⟩ := hab
  obtain ⟨w', hw', e1, e2⟩ := h w hw
  exact ⟨w', hw', by rw [e1, hpic], by rw [e2]; exact hd⟩

theorem exists_sink (l : List WorkItem) (hne : l ≠ []) (hacyc : DependenciesAcyclic l) :
    ∃ w ∈ l, ∀ w' ∈ l, w'.pic_dec ∉ w.inter_dependencies := by
  have hpos : 0 < l.length := List.length_pos.2 hne
  let r : Fin l.length → Fin l.length → Prop :=
    fun i j => Relation.TransGen (DependsOn l) (l.get i).pic_dec (l.get j).pic_dec
  haveI : IsTrans (Fin l.length) r := ⟨fun _ _ _ hab hbc => Relation.TransGen.trans hab hbc⟩
  haveI : IsIrrefl (Fin l.length) r := ⟨fun i hi => hacyc _ hi⟩
  have hwf : WellFounded r := Finite.wellFounded_of_trans_of_irrefl r
  obtain ⟨m, -, hm⟩ := hwf.has_min Set.univ ⟨⟨0, hpos⟩, Set.mem_univ _⟩
  refine ⟨l.get m, List.get_mem l m.1 m.2, ?_⟩
  intro w' hw' hd
  obtain ⟨j, hj⟩ := List.get_of_mem hw'
  apply hm j (Set.mem_univ _)
  show Relation.TransGen (DependsOn l) (l.get j).pic_dec (l.get m).pic_dec
  rw [hj]
  exact Relation.TransGen.single ⟨l.get m, List.get_mem l m.1 m.2, rfl, hd⟩

theorem exists_ready_of_covered (s : ThreadDecoder) (hne : s.pending_work_ ≠ [])
    (hacyc : DependenciesAcyclic s.pending_work_) (hcov : dependenciesCovered s = true)
    (hheld : ∀ wk ∈ s.worker_threads_, wk.phase.held = []) :
    ∃ w ∈ s.pending_work_, dependenciesValid s.status w = true := by
  obtain ⟨w, hw, hsink⟩ := exists_sink s.pending_work_ hne hacyc
  refine ⟨w, hw, ?_⟩
  rw [dependenciesValid_iff]
  intro d hd
  simp only [dependenciesCovered, List.all_eq_true, Bool.or_eq_true, bne_iff_ne, ne_eq,
    List.any_eq_true, beq_iff_eq] at hcov
  rcases hcov w hw d hd with (h | ⟨w', hw', hp⟩) | ⟨wk, hwk, hdec⟩
  · exact h
  · exact absurd (hp ▸ hd) (hsink w' hw')
  · exfalso
    have := hheld wk hwk
    unfold isBeingDecoded at hdec
    cases hph : wk.phase with
    | decoding x =>
      rw [hph] at this
      simp [WorkerPhase.held] at this
    | waiting => simp [hph] at hdec
    | postprocessing x => simp [hph] at hdec
    | finishing x => simp [hph] at hdec
    | stopped => simp [hph] at hdec

theorem RunningInv_create (num_threads : Int) (hardware_concurrency : Nat)
    (thread_restrictions : Restrictions) (status : PicId → OutputStatus) :
    RunningInv
      (ThreadDecoder.create num_threads hardware_concurrency thread_restrictions status) := by
  intro _
  refine ⟨?_, ?_⟩
  · intro h
    have hl := congrArg List.length h
    simp only [ThreadDecoder.create, List.length_replicate, List.length_nil] at hl
    omega
  · intro wk hwk
    simp only [ThreadDecoder.create] at hwk
    rw [List.eq_of_mem_replicate hwk]
    simp

theorem RunningInv_setWorker {s : ThreadDecoder} {i : Nat} {wk : Worker}
    (h : RunningInv s)
    (hwk : wk.phase ≠ WorkerPhase.stopped) (s0 : ThreadDecoder)
    (hw : s0.worker_threads_ = s.worker_threads_) (hr : s0.running_ = s.running_) :
    RunningInv (s0.setWorker i wk) := by
  intro hrun
  have hrun' : s.running_ = true := by rw [← hr]; exact hrun
  obtain ⟨h1, h2⟩ := h hrun'
  refine ⟨?_, ?_⟩
  · intro hnil
    have hl := congrArg List.length hnil
    simp only [ThreadDecoder.setWorker, List.length_set, hw, List.length_nil] at hl
    exact h1 (List.length_eq_zero.1 hl)
  · intro y hy
    simp only [ThreadDecoder.setWorker, hw] at hy
    rcases mem_set_cases hy with hy | hy
    · exact h2 y hy
    · rw [hy]; exact hwk

theorem RunningInv_step {env : PictureDecoderEnv} {s s' : ThreadDecoder} {a : Action}
    (h : RunningInv s) (hs : s.step env a = some s') : RunningInv s' := by
  cases a with
  | DecodeAsync sh psh pic deps nal off =>
    simp only [ThreadDecoder.step, Option.some.injEq] at hs
    subst hs
    exact h
  | WaitOne =>
    simp only [ThreadDecoder.step, ThreadDecoder.WaitOne] at hs
    cases hf : s.finished_work_ with
    | nil => simp [hf] at hs
    | cons work rest =>
      simp only [hf, Option.some.injEq] at hs
      subst hs
      exact h
  | WaitAll_iteration =>
    simp only [ThreadDecoder.step, ThreadDecoder.WaitAll_iteration] at hs
    split at hs
    · cases hf : s.finished_work_ with
      | nil => simp [hf] at hs
      | cons work rest =>
        simp only [hf, Option.some.injEq] at hs
        subst hs
        exact h
    · cases hs
  | StopAll =>
    simp only [ThreadDecoder.step, ThreadDecoder.StopAll, Option.some.injEq] at hs
    subst hs
    intro hrun
    cases hrun
  | StopAll_join =>
    simp only [ThreadDecoder.step, ThreadDecoder.StopAll_join] at hs
    split at hs
    · next hall =>
      simp only [Option.some.injEq] at hs
      subst hs
      intro hrun
      exfalso
      obtain ⟨h1, h2⟩ := h hrun
      cases hl : s.worker_threads_ with
      | nil => exact h1 hl
      | cons wk rest =>
        rw [hl] at hall h2
        simp only [List.all_cons, Bool.and_eq_true, beq_iff_eq] at hall
        exact h2 wk (List.mem_cons_self _ _) hall.1
    · cases hs
  | worker_wake i =>
    obtain ⟨wk, hwk, hph, hcase⟩ := worker_wake_inv hs
    rcases hcase with ⟨hr, rfl⟩ | ⟨_, work, rest, hf, rfl⟩
    · intro hrun
      simp only [ThreadDecoder.setWorker] at hrun
      rw [hr] at hrun
      cases hrun
    · exact RunningInv_setWorker h (by simp) _ rfl rfl
  | worker_decode i =>
    obtain ⟨wk, work, hwk, hph, rfl⟩ := worker_decode_inv hs
    exact RunningInv_setWorker h (by simp) _ rfl rfl
  | worker_postprocess i =>
    obtain ⟨wk, work, hwk, hph, rfl⟩ := worker_postprocess_inv hs
    exact RunningInv_setWorker h (by simp) _ rfl rfl
  | worker_finish i =>
    obtain ⟨wk, work, hwk, hph, rfl⟩ := worker_finish_inv hs
    exact RunningInv_setWorker h (by simp) _ rfl rfl
  | SetOutputStatus pic st =>
    simp only [ThreadDecoder.step, Option.some.injEq] at hs
    subst hs
    exact h

theorem RunningInv_run {env : PictureDecoderEnv} (acts : List Action) {s s' : ThreadDecoder}
    (h : RunningInv s) (hs : s.run env acts = some s') : RunningInv s' := by
  induction acts generalizing s with
  | nil =>
    simp only [ThreadDecoder.run, Option.some.injEq] at hs
    subst hs; exact h
  | cons a rest ih =>
    simp only [ThreadDecoder.run] at hs
    cases hst : s.step env a with
    | none => simp [hst] at hs
    | some s1 =>
      simp only [hst] at hs
      exact ih (RunningInv_step h hst) hs

theorem held_step_enabled (env : PictureDecoderEnv) (s : ThreadDecoder) (i : Nat) (wk : Worker)
    (hwk : s.worker_threads_[i]? = some wk) (hheld : wk.phase.held ≠ []) :
    ∃ a, a.isWorkerStep = true ∧ (s.step env a).isSome = true := by
  cases hph : wk.phase with
  | waiting => rw [hph] at hheld; exact absurd rfl hheld
  | stopped => rw [hph] at hheld; exact absurd rfl hheld
  | decoding w =>
    refine ⟨Action.worker_decode i, rfl, ?_⟩
    simp [ThreadDecoder.step, ThreadDecoder.worker_decode, hwk, hph]
  | postprocessing w =>
    refine ⟨Action.worker_postprocess i, rfl, ?_⟩
    simp [ThreadDecoder.step, ThreadDecoder.worker_postprocess, hwk, hph]
  | finishing w =>
    refine ⟨Action.worker_finish i, rfl, ?_⟩
    simp [ThreadDecoder.step, ThreadDecoder.worker_finish, hwk, hph]

theorem wake_enabled (s : ThreadDecoder) (wk : Worker) (hr : s.running_ = true)
    (hwk : s.worker_threads_[0]? = some wk) (hph : wk.phase = WorkerPhase.waiting)
    (w : WorkItem) (hw : w ∈ s.pending_work_) (hv : dependenciesValid s.status w = true) :
    ∃ s', s.worker_wake 0 = some s' ∧ s'.pending_work_.length + 1 = s.pending_work_.length := by
  cases hf : findWork s.status s.pending_work_ with
  | none =>
    have := (findWork_none_iff s.status s.pending_work_).1 hf w hw
    rw [hv] at this
    cases this
  | some p =>
    obtain ⟨work, rest⟩ := p
    obtain ⟨P1, P2, e1, e2, -, -⟩ := findWork_some hf
    have hne : s.pending_work_.isEmpty = false := by
      rw [e1]; cases P1 <;> rfl
    refine ⟨{ s with pending_work_ := rest }.setWorker 0
      { wk with phase := WorkerPhase.decoding work }, ?_, ?_⟩
    · simp [ThreadDecoder.worker_wake, hwk, hph, WorkerMain_wait_predicate, hr, hne, hf]
    · simp only [ThreadDecoder.setWorker]
      rw [e1, e2]
      simp only [List.length_append, List.length_cons]
      omega

/-- C35. Take a state of the pool reached from the constructor in which the
pool is running and `pending_work_` is not empty. If the dependency relation
among the submitted pictures is acyclic and every dependency of a pending item
is past `kProcessing` or is the picture of an item that is itself pending or
being decoded, then some worker holds an item or some pending item has all its
dependencies past `kProcessing`. In either case a step of a worker is enabled:
a worker that holds an item can go on with it, and when no worker holds an
item, the worker 0 is waiting and its wake-up takes an item out of
`pending_work_`. -/
theorem pending_work_can_progress (env : PictureDecoderEnv) (num_threads : Int)
    (hardware_concurrency : Nat) (thread_restrictions : Restrictions)
    (status : PicId → OutputStatus) (acts : List Action) (s : ThreadDecoder)
    (hrun : (ThreadDecoder.create num_threads hardware_concurrency thread_restrictions
      status).run env acts = some s)
    (hacyc : DependenciesAcyclic s.submitted)
    (hcov : dependenciesCovered s = true)
    (hrunning : s.running_ = true)
    (hpending : s.pending_work_ ≠ []) :
    ((∃ wk ∈ s.worker_threads_, wk.phase.held ≠ []) ∨
      (∃ w ∈ s.pending_work_, dependenciesValid s.status w = true)) ∧
    (∃ a, a.isWorkerStep = true ∧ (s.step env a).isSome = true) ∧
    ((∀ wk ∈ s.worker_threads_, wk.phase.held = []) →
      ∃ s', s.worker_wake 0 = some s' ∧
        s'.pending_work_.length + 1 = s.pending_work_.length) := by
  have hinv := PoolInv_run acts (PoolInv_create _ _ _ _) hrun
  have hrinv := RunningInv_run acts (RunningInv_create _ _ _ _) hrun
  obtain ⟨hw1, hw2⟩ := hrinv hrunning
  have hpa : DependenciesAcyclic s.pending_work_ := by
    refine DependsOn_mono ?_ hacyc
    intro w hw
    refine ⟨w.origin, ?_, rfl, rfl⟩
    refine hinv.2.1.subset ?_
    simp only [List.map_append, List.mem_append, List.mem_map]
    exact Or.inl (Or.inl (Or.inl ⟨w, hw, rfl⟩))
  have hwake : (∀ wk ∈ s.worker_threads_, wk.phase.held = []) →
      ∃ s', s.worker_wake 0 = some s' ∧
        s'.pending_work_.length + 1 = s.pending_work_.length := by
    intro hheld
    obtain ⟨w, hw, hv⟩ := exists_ready_of_covered s hpending hpa hcov hheld
    cases hl : s.worker_threads_ with
    | nil => exact absurd hl hw1
    | cons wk rest =>
      have hmem : wk ∈ s.worker_threads_ := by rw [hl]; exact List.mem_cons_self _ _
      have h0 : s.worker_threads_[0]? = some wk := by rw [hl]; simp
      have hph : wk.phase = WorkerPhase.waiting := by
        have h1 := hheld wk hmem
        have h2 := hw2 wk hmem
        cases hp : wk.phase with
        | waiting => rfl
        | stopped => exact absurd hp h2
        | decoding x => rw [hp] at h1; simp [WorkerPhase.held] at h1
        | postprocessing x => rw [hp] at h1; simp [WorkerPhase.held] at h1
        | finishing x => rw [hp] at h1; simp [WorkerPhase.held] at h1
      exact wake_enabled s wk hrunning h0 hph w hw hv
  by_cases hheld : ∃ wk ∈ s.worker_threads_, wk.phase.held ≠ []
  · refine ⟨Or.inl hheld, ?_, hwake⟩
    obtain ⟨wk, hwk, hne⟩ := hheld
    obtain ⟨i, hi⟩ := List.mem_iff_getElem?.1 hwk
    exact held_step_enabled env s i wk hi hne
  · have hall : ∀ wk ∈ s.worker_threads_, wk.phase.held = [] := by
      intro wk hwk
      by_contra hne
      exact hheld ⟨wk, hwk, hne⟩
    refine ⟨Or.inr (exists_ready_of_covered s hpending hpa hcov hall), ?_, hwake⟩
    obtain ⟨s', hs', -⟩ := hwake hall
    exact ⟨Action.worker_wake 0, rfl, by simp [ThreadDecoder.step, hs']⟩

/-- C35 at a concrete state: P0, P1 (depending on P0) and P2 were submitted
and worker 0 is decoding P0; P1 and P2 are pending. The dependency of P1 is
being decoded, worker 0 holds an item, P2 is ready, and a worker step is
enabled. -/
theorem pending_work_can_progress_witness :
    ((ThreadDecoder.create 2 8 exampleRestrictions (fun _ => OutputStatus.kProcessing)).run
        examplePictureDecoderEnv exampleSubmit = some examplePoolSubmitted ∧
      DependenciesAcyclic examplePoolSubmitted.submitted ∧
      dependenciesCovered examplePoolSubmitted = true ∧
      examplePoolSubmitted.running_ = true ∧
      examplePoolSubmitted.pending_work_ ≠ []) ∧
    (((∃ wk ∈ examplePoolSubmitted.worker_threads_, wk.phase.held ≠ []) ∨
      (∃ w ∈ examplePoolSubmitted.pending_work_,
        dependenciesValid examplePoolSubmitted.status w = true)) ∧
    (∃ a, a.isWorkerStep = true ∧
      (examplePoolSubmitted.step examplePictureDecoderEnv a).isSome = true) ∧
    ((∀ wk ∈ examplePoolSubmitted.worker_threads_, wk.phase.held = []) →
      ∃ s', examplePoolSubmitted.worker_wake 0 = some s' ∧
        s'.pending_work_.length + 1 = examplePoolSubmitted.pending_work_.length)) ∧
    examplePoolSubmitted.pending_work_.map (fun w => (w.pic_dec, w.inter_dependencies)) =
      [(1, [0]), (2, [])] :=
  ⟨⟨rfl, acyclic_of_rank examplePoolSubmitted.submitted id (by decide), by decide, by decide,
      by decide⟩,
    pending_work_can_progress examplePictureDecoderEnv 2 8 exampleRestrictions
      (fun _ => OutputStatus.kProcessing) exampleSubmit examplePoolSubmitted rfl
      (acyclic_of_rank examplePoolSubmitted.submitted id (by decide)) (by decide) (by decide)
      (by decide),
    by decide⟩

end xvc
